import Mathlib

/-!
# HMS_JSON: value model, deserializer and serializer

A shallow embedding of `include/HMS_JSON_Value.h`, `src/HMS_JSON_Deserializer.cpp` (both the
explicit-result build, `HMS_JSON_NO_EXCEPTIONS`, and the fail-fast build) and
`src/HMS_JSON_Serializer.cpp`, followed by the properties established about them.

Conventions of the embedding:
* a `std::string` is a `List Byte`, each `char` given by its unsigned value;
* a `double` is a `Dbl`, an exact description of a binary64 datum;
* a `std::map<std::string, JsonValue>` is the list of its entries in ascending key order;
* a member function that updates `*this` returns the updated object next to its result;
* the recursive descent of the deserializer is driven by a `fuel` argument; `none` means the
  fuel ran out, and `deserialize` supplies enough of it for every input (`parseJsonValue_total`);
  the call stack of the program is not part of the embedding, the number of nested calls
  that a parse needs is given by `recursionDepth`;
* `int` and `size_t` counters of positions are naturals (no input reaches `2^31` characters),
  while the index arithmetic of `operator[](std::size_t)` wraps at `2^64`;
* storage is not limited: no allocation fails, so `std::bad_alloc` is never thrown, but for
  the `resize` of `operator[](std::size_t)`, which asks for as many elements as the index
  says: there the grant of the storage is an argument, and the `std::length_error` of a
  request beyond `max_size()` is part of the embedding.
-/

namespace HMS

/-! ## Characters and strings -/

/-- A `char` of a `std::string`, as its unsigned value 0..255. -/
abbrev Byte := Nat

/-- The bytes of an ASCII literal of the source. -/
def lit (s : String) : List Byte := s.toList.map Char.toNat

/-- Value of `std::isdigit(static_cast<unsigned char>(c))` in the "C" locale. -/
def isdigit (c : Byte) : Bool := decide (48 ≤ c) && decide (c ≤ 57)

/-- Value of `std::isspace(static_cast<unsigned char>(c))` in the "C" locale:
space, `\t`, `\n`, `\v`, `\f`, `\r`. -/
def isspace (c : Byte) : Bool := decide (c = 32) || (decide (9 ≤ c) && decide (c ≤ 13))

/-- The order `std::less<std::string>` of the keys of a `JsonObject`: lexicographic on the
unsigned values of the characters, a proper initial segment coming first. -/
def strLess : List Byte → List Byte → Bool
  | [], [] => false
  | [], _ :: _ => true
  | _ :: _, [] => false
  | a :: as, b :: bs => if a < b then true else if b < a then false else strLess as bs

/-! ## The `double` payload and its text conversions (C and C++ library) -/

/-- An IEEE 754 binary64 datum. `finite neg m e` is `(-1)^neg * m * 2^e`, kept canonical:
`m < 2^53`, `-1074 ≤ e ≤ 971`, and `2^52 ≤ m` unless `e = -1074` (zero and subnormals). -/
inductive Dbl where
  | finite (neg : Bool) (m : Nat) (e : Int)
  | inf (neg : Bool)
  | nan
deriving DecidableEq, Repr

/-- Value of `std::isfinite(d)`. -/
def Dbl.isfinite : Dbl → Bool
  | .finite _ _ _ => true
  | _ => false

/-- Value of `floor (log2 n)` for `n > 0` (`0` for `n = 0`); `fuel` bounds the bit length. -/
def floorLog2 : Nat → Nat → Nat
  | 0, _ => 0
  | fuel + 1, n => if n < 2 then 0 else floorLog2 fuel (n / 2) + 1

/-- Round half to even of `num / den` (`den > 0`), with the exactness of the quotient. -/
def roundHalfEven (num den : Nat) : Nat × Bool :=
  let q := num / den
  let r := num % den
  if r = 0 then (q, true)
  else if 2 * r < den then (q, false)
  else if den < 2 * r then (q + 1, false)
  else if q % 2 = 0 then (q, false) else (q + 1, false)

/-- The binary64 nearest to `(-1)^neg * p / q` (`q > 0`), ties to even, with the flag "the
conversion was exact"; magnitudes beyond the largest finite double give infinity. -/
def roundToDouble (neg : Bool) (p q : Nat) : Dbl × Bool :=
  if p = 0 then (.finite neg 0 (-1074), true)
  else
    let l : Int := (floorLog2 p p : Int) - (floorLog2 q q : Int)
    -- `fl = floor (log2 (p / q))`
    let fl : Int := if q * 2 ^ l.toNat ≤ p * 2 ^ (-l).toNat then l else l - 1
    let e : Int := max (fl - 52) (-1074)
    let (m, exact) := roundHalfEven (p * 2 ^ (-e).toNat) (q * 2 ^ e.toNat)
    let (m, e) := if m = 2 ^ 53 then (2 ^ 52, e + 1) else (m, e)
    if 971 < e then (.inf neg, false) else (.finite neg m e, exact)

/-- Whether the magnitude `p / q` (`q > 0`) counts as tiny for `strtod`, as glibc decides it in
`round_and_return` where tininess is detected after rounding (x86-64): the value is not zero
and, rounded to 53 significant bits, ties to even, with no bound on the exponent, it is
below `DBL_MIN = 2^-1022`. -/
def isTiny (p q : Nat) : Bool :=
  if p = 0 then false
  else
    let l : Int := (floorLog2 p p : Int) - (floorLog2 q q : Int)
    -- `fl = floor (log2 (p / q))`
    let fl : Int := if q * 2 ^ l.toNat ≤ p * 2 ^ (-l).toNat then l else l - 1
    let e : Int := fl - 52
    let m := (roundHalfEven (p * 2 ^ (-e).toNat) (q * 2 ^ e.toNat)).1
    decide ((if m = 2 ^ 53 then fl + 1 else fl) < -1022)

/-- Value of `static_cast<double>(i)` for an `int` (exact: `|i| < 2^53`). -/
def Dbl.ofInt (i : Int) : Dbl := (roundToDouble (decide (i < 0)) i.natAbs 1).1

/-- Length of the longest run of decimal digits at the head of `s`. -/
def digitRun : List Byte → Nat
  | [] => 0
  | c :: cs => if isdigit c then digitRun cs + 1 else 0

/-- Value of a run of decimal digits, most significant first. -/
def digitsValue (s : List Byte) : Nat := s.foldl (fun acc c => 10 * acc + (c - 48)) 0

/-- What one call `strtod(tok, &endptr)` yields: the value, `endptr - tok`, and whether `errno`
is set to `ERANGE`. -/
structure StrtodResult where
  value : Dbl
  consumed : Nat
  erange : Bool
deriving DecidableEq, Repr

/-- Model of the C library `strtod` on a decimal subject sequence (ISO C 7.22.1.3, correctly
rounded as in glibc): optional sign, a nonempty digit sequence optionally containing a radix
point, then an optional exponent part `e`/`E`, optional sign, one or more digits. When no
conversion can be made the value is zero and nothing is consumed. `ERANGE` is reported on
overflow and on underflow, that is on an inexact result of a tiny value (`isTiny`), which
includes a value just below `DBL_MIN` that rounds up to it. Leading white space and the
hexadecimal, `INF` and `NAN` forms are left out: a token scanned by `parseNumber` starts with
`-` or a digit and holds only digits, `.`, `e`, `E`, `+` and `-`. -/
def strtod (s : List Byte) : StrtodResult :=
  let signLen := if s.headD 0 = 45 ∨ s.headD 0 = 43 then 1 else 0
  let neg := decide (s.headD 0 = 45)
  let s1 := s.drop signLen
  let nInt := digitRun s1
  let s2 := s1.drop nInt
  let hasDot := decide (s2.headD 0 = 46)
  let nFrac := if hasDot then digitRun (s2.drop 1) else 0
  if nInt + nFrac = 0 then ⟨.finite false 0 (-1074), 0, false⟩
  else
    let mantLen := nInt + (if hasDot then 1 + nFrac else 0)
    let s3 := s1.drop mantLen
    let hasE := decide (s3.headD 0 = 101 ∨ s3.headD 0 = 69)
    let s4 := s3.drop 1
    let eSignLen := if s4.headD 0 = 45 ∨ s4.headD 0 = 43 then 1 else 0
    let eNeg := decide (s4.headD 0 = 45)
    let nExp := if hasE then digitRun (s4.drop eSignLen) else 0
    let expLen := if nExp = 0 then 0 else 1 + eSignLen + nExp
    let expAbs := digitsValue ((s4.drop eSignLen).take nExp)
    let mant := digitsValue (s1.take nInt ++ (s2.drop 1).take nFrac)
    -- the value is `mant * 10 ^ (± expAbs - nFrac)`
    let up := if eNeg then 0 else expAbs
    let down := (if eNeg then expAbs else 0) + nFrac
    let rounded := roundToDouble neg (mant * 10 ^ up) (10 ^ down)
    let d := rounded.1
    ⟨d, signLen + mantLen + expLen,
      !d.isfinite || (isTiny (mant * 10 ^ up) (10 ^ down) && !rounded.2)⟩

/-- Decimal digits of `n`, most significant first, at least `width` of them (zero padded);
`fuel` bounds the number of digits produced. -/
def decimalDigits : Nat → Nat → Nat → List Byte
  | 0, _, _ => []
  | fuel + 1, width, n =>
    if n < 10 ∧ width ≤ 1 then [48 + n]
    else decimalDigits fuel (width - 1) (n / 10) ++ [48 + n % 10]

/-- Number of decimal digits of `n` (`0` for `n = 0`). -/
def decimalLength (n : Nat) : Nat :=
  if n = 0 then 0 else (decimalDigits (floorLog2 n n + 1) 1 n).length

/-- Drop the trailing `'0'` characters of a digit string. -/
def stripTrailingZeros (s : List Byte) : List Byte :=
  (s.reverse.dropWhile (fun c => c == 48)).reverse

/-- Model of `out << d` for a `double` on a stream with default flags, that is `printf("%g", d)`
with precision 6 (ISO C 7.21.6.1, the exact decimal expansion rounded half to even as in
glibc): six significant digits, style `e` when the decimal exponent is below -4 or at least 6,
trailing zeros and a bare radix point removed, at least two exponent digits. -/
def ostreamDouble : Dbl → List Byte
  | .nan => lit "nan"
  | .inf neg => (if neg then [45] else []) ++ lit "inf"
  | .finite neg m e =>
    let sign : List Byte := if neg then [45] else []
    if m = 0 then sign ++ [48]
    else
      let num := m * 2 ^ e.toNat
      let den := 2 ^ (-e).toNat
      -- `x0 = floor (log10 (num / den))`
      let x0 : Int :=
        if den ≤ num then (decimalLength (num / den) : Int) - 1
        else
          let k := decimalLength (den / num)
          if den ≤ num * 10 ^ (k - 1) then -((k : Int) - 1) else -(k : Int)
      let r := (roundHalfEven (num * 10 ^ (5 - x0).toNat) (den * 10 ^ (x0 - 5).toNat)).1
      let (digs, x) := if r = 10 ^ 6 then (10 ^ 5, x0 + 1) else (r, x0)
      let ds := decimalDigits 6 6 digs
      if -4 ≤ x ∧ x < 6 then
        let whole := if x < 0 then [48] else ds.take (x.toNat + 1)
        let frac := if x < 0 then List.replicate ((-x).toNat - 1) 48 ++ ds
                    else ds.drop (x.toNat + 1)
        let frac := stripTrailingZeros frac
        sign ++ whole ++ (if frac = [] then [] else 46 :: frac)
      else
        let frac := stripTrailingZeros (ds.drop 1)
        sign ++ ds.take 1 ++ (if frac = [] then [] else 46 :: frac)
          ++ [101, if x < 0 then 45 else 43] ++ decimalDigits 5 2 x.natAbs

/-! ## `HMS_JSON_Value.h` -/

/-- The variant `JsonValue::Variant`: `std::nullptr_t`, `bool`, `double`, `std::string`,
`JsonObject`, `JsonArray`. -/
inductive JsonValue where
  | null
  | bool (b : Bool)
  | number (d : Dbl)
  | string (s : List Byte)
  | object (o : List (List Byte × JsonValue))
  | array (a : List JsonValue)

/-- The type `JsonArray = std::vector<JsonValue>`. -/
abbrev JsonArray := List JsonValue

/-- The type `JsonObject = std::map<std::string, JsonValue>`: the entries in ascending order of
their keys (`strLess`), no key twice. -/
abbrev JsonObject := List (List Byte × JsonValue)

instance : Inhabited JsonValue := ⟨.null⟩

/-- The constructor `JsonValue(int i)`: the variant holds `static_cast<double>(i)`. -/
def JsonValue.ofInt (i : Int) : JsonValue := .number (Dbl.ofInt i)

namespace JsonValue

/-- `isNull()`. -/
def isNull : JsonValue → Bool
  | .null => true
  | _ => false

/-- `isBool()`. -/
def isBool : JsonValue → Bool
  | .bool _ => true
  | _ => false

/-- `isArray()`. -/
def isArray : JsonValue → Bool
  | .array _ => true
  | _ => false

/-- `isNumber()`. -/
def isNumber : JsonValue → Bool
  | .number _ => true
  | _ => false

/-- `isString()`. -/
def isString : JsonValue → Bool
  | .string _ => true
  | _ => false

/-- `isObject()`. -/
def isObject : JsonValue → Bool
  | .object _ => true
  | _ => false

/-- `asBool()`: `std::get<bool>`, which throws `std::bad_variant_access` (`none`) on another
alternative. -/
def asBool : JsonValue → Option Bool
  | .bool b => some b
  | _ => none

/-- `asNumber()`. -/
def asNumber : JsonValue → Option Dbl
  | .number d => some d
  | _ => none

/-- `asArray()`. -/
def asArray : JsonValue → Option JsonArray
  | .array a => some a
  | _ => none

/-- `asObject()`. -/
def asObject : JsonValue → Option JsonObject
  | .object o => some o
  | _ => none

/-- `asString()`. -/
def asString : JsonValue → Option (List Byte)
  | .string s => some s
  | _ => none

end JsonValue

/-- `std::map::find`: the value stored under `key`, if any. -/
def mapFind : JsonObject → List Byte → Option JsonValue
  | [], _ => none
  | (k, v) :: rest, key => if k = key then some v else mapFind rest key

/-- `std::map::emplace(key, val)`: a new entry is inserted at its place in the key order; when
an entry with an equivalent key is present the map is left as it is. -/
def mapEmplace : JsonObject → List Byte → JsonValue → JsonObject
  | [], key, val => [(key, val)]
  | (k, v) :: rest, key, val =>
    if strLess key k then (key, val) :: (k, v) :: rest
    else if strLess k key then (k, v) :: mapEmplace rest key val
    else (k, v) :: rest

/-- Assignment through the reference returned by `std::map::operator[]`: the value stored under
`key` is replaced. -/
def mapAssign : JsonObject → List Byte → JsonValue → JsonObject
  | [], _, _ => []
  | (k, v) :: rest, key, val =>
    if k = key then (k, val) :: rest else (k, v) :: mapAssign rest key val

/-- Largest value of `std::size_t` (a 64-bit build). -/
def SIZE_MAX : Nat := 2 ^ 64 - 1

/-- Value of `std::vector<JsonValue>::max_size()` (libstdc++ on a 64-bit build):
`PTRDIFF_MAX / sizeof(JsonValue)`, the variant taking 56 bytes. -/
def MAX_SIZE : Nat := (2 ^ 63 - 1) / 56

/-- How a call of `std::vector::resize` ends. -/
inductive Resized where
  /-- The call returns; the vector holds these elements. -/
  | done (a : JsonArray)
  /-- The call throws `std::length_error`: more than `max_size()` elements were asked for. -/
  | lengthError
  /-- The call throws `std::bad_alloc`: the allocator did not grant the new storage. -/
  | badAlloc
deriving Inhabited

/-- `std::vector::resize(n)`: truncation to `n` elements, or padding with default-constructed
(`null`) elements up to `n`. A request beyond `max_size()` throws `std::length_error`. A
request within it needs storage for the new elements, and `granted` tells whether the
allocator grants it; when it does not, the call throws `std::bad_alloc`. A call that throws
leaves the vector as it was. -/
def vectorResize (a : JsonArray) (n : Nat) (granted : Bool) : Resized :=
  if n ≤ a.length then .done (a.take n)
  else if MAX_SIZE - a.length < n - a.length then .lengthError
  else if granted then .done (a ++ List.replicate (n - a.length) JsonValue.null)
  else .badAlloc

/-- What the reference returned by `operator[](std::size_t)` designates. -/
inductive Slot where
  /-- The element `a[idx]`, with its value. -/
  | element (x : JsonValue)
  /-- No element: `a[idx]` with `idx` not below `a.size()` has no defined behaviour. -/
  | outOfRange
  /-- No reference is returned: `resize` threw `std::length_error`. -/
  | lengthError
  /-- No reference is returned: `resize` threw `std::bad_alloc`. -/
  | badAlloc
deriving Inhabited

/-- The expression `a[idx]` on a vector. -/
def slotAt (a : JsonArray) (idx : Nat) : Slot :=
  match a.get? idx with
  | some x => .element x
  | none => .outOfRange

namespace JsonValue

/-- `getArray()`: the updated `*this` and the array the returned reference designates. -/
def getArray (v : JsonValue) : JsonValue × JsonArray :=
  let v := if !v.isArray then JsonValue.array [] else v
  (v, (v.asArray).getD [])

/-- `getObject()`: the updated `*this` and the map the returned reference designates. -/
def getObject (v : JsonValue) : JsonValue × JsonObject :=
  let v := if !v.isObject then JsonValue.object [] else v
  (v, (v.asObject).getD [])

/-- A write through the reference that `getObject()` returns,
`std::get<JsonObject>(JsonVariant)`: the map held by `*this` becomes `o`. A value that holds
another alternative has no such map. -/
def storeObject : JsonValue → JsonObject → JsonValue
  | .object _, o => .object o
  | v, _ => v

/-- A write through the reference that `getArray()` returns, `std::get<JsonArray>(JsonVariant)`:
the array held by `*this` becomes `a`. A value that holds another alternative has no such
array. -/
def storeArray : JsonValue → JsonArray → JsonValue
  | .array _, a => .array a
  | v, _ => v

/-- `operator[](const std::string& key)`, that is `getObject()[key]`: the updated `*this`, which
is what `getObject()` left with the key inserted into its map, and the value of the slot the
returned reference designates (`std::map::operator[]` inserts a default-constructed value when
the key is missing). -/
def subscriptKey (v : JsonValue) (key : List Byte) : JsonValue × JsonValue :=
  let (v, o) := v.getObject
  let o := mapEmplace o key JsonValue.null
  (v.storeObject o, (mapFind o key).getD JsonValue.null)

/-- The statement `v[key] = x`: the slot designated by `operator[]` receives `x`. -/
def assignKey (v : JsonValue) (key : List Byte) (x : JsonValue) : JsonValue :=
  match (v.subscriptKey key).1 with
  | .object o => .object (mapAssign o key x)
  | w => w

/-- `operator[](std::size_t idx)`: `auto &a = getArray(); if (idx >= a.size())
a.resize(idx + 1); return a[idx];`. The result is the updated `*this` and what the returned
reference designates. The sum `idx + 1` is a `size_t`; `granted` tells whether the allocator
grants the storage that `resize` asks for. When `resize` throws, `*this` is as `getArray()`
left it. -/
def subscriptIdx (v : JsonValue) (idx : Nat) (granted : Bool) : JsonValue × Slot :=
  let (v, a) := v.getArray
  if idx ≥ a.length then
    match vectorResize a ((idx + 1) % (SIZE_MAX + 1)) granted with
    | .lengthError => (v, .lengthError)
    | .badAlloc => (v, .badAlloc)
    | .done a => (v.storeArray a, slotAt a idx)
  else (v, slotAt a idx)

/-- The statement `v[idx] = x`. -/
def assignIdx (v : JsonValue) (idx : Nat) (x : JsonValue) (granted : Bool) : JsonValue :=
  match v.subscriptIdx idx granted with
  | (.array a, .element _) => .array (a.set idx x)
  | (w, _) => w

end JsonValue

/-! ## `HMS_JSON_Exceptions.h` -/

/-- The struct `ErrorPos`. -/
structure ErrorPos where
  line : Nat := 1
  col : Nat := 1
deriving DecidableEq, Repr

/-- The struct `ParseError` (in the fail-fast build, the exception with `what()` and `pos`). -/
structure ParseError where
  what : List Byte := []
  pos : ErrorPos := {}
deriving DecidableEq, Repr

/-! ## `HMS_JSON_Deserializer.h`: state and shared members -/

/-- The members of `JsonDeserializer`: the source `string`, the offset `pos`, and `posinfo`. -/
structure JsonDeserializer where
  string : List Byte
  pos : Nat := 0
  posinfo : ErrorPos := ⟨1, 1⟩
deriving DecidableEq, Repr

/-- What a parsing member function of the explicit-result build leaves: the returned value, the
members afterwards, and `err_out` afterwards. -/
abbrev ParseResult := JsonValue × JsonDeserializer × ParseError

namespace JsonDeserializer

/-- The read `string[pos]`; for `pos == string.size()` a `const std::string` yields `'\0'`. -/
def cur (d : JsonDeserializer) : Byte := d.string.getD d.pos 0

/-- `advance()`. -/
def advance (d : JsonDeserializer) : JsonDeserializer :=
  if d.pos ≥ d.string.length then d
  else if d.cur = 10 then { d with posinfo := ⟨d.posinfo.line + 1, 1⟩, pos := d.pos + 1 }
  else { d with posinfo := ⟨d.posinfo.line, d.posinfo.col + 1⟩, pos := d.pos + 1 }

/-- `peek()`. -/
def peek (d : JsonDeserializer) : Byte :=
  if d.pos ≥ d.string.length then 0 else d.cur

/-- The loop of `skipWhitespace()`; `fuel` bounds the number of iterations. -/
def skipWhitespaceLoop : Nat → JsonDeserializer → JsonDeserializer
  | 0, d => d
  | fuel + 1, d =>
    if d.pos < d.string.length ∧ isspace d.cur = true then skipWhitespaceLoop fuel d.advance
    else d

/-- `skipWhitespace()`. -/
def skipWhitespace (d : JsonDeserializer) : JsonDeserializer :=
  skipWhitespaceLoop d.string.length d

/-- The loop `while (pos < string.size() && std::isdigit(string[pos])) advance();` of
`parseNumber`. -/
def skipDigitsLoop : Nat → JsonDeserializer → JsonDeserializer
  | 0, d => d
  | fuel + 1, d =>
    if d.pos < d.string.length ∧ isdigit d.cur = true then skipDigitsLoop fuel d.advance
    else d

/-- The digit loop with enough fuel for the rest of the input. -/
def skipDigits (d : JsonDeserializer) : JsonDeserializer :=
  skipDigitsLoop d.string.length d

/-- The statement `if (string[pos] == '-') advance();` of `parseNumber`. -/
def scanSign (d : JsonDeserializer) : JsonDeserializer :=
  if d.cur = 45 then d.advance else d

/-- The statement `if (pos < string.size() && string[pos] == '.') { ... }` of `parseNumber`:
the point and the digit loop after it. -/
def scanFraction (d : JsonDeserializer) : JsonDeserializer :=
  if d.pos < d.string.length ∧ d.cur = 46 then skipDigits d.advance else d

/-- The statement `if (pos < string.size() && (string[pos] == 'e' || string[pos] == 'E'))
{ ... }` of `parseNumber`: the letter, the sign read with `string[pos]`, the digit loop. -/
def scanExponent (d : JsonDeserializer) : JsonDeserializer :=
  if d.pos < d.string.length ∧ (d.cur = 101 ∨ d.cur = 69) then
    let d := d.advance
    let d := if d.cur = 43 ∨ d.cur = 45 then d.advance else d
    skipDigits d
  else d

/-- The scan of `parseNumber`, shared by both builds: from `size_t start = pos;` to the
extraction of `tok = string.substr(start, pos - start)`. -/
def scanNumber (d : JsonDeserializer) : JsonDeserializer × List Byte :=
  let start := d.pos
  let d := scanExponent (scanFraction (skipDigits (scanSign d)))
  (d, (d.string.drop start).take (d.pos - start))

/-- The statements `string[pos++]; posinfo.col++;` of `parseString`: the members after them
(the character read is `cur`). -/
def next (d : JsonDeserializer) : JsonDeserializer :=
  { d with pos := d.pos + 1, posinfo := ⟨d.posinfo.line, d.posinfo.col + 1⟩ }

/-- The value of one hexadecimal digit in the `\u` loop of `parseString`, if it is one. -/
def hexDigit (ch : Byte) : Option Nat :=
  if 48 ≤ ch ∧ ch ≤ 57 then some (ch - 48)
  else if 97 ≤ ch ∧ ch ≤ 102 then some (10 + ch - 97)
  else if 65 ≤ ch ∧ ch ≤ 70 then some (10 + ch - 65)
  else none

/-- The loop `for (int k=0;k<4;++k)` of `parseString` with `k` iterations left: each reads
`string[pos++]`, counts a column and shifts the digit into `code`; `none` when a character is
no hexadecimal digit, the members being those at that moment. -/
def hexLoop : Nat → JsonDeserializer → Nat → Option Nat × JsonDeserializer
  | 0, d, code => (some code, d)
  | k + 1, d, code =>
    let ch := d.cur
    let d := d.next
    match hexDigit ch with
    | some h => hexLoop k d ((code <<< 4) % 2 ^ 32 + h)
    | none => (none, d)

/-- The conversion of `code` to UTF-8 in `parseString`: the bytes pushed to `out`. -/
def utf8Encode (code : Nat) : List Byte :=
  if code ≤ 0x7F then [code % 256]
  else if code ≤ 0x7FF then
    [(0xC0 ||| ((code >>> 6) &&& 0x1F)) % 256, (0x80 ||| (code &&& 0x3F)) % 256]
  else
    [(0xE0 ||| ((code >>> 12) &&& 0x0F)) % 256, (0x80 ||| ((code >>> 6) &&& 0x3F)) % 256,
      (0x80 ||| (code &&& 0x3F)) % 256]

/-! ## `HMS_JSON_Deserializer.cpp`, explicit-result build (`HMS_JSON_NO_EXCEPTIONS`) -/

/-- `expectChar(c, err_out)`. -/
def expectChar (c : Byte) (d : JsonDeserializer) (err_out : ParseError) :
    Bool × JsonDeserializer × ParseError :=
  if d.peek ≠ c then (false, d, ⟨lit "Expected '" ++ [c] ++ lit "'", d.posinfo⟩)
  else (true, d.advance, err_out)

/-- `parseNull(err_out)`. -/
def parseNull (d : JsonDeserializer) (err_out : ParseError) : ParseResult :=
  if (d.string.drop d.pos).take 4 = lit "null" then
    (.null, { d with pos := d.pos + 4, posinfo := ⟨d.posinfo.line, d.posinfo.col + 4⟩ }, err_out)
  else (.null, d, ⟨lit "Invalid token, expected 'null'", d.posinfo⟩)

/-- `parseBool(err_out)`. -/
def parseBool (d : JsonDeserializer) (err_out : ParseError) : ParseResult :=
  if (d.string.drop d.pos).take 4 = lit "true" then
    (.bool true, { d with pos := d.pos + 4, posinfo := ⟨d.posinfo.line, d.posinfo.col + 4⟩ },
      err_out)
  else if (d.string.drop d.pos).take 5 = lit "false" then
    (.bool false, { d with pos := d.pos + 5, posinfo := ⟨d.posinfo.line, d.posinfo.col + 5⟩ },
      err_out)
  else (.null, d, ⟨lit "Invalid token, expected 'true' or 'false'", d.posinfo⟩)

/-- `parseNumber(err_out)`: the scan, then `std::strtod` on the token, rejected when `endptr`
is not the end of the token. -/
def parseNumber (d : JsonDeserializer) (err_out : ParseError) : ParseResult :=
  let (d, tok) := scanNumber d
  let r := strtod tok
  if r.consumed ≠ tok.length then (.null, d, ⟨lit "Invalid number format", d.posinfo⟩)
  else (.number r.value, d, err_out)

/-- The `while (pos < string.size())` loop of `parseString(err_out)` together with the test of
`found_closing_quote` that follows it; `out` is the string decoded so far. -/
def parseStringLoop : Nat → JsonDeserializer → List Byte → ParseError → ParseResult
  | 0, d, _, _ => (.null, d, ⟨lit "Unterminated string", d.posinfo⟩)
  | fuel + 1, d, out, err_out =>
    if ¬ d.pos < d.string.length then (.null, d, ⟨lit "Unterminated string", d.posinfo⟩)
    else
      let c := d.cur
      let d := d.next
      if c = 34 then (.string out, d, err_out)
      else if c = 92 then
        if d.pos ≥ d.string.length then (.null, d, ⟨lit "Invalid escape", d.posinfo⟩)
        else
          let e := d.cur
          let d := d.next
          if e = 34 then parseStringLoop fuel d (out ++ [34]) err_out
          else if e = 92 then parseStringLoop fuel d (out ++ [92]) err_out
          else if e = 47 then parseStringLoop fuel d (out ++ [47]) err_out
          else if e = 98 then parseStringLoop fuel d (out ++ [8]) err_out
          else if e = 102 then parseStringLoop fuel d (out ++ [12]) err_out
          else if e = 110 then parseStringLoop fuel d (out ++ [10]) err_out
          else if e = 114 then parseStringLoop fuel d (out ++ [13]) err_out
          else if e = 116 then parseStringLoop fuel d (out ++ [9]) err_out
          else if e = 117 then
            if d.pos + 4 > d.string.length then (.null, d, ⟨lit "Invalid \\u escape", d.posinfo⟩)
            else
              match hexLoop 4 d 0 with
              | (none, d) => (.null, d, ⟨lit "Invalid hex in \\u escape", d.posinfo⟩)
              | (some code, d) => parseStringLoop fuel d (out ++ utf8Encode code) err_out
          else (.null, d, ⟨lit "Invalid escape \\" ++ [e], d.posinfo⟩)
      else
        let d := if c = 10 then { d with posinfo := ⟨d.posinfo.line + 1, 1⟩ } else d
        parseStringLoop fuel d (out ++ [c]) err_out

/-- `parseString(err_out)`. -/
def parseString (d : JsonDeserializer) (err_out : ParseError) : ParseResult :=
  match expectChar 34 d err_out with
  | (false, d, err_out) => (.null, d, err_out)
  | (true, d, err_out) => parseStringLoop d.string.length d [] err_out

mutual
/-- `parseJsonValue(err_out)`. -/
def parseJsonValue : Nat → JsonDeserializer → ParseError → Option ParseResult
  | 0, _, _ => none
  | fuel + 1, d, err_out =>
    if d.pos ≥ d.string.length then some (.null, d, ⟨lit "Unexpected end of input", d.posinfo⟩)
    else
      let c := d.cur
      if c = 110 then some (parseNull d err_out)
      else if c = 116 ∨ c = 102 then some (parseBool d err_out)
      else if c = 34 then some (parseString d err_out)
      else if c = 91 then parseArray fuel d err_out
      else if c = 123 then parseObject fuel d err_out
      else if c = 45 ∨ isdigit c = true then some (parseNumber d err_out)
      else some (.null, d, ⟨lit "Unexpected character '" ++ [c] ++ lit "'", d.posinfo⟩)
/-- `parseObject(err_out)` up to its `while (true)` loop. -/
def parseObject : Nat → JsonDeserializer → ParseError → Option ParseResult
  | 0, _, _ => none
  | fuel + 1, d, err_out =>
    match expectChar 123 d err_out with
    | (false, d, err_out) => some (.null, d, err_out)
    | (true, d, err_out) =>
      let d := d.skipWhitespace
      if d.peek = 125 then some (.object [], d.advance, err_out)
      else parseObjectLoop fuel d [] err_out
/-- The `while (true)` loop of `parseObject(err_out)` and the `return` after it; `obj` is the
map built so far. -/
def parseObjectLoop : Nat → JsonDeserializer → JsonObject → ParseError → Option ParseResult
  | 0, _, _, _ => none
  | fuel + 1, d, obj, err_out =>
    let d := d.skipWhitespace
    if d.peek ≠ 34 then some (.null, d, ⟨lit "Object keys must be strings", d.posinfo⟩)
    else
      let (keyv, d, err_out) := parseString d err_out
      if err_out.what ≠ [] then some (.null, d, err_out)
      else
        let d := d.skipWhitespace
        match expectChar 58 d err_out with
        | (false, d, err_out) => some (.null, d, err_out)
        | (true, d, err_out) =>
          let d := d.skipWhitespace
          match parseJsonValue fuel d err_out with
          | none => none
          | some (val, d, err_out) =>
            if err_out.what ≠ [] then some (.null, d, err_out)
            else
              let obj := mapEmplace obj (keyv.asString.getD []) val
              let d := d.skipWhitespace
              if d.peek = 125 then some (.object obj, d.advance, err_out)
              else if d.peek = 44 then parseObjectLoop fuel d.advance.skipWhitespace obj err_out
              else some (.null, d, ⟨lit "Expected ',' or '\x7d' in object", d.posinfo⟩)
/-- `parseArray(err_out)` up to its `while (true)` loop. -/
def parseArray : Nat → JsonDeserializer → ParseError → Option ParseResult
  | 0, _, _ => none
  | fuel + 1, d, err_out =>
    match expectChar 91 d err_out with
    | (false, d, err_out) => some (.null, d, err_out)
    | (true, d, err_out) =>
      let d := d.skipWhitespace
      if d.peek = 93 then some (.array [], d.advance, err_out)
      else parseArrayLoop fuel d [] err_out
/-- The `while (true)` loop of `parseArray(err_out)` and the `return` after it; `arr` is the
vector built so far. -/
def parseArrayLoop : Nat → JsonDeserializer → JsonArray → ParseError → Option ParseResult
  | 0, _, _, _ => none
  | fuel + 1, d, arr, err_out =>
    let d := d.skipWhitespace
    match parseJsonValue fuel d err_out with
    | none => none
    | some (v, d, err_out) =>
      let arr := arr ++ [v]
      if err_out.what ≠ [] then some (.null, d, err_out)
      else
        let d := d.skipWhitespace
        if d.peek = 93 then some (.array arr, d.advance, err_out)
        else if d.peek = 44 then parseArrayLoop fuel d.advance.skipWhitespace arr err_out
        else some (.null, d, ⟨lit "Expected ',' or ']' in array", d.posinfo⟩)
end

/-- `deserializeInternal(err_out)`. -/
def deserializeInternal (fuel : Nat) (d : JsonDeserializer) (_err_out : ParseError) :
    Option ParseResult :=
  let err_out : ParseError := {}
  let d := d.skipWhitespace
  match parseJsonValue fuel d err_out with
  | none => none
  | some (v, d, err_out) =>
    if err_out.what ≠ [] then some (.null, d, err_out)
    else
      let d := d.skipWhitespace
      if d.pos ≠ d.string.length then
        some (.null, d, ⟨lit "Trailing data after JSON", d.posinfo⟩)
      else some (v, d, err_out)

/-- Fuel given to the recursive descent over a source of `n` characters. -/
def fuelFor (n : Nat) : Nat := 3 * n + 1

/-- `JsonDeserializer::deserialize(src, err_out)`: the returned value and `err_out`. -/
def deserialize (src : List Byte) (err_out : ParseError) : Option (JsonValue × ParseError) :=
  (deserializeInternal (fuelFor src.length) { string := src } err_out).map
    fun r => (r.1, r.2.2)

end JsonDeserializer

/-! ## `HMS_JSON_Deserializer.cpp`, fail-fast build (`HMS_JSON_EXCEPTIONS_ENABLED`)

`error(msg)` throws `ParseError(msg, posinfo)`: a thrown exception is `Except.error`. -/

namespace FailFast

open JsonDeserializer

/-- What a parsing member function of the fail-fast build leaves: the thrown `ParseError`, or
the returned value and the members afterwards. -/
abbrev Outcome := Except ParseError (JsonValue × JsonDeserializer)

/-- `error(msg)`. -/
def error {α : Type} (d : JsonDeserializer) (msg : List Byte) : Except ParseError α :=
  .error ⟨msg, d.posinfo⟩

/-- `expectChar(c)`. -/
def expectChar (c : Byte) (d : JsonDeserializer) : Except ParseError JsonDeserializer :=
  if d.peek ≠ c then error d (lit "Expected '" ++ [c] ++ lit "'")
  else .ok d.advance

/-- `parseNull()`. -/
def parseNull (d : JsonDeserializer) : Outcome :=
  if (d.string.drop d.pos).take 4 = lit "null" then
    .ok (.null, { d with pos := d.pos + 4, posinfo := ⟨d.posinfo.line, d.posinfo.col + 4⟩ })
  else error d (lit "Invalid token, expected 'null'")

/-- `parseBool()`. -/
def parseBool (d : JsonDeserializer) : Outcome :=
  if (d.string.drop d.pos).take 4 = lit "true" then
    .ok (.bool true, { d with pos := d.pos + 4, posinfo := ⟨d.posinfo.line, d.posinfo.col + 4⟩ })
  else if (d.string.drop d.pos).take 5 = lit "false" then
    .ok (.bool false, { d with pos := d.pos + 5, posinfo := ⟨d.posinfo.line, d.posinfo.col + 5⟩ })
  else error d (lit "Invalid token, expected 'true' or 'false'")

/-- `parseNumber()`: the scan, then `std::stod(tok)`, which throws `std::invalid_argument` when
no conversion can be made and `std::out_of_range` when `strtod` reports `ERANGE`; either is
caught and turned into `error("Invalid number format")`. -/
def parseNumber (d : JsonDeserializer) : Outcome :=
  let (d, tok) := scanNumber d
  let r := strtod tok
  if r.consumed = 0 ∨ r.erange = true then error d (lit "Invalid number format")
  else .ok (.number r.value, d)

/-- The `while (pos < string.size())` loop of `parseString()` together with the test of
`found_closing_quote` that follows it; `out` is the string decoded so far. -/
def parseStringLoop : Nat → JsonDeserializer → List Byte → Outcome
  | 0, d, _ => error d (lit "Unterminated string")
  | fuel + 1, d, out =>
    if ¬ d.pos < d.string.length then error d (lit "Unterminated string")
    else
      let c := d.cur
      let d := { d with pos := d.pos + 1 }
      if c = 34 then
        .ok (.string out, { d with posinfo := ⟨d.posinfo.line, d.posinfo.col + 1⟩ })
      else if c = 92 then
        if d.pos ≥ d.string.length then error d (lit "Invalid escape")
        else
          let e := d.cur
          let d := d.next
          if e = 34 then parseStringLoop fuel d (out ++ [34])
          else if e = 92 then parseStringLoop fuel d (out ++ [92])
          else if e = 47 then parseStringLoop fuel d (out ++ [47])
          else if e = 98 then parseStringLoop fuel d (out ++ [8])
          else if e = 110 then parseStringLoop fuel d (out ++ [10])
          else if e = 114 then parseStringLoop fuel d (out ++ [13])
          else if e = 116 then parseStringLoop fuel d (out ++ [9])
          else if e = 117 then
            if d.pos + 4 > d.string.length then error d (lit "Invalid \\u escape")
            else
              match hexLoop 4 d 0 with
              | (none, d) => error d (lit "Invalid hex in \\u escape")
              | (some code, d) => parseStringLoop fuel d (out ++ utf8Encode code)
          else error d (lit "Invalid escape \\" ++ [e])
      else
        let d :=
          if c = 10 then { d with posinfo := ⟨d.posinfo.line + 1, 1⟩ }
          else { d with posinfo := ⟨d.posinfo.line, d.posinfo.col + 1⟩ }
        parseStringLoop fuel d (out ++ [c])

/-- `parseString()`. -/
def parseString (d : JsonDeserializer) : Outcome :=
  match expectChar 34 d with
  | .error e => .error e
  | .ok d => parseStringLoop d.string.length d []

mutual
/-- `parseJsonValue()`. -/
def parseJsonValue : Nat → JsonDeserializer → Option Outcome
  | 0, _ => none
  | fuel + 1, d =>
    if d.pos ≥ d.string.length then some (error d (lit "Unexpected end of input"))
    else
      let c := d.cur
      if c = 110 then some (parseNull d)
      else if c = 116 ∨ c = 102 then some (parseBool d)
      else if c = 34 then some (parseString d)
      else if c = 91 then parseArray fuel d
      else if c = 123 then parseObject fuel d
      else if c = 45 ∨ isdigit c = true then some (parseNumber d)
      else some (error d (lit "Unexpected character '" ++ [c] ++ lit "'"))
/-- `parseObject()` up to its `while (true)` loop. -/
def parseObject : Nat → JsonDeserializer → Option Outcome
  | 0, _ => none
  | fuel + 1, d =>
    match expectChar 123 d with
    | .error e => some (.error e)
    | .ok d =>
      let d := d.skipWhitespace
      if d.peek = 125 then some (.ok (.object [], d.advance))
      else parseObjectLoop fuel d []
/-- The `while (true)` loop of `parseObject()` and the `return` after it. -/
def parseObjectLoop : Nat → JsonDeserializer → JsonObject → Option Outcome
  | 0, _, _ => none
  | fuel + 1, d, obj =>
    let d := d.skipWhitespace
    if d.peek ≠ 34 then some (error d (lit "Object keys must be strings"))
    else
      match parseString d with
      | .error e => some (.error e)
      | .ok (keyv, d) =>
        let d := d.skipWhitespace
        match expectChar 58 d with
        | .error e => some (.error e)
        | .ok d =>
          let d := d.skipWhitespace
          match parseJsonValue fuel d with
          | none => none
          | some (.error e) => some (.error e)
          | some (.ok (val, d)) =>
            let obj := mapEmplace obj (keyv.asString.getD []) val
            let d := d.skipWhitespace
            if d.peek = 125 then some (.ok (.object obj, d.advance))
            else if d.peek = 44 then parseObjectLoop fuel d.advance.skipWhitespace obj
            else some (error d (lit "Expected ',' or '\x7d' in object"))
/-- `parseArray()` up to its `while (true)` loop. -/
def parseArray : Nat → JsonDeserializer → Option Outcome
  | 0, _ => none
  | fuel + 1, d =>
    match expectChar 91 d with
    | .error e => some (.error e)
    | .ok d =>
      let d := d.skipWhitespace
      if d.peek = 93 then some (.ok (.array [], d.advance))
      else parseArrayLoop fuel d []
/-- The `while (true)` loop of `parseArray()` and the `return` after it. -/
def parseArrayLoop : Nat → JsonDeserializer → JsonArray → Option Outcome
  | 0, _, _ => none
  | fuel + 1, d, arr =>
    let d := d.skipWhitespace
    match parseJsonValue fuel d with
    | none => none
    | some (.error e) => some (.error e)
    | some (.ok (v, d)) =>
      let arr := arr ++ [v]
      let d := d.skipWhitespace
      if d.peek = 93 then some (.ok (.array arr, d.advance))
      else if d.peek = 44 then parseArrayLoop fuel d.advance.skipWhitespace arr
      else some (error d (lit "Expected ',' or ']' in array"))
end

/-- `deserializeInternal()`. -/
def deserializeInternal (fuel : Nat) (d : JsonDeserializer) : Option Outcome :=
  let d := d.skipWhitespace
  match parseJsonValue fuel d with
  | none => none
  | some (.error e) => some (.error e)
  | some (.ok (v, d)) =>
    let d := d.skipWhitespace
    if d.pos ≠ d.string.length then some (error d (lit "Trailing data after JSON"))
    else some (.ok (v, d))

/-- `JsonDeserializer::deserialize(src)`: the thrown `ParseError` or the returned value. -/
def deserialize (src : List Byte) : Option (Except ParseError JsonValue) :=
  (deserializeInternal (fuelFor src.length) { string := src }).map fun r => r.map Prod.fst

end FailFast

/-! ## `HMS_JSON_Serializer.cpp` -/

namespace JsonSerializer

/-- `escape(s)`: the text appended to `out` for each character in turn. -/
def escape : List Byte → List Byte
  | [] => []
  | c :: s =>
    (if c = 34 then lit "\\\""
     else if c = 92 then lit "\\\\"
     else if c = 8 then lit "\\b"
     else if c = 12 then lit "\\f"
     else if c = 10 then lit "\\n"
     else if c = 13 then lit "\\r"
     else if c = 9 then lit "\\t"
     else [c]) ++ escape s

/-- The temporary `std::string(static_cast<size_t>(n), ' ')` for an `int` product `n`: a
negative `n` converts to a length beyond `max_size()` and the constructor throws
`std::length_error`, and a product beyond `INT_MAX` overflows `int`, which is undefined; no
text is returned in either case (`none`). -/
def spaces (n : Int) : Option (List Byte) :=
  if n < 0 ∨ 2147483647 < n then none else some (List.replicate n.toNat 32)

mutual
/-- `serializeInternal(v, out, pretty, indent, level)`: the text written to `out`, or `none`
when an exception leaves the function. -/
def serializeInternal : JsonValue → Bool → Int → Int → Option (List Byte)
  | .null, _, _, _ => some (lit "null")
  | .bool b, _, _, _ => some (if b then lit "true" else lit "false")
  | .number d, _, _, _ => some (if d.isfinite then ostreamDouble d else lit "null")
  | .string s, _, _, _ => some ([34] ++ escape s ++ [34])
  | .array a, pretty, indent, level =>
    match serializeElements a pretty indent level with
    | none => none
    | some body =>
      if pretty = true ∧ a.isEmpty = false then
        match spaces (level * indent) with
        | none => none
        | some sp => some ([91] ++ [10] ++ body ++ [10] ++ sp ++ [93])
      else some ([91] ++ body ++ [93])
  | .object o, pretty, indent, level =>
    match serializeMembers o pretty indent level with
    | none => none
    | some body =>
      if pretty = true ∧ o.isEmpty = false then
        match spaces (level * indent) with
        | none => none
        | some sp => some ([123] ++ [10] ++ body ++ [10] ++ sp ++ [125])
      else some ([123] ++ body ++ [125])
/-- The loop `for (size_t i=0;i<a.size();++i)` of the array case, over the elements left. -/
def serializeElements : List JsonValue → Bool → Int → Int → Option (List Byte)
  | [], _, _, _ => some []
  | v :: rest, pretty, indent, level =>
    match (if pretty = true then spaces ((level + 1) * indent) else some []) with
    | none => none
    | some sp =>
      match serializeInternal v pretty indent (level + 1) with
      | none => none
      | some t =>
        let sep := if rest.isEmpty = false then (if pretty = true then lit ",\n" else lit ",") else []
        match serializeElements rest pretty indent level with
        | none => none
        | some ts => some (sp ++ t ++ sep ++ ts)
/-- The loop `for (auto &kv : o)` of the object case, over the entries left. -/
def serializeMembers : List (List Byte × JsonValue) → Bool → Int → Int → Option (List Byte)
  | [], _, _, _ => some []
  | (k, v) :: rest, pretty, indent, level =>
    match (if pretty = true then spaces ((level + 1) * indent) else some []) with
    | none => none
    | some sp =>
      let key := [34] ++ escape k ++ [34] ++ (if pretty = true then lit ": " else lit ":")
      match serializeInternal v pretty indent (level + 1) with
      | none => none
      | some t =>
        let sep := if rest.isEmpty = false then (if pretty = true then lit ",\n" else lit ",") else []
        match serializeMembers rest pretty indent level with
        | none => none
        | some ts => some (sp ++ key ++ t ++ sep ++ ts)
end

/-- `JsonSerializer::toString(v, pretty, indent)`. -/
def toString (v : JsonValue) (pretty : Bool) (indent : Int) : Option (List Byte) :=
  serializeInternal v pretty indent 0

end JsonSerializer

/-- `HMS::serialize(v, pretty, indent)` of `HMS_JSON.h`, with its defaults `pretty = false`,
`indent = 2`. -/
def serialize (v : JsonValue) (pretty : Bool := false) (indent : Int := 2) :
    Option (List Byte) :=
  JsonSerializer.toString v pretty indent

/-- `HMS::parse(s, err)` of `HMS_JSON.h`. -/
def parse (s : List Byte) (err : ParseError) : Option (JsonValue × ParseError) :=
  JsonDeserializer.deserialize s err

/-! ## The language the explicit-result deserializer reads

A description of the texts `parse` accepts and of the values it returns for them, independent
of offsets, positions, fuel and the error slot. `parse_eq_some_iff` states that it is exact. -/

/-- The unread part of the source, `string.substr(pos)`. -/
def JsonDeserializer.rest (d : JsonDeserializer) : List Byte := d.string.drop d.pos

/-- The members designate the source of `d0` with exactly `r` left to read. -/
def JsonDeserializer.At (d : JsonDeserializer) (r : List Byte) : Prop :=
  d.pos ≤ d.string.length ∧ d.string.drop d.pos = r

/-- Every character of `w` is white space for `skipWhitespace` (`std::isspace`). -/
def AllSpace (w : List Byte) : Prop := ∀ c ∈ w, isspace c = true

/-- The character on which `parseJsonValue` dispatches to `parseNumber`. -/
def numberStart (c : Byte) : Bool := decide (c = 45) || isdigit c

/-- The characters a number token can hold: the scan of `parseNumber` stops where the next
character is none of these. -/
def numberChar (c : Byte) : Bool :=
  isdigit c || decide (c = 46) || decide (c = 101) || decide (c = 69) || decide (c = 43) ||
    decide (c = 45)

/-- What the scan of `parseNumber` leaves of the unread text `r`: an optional `-`, a digit
run, an optional `.` and digit run, an optional `e`/`E` with optional sign and digit run are
taken off its head. -/
def scanRest (r : List Byte) : List Byte :=
  let r := if r.headD 0 = 45 then r.drop 1 else r
  let r := r.drop (digitRun r)
  let r := if r.headD 0 = 46 then (r.drop 1).drop (digitRun (r.drop 1)) else r
  if r.headD 0 = 101 ∨ r.headD 0 = 69 then
    let r := r.drop 1
    let r := if r.headD 0 = 43 ∨ r.headD 0 = 45 then r.drop 1 else r
    r.drop (digitRun r)
  else r

/-- The token `tok` the scan of `parseNumber` extracts at the head of `r`. -/
def scanToken (r : List Byte) : List Byte := r.take (r.length - (scanRest r).length)

/-- The character a two-character escape `\e` stands for in `parseString(err_out)`. -/
def simpleEscape (e : Byte) : Option Byte :=
  if e = 34 then some 34
  else if e = 92 then some 92
  else if e = 47 then some 47
  else if e = 98 then some 8
  else if e = 102 then some 12
  else if e = 110 then some 10
  else if e = 114 then some 13
  else if e = 116 then some 9
  else none

/-- The `code` the `\u` loop computes from the characters `cs`, starting from `code`. -/
def hexCode : List Byte → Nat → Option Nat
  | [], code => some code
  | ch :: cs, code =>
    match JsonDeserializer.hexDigit ch with
    | some h => hexCode cs ((code <<< 4) % 2 ^ 32 + h)
    | none => none

/-- `StrBody t s`: the text `t` between two double quotes decodes to the string `s`. -/
inductive StrBody : List Byte → List Byte → Prop
  | nil : StrBody [] []
  | plain {c : Byte} {t s : List Byte} : c ≠ 34 → c ≠ 92 → StrBody t s → StrBody (c :: t) (c :: s)
  | esc {e x : Byte} {t s : List Byte} :
      simpleEscape e = some x → StrBody t s → StrBody (92 :: e :: t) (x :: s)
  | uni {a b c d : Byte} {code : Nat} {t s : List Byte} :
      hexCode [a, b, c, d] 0 = some code → StrBody t s →
      StrBody (92 :: 117 :: a :: b :: c :: d :: t) (JsonDeserializer.utf8Encode code ++ s)

/-- `NumberAt r x r'`: at the head of `r` stands a number token, the characters the scan of
`parseNumber` consumes, which `strtod` converts in full to `x`; it is followed by `r'`. -/
def NumberAt (r : List Byte) (x : Dbl) (r' : List Byte) : Prop :=
  numberStart (r.headD 0) = true ∧ (strtod (scanToken r)).consumed = (scanToken r).length ∧
    x = (strtod (scanToken r)).value ∧ r' = scanRest r

mutual
/-- `Val r v r'`: at the head of `r` stands one value, without leading white space, which reads
as `v` and is followed by `r'`. -/
inductive Val : List Byte → JsonValue → List Byte → Prop
  | litNull (r : List Byte) : Val (110 :: 117 :: 108 :: 108 :: r) .null r
  | litTrue (r : List Byte) : Val (116 :: 114 :: 117 :: 101 :: r) (.bool true) r
  | litFalse (r : List Byte) : Val (102 :: 97 :: 108 :: 115 :: 101 :: r) (.bool false) r
  | string {t s : List Byte} (r : List Byte) :
      StrBody t s → Val (34 :: (t ++ 34 :: r)) (.string s) r
  | number {r r' : List Byte} {x : Dbl} : NumberAt r x r' → Val r (.number x) r'
  | arrayEmpty {w : List Byte} (r : List Byte) :
      AllSpace w → Val (91 :: (w ++ 93 :: r)) (.array []) r
  | array {r r' : List Byte} {a : JsonArray} : Elems r [] a r' → Val (91 :: r) (.array a) r'
  | objectEmpty {w : List Byte} (r : List Byte) :
      AllSpace w → Val (123 :: (w ++ 125 :: r)) (.object []) r
  | object {r r' : List Byte} {o : JsonObject} : Membs r [] o r' → Val (123 :: r) (.object o) r'
/-- `Elems r acc a r'`: `r` holds the elements left of an array and its closing bracket,
followed by `r'`; appended to `acc` they make `a`. -/
inductive Elems : List Byte → JsonArray → JsonArray → List Byte → Prop
  | last {w1 r1 w2 r' : List Byte} {v : JsonValue} (acc : JsonArray) :
      AllSpace w1 → Val r1 v (w2 ++ 93 :: r') → AllSpace w2 →
      Elems (w1 ++ r1) acc (acc ++ [v]) r'
  | more {w1 r1 w2 r2 r' : List Byte} {v : JsonValue} {a : JsonArray} (acc : JsonArray) :
      AllSpace w1 → Val r1 v (w2 ++ 44 :: r2) → AllSpace w2 → Elems r2 (acc ++ [v]) a r' →
      Elems (w1 ++ r1) acc a r'
/-- `Membs r acc o r'`: `r` holds the members left of an object and its closing brace, followed
by `r'`; emplaced in turn into `acc` they make `o`. -/
inductive Membs : List Byte → JsonObject → JsonObject → List Byte → Prop
  | last {w1 t k w2 w3 r1 w4 r' : List Byte} {v : JsonValue} (acc : JsonObject) :
      AllSpace w1 → StrBody t k → AllSpace w2 → AllSpace w3 →
      Val r1 v (w4 ++ 125 :: r') → AllSpace w4 →
      Membs (w1 ++ 34 :: (t ++ 34 :: (w2 ++ 58 :: (w3 ++ r1)))) acc (mapEmplace acc k v) r'
  | more {w1 t k w2 w3 r1 w4 r2 r' : List Byte} {v : JsonValue} {o : JsonObject}
      (acc : JsonObject) :
      AllSpace w1 → StrBody t k → AllSpace w2 → AllSpace w3 →
      Val r1 v (w4 ++ 44 :: r2) → AllSpace w4 → Membs r2 (mapEmplace acc k v) o r' →
      Membs (w1 ++ 34 :: (t ++ 34 :: (w2 ++ 58 :: (w3 ++ r1)))) acc o r'
end

/-- `Doc t v`: the whole text `t` is one value reading as `v`, with white space around it. -/
def Doc (t : List Byte) (v : JsonValue) : Prop :=
  ∃ w1 r w2, t = w1 ++ r ∧ AllSpace w1 ∧ Val r v w2 ∧ AllSpace w2

/-! ## The grammar of RFC 8259 -/

namespace Rfc8259

/-- The rule `ws = *( %x20 / %x09 / %x0A / %x0D )`. -/
def Ws (w : List Byte) : Prop := ∀ c ∈ w, c = 32 ∨ c = 9 ∨ c = 10 ∨ c = 13

/-- The rule `1*DIGIT`. -/
def Digits (t : List Byte) : Prop := t ≠ [] ∧ ∀ c ∈ t, isdigit c = true

/-- The rule `int = zero / ( digit1-9 *DIGIT )`. -/
def IsInt (t : List Byte) : Prop :=
  t = [48] ∨ ∃ c ds, t = c :: ds ∧ 49 ≤ c ∧ c ≤ 57 ∧ ∀ x ∈ ds, isdigit x = true

/-- The rule `frac = decimal-point 1*DIGIT`. -/
def IsFrac (t : List Byte) : Prop := ∃ ds, t = 46 :: ds ∧ Digits ds

/-- The rule `exp = e [ minus / plus ] 1*DIGIT`. -/
def IsExp (t : List Byte) : Prop :=
  ∃ e sg ds, t = e :: (sg ++ ds) ∧ (e = 101 ∨ e = 69) ∧ (sg = [] ∨ sg = [45] ∨ sg = [43]) ∧
    Digits ds

/-- The rule `number = [ minus ] int [ frac ] [ exp ]`. -/
def IsNumber (t : List Byte) : Prop :=
  ∃ m i f x, t = m ++ (i ++ (f ++ x)) ∧ (m = [] ∨ m = [45]) ∧ IsInt i ∧ (f = [] ∨ IsFrac f) ∧
    (x = [] ∨ IsExp x)

/-- The rule `HEXDIG` (ABNF literals are case-insensitive). -/
def isHexDigit (c : Byte) : Bool :=
  isdigit c || (decide (65 ≤ c) && decide (c ≤ 70)) || (decide (97 ≤ c) && decide (c ≤ 102))

/-- The characters after `escape` in the rule `char`, the `u` of `uXXXX` apart:
`"`, `\`, `/`, `b`, `f`, `n`, `r`, `t`. -/
def isEscapeLetter (c : Byte) : Bool :=
  decide (c = 34 ∨ c = 92 ∨ c = 47 ∨ c = 98 ∨ c = 102 ∨ c = 110 ∨ c = 114 ∨ c = 116)

/-- The rule `*char`, on the bytes of the UTF-8 text: `unescaped` is any byte from `%x20` on
other than the quotation mark and the reverse solidus (the bytes of an encoded character of
`%x80-10FFFF` are all above `%x7F`). -/
inductive Chars : List Byte → Prop
  | nil : Chars []
  | unescaped {c : Byte} {t : List Byte} :
      32 ≤ c → c ≤ 255 → c ≠ 34 → c ≠ 92 → Chars t → Chars (c :: t)
  | escape {e : Byte} {t : List Byte} : isEscapeLetter e = true → Chars t → Chars (92 :: e :: t)
  | unicode {a b c d : Byte} {t : List Byte} :
      isHexDigit a = true → isHexDigit b = true → isHexDigit c = true → isHexDigit d = true →
      Chars t → Chars (92 :: 117 :: a :: b :: c :: d :: t)

/-- The rule `string = quotation-mark *char quotation-mark`. -/
def IsString (t : List Byte) : Prop := ∃ body, t = 34 :: (body ++ [34]) ∧ Chars body

mutual
/-- The rule `value = false / null / true / object / array / number / string`, with
`array = begin-array [ value *( value-separator value ) ] end-array` and
`object = begin-object [ member *( value-separator member ) ] end-object`; the white space
that the RFC puts around the six structural characters is written where it falls. -/
inductive Value : List Byte → Prop
  | litFalse : Value [102, 97, 108, 115, 101]
  | litNull : Value [110, 117, 108, 108]
  | litTrue : Value [116, 114, 117, 101]
  | number {t : List Byte} : IsNumber t → Value t
  | string {t : List Byte} : IsString t → Value t
  | arrayEmpty {w : List Byte} : Ws w → Value (91 :: (w ++ [93]))
  | array {t : List Byte} : Elements t → Value (91 :: (t ++ [93]))
  | objectEmpty {w : List Byte} : Ws w → Value (123 :: (w ++ [125]))
  | object {t : List Byte} : Members t → Value (123 :: (t ++ [125]))
/-- The rule `value *( value-separator value )`, each value with its white space. -/
inductive Elements : List Byte → Prop
  | one {w1 t w2 : List Byte} : Ws w1 → Value t → Ws w2 → Elements (w1 ++ (t ++ w2))
  | cons {w1 t w2 ts : List Byte} :
      Ws w1 → Value t → Ws w2 → Elements ts → Elements (w1 ++ (t ++ (w2 ++ 44 :: ts)))
/-- The rule `member *( value-separator member )` with `member = string name-separator
value`. -/
inductive Members : List Byte → Prop
  | one {w1 k w2 w3 t w4 : List Byte} :
      Ws w1 → IsString k → Ws w2 → Ws w3 → Value t → Ws w4 →
      Members (w1 ++ (k ++ (w2 ++ 58 :: (w3 ++ (t ++ w4)))))
  | cons {w1 k w2 w3 t w4 ts : List Byte} :
      Ws w1 → IsString k → Ws w2 → Ws w3 → Value t → Ws w4 → Members ts →
      Members (w1 ++ (k ++ (w2 ++ 58 :: (w3 ++ (t ++ (w4 ++ 44 :: ts))))))
end

/-- The rule `JSON-text = ws value ws`. -/
def JsonText (t : List Byte) : Prop :=
  ∃ w1 v w2, t = w1 ++ (v ++ w2) ∧ Ws w1 ∧ Value v ∧ Ws w2

end Rfc8259

/-! ## Values the class can hold -/

/-- The keys of the entries are in strictly ascending order, as in every `std::map`. -/
def keysAscending : List (List Byte × JsonValue) → Bool
  | [] => true
  | [_] => true
  | (k1, _) :: (k2, v2) :: rest => strLess k1 k2 && keysAscending ((k2, v2) :: rest)

mutual
/-- Every object inside `v` is a `std::map`: its keys are in strictly ascending order. This is
what the constructors and the subscript operators of `JsonValue` can build. -/
def JsonValue.wellFormed : JsonValue → Bool
  | .object o => keysAscending o && wellFormedMembers o
  | .array a => wellFormedElements a
  | _ => true
/-- Every element is well formed. -/
def wellFormedElements : List JsonValue → Bool
  | [] => true
  | v :: rest => v.wellFormed && wellFormedElements rest
/-- Every member value is well formed. -/
def wellFormedMembers : List (List Byte × JsonValue) → Bool
  | [] => true
  | (_, v) :: rest => v.wellFormed && wellFormedMembers rest
end

mutual
/-- The `double` payloads of the `Number` nodes of `v`. -/
def JsonValue.numbers : JsonValue → List Dbl
  | .number d => [d]
  | .object o => numbersOfMembers o
  | .array a => numbersOfElements a
  | _ => []
/-- The `double` payloads inside a list of elements. -/
def numbersOfElements : List JsonValue → List Dbl
  | [] => []
  | v :: rest => v.numbers ++ numbersOfElements rest
/-- The `double` payloads inside a list of members. -/
def numbersOfMembers : List (List Byte × JsonValue) → List Dbl
  | [] => []
  | (_, v) :: rest => v.numbers ++ numbersOfMembers rest
end

/-! ## Positions in a text, and what comes before a value -/

/-- Line and column, counted from 1, of the character that follows `pre` in a text: every
newline of `pre` starts a line at column 1, every other character takes one column. -/
def positionAfter (pre : List Byte) : ErrorPos :=
  pre.foldl (fun p c => if c = 10 then ⟨p.line + 1, 1⟩ else ⟨p.line, p.col + 1⟩) ⟨1, 1⟩

/-- The members `posinfo` hold the line and column of the character at the offset `pos`. -/
def JsonDeserializer.Tracked (d : JsonDeserializer) : Prop :=
  d.posinfo = positionAfter (d.string.take d.pos)

/-- The members `d1` come after `d` on the same source, with the position kept up to date. -/
def JsonDeserializer.Follows (d d1 : JsonDeserializer) : Prop :=
  d1.string = d.string ∧ (d.Tracked → d1.Tracked)

/-- The members of a deserializer of the text `pre ++ rest` once it has read `pre`. -/
def JsonDeserializer.stateAfter (pre rest : List Byte) : JsonDeserializer :=
  { string := pre ++ rest, pos := pre.length, posinfo := positionAfter pre }

/-- `ArrayItems ts`: `ts` is a sequence of complete array elements, each one a document with
its white space and followed by a comma. -/
inductive ArrayItems : List Byte → Prop
  | nil : ArrayItems []
  | cons {t ts : List Byte} {v : JsonValue} : Doc t v → ArrayItems ts →
      ArrayItems (t ++ 44 :: ts)

/-- `ObjectItems ts`: `ts` is a sequence of complete object members `"key" : value`, each one
followed by a comma. -/
inductive ObjectItems : List Byte → Prop
  | nil : ObjectItems []
  | cons {w1 tk k w2 t ts : List Byte} {v : JsonValue} : AllSpace w1 → StrBody tk k →
      AllSpace w2 → Doc t v → ObjectItems ts →
      ObjectItems (w1 ++ 34 :: (tk ++ 34 :: (w2 ++ 58 :: (t ++ 44 :: ts))))

/-- `ValueExpected p first`: after the text `p` a value is expected: at the start of the
document, as an element of an open array, or after the colon of a member of an open object,
the enclosing array or object standing itself where a value is expected. `first` tells
whether `p` ends right after an opening bracket, where `]` would close the empty array. -/
inductive ValueExpected : List Byte → Bool → Prop
  | top {w : List Byte} : AllSpace w → ValueExpected w false
  | element {p ts w : List Byte} {b : Bool} : ValueExpected p b → ArrayItems ts → AllSpace w →
      ValueExpected (p ++ 91 :: (ts ++ w)) ts.isEmpty
  | member {p ts w1 tk k w2 w3 : List Byte} {b : Bool} : ValueExpected p b → ObjectItems ts →
      AllSpace w1 → StrBody tk k → AllSpace w2 → AllSpace w3 →
      ValueExpected (p ++ 123 :: (ts ++ (w1 ++ 34 :: (tk ++ 34 :: (w2 ++ 58 :: w3))))) false

/-- `KeyExpected p first`: after the text `p` the key of a member is expected, in an open
object that stands where a value is expected. `first` tells whether `p` ends right after the
opening brace, where `\x7d` would close the empty object, or after the comma of a member. -/
inductive KeyExpected : List Byte → Bool → Prop
  | mk {p ts w : List Byte} {b : Bool} : ValueExpected p b → ObjectItems ts → AllSpace w →
      KeyExpected (p ++ 123 :: (ts ++ w)) ts.isEmpty

/-! ## The compact text, as the specification words it -/

/-- The text written for one character according to the escape table of the specification:
`\"` for a double quote, `\\` for a backslash, `\b`, `\f`, `\n`, `\r`, `\t` for backspace,
form feed, newline, carriage return and tab, and the character itself otherwise. -/
def escapeByte : Byte → List Byte
  | 34 => [92, 34]
  | 92 => [92, 92]
  | 8 => [92, 98]
  | 12 => [92, 102]
  | 10 => [92, 110]
  | 13 => [92, 114]
  | 9 => [92, 116]
  | c => [c]

/-- A string between double quotes, escaped, as it stands in the output. -/
def quoted (s : List Byte) : List Byte := [34] ++ JsonSerializer.escape s ++ [34]

mutual
/-- The compact text of a value as the specification words it, the strings and keys being
rendered by `q`: an array is `[`, its elements separated by a single `,`, and `]`; an object
is `\x7b`, its members separated by a single `,`, and `\x7d`, a member being the key, a single
`:` and the value. -/
def compactText (q : List Byte → List Byte) : JsonValue → List Byte
  | .null => lit "null"
  | .bool b => if b then lit "true" else lit "false"
  | .number d => if d.isfinite then ostreamDouble d else lit "null"
  | .string s => q s
  | .array a => [91] ++ compactElements q a ++ [93]
  | .object o => [123] ++ compactMembers q o ++ [125]
/-- The elements, separated by commas. -/
def compactElements (q : List Byte → List Byte) : List JsonValue → List Byte
  | [] => []
  | [v] => compactText q v
  | v :: w :: rest => compactText q v ++ [44] ++ compactElements q (w :: rest)
/-- The members, separated by commas. -/
def compactMembers (q : List Byte → List Byte) : List (List Byte × JsonValue) → List Byte
  | [] => []
  | [(k, v)] => q k ++ [58] ++ compactText q v
  | (k, v) :: m :: rest => q k ++ [58] ++ compactText q v ++ [44] ++ compactMembers q (m :: rest)
end

/-! ## The decoding of `\uXXXX` in the words of the specification -/

namespace Spec

/-- The value of a hexadecimal digit, upper or lower case. -/
def hexValue (c : Nat) : Nat :=
  if c ≤ 57 then c - 48 else if c ≤ 70 then c - 55 else c - 87

/-- The code point that the four hexadecimal digits of an escape `\uXXXX` denote. -/
def codePoint (a b c d : Byte) : Nat :=
  4096 * hexValue a + 256 * hexValue b + 16 * hexValue c + hexValue d

/-- The UTF-8 encoding of a code point `c` up to U+FFFF: the single byte `c` when
`c <= 0x7F`; the two bytes `0xC0|(c>>6)`, `0x80|(c&0x3F)` when `0x80 <= c <= 0x7FF`; otherwise
the three bytes `0xE0|(c>>12)`, `0x80|((c>>6)&0x3F)`, `0x80|(c&0x3F)`. -/
def utf8 (c : Nat) : List Byte :=
  if c ≤ 0x7F then [c]
  else if c ≤ 0x7FF then [0xC0 ||| (c >>> 6), 0x80 ||| (c &&& 0x3F)]
  else [0xE0 ||| (c >>> 12), 0x80 ||| ((c >>> 6) &&& 0x3F), 0x80 ||| (c &&& 0x3F)]

end Spec

/-! ## How deep the pretty printer indents -/

mutual
/-- The number of nonempty containers around the innermost place of `v`: the greatest
`level + 1` for which `serializeInternal`, started at level 0 with `pretty` set, builds an
indentation. -/
def JsonValue.depth : JsonValue → Nat
  | .array a => if a.isEmpty then 0 else depthOfElements a + 1
  | .object o => if o.isEmpty then 0 else depthOfMembers o + 1
  | _ => 0
/-- The greatest depth of an element. -/
def depthOfElements : List JsonValue → Nat
  | [] => 0
  | v :: rest => max v.depth (depthOfElements rest)
/-- The greatest depth of a member value. -/
def depthOfMembers : List (List Byte × JsonValue) → Nat
  | [] => 0
  | (_, v) :: rest => max v.depth (depthOfMembers rest)
end

/-! ## Offsets: how far a call has read, where the loops call, what the scan reads -/

namespace JsonDeserializer

/-- The members `d1` are those of `d` further on in the same source: the offset has not
decreased and is at most the length of the source. -/
def Ahead (d d1 : JsonDeserializer) : Prop :=
  d1.string = d.string ∧ d.pos ≤ d1.pos ∧ d1.pos ≤ d1.string.length

/-- The offsets at which the `while (true)` loop of `parseArray(err_out)` calls
`parseJsonValue`, in the order of the calls. -/
def arrayLoopCalls : Nat → JsonDeserializer → ParseError → List Nat
  | 0, _, _ => []
  | fuel + 1, d, err_out =>
    let d := d.skipWhitespace
    d.pos :: match parseJsonValue fuel d err_out with
    | none => []
    | some (_, d, err_out) =>
      if err_out.what ≠ [] then []
      else
        let d := d.skipWhitespace
        if d.peek = 93 then []
        else if d.peek = 44 then arrayLoopCalls fuel d.advance.skipWhitespace err_out
        else []

/-- The offsets at which `parseArray(err_out)` calls `parseJsonValue`. -/
def parseArrayCalls : Nat → JsonDeserializer → ParseError → List Nat
  | 0, _, _ => []
  | fuel + 1, d, err_out =>
    match expectChar 91 d err_out with
    | (false, _, _) => []
    | (true, d, err_out) =>
      let d := d.skipWhitespace
      if d.peek = 93 then []
      else arrayLoopCalls fuel d err_out

/-- The offsets at which the `while (true)` loop of `parseObject(err_out)` calls
`parseJsonValue`, in the order of the calls. -/
def objectLoopCalls : Nat → JsonDeserializer → ParseError → List Nat
  | 0, _, _ => []
  | fuel + 1, d, err_out =>
    let d := d.skipWhitespace
    if d.peek ≠ 34 then []
    else
      let (_, d, err_out) := parseString d err_out
      if err_out.what ≠ [] then []
      else
        let d := d.skipWhitespace
        match expectChar 58 d err_out with
        | (false, _, _) => []
        | (true, d, err_out) =>
          let d := d.skipWhitespace
          d.pos :: match parseJsonValue fuel d err_out with
          | none => []
          | some (_, d, err_out) =>
            if err_out.what ≠ [] then []
            else
              let d := d.skipWhitespace
              if d.peek = 125 then []
              else if d.peek = 44 then objectLoopCalls fuel d.advance.skipWhitespace err_out
              else []

/-- The offsets at which `parseObject(err_out)` calls `parseJsonValue`. -/
def parseObjectCalls : Nat → JsonDeserializer → ParseError → List Nat
  | 0, _, _ => []
  | fuel + 1, d, err_out =>
    match expectChar 123 d err_out with
    | (false, _, _) => []
    | (true, d, err_out) =>
      let d := d.skipWhitespace
      if d.peek = 125 then []
      else objectLoopCalls fuel d err_out

/-- The offsets at which a call of `advance()` evaluates `string[pos]`. -/
def advanceReads (d : JsonDeserializer) : List Nat :=
  if d.pos ≥ d.string.length then [] else [d.pos]

/-- The offsets at which the loop `while (pos < string.size() && std::isdigit(string[pos]))
advance();` evaluates `string[pos]`, the reads of `advance()` included. -/
def skipDigitsLoopReads : Nat → JsonDeserializer → List Nat
  | 0, _ => []
  | fuel + 1, d =>
    if d.pos < d.string.length then
      d.pos :: (if isdigit d.cur = true then advanceReads d ++ skipDigitsLoopReads fuel d.advance
        else [])
    else []

/-- The reads of the digit loop with enough fuel for the rest of the input. -/
def skipDigitsReads (d : JsonDeserializer) : List Nat :=
  skipDigitsLoopReads d.string.length d

/-- The offsets read by a test `string[pos] == a || string[pos] == b`: the second comparison
is evaluated when the first fails. -/
def eitherReads (d : JsonDeserializer) (a : Byte) : List Nat :=
  if d.cur = a then [d.pos] else [d.pos, d.pos]

/-- The offsets at which `if (string[pos] == '-') advance();` evaluates `string[pos]`. -/
def scanSignReads (d : JsonDeserializer) : List Nat :=
  d.pos :: (if d.cur = 45 then advanceReads d else [])

/-- The offsets at which `if (pos < string.size() && string[pos] == '.') { ... }` evaluates
`string[pos]`. -/
def scanFractionReads (d : JsonDeserializer) : List Nat :=
  if d.pos < d.string.length then
    d.pos :: (if d.cur = 46 then advanceReads d ++ skipDigitsReads d.advance else [])
  else []

/-- The offsets at which `if (pos < string.size() && (string[pos] == 'e' || string[pos] ==
'E')) { ... }` evaluates `string[pos]`; the test of the sign after the letter comes without
`pos < string.size()`. -/
def scanExponentReads (d : JsonDeserializer) : List Nat :=
  if d.pos < d.string.length then
    eitherReads d 101 ++
      (if d.cur = 101 ∨ d.cur = 69 then
        advanceReads d ++
          (let d := d.advance
           eitherReads d 43 ++
             (if d.cur = 43 ∨ d.cur = 45 then advanceReads d ++ skipDigitsReads d.advance
              else skipDigitsReads d))
      else [])
  else []

/-- The offsets at which the scan of `parseNumber` evaluates `string[pos]`, in the order of
the reads. -/
def scanNumberReads (d : JsonDeserializer) : List Nat :=
  scanSignReads d ++ skipDigitsReads (scanSign d) ++
    scanFractionReads (skipDigits (scanSign d)) ++
    scanExponentReads (scanFraction (skipDigits (scanSign d)))

end JsonDeserializer

/-! ## The pretty text, as the specification words it -/

mutual
/-- The pretty text of a value at nesting level `L` for the indent width `w`, as the
specification words it: a non-empty array is `[`, a newline, its elements, a newline, `L * w`
spaces and `]`; a non-empty object is the same with `\x7b` and `\x7d`; an empty array or
object is `[]` or `\x7b\x7d`; any other value is written as in the compact text. -/
def prettyText (w : Nat) : Nat → JsonValue → List Byte
  | _, .null => lit "null"
  | _, .bool b => if b then lit "true" else lit "false"
  | _, .number d => if d.isfinite then ostreamDouble d else lit "null"
  | _, .string s => quoted s
  | L, .array a =>
    if a.isEmpty then [91, 93]
    else [91] ++ [10] ++ prettyElements w L a ++ [10] ++ List.replicate (L * w) 32 ++ [93]
  | L, .object o =>
    if o.isEmpty then [123, 125]
    else [123] ++ [10] ++ prettyMembers w L o ++ [10] ++ List.replicate (L * w) 32 ++ [125]
/-- The elements of an array at level `L`: each one preceded by `(L + 1) * w` spaces and
written at level `L + 1`, consecutive elements separated by `,` and a newline. -/
def prettyElements (w : Nat) : Nat → List JsonValue → List Byte
  | _, [] => []
  | L, [v] => List.replicate ((L + 1) * w) 32 ++ prettyText w (L + 1) v
  | L, v :: u :: rest =>
    List.replicate ((L + 1) * w) 32 ++ prettyText w (L + 1) v ++ [44, 10] ++
      prettyElements w L (u :: rest)
/-- The members of an object at level `L`: each one preceded by `(L + 1) * w` spaces and
made of the quoted escaped key, a colon, one space and the value written at level `L + 1`,
consecutive members separated by `,` and a newline. -/
def prettyMembers (w : Nat) : Nat → List (List Byte × JsonValue) → List Byte
  | _, [] => []
  | L, [(k, v)] => List.replicate ((L + 1) * w) 32 ++ quoted k ++ [58, 32] ++ prettyText w (L + 1) v
  | L, (k, v) :: m :: rest =>
    List.replicate ((L + 1) * w) 32 ++ quoted k ++ [58, 32] ++ prettyText w (L + 1) v ++
      [44, 10] ++ prettyMembers w L (m :: rest)
end

/-! ## What the deserializer reads in the text of a value -/

mutual
/-- The value the deserializer returns for the text the serializer writes for `v`: a finite
number becomes what `strtod` converts its text to, a number that is not finite becomes Null
(it is written as `null`), the members of an object are emplaced one after the other, and
everything else is read as it is. -/
def readBack : JsonValue → JsonValue
  | .null => .null
  | .bool b => .bool b
  | .number d => if d.isfinite then .number (strtod (ostreamDouble d)).value else .null
  | .string s => .string s
  | .array a => .array (readBackElements a)
  | .object o => .object (readBackMembers o [])
/-- The elements read back. -/
def readBackElements : List JsonValue → List JsonValue
  | [] => []
  | v :: rest => readBack v :: readBackElements rest
/-- The members read back and emplaced into `acc`. -/
def readBackMembers : List (List Byte × JsonValue) → JsonObject → JsonObject
  | [], acc => acc
  | (k, v) :: rest, acc => readBackMembers rest (mapEmplace acc k (readBack v))
end

/-! ## Tokens and the places between them -/

/-- Where a reader of a JSON text stands: outside a string, inside a string, or inside a
string right after a backslash. -/
inductive LexState where
  | out
  | str
  | esc
deriving DecidableEq, Repr

/-- The step of the reader over one character: a double quote opens a string and closes it,
and inside a string a backslash takes the next character with it. -/
def LexState.read : LexState → Byte → LexState
  | .out, c => if c = 34 then .str else .out
  | .str, c => if c = 34 then .out else if c = 92 then .esc else .str
  | .esc, _ => .str

/-- Where the reader stands after the text `a`, started in the state `s`. -/
def lexFrom (s : LexState) (a : List Byte) : LexState := a.foldl LexState.read s

/-- Where the reader stands after the text `a`, started outside a string. -/
def lexAfter (a : List Byte) : LexState := lexFrom .out a

/-- The characters that are a token by themselves: `[`, `]`, `\x7b`, `\x7d`, `:` and `,`. -/
def structural (c : Byte) : Bool :=
  decide (c = 91) || decide (c = 93) || decide (c = 123) || decide (c = 125) ||
    decide (c = 58) || decide (c = 44)

/-- The letters of the literals `true`, `false` and `null`. -/
def literalChar (c : Byte) : Bool :=
  decide (c = 116) || decide (c = 114) || decide (c = 117) || decide (c = 101) ||
    decide (c = 102) || decide (c = 97) || decide (c = 108) || decide (c = 115) ||
    decide (c = 110)

/-- The characters that stand in some token outside a string: the structural characters, the
double quote, the characters of numbers and the letters of the literals. -/
def tokenChar (c : Byte) : Bool :=
  structural c || decide (c = 34) || numberChar c || literalChar c

/-- A character that is neither white space, nor a token by itself, nor a double quote: two
such characters next to each other outside a string belong to one token. -/
def wordChar (c : Byte) : Bool := !isspace c && !structural c && !decide (c = 34)

/-- `Between a b`: in the text `a ++ b` the place after `a` is between two tokens, or before
the first or after the last: it is outside a string, and the characters next to it are not
both characters of a number or a literal. -/
def Between (a b : List Byte) : Prop :=
  lexAfter a = .out ∧ ¬ (wordChar (a.getLast?.getD 32) = true ∧ wordChar (b.headD 32) = true)

/-- `Insertable D s`: the reader is outside a string after `s`, every character of `s`
outside a string is white space or stands in a token, and `s` with a white space character
inserted at any place between tokens satisfies `D`. -/
def Insertable (D : List Byte → Prop) (s : List Byte) : Prop :=
  lexAfter s = .out ∧
  (∀ a c b, s = a ++ c :: b → lexAfter a = .out → isspace c = true ∨ tokenChar c = true) ∧
  ∀ a b c, s = a ++ b → Between a b → isspace c = true → D (a ++ c :: b)

/-! ## The depth of the native recursion -/

namespace JsonDeserializer

mutual
/-- The greatest number of activations of `parseJsonValue` that are on the call stack at one
time while the call `parseJsonValue(err_out)` runs, this one included: the function calls
`parseArray` or `parseObject`, whose loops call it again, and nothing in the source counts or
limits these calls. -/
def parseJsonValueDepth : Nat → JsonDeserializer → ParseError → Nat
  | 0, _, _ => 0
  | fuel + 1, d, err_out =>
    if d.pos ≥ d.string.length then 1
    else
      let c := d.cur
      if c = 110 then 1
      else if c = 116 ∨ c = 102 then 1
      else if c = 34 then 1
      else if c = 91 then 1 + parseArrayDepth fuel d err_out
      else if c = 123 then 1 + parseObjectDepth fuel d err_out
      else 1
/-- The same number for the calls of `parseJsonValue` made while `parseObject(err_out)` runs. -/
def parseObjectDepth : Nat → JsonDeserializer → ParseError → Nat
  | 0, _, _ => 0
  | fuel + 1, d, err_out =>
    match expectChar 123 d err_out with
    | (false, _, _) => 0
    | (true, d, err_out) =>
      let d := d.skipWhitespace
      if d.peek = 125 then 0
      else parseObjectLoopDepth fuel d err_out
/-- The same number for the `while (true)` loop of `parseObject(err_out)`: the calls of
successive iterations follow one another, so the greatest of their depths counts. -/
def parseObjectLoopDepth : Nat → JsonDeserializer → ParseError → Nat
  | 0, _, _ => 0
  | fuel + 1, d, err_out =>
    let d := d.skipWhitespace
    if d.peek ≠ 34 then 0
    else
      let (_, d, err_out) := parseString d err_out
      if err_out.what ≠ [] then 0
      else
        let d := d.skipWhitespace
        match expectChar 58 d err_out with
        | (false, _, _) => 0
        | (true, d, err_out) =>
          let d := d.skipWhitespace
          max (parseJsonValueDepth fuel d err_out)
            (match parseJsonValue fuel d err_out with
            | none => 0
            | some (_, d, err_out) =>
              if err_out.what ≠ [] then 0
              else
                let d := d.skipWhitespace
                if d.peek = 125 then 0
                else if d.peek = 44 then
                  parseObjectLoopDepth fuel d.advance.skipWhitespace err_out
                else 0)
/-- The same number for the calls of `parseJsonValue` made while `parseArray(err_out)` runs. -/
def parseArrayDepth : Nat → JsonDeserializer → ParseError → Nat
  | 0, _, _ => 0
  | fuel + 1, d, err_out =>
    match expectChar 91 d err_out with
    | (false, _, _) => 0
    | (true, d, err_out) =>
      let d := d.skipWhitespace
      if d.peek = 93 then 0
      else parseArrayLoopDepth fuel d err_out
/-- The same number for the `while (true)` loop of `parseArray(err_out)`. -/
def parseArrayLoopDepth : Nat → JsonDeserializer → ParseError → Nat
  | 0, _, _ => 0
  | fuel + 1, d, err_out =>
    let d := d.skipWhitespace
    max (parseJsonValueDepth fuel d err_out)
      (match parseJsonValue fuel d err_out with
      | none => 0
      | some (_, d, err_out) =>
        if err_out.what ≠ [] then 0
        else
          let d := d.skipWhitespace
          if d.peek = 93 then 0
          else if d.peek = 44 then parseArrayLoopDepth fuel d.advance.skipWhitespace err_out
          else 0)
end

/-- The depth of the native recursion of `deserialize(src, err_out)`: the greatest number of
nested activations of `parseJsonValue` during the call made by `deserializeInternal`. -/
def recursionDepth (src : List Byte) : Nat :=
  parseJsonValueDepth (fuelFor src.length)
    (JsonDeserializer.skipWhitespace { string := src }) {}

end JsonDeserializer

/-! ## Numbers that six significant digits determine -/

/-- The decimal exponent that `ostreamDouble` finds for the value `num / den`, the floor of
its decimal logarithm. -/
def decimalExponent (num den : Nat) : Int :=
  if den ≤ num then (decimalLength (num / den) : Int) - 1
  else
    let k := decimalLength (den / num)
    if den ≤ num * 10 ^ (k - 1) then -((k : Int) - 1) else -(k : Int)

/-- The text that `ostreamDouble` lays out from the sign, the six significant digits `digs`
and the decimal exponent `x`. -/
def ostreamLayout (sign : List Byte) (digs : Nat) (x : Int) : List Byte :=
  let ds := decimalDigits 6 6 digs
  if -4 ≤ x ∧ x < 6 then
    let whole := if x < 0 then [48] else ds.take (x.toNat + 1)
    let frac := if x < 0 then List.replicate ((-x).toNat - 1) 48 ++ ds
                else ds.drop (x.toNat + 1)
    let frac := stripTrailingZeros frac
    sign ++ whole ++ (if frac = [] then [] else 46 :: frac)
  else
    let frac := stripTrailingZeros (ds.drop 1)
    sign ++ ds.take 1 ++ (if frac = [] then [] else 46 :: frac)
      ++ [101, if x < 0 then 45 else 43] ++ decimalDigits 5 2 x.natAbs

/-- Six significant decimal digits determine the double `d`: it is finite and the double
nearest to a decimal `± s * 10^a / 10^b` whose digits `s` are six at most. -/
def SixDigits (d : Dbl) : Prop :=
  ∃ (neg : Bool) (s a b : Nat), s < 10 ^ 6 ∧
    d = (roundToDouble neg (s * 10 ^ a) (10 ^ b)).1 ∧ d.isfinite = true

/-! # Properties -/

open JsonDeserializer

/-! ## Stepping through the source -/

theorem isspace_iff (c : Nat) : isspace c = true ↔ c = 32 ∨ (9 ≤ c ∧ c ≤ 13) := by
  simp [isspace]

theorem isdigit_iff (c : Nat) : isdigit c = true ↔ 48 ≤ c ∧ c ≤ 57 := by
  simp [isdigit]

namespace JsonDeserializer

theorem At.cur {d : JsonDeserializer} {r : List Byte} (h : d.At r) : d.cur = r.headD 0 := by
  obtain ⟨_, h2⟩ := h
  subst h2
  simp [JsonDeserializer.cur, List.getD_eq_getElem?_getD, List.headD_eq_head?_getD,
    List.head?_drop]

theorem At.pos_lt {d : JsonDeserializer} {c : Byte} {r : List Byte} (h : d.At (c :: r)) :
    d.pos < d.string.length := by
  obtain ⟨_, h2⟩ := h
  by_contra hn
  rw [List.drop_eq_nil_of_le (by omega)] at h2
  cases h2

theorem At.pos_eq {d : JsonDeserializer} (h : d.At []) : d.pos = d.string.length := by
  obtain ⟨h1, h2⟩ := h
  have := List.drop_eq_nil_iff.mp h2
  omega

theorem At.length {d : JsonDeserializer} {r : List Byte} (h : d.At r) :
    d.pos + r.length = d.string.length := by
  obtain ⟨h1, h2⟩ := h
  subst h2
  simp
  omega

theorem At.lt_iff {d : JsonDeserializer} {r : List Byte} (h : d.At r) :
    d.pos < d.string.length ↔ r ≠ [] := by
  have := h.length
  cases r with
  | nil => simp at this ⊢; omega
  | cons c r => simp at this ⊢; omega

theorem At.peek {d : JsonDeserializer} {r : List Byte} (h : d.At r) : d.peek = r.headD 0 := by
  unfold JsonDeserializer.peek
  split
  · rename_i hge
    have := h.length
    cases r with
    | nil => rfl
    | cons c r => simp at this; omega
  · exact h.cur

/-- One character is consumed: the offset moves by one, whatever happens to `posinfo`. -/
theorem At.step {d : JsonDeserializer} {c : Byte} {r : List Byte} (h : d.At (c :: r))
    (p : ErrorPos) : JsonDeserializer.At { d with pos := d.pos + 1, posinfo := p } r := by
  have hlt := h.pos_lt
  obtain ⟨h1, h2⟩ := h
  refine ⟨by simpa using hlt, ?_⟩
  show d.string.drop (d.pos + 1) = r
  rw [← List.drop_drop, h2]
  rfl

theorem advance_eq {d : JsonDeserializer} {c : Byte} {r : List Byte} (h : d.At (c :: r)) :
    d.advance = { d with
      pos := d.pos + 1,
      posinfo := (if c = 10 then ⟨d.posinfo.line + 1, 1⟩
        else ⟨d.posinfo.line, d.posinfo.col + 1⟩) } := by
  have hlt := h.pos_lt
  have hc : d.cur = c := by simpa using h.cur
  unfold JsonDeserializer.advance
  rw [if_neg (by omega), hc]
  split <;> rfl

theorem At.advance {d : JsonDeserializer} {c : Byte} {r : List Byte} (h : d.At (c :: r)) :
    d.advance.At r := by
  rw [advance_eq h]
  exact h.step _

theorem advance_nil {d : JsonDeserializer} (h : d.At []) : d.advance = d := by
  unfold JsonDeserializer.advance
  rw [if_pos (by have := h.pos_eq; omega)]

theorem advance_string (d : JsonDeserializer) : d.advance.string = d.string := by
  unfold JsonDeserializer.advance
  split
  · rfl
  · split <;> rfl

theorem At.advance_drop {d : JsonDeserializer} {r : List Byte} (h : d.At r) :
    d.advance.At (r.drop 1) := by
  cases r with
  | nil => rw [advance_nil h]; exact h
  | cons c r => exact h.advance

/-! ### `skipWhitespace` and the digit loop -/

theorem skipWhitespaceLoop_at (fuel : Nat) : ∀ (d : JsonDeserializer) (r : List Byte),
    d.At r → r.length ≤ fuel → (skipWhitespaceLoop fuel d).At (r.dropWhile isspace) := by
  induction fuel with
  | zero =>
    intro d r h hl
    have : r = [] := List.length_eq_zero.mp (by omega)
    subst this
    simpa [skipWhitespaceLoop] using h
  | succ n ih =>
    intro d r h hl
    unfold skipWhitespaceLoop
    cases r with
    | nil =>
      rw [if_neg (by rw [h.lt_iff]; simp)]
      simpa using h
    | cons c r =>
      have hc : d.cur = c := by simpa using h.cur
      by_cases hs : isspace c = true
      · rw [if_pos ⟨h.pos_lt, by rw [hc]; exact hs⟩]
        have := ih d.advance r h.advance (by simpa using hl)
        simpa [List.dropWhile_cons, hs] using this
      · rw [if_neg (by rw [hc]; tauto)]
        simpa [List.dropWhile_cons, hs] using h

theorem At.skipWhitespace {d : JsonDeserializer} {r : List Byte} (h : d.At r) :
    d.skipWhitespace.At (r.dropWhile isspace) :=
  skipWhitespaceLoop_at _ d r h (by have := h.length; omega)

theorem skipDigitsLoop_at (fuel : Nat) : ∀ (d : JsonDeserializer) (r : List Byte),
    d.At r → r.length ≤ fuel → (skipDigitsLoop fuel d).At (r.drop (digitRun r)) := by
  induction fuel with
  | zero =>
    intro d r h hl
    have : r = [] := List.length_eq_zero.mp (by omega)
    subst this
    simpa [skipDigitsLoop] using h
  | succ n ih =>
    intro d r h hl
    unfold skipDigitsLoop
    cases r with
    | nil =>
      rw [if_neg (by rw [h.lt_iff]; simp)]
      simpa using h
    | cons c r =>
      have hc : d.cur = c := by simpa using h.cur
      by_cases hs : isdigit c = true
      · rw [if_pos ⟨h.pos_lt, by rw [hc]; exact hs⟩]
        have := ih d.advance r h.advance (by simpa using hl)
        simpa [digitRun, hs] using this
      · rw [if_neg (by rw [hc]; tauto)]
        simpa [digitRun, hs] using h

theorem At.skipDigits {d : JsonDeserializer} {r : List Byte} (h : d.At r) :
    d.skipDigits.At (r.drop (digitRun r)) :=
  skipDigitsLoop_at _ d r h (by have := h.length; omega)

end JsonDeserializer

namespace JsonDeserializer

theorem skipWhitespaceLoop_string (fuel : Nat) (d : JsonDeserializer) :
    (skipWhitespaceLoop fuel d).string = d.string := by
  induction fuel generalizing d with
  | zero => rfl
  | succ n ih =>
    unfold skipWhitespaceLoop
    split
    · rw [ih, advance_string]
    · rfl

theorem skipWhitespace_string (d : JsonDeserializer) : d.skipWhitespace.string = d.string :=
  skipWhitespaceLoop_string _ d

theorem skipDigitsLoop_string (fuel : Nat) (d : JsonDeserializer) :
    (skipDigitsLoop fuel d).string = d.string := by
  induction fuel generalizing d with
  | zero => rfl
  | succ n ih =>
    unfold skipDigitsLoop
    split
    · rw [ih, advance_string]
    · rfl

theorem skipDigits_string (d : JsonDeserializer) : d.skipDigits.string = d.string :=
  skipDigitsLoop_string _ d

theorem At.test {d : JsonDeserializer} {r : List Byte} (h : d.At r) {c : Byte} (hc : c ≠ 0) :
    (d.pos < d.string.length ∧ d.cur = c) ↔ r.headD 0 = c := by
  rw [h.cur, h.lt_iff]
  cases r with
  | nil => simp; exact fun h => hc h.symm
  | cons x r => simp

theorem At.scanSign {d : JsonDeserializer} {r : List Byte} (h : d.At r) :
    d.scanSign.At (if r.headD 0 = 45 then r.drop 1 else r) := by
  unfold JsonDeserializer.scanSign
  rw [h.cur]
  split
  · exact h.advance_drop
  · exact h

theorem At.scanFraction {d : JsonDeserializer} {r : List Byte} (h : d.At r) :
    d.scanFraction.At (if r.headD 0 = 46 then (r.drop 1).drop (digitRun (r.drop 1)) else r) := by
  unfold JsonDeserializer.scanFraction
  rw [if_congr (h.test (by decide : (46 : Byte) ≠ 0)) rfl rfl]
  split
  · exact h.advance_drop.skipDigits
  · exact h

theorem At.scanExponent {d : JsonDeserializer} {r : List Byte} (h : d.At r) :
    d.scanExponent.At (if r.headD 0 = 101 ∨ r.headD 0 = 69 then
      (if (r.drop 1).headD 0 = 43 ∨ (r.drop 1).headD 0 = 45 then (r.drop 1).drop 1 else r.drop 1).drop
        (digitRun (if (r.drop 1).headD 0 = 43 ∨ (r.drop 1).headD 0 = 45 then (r.drop 1).drop 1
          else r.drop 1))
      else r) := by
  unfold JsonDeserializer.scanExponent
  have hcond : (d.pos < d.string.length ∧ (d.cur = 101 ∨ d.cur = 69)) ↔
      (r.headD 0 = 101 ∨ r.headD 0 = 69) := by
    rw [and_or_left, h.test (by decide : (101 : Byte) ≠ 0), h.test (by decide : (69 : Byte) ≠ 0)]
  rw [if_congr hcond rfl rfl]
  split
  · simp only []
    rw [h.advance_drop.cur]
    split
    · exact h.advance_drop.advance_drop.skipDigits
    · exact h.advance_drop.skipDigits
  · exact h

theorem scanSign_string (d : JsonDeserializer) : d.scanSign.string = d.string := by
  unfold JsonDeserializer.scanSign
  split
  · exact advance_string d
  · rfl

theorem scanFraction_string (d : JsonDeserializer) : d.scanFraction.string = d.string := by
  unfold JsonDeserializer.scanFraction
  split
  · rw [skipDigits_string, advance_string]
  · rfl

theorem scanExponent_string (d : JsonDeserializer) : d.scanExponent.string = d.string := by
  unfold JsonDeserializer.scanExponent
  split
  · simp only []
    split
    · rw [skipDigits_string, advance_string, advance_string]
    · rw [skipDigits_string, advance_string]
  · rfl

theorem scanNumber_string (d : JsonDeserializer) : (scanNumber d).1.string = d.string := by
  show (scanExponent (scanFraction (skipDigits (scanSign d)))).string = d.string
  rw [scanExponent_string, scanFraction_string, skipDigits_string, scanSign_string]

theorem At.scanNumber {d : JsonDeserializer} {r : List Byte} (h : d.At r) :
    (scanNumber d).1.At (scanRest r) :=
  h.scanSign.skipDigits.scanFraction.scanExponent

theorem scanNumber_token {d : JsonDeserializer} {r : List Byte} (h : d.At r) :
    (scanNumber d).2 = scanToken r := by
  have h1 := h.length
  have h2 := h.scanNumber.length
  rw [scanNumber_string] at h2
  show ((scanNumber d).1.string.drop d.pos).take ((scanNumber d).1.pos - d.pos) = _
  rw [scanNumber_string, h.2]
  unfold scanToken
  congr 1
  omega

end JsonDeserializer

/-! ### `parseString` -/

namespace JsonDeserializer

theorem At.next {d : JsonDeserializer} {c : Byte} {r : List Byte} (h : d.At (c :: r)) :
    d.next.At r :=
  h.step _

theorem next_string (d : JsonDeserializer) : d.next.string = d.string := rfl

theorem hexLoop_at : ∀ (cs : List Byte) (d : JsonDeserializer) (code : Nat) (r : List Byte),
    d.At (cs ++ r) →
      (hexLoop cs.length d code).1 = hexCode cs code ∧
      (hexLoop cs.length d code).2.string = d.string ∧
      (hexCode cs code ≠ none → (hexLoop cs.length d code).2.At r) := by
  intro cs
  induction cs with
  | nil =>
    intro d code r h
    exact ⟨rfl, rfl, fun _ => h⟩
  | cons c cs ih =>
    intro d code r h
    have hc : d.cur = c := by simpa using h.cur
    have hn : d.next.At (cs ++ r) := At.next h
    have e1 : hexLoop (c :: cs).length d code =
        match hexDigit c with
        | some x => hexLoop cs.length d.next ((code <<< 4) % 2 ^ 32 + x)
        | none => (none, d.next) := by
      show hexLoop (cs.length + 1) d code = _
      rw [hexLoop, hc]
      try rfl
    have e2 : hexCode (c :: cs) code =
        match hexDigit c with
        | some x => hexCode cs ((code <<< 4) % 2 ^ 32 + x)
        | none => none := by
      rw [hexCode]
      try rfl
    rw [e1, e2]
    cases hd : hexDigit c with
    | none => simp [next_string]
    | some x =>
      simp only []
      have := ih d.next ((code <<< 4) % 2 ^ 32 + x) r hn
      exact ⟨this.1, this.2.1, this.2.2⟩

theorem simpleEscape_elim {α : Type} (e : Byte) (f : Byte → α) (g : α) :
    (simpleEscape e).elim g f =
    if e = 34 then f 34
    else if e = 92 then f 92
    else if e = 47 then f 47
    else if e = 98 then f 8
    else if e = 102 then f 12
    else if e = 110 then f 10
    else if e = 114 then f 13
    else if e = 116 then f 9
    else g := by
  unfold simpleEscape
  split_ifs <;> rfl

/-- One iteration of the loop of `parseString(err_out)`, the two-character escapes gathered
in `simpleEscape`. -/
theorem parseStringLoop_succ (fuel : Nat) (d : JsonDeserializer) (out : List Byte)
    (e : ParseError) :
    parseStringLoop (fuel + 1) d out e =
      if ¬ d.pos < d.string.length then (.null, d, ⟨lit "Unterminated string", d.posinfo⟩)
      else if d.cur = 34 then (.string out, d.next, e)
      else if d.cur = 92 then
        if d.next.pos ≥ d.next.string.length then
          (.null, d.next, ⟨lit "Invalid escape", d.next.posinfo⟩)
        else
          (simpleEscape d.next.cur).elim
            (if d.next.cur = 117 then
              if d.next.next.pos + 4 > d.next.next.string.length then
                (.null, d.next.next, ⟨lit "Invalid \\u escape", d.next.next.posinfo⟩)
              else
                match hexLoop 4 d.next.next 0 with
                | (none, d') => (.null, d', ⟨lit "Invalid hex in \\u escape", d'.posinfo⟩)
                | (some code, d') => parseStringLoop fuel d' (out ++ utf8Encode code) e
            else (.null, d.next.next,
              ⟨lit "Invalid escape \\" ++ [d.next.cur], d.next.next.posinfo⟩))
            (fun x => parseStringLoop fuel d.next.next (out ++ [x]) e)
      else
        parseStringLoop fuel
          (if d.cur = 10 then { d.next with posinfo := ⟨d.next.posinfo.line + 1, 1⟩ } else d.next)
          (out ++ [d.cur]) e := by
  rw [parseStringLoop, simpleEscape_elim]
  try rfl

end JsonDeserializer

theorem simpleEscape_ne_u {e x : Byte} (h : simpleEscape e = some x) : e ≠ 117 := by
  intro he
  subst he
  simp [simpleEscape] at h

theorem strBody_complete {t s : List Byte} (hb : StrBody t s) :
    ∀ (fuel : Nat) (d : JsonDeserializer) (out : List Byte) (e : ParseError) (r : List Byte),
      d.At (t ++ 34 :: r) → t.length + 1 ≤ fuel →
      ∃ d', parseStringLoop fuel d out e = (.string (out ++ s), d', e) ∧ d'.At r ∧
        d'.string = d.string := by
  induction hb with
  | nil =>
    intro fuel d out e r h hf
    obtain ⟨n, rfl⟩ : ∃ n, fuel = n + 1 := ⟨fuel - 1, by simp at hf; omega⟩
    have hc : d.cur = 34 := by simpa using h.cur
    rw [parseStringLoop_succ, if_neg (by simp; exact h.pos_lt), if_pos hc]
    exact ⟨d.next, by simp, At.next h, rfl⟩
  | @plain c t s h1 h2 _ ih =>
    intro fuel d out e r h hf
    obtain ⟨n, rfl⟩ : ∃ n, fuel = n + 1 := ⟨fuel - 1, by simp at hf; omega⟩
    have hc : d.cur = c := by simpa using h.cur
    rw [parseStringLoop_succ, if_neg (by simp; exact h.pos_lt), hc, if_neg h1, if_neg h2]
    have hn : (if c = 10 then { d.next with posinfo := ⟨d.next.posinfo.line + 1, 1⟩ }
        else d.next).At (t ++ 34 :: r) := by
      split
      · exact h.step _
      · exact At.next h
    obtain ⟨d', h3, h4, h5⟩ := ih n _ (out ++ [c]) e r hn (by simp at hf; omega)
    refine ⟨d', by rw [h3]; simp, h4, ?_⟩
    rw [h5]
    split <;> rfl
  | @esc x y t s hx _ ih =>
    intro fuel d out e r h hf
    obtain ⟨n, rfl⟩ : ∃ n, fuel = n + 1 := ⟨fuel - 1, by simp at hf; omega⟩
    have hc : d.cur = 92 := by simpa using h.cur
    have h1 : d.next.At (x :: (t ++ 34 :: r)) := At.next h
    have hc1 : d.next.cur = x := by simpa using h1.cur
    have h2 : d.next.next.At (t ++ 34 :: r) := At.next h1
    rw [parseStringLoop_succ, if_neg (by simp; exact h.pos_lt), hc, if_neg (by decide),
      if_pos rfl, if_neg (by have := h1.pos_lt; omega), hc1, hx, Option.elim_some]
    obtain ⟨d', h3, h4, h5⟩ := ih n _ (out ++ [y]) e r h2 (by simp at hf; omega)
    exact ⟨d', by rw [h3]; simp, h4, by rw [h5]; rfl⟩
  | @uni a b c x code t s hx _ ih =>
    intro fuel d out e r h hf
    obtain ⟨n, rfl⟩ : ∃ n, fuel = n + 1 := ⟨fuel - 1, by simp at hf; omega⟩
    have hc : d.cur = 92 := by simpa using h.cur
    have h1 : d.next.At (117 :: a :: b :: c :: x :: (t ++ 34 :: r)) := At.next h
    have hc1 : d.next.cur = 117 := by simpa using h1.cur
    have h2 : d.next.next.At ([a, b, c, x] ++ (t ++ 34 :: r)) := At.next h1
    have hlen := h2.length
    obtain ⟨k1, k2, k3⟩ := hexLoop_at [a, b, c, x] d.next.next 0 _ h2
    rw [hx] at k1
    have k3 := k3 (by rw [hx]; simp)
    rw [parseStringLoop_succ, if_neg (by simp; exact h.pos_lt), hc, if_neg (by decide),
      if_pos rfl, if_neg (by have := h1.pos_lt; omega), hc1]
    have hse : simpleEscape 117 = none := by decide
    rw [hse, Option.elim_none, if_pos rfl, if_neg (by simp at hlen; omega)]
    obtain ⟨d', h3, h4, h5⟩ := ih n (hexLoop 4 d.next.next 0).2 (out ++ utf8Encode code) e r k3
      (by simp at hf; omega)
    have hpair : hexLoop 4 d.next.next 0 = (some code, (hexLoop 4 d.next.next 0).2) := by
      rw [← k1]
      rfl
    rw [hpair]
    simp only []
    refine ⟨d', by rw [h3]; simp, h4, ?_⟩
    rw [h5]
    exact k2

theorem strBody_sound : ∀ (fuel : Nat) (d : JsonDeserializer) (out : List Byte) (e : ParseError)
    (v : JsonValue) (d' : JsonDeserializer) (e' : ParseError) (r : List Byte),
    parseStringLoop fuel d out e = (v, d', e') → e'.what = [] → d.At r →
    ∃ t s r', StrBody t s ∧ r = t ++ 34 :: r' ∧ d'.At r' ∧ v = .string (out ++ s) ∧ e' = e ∧
      d'.string = d.string := by
  intro fuel
  induction fuel with
  | zero =>
    intro d out e v d' e' r h he hat
    rw [parseStringLoop] at h
    simp only [Prod.mk.injEq] at h
    obtain ⟨_, _, rfl⟩ := h
    exact absurd he (by simp [lit])
  | succ n ih =>
    intro d out e v d' e' r h he hat
    rw [parseStringLoop_succ] at h
    split at h
    · simp only [Prod.mk.injEq] at h
      obtain ⟨_, _, rfl⟩ := h
      exact absurd he (by simp [lit])
    rename_i hlt
    simp only [not_not] at hlt
    obtain ⟨c, r1, rfl⟩ : ∃ c r1, r = c :: r1 := by
      cases r with
      | nil => exact absurd hlt (by rw [hat.lt_iff]; simp)
      | cons c r1 => exact ⟨c, r1, rfl⟩
    have hc : d.cur = c := by simpa using hat.cur
    have h1 : d.next.At r1 := At.next hat
    rw [hc] at h
    split at h
    · -- closing quote
      rename_i hq
      simp only [Prod.mk.injEq] at h
      obtain ⟨rfl, rfl, rfl⟩ := h
      subst hq
      exact ⟨[], [], r1, StrBody.nil, rfl, h1, by simp, rfl, rfl⟩
    rename_i hq
    split at h
    · -- an escape
      rename_i hb
      subst hb
      split at h
      · simp only [Prod.mk.injEq] at h
        obtain ⟨_, _, rfl⟩ := h
        exact absurd he (by simp [lit])
      rename_i hlt2
      obtain ⟨x, r2, rfl⟩ : ∃ x r2, r1 = x :: r2 := by
        cases r1 with
        | nil => exact absurd (h1.lt_iff.mp (by rw [next_string] at hlt2 ⊢; omega)) (by simp)
        | cons x r2 => exact ⟨x, r2, rfl⟩
      have hx : d.next.cur = x := by simpa using h1.cur
      have h2 : d.next.next.At r2 := At.next h1
      rw [hx] at h
      cases hse : simpleEscape x with
      | some y =>
        rw [hse, Option.elim_some] at h
        obtain ⟨t, s, r', hb, hr, hat', hv, hee, hs⟩ := ih _ _ _ _ _ _ r2 h he h2
        exact ⟨92 :: x :: t, y :: s, r', StrBody.esc hse hb, by rw [hr]; rfl, hat',
          by rw [hv]; simp, hee, by rw [hs]; rfl⟩
      | none =>
        rw [hse, Option.elim_none] at h
        split at h
        · rename_i hu
          subst hu
          split at h
          · simp only [Prod.mk.injEq] at h
            obtain ⟨_, _, rfl⟩ := h
            exact absurd he (by simp [lit])
          rename_i hlen
          have hl2 := h2.length
          obtain ⟨a, b, c, x, r3, rfl⟩ : ∃ a b c x r3, r2 = a :: b :: c :: x :: r3 := by
            match r2, hl2 with
            | a :: b :: c :: x :: r3, _ => exact ⟨a, b, c, x, r3, rfl⟩
            | [], hl2 => simp at hl2; omega
            | [_], hl2 => simp at hl2; omega
            | [_, _], hl2 => simp at hl2; omega
            | [_, _, _], hl2 => simp at hl2; omega
          obtain ⟨k1, k2, k3⟩ := hexLoop_at [a, b, c, x] d.next.next 0 r3 h2
          have hpair : hexLoop 4 d.next.next 0 =
              (hexCode [a, b, c, x] 0, (hexLoop 4 d.next.next 0).2) := by
            rw [← k1]
            rfl
          rw [hpair] at h
          cases hcode : hexCode [a, b, c, x] 0 with
          | none =>
            rw [hcode] at h
            simp only [Prod.mk.injEq] at h
            obtain ⟨_, _, rfl⟩ := h
            exact absurd he (by simp [lit])
          | some code =>
            rw [hcode] at h
            simp only [] at h
            have k3 := k3 (by rw [hcode]; simp)
            obtain ⟨t, s, r', hb, hr, hat', hv, hee, hs⟩ := ih _ _ _ _ _ _ r3 h he k3
            refine ⟨92 :: 117 :: a :: b :: c :: x :: t, utf8Encode code ++ s, r',
              StrBody.uni hcode hb, by rw [hr]; rfl, hat', by rw [hv]; simp, hee, ?_⟩
            rw [hs]
            exact k2
        · simp only [Prod.mk.injEq] at h
          obtain ⟨_, _, rfl⟩ := h
          exact absurd he (by simp)
    · -- an ordinary character
      rename_i hb
      have hn : (if c = 10 then { d.next with posinfo := ⟨d.next.posinfo.line + 1, 1⟩ }
          else d.next).At r1 := by
        split
        · exact hat.step _
        · exact h1
      obtain ⟨t, s, r', hbody, hr, hat', hv, hee, hs⟩ := ih _ _ _ _ _ _ r1 h he hn
      refine ⟨c :: t, c :: s, r', StrBody.plain hq hb hbody, by rw [hr]; rfl, hat',
        by rw [hv]; simp, hee, ?_⟩
      rw [hs]
      split <;> rfl

namespace JsonDeserializer

theorem expectChar_eq (c : Byte) (d : JsonDeserializer) (e : ParseError) :
    expectChar c d e =
      if d.peek = c then (true, d.advance, e)
      else (false, d, ⟨lit "Expected '" ++ [c] ++ lit "'", d.posinfo⟩) := by
  unfold expectChar
  split_ifs <;> simp_all

theorem parseString_eq (d : JsonDeserializer) (e : ParseError) :
    parseString d e =
      if d.peek = 34 then parseStringLoop d.advance.string.length d.advance [] e
      else (.null, d, ⟨lit "Expected '" ++ [34] ++ lit "'", d.posinfo⟩) := by
  unfold parseString
  rw [expectChar_eq]
  split_ifs <;> rfl

theorem parseArray_succ (f : Nat) (d : JsonDeserializer) (e : ParseError) :
    parseArray (f + 1) d e =
      if d.peek = 91 then
        if d.advance.skipWhitespace.peek = 93 then
          some (.array [], d.advance.skipWhitespace.advance, e)
        else parseArrayLoop f d.advance.skipWhitespace [] e
      else some (.null, d, ⟨lit "Expected '" ++ [91] ++ lit "'", d.posinfo⟩) := by
  rw [parseArray, expectChar_eq]
  split_ifs <;> simp [*]

theorem parseObject_succ (f : Nat) (d : JsonDeserializer) (e : ParseError) :
    parseObject (f + 1) d e =
      if d.peek = 123 then
        if d.advance.skipWhitespace.peek = 125 then
          some (.object [], d.advance.skipWhitespace.advance, e)
        else parseObjectLoop f d.advance.skipWhitespace [] e
      else some (.null, d, ⟨lit "Expected '" ++ [123] ++ lit "'", d.posinfo⟩) := by
  rw [parseObject, expectChar_eq]
  split_ifs <;> simp [*]

theorem parseJsonValue_zero (d : JsonDeserializer) (e : ParseError) :
    parseJsonValue 0 d e = none := by
  rw [parseJsonValue]

theorem parseJsonValue_succ (f : Nat) (d : JsonDeserializer) (e : ParseError) :
    parseJsonValue (f + 1) d e =
      if d.pos ≥ d.string.length then
        some (.null, d, ⟨lit "Unexpected end of input", d.posinfo⟩)
      else if d.cur = 110 then some (parseNull d e)
      else if d.cur = 116 ∨ d.cur = 102 then some (parseBool d e)
      else if d.cur = 34 then some (parseString d e)
      else if d.cur = 91 then parseArray f d e
      else if d.cur = 123 then parseObject f d e
      else if d.cur = 45 ∨ isdigit d.cur = true then some (parseNumber d e)
      else some (.null, d, ⟨lit "Unexpected character '" ++ [d.cur] ++ lit "'", d.posinfo⟩) := by
  rw [parseJsonValue]

/-- What an iteration of the array loop does with the outcome `r` of `parseJsonValue`. -/
theorem parseArrayLoop_succ (f : Nat) (d : JsonDeserializer) (arr : JsonArray)
    (e : ParseError) :
    parseArrayLoop (f + 1) d arr e =
      (parseJsonValue f d.skipWhitespace e).bind fun r =>
        if r.2.2.what ≠ [] then some (.null, r.2.1, r.2.2)
        else if r.2.1.skipWhitespace.peek = 93 then
          some (.array (arr ++ [r.1]), r.2.1.skipWhitespace.advance, r.2.2)
        else if r.2.1.skipWhitespace.peek = 44 then
          parseArrayLoop f r.2.1.skipWhitespace.advance.skipWhitespace (arr ++ [r.1]) r.2.2
        else some (.null, r.2.1.skipWhitespace,
          ⟨lit "Expected ',' or ']' in array", r.2.1.skipWhitespace.posinfo⟩) := by
  rw [parseArrayLoop]
  cases parseJsonValue f d.skipWhitespace e with
  | none => rfl
  | some r => rfl

theorem parseObjectLoop_succ (f : Nat) (d : JsonDeserializer) (obj : JsonObject)
    (e : ParseError) {kv : JsonValue} {d1 : JsonDeserializer} {e1 : ParseError}
    (hp : parseString d.skipWhitespace e = (kv, d1, e1)) :
    parseObjectLoop (f + 1) d obj e =
      if d.skipWhitespace.peek ≠ 34 then
        some (.null, d.skipWhitespace,
          ⟨lit "Object keys must be strings", d.skipWhitespace.posinfo⟩)
      else if e1.what ≠ [] then some (.null, d1, e1)
      else if d1.skipWhitespace.peek ≠ 58 then
        some (.null, d1.skipWhitespace,
          ⟨lit "Expected '" ++ [58] ++ lit "'", d1.skipWhitespace.posinfo⟩)
      else
        (parseJsonValue f d1.skipWhitespace.advance.skipWhitespace e1).bind fun r =>
          if r.2.2.what ≠ [] then some (.null, r.2.1, r.2.2)
          else if r.2.1.skipWhitespace.peek = 125 then
            some (.object (mapEmplace obj (kv.asString.getD []) r.1),
              r.2.1.skipWhitespace.advance, r.2.2)
          else if r.2.1.skipWhitespace.peek = 44 then
            parseObjectLoop f r.2.1.skipWhitespace.advance.skipWhitespace
              (mapEmplace obj (kv.asString.getD []) r.1) r.2.2
          else some (.null, r.2.1.skipWhitespace,
            ⟨lit "Expected ',' or '\x7d' in object", r.2.1.skipWhitespace.posinfo⟩) := by
  rw [parseObjectLoop]
  rw [hp]
  simp only [expectChar_eq]
  by_cases h1 : d.skipWhitespace.peek = 34
  · simp only [h1, ne_eq, not_true_eq_false, if_false]
    by_cases h2 : e1.what = []
    · simp only [h2, not_true_eq_false, if_false]
      by_cases h3 : d1.skipWhitespace.peek = 58
      · simp only [h3, if_true, not_true_eq_false, if_false]
        cases parseJsonValue f d1.skipWhitespace.advance.skipWhitespace e1 with
        | none => rfl
        | some r => rfl
      · simp only [h3, if_false, not_false_eq_true, if_true]
    · simp only [h2, not_false_eq_true, if_true]
  · simp only [h1, ne_eq, not_false_eq_true, if_true]

/-- More fuel does not change a result. -/
theorem fuel_succ (f : Nat) :
    (∀ d e x, parseJsonValue f d e = some x → parseJsonValue (f + 1) d e = some x) ∧
    (∀ d e x, parseObject f d e = some x → parseObject (f + 1) d e = some x) ∧
    (∀ d o e x, parseObjectLoop f d o e = some x → parseObjectLoop (f + 1) d o e = some x) ∧
    (∀ d e x, parseArray f d e = some x → parseArray (f + 1) d e = some x) ∧
    (∀ d a e x, parseArrayLoop f d a e = some x → parseArrayLoop (f + 1) d a e = some x) := by
  induction f with
  | zero =>
    refine ⟨?_, ?_, ?_, ?_, ?_⟩ <;> intros <;> simp_all [parseJsonValue, parseObject,
      parseObjectLoop, parseArray, parseArrayLoop]
  | succ n ih =>
    obtain ⟨ihv, iho, ihol, iha, ihal⟩ := ih
    refine ⟨?_, ?_, ?_, ?_, ?_⟩
    · intro d e x h
      rw [parseJsonValue_succ] at h ⊢
      split_ifs at h ⊢
      · exact h
      · exact h
      · exact h
      · exact h
      · exact iha _ _ _ h
      · exact iho _ _ _ h
      · exact h
      · exact h
    · intro d e x h
      rw [parseObject_succ] at h ⊢
      split_ifs at h ⊢
      · exact h
      · exact ihol _ _ _ _ h
      · exact h
    · intro d o e x h
      obtain ⟨kv, d1, e1, hp⟩ : ∃ kv d1 e1, parseString d.skipWhitespace e = (kv, d1, e1) :=
        ⟨_, _, _, rfl⟩
      rw [parseObjectLoop_succ _ _ _ _ hp] at h ⊢
      split_ifs at h ⊢
      · exact h
      · exact h
      · exact h
      · rw [Option.bind_eq_some] at h ⊢
        obtain ⟨r, hr, h⟩ := h
        refine ⟨r, ihv _ _ _ hr, ?_⟩
        split_ifs at h ⊢
        · exact h
        · exact h
        · exact ihol _ _ _ _ h
        · exact h
    · intro d e x h
      rw [parseArray_succ] at h ⊢
      split_ifs at h ⊢
      · exact h
      · exact ihal _ _ _ _ h
      · exact h
    · intro d a e x h
      rw [parseArrayLoop_succ, Option.bind_eq_some] at h ⊢
      obtain ⟨r, hr, h⟩ := h
      refine ⟨r, ihv _ _ _ hr, ?_⟩
      split_ifs at h ⊢
      · exact h
      · exact h
      · exact ihal _ _ _ _ h
      · exact h

theorem fuel_mono {f f' : Nat} (hf : f ≤ f') :
    (∀ d e x, parseJsonValue f d e = some x → parseJsonValue f' d e = some x) ∧
    (∀ d e x, parseObject f d e = some x → parseObject f' d e = some x) ∧
    (∀ d o e x, parseObjectLoop f d o e = some x → parseObjectLoop f' d o e = some x) ∧
    (∀ d e x, parseArray f d e = some x → parseArray f' d e = some x) ∧
    (∀ d a e x, parseArrayLoop f d a e = some x → parseArrayLoop f' d a e = some x) := by
  induction hf with
  | refl => exact ⟨fun _ _ _ h => h, fun _ _ _ h => h, fun _ _ _ _ h => h, fun _ _ _ h => h,
      fun _ _ _ _ h => h⟩
  | step _ ih =>
    obtain ⟨h1, h2, h3, h4, h5⟩ := ih
    obtain ⟨k1, k2, k3, k4, k5⟩ := fuel_succ _
    exact ⟨fun d e x h => k1 _ _ _ (h1 _ _ _ h), fun d e x h => k2 _ _ _ (h2 _ _ _ h),
      fun d o e x h => k3 _ _ _ _ (h3 _ _ _ _ h), fun d e x h => k4 _ _ _ (h4 _ _ _ h),
      fun d a e x h => k5 _ _ _ _ (h5 _ _ _ _ h)⟩

end JsonDeserializer

namespace JsonDeserializer

theorem At.skipWhitespace_split {d : JsonDeserializer} {r : List Byte} (h : d.At r) :
    ∃ w r', r = w ++ r' ∧ AllSpace w ∧ d.skipWhitespace.At r' ∧ r'.length ≤ r.length := by
  refine ⟨r.takeWhile isspace, r.dropWhile isspace, (List.takeWhile_append_dropWhile _ _).symm,
    ?_, h.skipWhitespace, ?_⟩
  · intro c hc
    exact List.mem_takeWhile_imp hc
  · have := congrArg List.length (List.takeWhile_append_dropWhile isspace r)
    rw [List.length_append] at this
    omega

theorem At.peek_cons {d : JsonDeserializer} {r : List Byte} {c : Byte} (h : d.At r)
    (hp : d.peek = c) (hc : c ≠ 0) : ∃ r', r = c :: r' := by
  rw [h.peek] at hp
  cases r with
  | nil => exact absurd hp.symm hc
  | cons x r' => exact ⟨r', by simp at hp; rw [hp]⟩

theorem At.cur_cons {d : JsonDeserializer} {r : List Byte} {c : Byte} (h : d.At r)
    (hp : d.cur = c) (hc : c ≠ 0) : ∃ r', r = c :: r' := by
  rw [h.cur] at hp
  cases r with
  | nil => exact absurd hp.symm hc
  | cons x r' => exact ⟨r', by simp at hp; rw [hp]⟩

/-- The offset moves over the next `n` characters. -/
theorem At.skip {d : JsonDeserializer} {r : List Byte} (h : d.At r) (n : Nat)
    (hn : n ≤ r.length) (p : ErrorPos) :
    JsonDeserializer.At { d with pos := d.pos + n, posinfo := p } (r.drop n) := by
  have hl := h.length
  obtain ⟨h1, h2⟩ := h
  refine ⟨by show d.pos + n ≤ d.string.length; omega, ?_⟩
  show d.string.drop (d.pos + n) = r.drop n
  rw [← h2, List.drop_drop, Nat.add_comm]

theorem take_eq_cons4 {r : List Byte} {a b c x : Byte} (h : r.take 4 = [a, b, c, x]) :
    ∃ r', r = a :: b :: c :: x :: r' := by
  match r, h with
  | y1 :: y2 :: y3 :: y4 :: r', h =>
    simp at h
    obtain ⟨rfl, rfl, rfl, rfl⟩ := h
    exact ⟨r', rfl⟩
  | [], h => simp at h
  | [_], h => simp at h
  | [_, _], h => simp at h
  | [_, _, _], h => simp at h

theorem take_eq_cons5 {r : List Byte} {a b c x y : Byte} (h : r.take 5 = [a, b, c, x, y]) :
    ∃ r', r = a :: b :: c :: x :: y :: r' := by
  match r, h with
  | y1 :: y2 :: y3 :: y4 :: y5 :: r', h =>
    simp at h
    obtain ⟨rfl, rfl, rfl, rfl, rfl⟩ := h
    exact ⟨r', rfl⟩
  | [], h => simp at h
  | [_], h => simp at h
  | [_, _], h => simp at h
  | [_, _, _], h => simp at h
  | [_, _, _, _], h => simp at h

theorem parseNull_sound {d d' : JsonDeserializer} {e e' : ParseError} {v : JsonValue}
    {r : List Byte} (h : parseNull d e = (v, d', e')) (he : e'.what = []) (hat : d.At r) :
    ∃ r', r = 110 :: 117 :: 108 :: 108 :: r' ∧ v = .null ∧ d'.At r' ∧ e' = e := by
  unfold parseNull at h
  rw [hat.2] at h
  split at h
  · rename_i ht
    obtain ⟨r', rfl⟩ := take_eq_cons4 (a := 110) (b := 117) (c := 108) (x := 108) ht
    simp only [Prod.mk.injEq] at h
    obtain ⟨rfl, rfl, rfl⟩ := h
    exact ⟨r', rfl, rfl, hat.skip 4 (by simp) _, rfl⟩
  · simp only [Prod.mk.injEq] at h
    obtain ⟨_, _, rfl⟩ := h
    exact absurd he (by simp [lit])

theorem parseBool_sound {d d' : JsonDeserializer} {e e' : ParseError} {v : JsonValue}
    {r : List Byte} (h : parseBool d e = (v, d', e')) (he : e'.what = []) (hat : d.At r) :
    ∃ r', ((r = 116 :: 114 :: 117 :: 101 :: r' ∧ v = .bool true) ∨
      (r = 102 :: 97 :: 108 :: 115 :: 101 :: r' ∧ v = .bool false)) ∧ d'.At r' ∧ e' = e := by
  unfold parseBool at h
  rw [hat.2] at h
  split at h
  · rename_i ht
    obtain ⟨r', rfl⟩ := take_eq_cons4 (a := 116) (b := 114) (c := 117) (x := 101) ht
    simp only [Prod.mk.injEq] at h
    obtain ⟨rfl, rfl, rfl⟩ := h
    exact ⟨r', Or.inl ⟨rfl, rfl⟩, hat.skip 4 (by simp) _, rfl⟩
  · split at h
    · rename_i ht
      obtain ⟨r', rfl⟩ :=
        take_eq_cons5 (a := 102) (b := 97) (c := 108) (x := 115) (y := 101) ht
      simp only [Prod.mk.injEq] at h
      obtain ⟨rfl, rfl, rfl⟩ := h
      exact ⟨r', Or.inr ⟨rfl, rfl⟩, hat.skip 5 (by simp) _, rfl⟩
    · simp only [Prod.mk.injEq] at h
      obtain ⟨_, _, rfl⟩ := h
      exact absurd he (by simp [lit])

theorem parseString_sound {d d' : JsonDeserializer} {e e' : ParseError} {v : JsonValue}
    {r : List Byte} (h : parseString d e = (v, d', e')) (he : e'.what = []) (hat : d.At r) :
    ∃ t s r', StrBody t s ∧ r = 34 :: (t ++ 34 :: r') ∧ v = .string s ∧ d'.At r' ∧ e' = e := by
  rw [parseString_eq] at h
  split at h
  · rename_i hp
    obtain ⟨r1, rfl⟩ := hat.peek_cons hp (by decide)
    obtain ⟨t, s, r', hb, hr, hat', hv, hee, _⟩ := strBody_sound _ _ _ _ _ _ _ _ h he hat.advance
    exact ⟨t, s, r', hb, by rw [hr], by simpa using hv, hat', hee⟩
  · simp only [Prod.mk.injEq] at h
    obtain ⟨_, _, rfl⟩ := h
    exact absurd he (by simp [lit])

theorem parseNumber_sound {d d' : JsonDeserializer} {e e' : ParseError} {v : JsonValue}
    {r : List Byte} (h : parseNumber d e = (v, d', e')) (he : e'.what = []) (hat : d.At r)
    (hs : numberStart (r.headD 0) = true) :
    ∃ x, v = .number x ∧ NumberAt r x (scanRest r) ∧ d'.At (scanRest r) ∧ e' = e := by
  unfold parseNumber at h
  have ht := scanNumber_token hat
  have ha := hat.scanNumber
  generalize scanNumber d = p at h ht ha
  obtain ⟨d1, tok⟩ := p
  simp only at ht ha h
  subst ht
  split at h
  · simp only [Prod.mk.injEq] at h
    obtain ⟨_, _, rfl⟩ := h
    exact absurd he (by simp [lit])
  · rename_i hc
    simp only [Prod.mk.injEq] at h
    obtain ⟨rfl, rfl, rfl⟩ := h
    exact ⟨_, rfl, ⟨hs, by simpa using hc, rfl, rfl⟩, ha, rfl⟩

end JsonDeserializer

theorem length_drop_digitRun_le (r : List Byte) : (r.drop (digitRun r)).length ≤ r.length := by
  simp

theorem scanRest_length_le (r : List Byte) : (scanRest r).length ≤
    ((if r.headD 0 = 45 then r.drop 1 else r).drop
      (digitRun (if r.headD 0 = 45 then r.drop 1 else r))).length := by
  unfold scanRest
  simp only []
  generalize (if r.headD 0 = 45 then r.drop 1 else r).drop
      (digitRun (if r.headD 0 = 45 then r.drop 1 else r)) = r1
  have h2 : (if r1.headD 0 = 46 then (r1.drop 1).drop (digitRun (r1.drop 1)) else r1).length
      ≤ r1.length := by
    split <;> simp
  generalize (if r1.headD 0 = 46 then (r1.drop 1).drop (digitRun (r1.drop 1)) else r1) = r2 at h2 ⊢
  split
  · split <;> simp <;> omega
  · exact h2

theorem scanRest_length_lt {r : List Byte} (hs : numberStart (r.headD 0) = true) :
    (scanRest r).length < r.length := by
  refine lt_of_le_of_lt (scanRest_length_le r) ?_
  cases r with
  | nil => simp [numberStart, isdigit] at hs
  | cons c r =>
    simp only [List.headD_cons]
    by_cases h45 : c = 45
    · simp [h45]
      omega
    · simp only [h45, if_false]
      have hd : isdigit c = true := by simpa [numberStart, h45] using hs
      simp [digitRun, hd]
      omega

theorem AllSpace.nil : AllSpace [] := by
  intro c hc
  cases hc

theorem AllSpace.append {w1 w2 : List Byte} (h1 : AllSpace w1) (h2 : AllSpace w2) :
    AllSpace (w1 ++ w2) := by
  intro c hc
  rcases List.mem_append.mp hc with h | h
  · exact h1 c h
  · exact h2 c h

theorem Elems.prependElems {w r r' : List Byte} {acc a : JsonArray} (hw : AllSpace w)
    (h : Elems r acc a r') : Elems (w ++ r) acc a r' := by
  cases h with
  | last acc h1 h2 h3 =>
    rw [← List.append_assoc]
    exact Elems.last acc (hw.append h1) h2 h3
  | more acc h1 h2 h3 h4 =>
    rw [← List.append_assoc]
    exact Elems.more acc (hw.append h1) h2 h3 h4

theorem Membs.prependMembs {w r r' : List Byte} {acc o : JsonObject} (hw : AllSpace w)
    (h : Membs r acc o r') : Membs (w ++ r) acc o r' := by
  cases h with
  | last acc h1 h2 h3 h4 h5 h6 =>
    rw [← List.append_assoc]
    exact Membs.last acc (hw.append h1) h2 h3 h4 h5 h6
  | more acc h1 h2 h3 h4 h5 h6 h7 =>
    rw [← List.append_assoc]
    exact Membs.more acc (hw.append h1) h2 h3 h4 h5 h6 h7

namespace JsonDeserializer

theorem err_absurd {v0 v : JsonValue} {d0 d' : JsonDeserializer} {e0 e' : ParseError}
    (h : some (v0, d0, e0) = some (v, d', e')) (he : e'.what = []) (h0 : e0.what ≠ []) :
    False := by
  simp only [Option.some.injEq, Prod.mk.injEq] at h
  obtain ⟨_, _, rfl⟩ := h
  exact h0 he

/-- What a successful run of one of the five mutually recursive functions has read. -/
theorem sound (f : Nat) :
    (∀ d e v d' e' r, parseJsonValue f d e = some (v, d', e') → e.what = [] → e'.what = [] →
      d.At r → ∃ r', Val r v r' ∧ d'.At r' ∧ e' = e ∧ r'.length < r.length) ∧
    (∀ d e v d' e' r, parseObject f d e = some (v, d', e') → e.what = [] → e'.what = [] →
      d.At r → ∃ r', Val r v r' ∧ d'.At r' ∧ e' = e ∧ r'.length < r.length) ∧
    (∀ d acc e v d' e' r, parseObjectLoop f d acc e = some (v, d', e') → e.what = [] →
      e'.what = [] → d.At r →
      ∃ o r', v = .object o ∧ Membs r acc o r' ∧ d'.At r' ∧ e' = e ∧ r'.length < r.length) ∧
    (∀ d e v d' e' r, parseArray f d e = some (v, d', e') → e.what = [] → e'.what = [] →
      d.At r → ∃ r', Val r v r' ∧ d'.At r' ∧ e' = e ∧ r'.length < r.length) ∧
    (∀ d acc e v d' e' r, parseArrayLoop f d acc e = some (v, d', e') → e.what = [] →
      e'.what = [] → d.At r →
      ∃ a r', v = .array a ∧ Elems r acc a r' ∧ d'.At r' ∧ e' = e ∧ r'.length < r.length) := by
  induction f with
  | zero =>
    refine ⟨?_, ?_, ?_, ?_, ?_⟩ <;> intros <;> simp_all [parseJsonValue, parseObject,
      parseObjectLoop, parseArray, parseArrayLoop]
  | succ n ih =>
    obtain ⟨ihv, iho, ihol, iha, ihal⟩ := ih
    refine ⟨?_, ?_, ?_, ?_, ?_⟩
    · -- parseJsonValue
      intro d e v d' e' r h he he' hat
      rw [parseJsonValue_succ] at h
      split_ifs at h with h0 h1 h2 h3 h4 h5 h6
      · exact (err_absurd h he' (by simp [lit])).elim
      · obtain ⟨r', rfl, rfl, hat', hee⟩ := parseNull_sound (Option.some.inj h) he' hat
        exact ⟨r', Val.litNull r', hat', hee, by simp only [List.length_cons, List.length_append] at *; omega⟩
      · obtain ⟨r', hr, hat', hee⟩ := parseBool_sound (Option.some.inj h) he' hat
        rcases hr with ⟨rfl, rfl⟩ | ⟨rfl, rfl⟩
        · exact ⟨r', Val.litTrue r', hat', hee, by simp only [List.length_cons, List.length_append] at *; omega⟩
        · exact ⟨r', Val.litFalse r', hat', hee, by simp only [List.length_cons, List.length_append] at *; omega⟩
      · obtain ⟨t, s, r', hb, rfl, rfl, hat', hee⟩ :=
          parseString_sound (Option.some.inj h) he' hat
        exact ⟨r', Val.string r' hb, hat', hee, by simp only [List.length_cons, List.length_append] at *; omega⟩
      · exact iha _ _ _ _ _ _ h he he' hat
      · exact iho _ _ _ _ _ _ h he he' hat
      · have hs : numberStart (r.headD 0) = true := by
          rw [← hat.cur]
          rcases h6 with h6 | h6
          · simp [numberStart, h6]
          · simp [numberStart, h6]
        obtain ⟨x, rfl, hn, hat', hee⟩ := parseNumber_sound (Option.some.inj h) he' hat hs
        exact ⟨_, Val.number hn, hat', hee, scanRest_length_lt hs⟩
      · exact (err_absurd h he' (by simp [lit])).elim
    · -- parseObject
      intro d e v d' e' r h he he' hat
      rw [parseObject_succ] at h
      split_ifs at h with h0 h1
      · obtain ⟨r1, rfl⟩ := hat.peek_cons h0 (by decide)
        obtain ⟨w, r2, rfl, hw, hat2, _⟩ := hat.advance.skipWhitespace_split
        obtain ⟨r3, rfl⟩ := hat2.peek_cons h1 (by decide)
        simp only [Option.some.injEq, Prod.mk.injEq] at h
        obtain ⟨rfl, rfl, rfl⟩ := h
        exact ⟨r3, Val.objectEmpty r3 hw, hat2.advance, rfl, by simp only [List.length_cons, List.length_append] at *; omega⟩
      · obtain ⟨r1, rfl⟩ := hat.peek_cons h0 (by decide)
        obtain ⟨w, r2, rfl, hw, hat2, _⟩ := hat.advance.skipWhitespace_split
        obtain ⟨o, r', rfl, hm, hat', hee, hlen⟩ := ihol _ _ _ _ _ _ _ h he he' hat2
        exact ⟨r', Val.object (hm.prependMembs hw), hat', hee, by simp only [List.length_cons, List.length_append] at *; omega⟩
      · exact (err_absurd h he' (by simp [lit])).elim
    · -- parseObjectLoop
      intro d acc e v d' e' r h he he' hat
      obtain ⟨kv, d1, e1, hp⟩ : ∃ kv d1 e1, parseString d.skipWhitespace e = (kv, d1, e1) :=
        ⟨_, _, _, rfl⟩
      rw [parseObjectLoop_succ _ _ _ _ hp] at h
      obtain ⟨w1, r1, rfl, hw1, hat1, _⟩ := hat.skipWhitespace_split
      split_ifs at h with h0 h1 h2
      · exact (err_absurd h he' (by simp [lit])).elim
      · exact (err_absurd h he' h1).elim
      · exact (err_absurd h he' (by simp [lit])).elim
      · simp only [not_not] at h0 h1 h2
        obtain ⟨t, k, r2, hb, rfl, rfl, hat2, rfl⟩ := parseString_sound hp h1 hat1
        obtain ⟨w2, r3, rfl, hw2, hat3, _⟩ := hat2.skipWhitespace_split
        obtain ⟨r4, rfl⟩ := hat3.peek_cons h2 (by decide)
        obtain ⟨w3, r5, rfl, hw3, hat5, _⟩ := hat3.advance.skipWhitespace_split
        rw [Option.bind_eq_some] at h
        obtain ⟨⟨val, d6, e6⟩, hv, h⟩ := h
        simp only [] at h
        split_ifs at h with h6 h7 h8
        · exact (err_absurd h he' h6).elim
        · simp only [not_not] at h6
          obtain ⟨r6, hval, hat6, rfl, hlen6⟩ := ihv _ _ _ _ _ _ hv he h6 hat5
          obtain ⟨w4, r7, rfl, hw4, hat7, _⟩ := hat6.skipWhitespace_split
          obtain ⟨r8, rfl⟩ := hat7.peek_cons h7 (by decide)
          simp only [Option.some.injEq, Prod.mk.injEq] at h
          obtain ⟨rfl, rfl, rfl⟩ := h
          refine ⟨_, r8, rfl, ?_, hat7.advance, rfl, by simp only [List.length_cons, List.length_append] at *; omega⟩
          exact Membs.last acc hw1 hb hw2 hw3 hval hw4
        · simp only [not_not] at h6
          obtain ⟨r6, hval, hat6, rfl, hlen6⟩ := ihv _ _ _ _ _ _ hv he h6 hat5
          obtain ⟨w4, r7, rfl, hw4, hat7, _⟩ := hat6.skipWhitespace_split
          obtain ⟨r8, rfl⟩ := hat7.peek_cons h8 (by decide)
          obtain ⟨w5, r9, rfl, hw5, hat9, _⟩ := hat7.advance.skipWhitespace_split
          obtain ⟨o, r', rfl, hm, hat', hee, hlen⟩ := ihol _ _ _ _ _ _ _ h he he' hat9
          refine ⟨o, r', rfl, ?_, hat', hee, by simp only [List.length_cons, List.length_append] at *; omega⟩
          exact Membs.more acc hw1 hb hw2 hw3 hval hw4 (hm.prependMembs hw5)
        · exact (err_absurd h he' (by simp [lit])).elim
    · -- parseArray
      intro d e v d' e' r h he he' hat
      rw [parseArray_succ] at h
      split_ifs at h with h0 h1
      · obtain ⟨r1, rfl⟩ := hat.peek_cons h0 (by decide)
        obtain ⟨w, r2, rfl, hw, hat2, _⟩ := hat.advance.skipWhitespace_split
        obtain ⟨r3, rfl⟩ := hat2.peek_cons h1 (by decide)
        simp only [Option.some.injEq, Prod.mk.injEq] at h
        obtain ⟨rfl, rfl, rfl⟩ := h
        exact ⟨r3, Val.arrayEmpty r3 hw, hat2.advance, rfl, by simp only [List.length_cons, List.length_append] at *; omega⟩
      · obtain ⟨r1, rfl⟩ := hat.peek_cons h0 (by decide)
        obtain ⟨w, r2, rfl, hw, hat2, _⟩ := hat.advance.skipWhitespace_split
        obtain ⟨a, r', rfl, hm, hat', hee, hlen⟩ := ihal _ _ _ _ _ _ _ h he he' hat2
        exact ⟨r', Val.array (hm.prependElems hw), hat', hee, by simp only [List.length_cons, List.length_append] at *; omega⟩
      · exact (err_absurd h he' (by simp [lit])).elim
    · -- parseArrayLoop
      intro d acc e v d' e' r h he he' hat
      rw [parseArrayLoop_succ, Option.bind_eq_some] at h
      obtain ⟨⟨val, d6, e6⟩, hv, h⟩ := h
      obtain ⟨w1, r1, rfl, hw1, hat1, _⟩ := hat.skipWhitespace_split
      simp only [] at h
      split_ifs at h with h6 h7 h8
      · exact (err_absurd h he' h6).elim
      · simp only [not_not] at h6
        obtain ⟨r6, hval, hat6, rfl, hlen6⟩ := ihv _ _ _ _ _ _ hv he h6 hat1
        obtain ⟨w4, r7, rfl, hw4, hat7, _⟩ := hat6.skipWhitespace_split
        obtain ⟨r8, rfl⟩ := hat7.peek_cons h7 (by decide)
        simp only [Option.some.injEq, Prod.mk.injEq] at h
        obtain ⟨rfl, rfl, rfl⟩ := h
        refine ⟨_, r8, rfl, ?_, hat7.advance, rfl, by simp only [List.length_cons, List.length_append] at *; omega⟩
        exact Elems.last acc hw1 hval hw4
      · simp only [not_not] at h6
        obtain ⟨r6, hval, hat6, rfl, hlen6⟩ := ihv _ _ _ _ _ _ hv he h6 hat1
        obtain ⟨w4, r7, rfl, hw4, hat7, _⟩ := hat6.skipWhitespace_split
        obtain ⟨r8, rfl⟩ := hat7.peek_cons h8 (by decide)
        obtain ⟨w5, r9, rfl, hw5, hat9, _⟩ := hat7.advance.skipWhitespace_split
        obtain ⟨a, r', rfl, hm, hat', hee, hlen⟩ := ihal _ _ _ _ _ _ _ h he he' hat9
        refine ⟨a, r', rfl, ?_, hat', hee, by simp only [List.length_cons, List.length_append] at *; omega⟩
        exact Elems.more acc hw1 hval hw4 (hm.prependElems hw5)
      · exact (err_absurd h he' (by simp [lit])).elim

end JsonDeserializer

namespace JsonDeserializer

/-- With the fuel `deserialize` supplies, the recursive descent always comes to an end. -/
theorem total (n : Nat) : ∀ (r : List Byte) (d : JsonDeserializer) (e : ParseError),
    r.length ≤ n → d.At r → e.what = [] →
    (∀ f, 3 * n + 1 ≤ f → ∃ x, parseJsonValue f d e = some x) ∧
    (∀ f acc, 3 * n + 2 ≤ f → ∃ x, parseArrayLoop f d acc e = some x) ∧
    (∀ f acc, 3 * n + 2 ≤ f → ∃ x, parseObjectLoop f d acc e = some x) := by
  induction n with
  | zero =>
    intro r d e hr hat he
    have hr0 : r = [] := List.length_eq_zero.mp (by omega)
    subst hr0
    have hv : ∀ f (d : JsonDeserializer) (e : ParseError), d.At [] → 1 ≤ f →
        parseJsonValue f d e = some (.null, d, ⟨lit "Unexpected end of input", d.posinfo⟩) := by
      intro f d e hat hf
      obtain ⟨f', rfl⟩ : ∃ f', f = f' + 1 := ⟨f - 1, by omega⟩
      rw [parseJsonValue_succ, if_pos (by have := hat.pos_eq; omega)]
    have hs : d.skipWhitespace.At [] := by simpa using hat.skipWhitespace
    refine ⟨fun f hf => ⟨_, hv f d e hat (by omega)⟩, ?_, ?_⟩
    · intro f acc hf
      obtain ⟨f', rfl⟩ : ∃ f', f = f' + 1 := ⟨f - 1, by omega⟩
      rw [parseArrayLoop_succ, hv f' _ e hs (by omega), Option.some_bind]
      simp only []
      rw [if_pos (by simp [lit])]
      exact ⟨_, rfl⟩
    · intro f acc hf
      obtain ⟨f', rfl⟩ : ∃ f', f = f' + 1 := ⟨f - 1, by omega⟩
      obtain ⟨kv, d1, e1, hp⟩ : ∃ kv d1 e1, parseString d.skipWhitespace e = (kv, d1, e1) :=
        ⟨_, _, _, rfl⟩
      rw [parseObjectLoop_succ _ _ _ _ hp, if_pos (by rw [hs.peek]; decide)]
      exact ⟨_, rfl⟩
  | succ n ih =>
    -- the three statements for a shorter rest
    have ihv : ∀ (r : List Byte) (d : JsonDeserializer) (e : ParseError) f, r.length ≤ n →
        d.At r → e.what = [] → 3 * n + 1 ≤ f → ∃ x, parseJsonValue f d e = some x :=
      fun r d e f hr hat he hf => (ih r d e hr hat he).1 f hf
    have iha : ∀ (r : List Byte) (d : JsonDeserializer) (e : ParseError) f acc, r.length ≤ n →
        d.At r → e.what = [] → 3 * n + 2 ≤ f → ∃ x, parseArrayLoop f d acc e = some x :=
      fun r d e f acc hr hat he hf => (ih r d e hr hat he).2.1 f acc hf
    have iho : ∀ (r : List Byte) (d : JsonDeserializer) (e : ParseError) f acc, r.length ≤ n →
        d.At r → e.what = [] → 3 * n + 2 ≤ f → ∃ x, parseObjectLoop f d acc e = some x :=
      fun r d e f acc hr hat he hf => (ih r d e hr hat he).2.2 f acc hf
    -- a value
    have hv : ∀ (r : List Byte) (d : JsonDeserializer) (e : ParseError) f, r.length ≤ n + 1 →
        d.At r → e.what = [] → 3 * (n + 1) + 1 ≤ f → ∃ x, parseJsonValue f d e = some x := by
      intro r d e f hr hat he hf
      obtain ⟨f', rfl⟩ : ∃ f', f = f' + 1 := ⟨f - 1, by omega⟩
      rw [parseJsonValue_succ]
      split_ifs with h0 h1 h2 h3 h4 h5 h6
      · exact ⟨_, rfl⟩
      · exact ⟨_, rfl⟩
      · exact ⟨_, rfl⟩
      · exact ⟨_, rfl⟩
      · obtain ⟨f'', rfl⟩ : ∃ f'', f' = f'' + 1 := ⟨f' - 1, by omega⟩
        obtain ⟨r1, rfl⟩ := hat.cur_cons h4 (by decide)
        have hp : d.peek = 91 := by rw [hat.peek]; rfl
        rw [parseArray_succ, if_pos hp]
        split_ifs
        · exact ⟨_, rfl⟩
        · obtain ⟨w, r2, rfl, hw, hat2, hl⟩ := hat.advance.skipWhitespace_split
          exact iha r2 _ e f'' [] (by simp at hr hl ⊢; omega) hat2 he (by omega)
      · obtain ⟨f'', rfl⟩ : ∃ f'', f' = f'' + 1 := ⟨f' - 1, by omega⟩
        obtain ⟨r1, rfl⟩ := hat.cur_cons h5 (by decide)
        have hp : d.peek = 123 := by rw [hat.peek]; rfl
        rw [parseObject_succ, if_pos hp]
        split_ifs
        · exact ⟨_, rfl⟩
        · obtain ⟨w, r2, rfl, hw, hat2, hl⟩ := hat.advance.skipWhitespace_split
          exact iho r2 _ e f'' [] (by simp at hr hl ⊢; omega) hat2 he (by omega)
      · exact ⟨_, rfl⟩
      · exact ⟨_, rfl⟩
    intro r d e hr hat he
    refine ⟨fun f hf => hv r d e f hr hat he hf, ?_, ?_⟩
    · -- the array loop
      intro f acc hf
      obtain ⟨f', rfl⟩ : ∃ f', f = f' + 1 := ⟨f - 1, by omega⟩
      obtain ⟨w1, r1, rfl, hw1, hat1, hl1⟩ := hat.skipWhitespace_split
      obtain ⟨⟨val, d6, e6⟩, hx⟩ := hv r1 _ e f' (by omega) hat1 he (by omega)
      rw [parseArrayLoop_succ, hx, Option.some_bind]
      simp only []
      split_ifs with h6 h7 h8
      · exact ⟨_, rfl⟩
      · exact ⟨_, rfl⟩
      · simp only [not_not] at h6
        obtain ⟨r6, _, hat6, rfl, hlen6⟩ := (sound f').1 _ _ _ _ _ _ hx he h6 hat1
        obtain ⟨w4, r7, rfl, hw4, hat7, hl7⟩ := hat6.skipWhitespace_split
        obtain ⟨r8, rfl⟩ := hat7.peek_cons h8 (by decide)
        obtain ⟨w5, r9, rfl, hw5, hat9, hl9⟩ := hat7.advance.skipWhitespace_split
        exact iha r9 _ _ f' _
          (by simp only [List.length_cons, List.length_append] at *; omega) hat9 he (by omega)
      · exact ⟨_, rfl⟩
    · -- the object loop
      intro f acc hf
      obtain ⟨f', rfl⟩ : ∃ f', f = f' + 1 := ⟨f - 1, by omega⟩
      obtain ⟨kv, d1, e1, hp⟩ : ∃ kv d1 e1, parseString d.skipWhitespace e = (kv, d1, e1) :=
        ⟨_, _, _, rfl⟩
      rw [parseObjectLoop_succ _ _ _ _ hp]
      obtain ⟨w1, r1, rfl, hw1, hat1, hl1⟩ := hat.skipWhitespace_split
      split_ifs with h0 h1 h2
      · exact ⟨_, rfl⟩
      · exact ⟨_, rfl⟩
      · exact ⟨_, rfl⟩
      · simp only [not_not] at h0 h1 h2
        obtain ⟨t, k, r2, hb, rfl, rfl, hat2, rfl⟩ := parseString_sound hp h1 hat1
        obtain ⟨w2, r3, rfl, hw2, hat3, hl3⟩ := hat2.skipWhitespace_split
        obtain ⟨r4, rfl⟩ := hat3.peek_cons h2 (by decide)
        obtain ⟨w3, r5, rfl, hw3, hat5, hl5⟩ := hat3.advance.skipWhitespace_split
        obtain ⟨⟨val, d6, e6⟩, hx⟩ := ihv r5 _ e1 f'
          (by simp only [List.length_cons, List.length_append] at *; omega) hat5 he (by omega)
        rw [hx, Option.some_bind]
        simp only []
        split_ifs with h6 h7 h8
        · exact ⟨_, rfl⟩
        · exact ⟨_, rfl⟩
        · simp only [not_not] at h6
          obtain ⟨r6, _, hat6, rfl, hlen6⟩ := (sound f').1 _ _ _ _ _ _ hx he h6 hat5
          obtain ⟨w4, r7, rfl, hw4, hat7, hl7⟩ := hat6.skipWhitespace_split
          obtain ⟨r8, rfl⟩ := hat7.peek_cons h8 (by decide)
          obtain ⟨w5, r9, rfl, hw5, hat9, hl9⟩ := hat7.advance.skipWhitespace_split
          exact iho r9 _ _ f' _
            (by simp only [List.length_cons, List.length_append] at *; omega) hat9 he (by omega)
        · exact ⟨_, rfl⟩

end JsonDeserializer

theorem dropWhile_space_append {w r : List Byte} (hw : AllSpace w)
    (hr : isspace (r.headD 0) = false) : (w ++ r).dropWhile isspace = r := by
  induction w with
  | nil =>
    cases r with
    | nil => rfl
    | cons c r => simp at hr; simp [List.dropWhile_cons, hr]
  | cons c w ih =>
    have hc : isspace c = true := hw c (by simp)
    simp only [List.cons_append, List.dropWhile_cons, hc, if_true]
    exact ih (fun x hx => hw x (by simp [hx]))

theorem numberStart_iff (c : Nat) : numberStart c = true ↔ c = 45 ∨ (48 ≤ c ∧ c ≤ 57) := by
  simp [numberStart, isdigit]

theorem numberStart_not_space {c : Nat} (h : numberStart c = true) : isspace c = false := by
  rw [numberStart_iff] at h
  rw [Bool.eq_false_iff]
  intro hs
  rw [isspace_iff] at hs
  omega

theorem Val.head_not_space {r r' : List Byte} {v : JsonValue} (h : Val r v r') :
    isspace (r.headD 0) = false := by
  cases h <;> first | rfl | (rename_i hn; exact numberStart_not_space hn.1)

namespace JsonDeserializer

theorem At.skipWhitespace_append {d : JsonDeserializer} {w r : List Byte} (h : d.At (w ++ r))
    (hw : AllSpace w) (hr : isspace (r.headD 0) = false) : d.skipWhitespace.At r := by
  have := h.skipWhitespace
  rwa [dropWhile_space_append hw hr] at this

theorem parseNull_complete {d : JsonDeserializer} {r : List Byte} (e : ParseError)
    (hat : d.At (110 :: 117 :: 108 :: 108 :: r)) :
    ∃ d', parseNull d e = (.null, d', e) ∧ d'.At r := by
  unfold parseNull
  rw [hat.2, if_pos (show (110 :: 117 :: 108 :: 108 :: r).take 4 = lit "null" from rfl)]
  exact ⟨_, rfl, hat.skip 4 (by simp) _⟩

theorem parseBool_true_complete {d : JsonDeserializer} {r : List Byte} (e : ParseError)
    (hat : d.At (116 :: 114 :: 117 :: 101 :: r)) :
    ∃ d', parseBool d e = (.bool true, d', e) ∧ d'.At r := by
  unfold parseBool
  rw [hat.2, if_pos (show (116 :: 114 :: 117 :: 101 :: r).take 4 = lit "true" from rfl)]
  exact ⟨_, rfl, hat.skip 4 (by simp) _⟩

theorem parseBool_false_complete {d : JsonDeserializer} {r : List Byte} (e : ParseError)
    (hat : d.At (102 :: 97 :: 108 :: 115 :: 101 :: r)) :
    ∃ d', parseBool d e = (.bool false, d', e) ∧ d'.At r := by
  unfold parseBool
  rw [hat.2, if_neg (show ¬ (102 :: 97 :: 108 :: 115 :: 101 :: r).take 4 = lit "true" by
    simp [lit]), if_pos (show (102 :: 97 :: 108 :: 115 :: 101 :: r).take 5 = lit "false" from rfl)]
  exact ⟨_, rfl, hat.skip 5 (by simp) _⟩

theorem parseString_complete {d : JsonDeserializer} {t s r : List Byte} (e : ParseError)
    (hb : StrBody t s) (hat : d.At (34 :: (t ++ 34 :: r))) :
    ∃ d', parseString d e = (.string s, d', e) ∧ d'.At r := by
  rw [parseString_eq, if_pos (by rw [hat.peek]; rfl)]
  have hl := hat.advance.length
  obtain ⟨d', h1, h2, _⟩ := strBody_complete hb d.advance.string.length d.advance [] e r
    hat.advance (by simp at hl; omega)
  exact ⟨d', by simpa using h1, h2⟩

theorem parseNumber_complete {d : JsonDeserializer} {r r' : List Byte} {x : Dbl}
    (e : ParseError) (hn : NumberAt r x r') (hat : d.At r) :
    ∃ d', parseNumber d e = (.number x, d', e) ∧ d'.At r' := by
  obtain ⟨_, h2, h3, h4⟩ := hn
  subst h4
  unfold parseNumber
  have ht := scanNumber_token hat
  have ha := hat.scanNumber
  generalize scanNumber d = p at ht ha
  obtain ⟨d1, tok⟩ := p
  simp only at ht ha ⊢
  subst ht
  split
  · rename_i hc
    exact absurd h2 hc
  · exact ⟨d1, by rw [h3], ha⟩

end JsonDeserializer

namespace JsonDeserializer

/-- The dispatch of `parseJsonValue` on the character at the offset. -/
theorem parseJsonValue_dispatch (f : Nat) {d : JsonDeserializer} {c : Byte} {r : List Byte}
    (e : ParseError) (hat : d.At (c :: r)) :
    parseJsonValue (f + 1) d e =
      if c = 110 then some (parseNull d e)
      else if c = 116 ∨ c = 102 then some (parseBool d e)
      else if c = 34 then some (parseString d e)
      else if c = 91 then parseArray f d e
      else if c = 123 then parseObject f d e
      else if numberStart c = true then some (parseNumber d e)
      else some (.null, d, ⟨lit "Unexpected character '" ++ [c] ++ lit "'", d.posinfo⟩) := by
  have hc : d.cur = c := by simpa using hat.cur
  have hlt : ¬ d.pos ≥ d.string.length := by have := hat.pos_lt; omega
  rw [parseJsonValue_succ, if_neg hlt, hc]
  have : (c = 45 ∨ isdigit c = true) ↔ numberStart c = true := by simp [numberStart]
  simp only [this]

end JsonDeserializer

namespace JsonDeserializer

theorem skipWhitespaceLoop_stop (fuel : Nat) : ∀ d : JsonDeserializer,
    d.string.length - d.pos ≤ fuel →
    ¬ ((skipWhitespaceLoop fuel d).pos < (skipWhitespaceLoop fuel d).string.length ∧
      isspace (skipWhitespaceLoop fuel d).cur = true) := by
  induction fuel with
  | zero =>
    intro d hf
    rw [skipWhitespaceLoop]
    intro h
    omega
  | succ n ih =>
    intro d hf
    rw [skipWhitespaceLoop]
    split
    · rename_i hc
      apply ih
      rw [advance_string]
      have : d.advance.pos = d.pos + 1 := by
        unfold JsonDeserializer.advance
        rw [if_neg (by omega)]
        split <;> rfl
      omega
    · assumption

theorem skipWhitespaceLoop_of_stop (fuel : Nat) (d : JsonDeserializer)
    (h : ¬ (d.pos < d.string.length ∧ isspace d.cur = true)) : skipWhitespaceLoop fuel d = d := by
  cases fuel with
  | zero => rfl
  | succ n => rw [skipWhitespaceLoop, if_neg h]

theorem skipWhitespace_idem (d : JsonDeserializer) :
    d.skipWhitespace.skipWhitespace = d.skipWhitespace :=
  skipWhitespaceLoop_of_stop _ _ (skipWhitespaceLoop_stop _ d (by omega))

theorem parseArrayLoop_skipWhitespace (f : Nat) (d : JsonDeserializer) (acc : JsonArray)
    (e : ParseError) :
    parseArrayLoop f d.skipWhitespace acc e = parseArrayLoop f d acc e := by
  cases f with
  | zero => rw [parseArrayLoop, parseArrayLoop]
  | succ n => rw [parseArrayLoop_succ, parseArrayLoop_succ, skipWhitespace_idem]

theorem parseObjectLoop_skipWhitespace (f : Nat) (d : JsonDeserializer) (acc : JsonObject)
    (e : ParseError) :
    parseObjectLoop f d.skipWhitespace acc e = parseObjectLoop f d acc e := by
  cases f with
  | zero => rw [parseObjectLoop, parseObjectLoop]
  | succ n =>
    obtain ⟨kv, d1, e1, hp⟩ : ∃ kv d1 e1, parseString d.skipWhitespace e = (kv, d1, e1) :=
      ⟨_, _, _, rfl⟩
    have hp' : parseString d.skipWhitespace.skipWhitespace e = (kv, d1, e1) := by
      rw [skipWhitespace_idem]
      exact hp
    rw [parseObjectLoop_succ _ _ _ _ hp', parseObjectLoop_succ _ _ _ _ hp, skipWhitespace_idem]

end JsonDeserializer

theorem Val.head_ne_close {r r' : List Byte} {v : JsonValue} (h : Val r v r') :
    r.headD 0 ≠ 93 := by
  cases h
  case number hn =>
    intro h93
    have := (numberStart_iff _).mp hn.1
    rw [h93] at this
    omega
  all_goals simp

theorem Elems.headElems {r r' : List Byte} {acc a : JsonArray} (h : Elems r acc a r') :
    (r.dropWhile isspace).headD 0 ≠ 93 := by
  cases h with
  | last acc h1 h2 h3 =>
    rw [dropWhile_space_append h1 h2.head_not_space]
    exact h2.head_ne_close
  | more acc h1 h2 h3 h4 =>
    rw [dropWhile_space_append h1 h2.head_not_space]
    exact h2.head_ne_close

theorem Membs.headMembs {r r' : List Byte} {acc o : JsonObject} (h : Membs r acc o r') :
    (r.dropWhile isspace).headD 0 ≠ 125 := by
  cases h with
  | last acc h1 h2 h3 h4 h5 h6 =>
    rw [dropWhile_space_append h1 (by rfl)]
    simp
  | more acc h1 h2 h3 h4 h5 h6 h7 =>
    rw [dropWhile_space_append h1 (by rfl)]
    simp

theorem numberStart_ne {c : Nat} (h : numberStart c = true) :
    ¬ c = 110 ∧ ¬ (c = 116 ∨ c = 102) ∧ ¬ c = 34 ∧ ¬ c = 91 ∧ ¬ c = 123 := by
  rw [numberStart_iff] at h
  omega

/-- Induction over the three relations `Val`, `Elems`, `Membs` at once. -/
theorem Val.induction
    {P1 : List Byte → JsonValue → List Byte → Prop}
    {P2 : List Byte → JsonArray → JsonArray → List Byte → Prop}
    {P3 : List Byte → JsonObject → JsonObject → List Byte → Prop}
    (litNull : ∀ r, P1 (110 :: 117 :: 108 :: 108 :: r) .null r)
    (litTrue : ∀ r, P1 (116 :: 114 :: 117 :: 101 :: r) (.bool true) r)
    (litFalse : ∀ r, P1 (102 :: 97 :: 108 :: 115 :: 101 :: r) (.bool false) r)
    (string : ∀ {t s : List Byte} (r : List Byte), StrBody t s →
      P1 (34 :: (t ++ 34 :: r)) (.string s) r)
    (number : ∀ {r r' : List Byte} {x : Dbl}, NumberAt r x r' → P1 r (.number x) r')
    (arrayEmpty : ∀ {w : List Byte} (r : List Byte), AllSpace w →
      P1 (91 :: (w ++ 93 :: r)) (.array []) r)
    (array : ∀ {r r' : List Byte} {a : JsonArray}, Elems r [] a r' → P2 r [] a r' →
      P1 (91 :: r) (.array a) r')
    (objectEmpty : ∀ {w : List Byte} (r : List Byte), AllSpace w →
      P1 (123 :: (w ++ 125 :: r)) (.object []) r)
    (object : ∀ {r r' : List Byte} {o : JsonObject}, Membs r [] o r' → P3 r [] o r' →
      P1 (123 :: r) (.object o) r')
    (lastElem : ∀ {w1 r1 w2 r' : List Byte} {v : JsonValue} (acc : JsonArray), AllSpace w1 →
      Val r1 v (w2 ++ 93 :: r') → AllSpace w2 → P1 r1 v (w2 ++ 93 :: r') →
      P2 (w1 ++ r1) acc (acc ++ [v]) r')
    (moreElems : ∀ {w1 r1 w2 r2 r' : List Byte} {v : JsonValue} {a : JsonArray}
      (acc : JsonArray), AllSpace w1 → Val r1 v (w2 ++ 44 :: r2) → AllSpace w2 →
      Elems r2 (acc ++ [v]) a r' → P1 r1 v (w2 ++ 44 :: r2) → P2 r2 (acc ++ [v]) a r' →
      P2 (w1 ++ r1) acc a r')
    (lastMemb : ∀ {w1 t k w2 w3 r1 w4 r' : List Byte} {v : JsonValue} (acc : JsonObject),
      AllSpace w1 → StrBody t k → AllSpace w2 → AllSpace w3 → Val r1 v (w4 ++ 125 :: r') →
      AllSpace w4 → P1 r1 v (w4 ++ 125 :: r') →
      P3 (w1 ++ 34 :: (t ++ 34 :: (w2 ++ 58 :: (w3 ++ r1)))) acc (mapEmplace acc k v) r')
    (moreMembs : ∀ {w1 t k w2 w3 r1 w4 r2 r' : List Byte} {v : JsonValue} {o : JsonObject}
      (acc : JsonObject), AllSpace w1 → StrBody t k → AllSpace w2 → AllSpace w3 →
      Val r1 v (w4 ++ 44 :: r2) → AllSpace w4 → Membs r2 (mapEmplace acc k v) o r' →
      P1 r1 v (w4 ++ 44 :: r2) → P3 r2 (mapEmplace acc k v) o r' →
      P3 (w1 ++ 34 :: (t ++ 34 :: (w2 ++ 58 :: (w3 ++ r1)))) acc o r') :
    (∀ {r v r'}, Val r v r' → P1 r v r') ∧ (∀ {r acc a r'}, Elems r acc a r' → P2 r acc a r') ∧
      (∀ {r acc o r'}, Membs r acc o r' → P3 r acc o r') :=
  ⟨fun h => Val.rec (motive_1 := fun r v r' _ => P1 r v r')
      (motive_2 := fun r acc a r' _ => P2 r acc a r')
      (motive_3 := fun r acc o r' _ => P3 r acc o r')
      litNull litTrue litFalse string number arrayEmpty array objectEmpty object lastElem
      moreElems lastMemb moreMembs h,
    fun h => Elems.rec (motive_1 := fun r v r' _ => P1 r v r')
      (motive_2 := fun r acc a r' _ => P2 r acc a r')
      (motive_3 := fun r acc o r' _ => P3 r acc o r')
      litNull litTrue litFalse string number arrayEmpty array objectEmpty object lastElem
      moreElems lastMemb moreMembs h,
    fun h => Membs.rec (motive_1 := fun r v r' _ => P1 r v r')
      (motive_2 := fun r acc a r' _ => P2 r acc a r')
      (motive_3 := fun r acc o r' _ => P3 r acc o r')
      litNull litTrue litFalse string number arrayEmpty array objectEmpty object lastElem
      moreElems lastMemb moreMembs h⟩

/-- Every text of the language is read as such by the recursive descent, given enough fuel. -/
theorem complete :
    (∀ {r v r'}, Val r v r' → ∀ (d : JsonDeserializer) (e : ParseError), d.At r → e.what = [] →
      ∃ f d', parseJsonValue f d e = some (v, d', e) ∧ d'.At r') ∧
    (∀ {r acc a r'}, Elems r acc a r' → ∀ (d : JsonDeserializer) (e : ParseError), d.At r →
      e.what = [] → ∃ f d', parseArrayLoop f d acc e = some (.array a, d', e) ∧ d'.At r') ∧
    (∀ {r acc o r'}, Membs r acc o r' → ∀ (d : JsonDeserializer) (e : ParseError), d.At r →
      e.what = [] → ∃ f d', parseObjectLoop f d acc e = some (.object o, d', e) ∧ d'.At r') := by
  apply Val.induction
  · intro r d e hat _
    obtain ⟨d', h1, h2⟩ := parseNull_complete e hat
    exact ⟨1, d', by rw [parseJsonValue_dispatch 0 e hat, if_pos rfl, h1], h2⟩
  · intro r d e hat _
    obtain ⟨d', h1, h2⟩ := parseBool_true_complete e hat
    refine ⟨1, d', ?_, h2⟩
    rw [parseJsonValue_dispatch 0 e hat, if_neg (by decide), if_pos (Or.inl rfl), h1]
  · intro r d e hat _
    obtain ⟨d', h1, h2⟩ := parseBool_false_complete e hat
    refine ⟨1, d', ?_, h2⟩
    rw [parseJsonValue_dispatch 0 e hat, if_neg (by decide), if_pos (Or.inr rfl), h1]
  · intro t s r hb d e hat _
    obtain ⟨d', h1, h2⟩ := parseString_complete e hb hat
    refine ⟨1, d', ?_, h2⟩
    rw [parseJsonValue_dispatch 0 e hat, if_neg (by decide), if_neg (by decide), if_pos rfl, h1]
  · intro r r' x hn d e hat _
    obtain ⟨d', h1, h2⟩ := parseNumber_complete e hn hat
    have hs := hn.1
    obtain ⟨c, r1, rfl⟩ : ∃ c r1, r = c :: r1 := by
      cases r with
      | nil => simp [numberStart, isdigit] at hs
      | cons c r1 => exact ⟨c, r1, rfl⟩
    simp only [List.headD_cons] at hs
    obtain ⟨n1, n2, n3, n4, n5⟩ := numberStart_ne hs
    refine ⟨1, d', ?_, h2⟩
    rw [parseJsonValue_dispatch 0 e hat, if_neg n1, if_neg n2, if_neg n3, if_neg n4, if_neg n5,
      if_pos hs, h1]
  · intro w r hw d e hat _
    have h1 : d.advance.skipWhitespace.At (93 :: r) :=
      hat.advance.skipWhitespace_append hw (by rfl)
    refine ⟨2, _, ?_, h1.advance⟩
    rw [parseJsonValue_dispatch 1 e hat, if_neg (by decide), if_neg (by decide),
      if_neg (by decide), if_pos rfl, parseArray_succ, if_pos (by rw [hat.peek]; rfl),
      if_pos (by rw [h1.peek]; rfl)]
  · intro r r' a h ih d e hat he
    obtain ⟨f, d', h1, h2⟩ := ih d.advance e hat.advance he
    refine ⟨f + 2, d', ?_, h2⟩
    rw [parseJsonValue_dispatch (f + 1) e hat, if_neg (by decide), if_neg (by decide),
      if_neg (by decide), if_pos rfl, parseArray_succ, if_pos (by rw [hat.peek]; rfl),
      if_neg (by rw [hat.advance.skipWhitespace.peek]; exact h.headElems),
      parseArrayLoop_skipWhitespace, h1]
  · intro w r hw d e hat _
    have h1 : d.advance.skipWhitespace.At (125 :: r) :=
      hat.advance.skipWhitespace_append hw (by rfl)
    refine ⟨2, _, ?_, h1.advance⟩
    rw [parseJsonValue_dispatch 1 e hat, if_neg (by decide), if_neg (by decide),
      if_neg (by decide), if_neg (by decide), if_pos rfl, parseObject_succ,
      if_pos (by rw [hat.peek]; rfl), if_pos (by rw [h1.peek]; rfl)]
  · intro r r' o h ih d e hat he
    obtain ⟨f, d', h1, h2⟩ := ih d.advance e hat.advance he
    refine ⟨f + 2, d', ?_, h2⟩
    rw [parseJsonValue_dispatch (f + 1) e hat, if_neg (by decide), if_neg (by decide),
      if_neg (by decide), if_neg (by decide), if_pos rfl, parseObject_succ,
      if_pos (by rw [hat.peek]; rfl),
      if_neg (by rw [hat.advance.skipWhitespace.peek]; exact h.headMembs),
      parseObjectLoop_skipWhitespace, h1]
  · intro w1 r1 w2 r' v acc hw1 hv hw2 ih d e hat he
    have hat1 := hat.skipWhitespace_append hw1 hv.head_not_space
    obtain ⟨f, d2, h1, h2⟩ := ih d.skipWhitespace e hat1 he
    have h3 : d2.skipWhitespace.At (93 :: r') := h2.skipWhitespace_append hw2 (by rfl)
    refine ⟨f + 1, d2.skipWhitespace.advance, ?_, h3.advance⟩
    rw [parseArrayLoop_succ, h1, Option.some_bind]
    simp only []
    rw [if_neg (not_not.mpr he), if_pos (by rw [h3.peek]; rfl)]
  · intro w1 r1 w2 r2 r' v a acc hw1 hv hw2 hrest ih1 ih2 d e hat he
    have hat1 := hat.skipWhitespace_append hw1 hv.head_not_space
    obtain ⟨f, d2, h1, h2⟩ := ih1 d.skipWhitespace e hat1 he
    have h3 : d2.skipWhitespace.At (44 :: r2) := h2.skipWhitespace_append hw2 (by rfl)
    obtain ⟨f2, d', h4, h5⟩ := ih2 d2.skipWhitespace.advance e h3.advance he
    refine ⟨max f f2 + 1, d', ?_, h5⟩
    rw [parseArrayLoop_succ, (fuel_mono (le_max_left f f2)).1 _ _ _ h1, Option.some_bind]
    simp only []
    rw [if_neg (not_not.mpr he), if_neg (by rw [h3.peek]; simp),
      if_pos (by rw [h3.peek]; rfl), parseArrayLoop_skipWhitespace]
    exact (fuel_mono (le_max_right f f2)).2.2.2.2 _ _ _ _ h4
  · intro w1 t k w2 w3 r1 w4 r' v acc hw1 hb hw2 hw3 hv hw4 ih d e hat he
    have hat1 : d.skipWhitespace.At (34 :: (t ++ 34 :: (w2 ++ 58 :: (w3 ++ r1)))) :=
      hat.skipWhitespace_append hw1 (by rfl)
    obtain ⟨d2, hp, hat2⟩ := parseString_complete e hb hat1
    have hat3 : d2.skipWhitespace.At (58 :: (w3 ++ r1)) :=
      hat2.skipWhitespace_append hw2 (by rfl)
    have hat5 := hat3.advance.skipWhitespace_append hw3 hv.head_not_space
    obtain ⟨f, d6, h1, h2⟩ := ih _ e hat5 he
    have h3 : d6.skipWhitespace.At (125 :: r') := h2.skipWhitespace_append hw4 (by rfl)
    refine ⟨f + 1, d6.skipWhitespace.advance, ?_, h3.advance⟩
    rw [parseObjectLoop_succ _ _ _ _ hp, if_neg (by rw [hat1.peek]; simp),
      if_neg (not_not.mpr he), if_neg (by rw [hat3.peek]; simp), h1, Option.some_bind]
    simp only []
    rw [if_neg (not_not.mpr he), if_pos (by rw [h3.peek]; rfl)]
    rfl
  · intro w1 t k w2 w3 r1 w4 r2 r' v o acc hw1 hb hw2 hw3 hv hw4 hrest ih1 ih2 d e hat he
    have hat1 : d.skipWhitespace.At (34 :: (t ++ 34 :: (w2 ++ 58 :: (w3 ++ r1)))) :=
      hat.skipWhitespace_append hw1 (by rfl)
    obtain ⟨d2, hp, hat2⟩ := parseString_complete e hb hat1
    have hat3 : d2.skipWhitespace.At (58 :: (w3 ++ r1)) :=
      hat2.skipWhitespace_append hw2 (by rfl)
    have hat5 := hat3.advance.skipWhitespace_append hw3 hv.head_not_space
    obtain ⟨f, d6, h1, h2⟩ := ih1 _ e hat5 he
    have h3 : d6.skipWhitespace.At (44 :: r2) := h2.skipWhitespace_append hw4 (by rfl)
    obtain ⟨f2, d', h4, h5⟩ := ih2 d6.skipWhitespace.advance e h3.advance he
    refine ⟨max f f2 + 1, d', ?_, h5⟩
    rw [parseObjectLoop_succ _ _ _ _ hp, if_neg (by rw [hat1.peek]; simp),
      if_neg (not_not.mpr he), if_neg (by rw [hat3.peek]; simp),
      (fuel_mono (le_max_left f f2)).1 _ _ _ h1, Option.some_bind]
    simp only []
    rw [if_neg (not_not.mpr he), if_neg (by rw [h3.peek]; simp),
      if_pos (by rw [h3.peek]; rfl), parseObjectLoop_skipWhitespace]
    exact (fuel_mono (le_max_right f f2)).2.2.1 _ _ _ _ h4

namespace JsonDeserializer

theorem fuel_irrelevant {f f' : Nat} {d : JsonDeserializer} {e : ParseError} {x y : ParseResult}
    (hx : parseJsonValue f d e = some x) (hy : parseJsonValue f' d e = some y) : x = y := by
  rcases Nat.le_total f f' with h | h
  · have := (fuel_mono h).1 _ _ _ hx
    rw [hy] at this
    exact (Option.some.inj this).symm
  · have := (fuel_mono h).1 _ _ _ hy
    rw [hx] at this
    exact Option.some.inj this

theorem deserializeInternal_eq (f : Nat) (d : JsonDeserializer) (e0 : ParseError) :
    deserializeInternal f d e0 =
      (parseJsonValue f d.skipWhitespace {}).bind fun r =>
        if r.2.2.what ≠ [] then some (.null, r.2.1, r.2.2)
        else if r.2.1.skipWhitespace.pos ≠ r.2.1.skipWhitespace.string.length then
          some (.null, r.2.1.skipWhitespace,
            ⟨lit "Trailing data after JSON", r.2.1.skipWhitespace.posinfo⟩)
        else some (r.1, r.2.1.skipWhitespace, r.2.2) := by
  unfold deserializeInternal
  dsimp only []
  cases parseJsonValue f d.skipWhitespace {} with
  | none => rfl
  | some r =>
    obtain ⟨v, d1, e1⟩ := r
    rfl

theorem initial_at (t : List Byte) : JsonDeserializer.At { string := t } t :=
  ⟨Nat.zero_le _, rfl⟩

end JsonDeserializer

/-- The recursive descent over the whole source always returns. -/
theorem parseJsonValue_total (t : List Byte) :
    ∃ x, parseJsonValue (fuelFor t.length) (JsonDeserializer.skipWhitespace { string := t }) {}
      = some x := by
  obtain ⟨w, r, hr, hw, hat, hl⟩ := (initial_at t).skipWhitespace_split
  have := (JsonDeserializer.total t.length r _ {} hl hat rfl).1 (fuelFor t.length)
    (by unfold fuelFor; omega)
  exact this

/-- `parse` returns for every text. -/
theorem parse_total (t : List Byte) (e0 : ParseError) : ∃ v err, parse t e0 = some (v, err) := by
  obtain ⟨x, hx⟩ := parseJsonValue_total t
  unfold parse JsonDeserializer.deserialize
  rw [deserializeInternal_eq, hx, Option.some_bind]
  split_ifs <;> exact ⟨_, _, rfl⟩

/-- The content of the error slot before the call has no influence. -/
theorem parse_err_irrelevant (t : List Byte) (e0 e1 : ParseError) : parse t e0 = parse t e1 := by
  unfold parse JsonDeserializer.deserialize
  rw [deserializeInternal_eq, deserializeInternal_eq]

/-- A reported error comes with the default value. -/
theorem parse_error_null {t : List Byte} {e0 err : ParseError} {v : JsonValue}
    (h : parse t e0 = some (v, err)) (he : err.what ≠ []) : v = .null := by
  unfold parse JsonDeserializer.deserialize at h
  rw [deserializeInternal_eq] at h
  obtain ⟨x, hx⟩ := parseJsonValue_total t
  rw [hx, Option.some_bind] at h
  split_ifs at h with h1 h2
  · simp only [Option.map_some', Option.some.injEq, Prod.mk.injEq] at h
    exact h.1.symm
  · simp only [Option.map_some', Option.some.injEq, Prod.mk.injEq] at h
    exact h.1.symm
  · simp only [Option.map_some', Option.some.injEq, Prod.mk.injEq] at h
    exact absurd (by rw [← h.2]; simpa using h1) he

/-- The texts `parse` accepts, and the values it returns for them, are those of `Doc`. -/
theorem parse_eq_some_iff (t : List Byte) (e0 : ParseError) (v : JsonValue) :
    parse t e0 = some (v, {}) ↔ Doc t v := by
  obtain ⟨x, hx⟩ := parseJsonValue_total t
  obtain ⟨v1, d2, e2⟩ := x
  obtain ⟨w1, r1, hr, hw1, hat1, _⟩ := (initial_at t).skipWhitespace_split
  have hparse : parse t e0 =
      if e2.what ≠ [] then some (.null, e2)
      else if d2.skipWhitespace.pos ≠ d2.skipWhitespace.string.length then
        some (.null, ⟨lit "Trailing data after JSON", d2.skipWhitespace.posinfo⟩)
      else some (v1, e2) := by
    unfold parse JsonDeserializer.deserialize
    rw [deserializeInternal_eq, hx, Option.some_bind]
    split_ifs <;> rfl
  rw [hparse]
  constructor
  · intro h
    split_ifs at h with h1 h2
    · simp only [Option.some.injEq, Prod.mk.injEq] at h
      exact absurd (by rw [h.2]) h1
    · simp only [Option.some.injEq, Prod.mk.injEq] at h
      exact absurd (congrArg ParseError.what h.2) (by simp [lit])
    · simp only [Option.some.injEq, Prod.mk.injEq] at h
      obtain ⟨rfl, rfl⟩ := h
      simp only [not_not] at h2
      obtain ⟨r2, hval, hat2, _, _⟩ := (sound _).1 _ _ _ _ _ _ hx rfl rfl hat1
      obtain ⟨w2, r3, rfl, hw2, hat3, _⟩ := hat2.skipWhitespace_split
      have hl := hat3.length
      have : r3 = [] := List.length_eq_zero.mp (by omega)
      subst this
      exact ⟨w1, r1, w2, hr, hw1, by simpa using hval, hw2⟩
  · rintro ⟨w1', r1', w2, ht, hw1', hval, hw2⟩
    have hr1 : r1 = r1' := by
      have h0 : JsonDeserializer.At { string := t } (w1' ++ r1') := by
        rw [← ht]
        exact initial_at t
      have h2 := h0.skipWhitespace_append hw1' hval.head_not_space
      rw [← hat1.2, ← h2.2]
    subst hr1
    obtain ⟨f, d', h1, h2⟩ := complete.1 hval _ {} hat1 rfl
    have := fuel_irrelevant h1 hx
    simp only [Prod.mk.injEq] at this
    obtain ⟨rfl, rfl, rfl⟩ := this
    have h3 : d'.skipWhitespace.At [] := by
      have h2' : d'.At (w2 ++ []) := by simpa using h2
      exact h2'.skipWhitespace_append hw2 (by rfl)
    rw [if_neg (by simp), if_neg (by rw [not_not]; exact h3.pos_eq)]

/-! ## The serializer's strings are read back -/

theorem strBody_escape (s : List Byte) : StrBody (JsonSerializer.escape s) s := by
  induction s with
  | nil => exact StrBody.nil
  | cons c s ih =>
    rw [JsonSerializer.escape]
    split_ifs with h1 h2 h3 h4 h5 h6 h7
    · subst h1; exact StrBody.esc (e := 34) rfl ih
    · subst h2; exact StrBody.esc (e := 92) rfl ih
    · subst h3; exact StrBody.esc (e := 98) rfl ih
    · subst h4; exact StrBody.esc (e := 102) rfl ih
    · subst h5; exact StrBody.esc (e := 110) rfl ih
    · subst h6; exact StrBody.esc (e := 114) rfl ih
    · subst h7; exact StrBody.esc (e := 116) rfl ih
    · exact StrBody.plain h1 h2 ih

/-- C2. String escaping round trip: for every byte string `s`, the explicit-result parse of a
double quote, `JsonSerializer::escape(s)` and a closing double quote reports no error (the
error slot is the default `ParseError`) and returns the String value `s`. -/
theorem escape_round_trip (s : List Byte) (e0 : ParseError) :
    parse ([34] ++ JsonSerializer.escape s ++ [34]) e0 = some (.string s, {}) := by
  rw [parse_eq_some_iff]
  exact ⟨[], _, [], rfl, AllSpace.nil, by simpa using Val.string [] (strBody_escape s),
    AllSpace.nil⟩

/-! ## `HMS_JSON_Value.h`: the mutating accessors and subscripts -/

/-- C8. Auto-vivification by key: for every value `v` that is not an object, every key `k` and
every value `x`, after `v[k] = x` the value `v` is the object with exactly one member, `k`
mapped to `x`; the previous content is gone. -/
theorem assignKey_not_object (v : JsonValue) (k : List Byte) (x : JsonValue)
    (h : v.isObject = false) : v.assignKey k x = .object [(k, x)] := by
  cases v <;> simp_all [JsonValue.assignKey, JsonValue.subscriptKey, JsonValue.getObject,
    JsonValue.storeObject, JsonValue.isObject, JsonValue.asObject, mapEmplace, mapAssign]

/-- C8 at the example of the specification: `JsonValue(42)` with `v["x"] = 1` becomes the
object with the single member `x` mapped to the number 1. -/
theorem assignKey_not_object_witness :
    (JsonValue.ofInt 42).isObject = false ∧
      (JsonValue.ofInt 42).assignKey (lit "x") (JsonValue.ofInt 1)
        = .object [(lit "x", JsonValue.ofInt 1)] :=
  ⟨rfl, assignKey_not_object _ _ _ rfl⟩

/-- C10. Mutating accessors: `getArray()` leaves `v` unchanged when it is an array and
otherwise replaces it by the empty array; `getObject()` leaves `v` unchanged when it is an
object and otherwise replaces it by the empty object; in both cases the returned container is
the one stored in `v` afterwards. -/
theorem getArray_getObject_spec (v : JsonValue) :
    ((v.isArray = true ∧ v.getArray.1 = v) ∨ (v.isArray = false ∧ v.getArray.1 = .array [])) ∧
    v.getArray.1 = .array v.getArray.2 ∧
    ((v.isObject = true ∧ v.getObject.1 = v) ∨
      (v.isObject = false ∧ v.getObject.1 = .object [])) ∧
    v.getObject.1 = .object v.getObject.2 := by
  cases v <;> simp [JsonValue.getArray, JsonValue.getObject, JsonValue.isArray,
    JsonValue.isObject, JsonValue.asArray, JsonValue.asObject]

/-- Within `max_size()` a growing `resize` pads with Null when the storage is granted. -/
theorem vectorResize_grow (a : JsonArray) (n : Nat) (h1 : a.length < n) (h2 : n ≤ MAX_SIZE) :
    vectorResize a n true = .done (a ++ List.replicate (n - a.length) JsonValue.null) := by
  unfold vectorResize
  rw [if_neg (by omega), if_neg (by omega), if_pos rfl]

/-- Beyond `max_size()` a growing `resize` throws, whatever the allocator would do. -/
theorem vectorResize_throws (a : JsonArray) (n : Nat) (granted : Bool) (h1 : a.length < n)
    (h2 : MAX_SIZE < n) : vectorResize a n granted = .lengthError := by
  unfold vectorResize
  rw [if_neg (by omega), if_pos (by omega)]

theorem subscript_list (a0 : JsonArray) (i : Nat) :
    let a := if i ≥ a0.length then a0 ++ List.replicate (i + 1 - a0.length) JsonValue.null
      else a0
    a.length = max a0.length (i + 1) ∧ (∀ j, j < a0.length → a[j]? = a0[j]?) ∧
      (∀ j, a0.length ≤ j → j < a.length → a[j]? = some JsonValue.null) ∧ i < a.length := by
  intro a
  by_cases h : i ≥ a0.length
  · have ha : a = a0 ++ List.replicate (i + 1 - a0.length) JsonValue.null := by
      show (if i ≥ a0.length then _ else a0) = _
      rw [if_pos h]
    have hl : a.length = i + 1 := by rw [ha]; simp; omega
    refine ⟨by rw [hl]; omega, ?_, ?_, by omega⟩
    · intro j hj
      rw [ha, List.getElem?_append_left hj]
    · intro j hj1 hj2
      rw [ha, List.getElem?_append_right hj1, List.getElem?_replicate]
      rw [if_pos (by omega)]
  · have ha : a = a0 := by
      show (if i ≥ a0.length then _ else a0) = _
      rw [if_neg h]
    refine ⟨by rw [ha]; omega, fun j _ => by rw [ha], ?_, by rw [ha]; omega⟩
    intro j hj1 hj2
    rw [ha] at hj2
    omega

/-- `operator[](std::size_t)` on a value that `getArray()` leaves as the array `a0`, at an
index below `max_size()`, the storage being granted. -/
theorem subscriptIdx_of_getArray (v : JsonValue) (a0 : JsonArray) (i : Nat)
    (hi : i < MAX_SIZE) (hg : v.getArray = (.array a0, a0)) :
    v.subscriptIdx i true =
      (.array (if i ≥ a0.length then a0 ++ List.replicate (i + 1 - a0.length) JsonValue.null
        else a0),
       slotAt (if i ≥ a0.length then a0 ++ List.replicate (i + 1 - a0.length) JsonValue.null
        else a0) i) := by
  have hM : MAX_SIZE < SIZE_MAX := by decide
  have hmod : (i + 1) % (SIZE_MAX + 1) = i + 1 := Nat.mod_eq_of_lt (by omega)
  unfold JsonValue.subscriptIdx
  rw [hg]
  dsimp only
  by_cases h : i ≥ a0.length
  · rw [if_pos h, if_pos h, hmod, vectorResize_grow a0 (i + 1) (by omega) (by omega)]
    rfl
  · rw [if_neg h, if_neg h]

/-- C9, amended. Integer subscript growth: for every value `v` and every index `i` below
`max_size()` of the vector, so that `i + 1` elements are within what `resize` accepts, the
allocator granting the storage that `resize` asks for, after evaluating `v[i]` the value `v`
is an array of length `max(n, i+1)`, where `n` is the previous array length (0 if `v` was not
an array); the elements at indices below `n` are those of the previous array, every newly
created element is Null, and the returned slot is element `i`. -/
theorem subscriptIdx_grows (v : JsonValue) (i : Nat) (granted : Bool) (hi : i < MAX_SIZE)
    (hg : granted = true) :
    ∃ a slot, v.subscriptIdx i granted = (.array a, .element slot) ∧
      a.length = max (v.asArray.getD []).length (i + 1) ∧
      (∀ j, j < (v.asArray.getD []).length → a[j]? = (v.asArray.getD [])[j]?) ∧
      (∀ j, (v.asArray.getD []).length ≤ j → j < a.length → a[j]? = some JsonValue.null) ∧
      a[i]? = some slot := by
  subst hg
  have key : ∀ a0 : JsonArray, v.getArray = (.array a0, a0) → (v.asArray.getD []) = a0 →
      ∃ a slot, v.subscriptIdx i true = (.array a, .element slot) ∧
      a.length = max a0.length (i + 1) ∧ (∀ j, j < a0.length → a[j]? = a0[j]?) ∧
      (∀ j, a0.length ≤ j → j < a.length → a[j]? = some JsonValue.null) ∧
      a[i]? = some slot := by
    intro a0 h1 _
    obtain ⟨k1, k2, k3, k4⟩ := subscript_list a0 i
    refine ⟨_, (if i ≥ a0.length then a0 ++ List.replicate (i + 1 - a0.length) JsonValue.null
      else a0)[i], ?_, k1, k2, k3, ?_⟩
    · rw [subscriptIdx_of_getArray v a0 i hi h1]
      unfold slotAt
      rw [List.get?_eq_getElem?, List.getElem?_eq_getElem k4]
    · rw [List.getElem?_eq_getElem k4]
  cases v with
  | array a0 => exact key a0 rfl rfl
  | null => exact key [] rfl rfl
  | bool b => exact key [] rfl rfl
  | number x => exact key [] rfl rfl
  | string s => exact key [] rfl rfl
  | object o => exact key [] rfl rfl

/-- C9 applied: `v[2]` on a Null value. -/
theorem subscriptIdx_grows_witness :
    2 < MAX_SIZE ∧ true = true ∧
    ∃ a slot, JsonValue.null.subscriptIdx 2 true = (.array a, .element slot) ∧
      a.length = max (JsonValue.null.asArray.getD []).length (2 + 1) ∧
      (∀ j, j < (JsonValue.null.asArray.getD []).length →
        a[j]? = (JsonValue.null.asArray.getD [])[j]?) ∧
      (∀ j, (JsonValue.null.asArray.getD []).length ≤ j → j < a.length →
        a[j]? = some JsonValue.null) ∧
      a[2]? = some slot :=
  ⟨by decide, rfl, subscriptIdx_grows JsonValue.null 2 true (by decide) rfl⟩

/-- C9 as stated fails from the index `max_size()` on. At `v[max_size()]`, and so at
`v[2^60]`, `resize(idx + 1)` throws `std::length_error`, also where the allocator would grant
any storage: no slot is returned, a value that was not an array is left as the empty array
and an array keeps its length. At the largest index `idx + 1` wraps to `0`, the array is
resized to length 0 instead of `max(0, SIZE_MAX + 1)`, and `a[idx]` designates no element.
And below `max_size()` the claim fails where the allocator does not grant the storage:
`resize` throws `std::bad_alloc` and a Null value is left as the empty array. -/
theorem subscriptIdx_beyond_max_size :
    JsonValue.null.subscriptIdx MAX_SIZE true = (.array [], .lengthError) ∧
    (JsonValue.ofInt 42).subscriptIdx (2 ^ 60) true = (.array [], .lengthError) ∧
    (JsonValue.array [.null, .null]).subscriptIdx MAX_SIZE true =
      (.array [.null, .null], .lengthError) ∧
    ([] : JsonArray).length ≠ max 0 (MAX_SIZE + 1) ∧
    JsonValue.null.subscriptIdx SIZE_MAX true = (.array [], .outOfRange) ∧
    ([] : JsonArray).length ≠ max 0 (SIZE_MAX + 1) ∧
    JsonValue.null.subscriptIdx (MAX_SIZE - 1) false = (.array [], .badAlloc) ∧
    ([] : JsonArray).length ≠ max 0 (MAX_SIZE - 1 + 1) :=
  ⟨rfl, rfl, rfl, by decide, rfl, by decide, rfl, by decide⟩

/-- C6 fails on the code: for the malformed text `"\q"` both builds report the message
`Invalid escape \q`, the explicit-result build at line 1, column 4 and the fail-fast build at
line 1, column 3 (its `parseString` does not count the backslash). -/
theorem modes_differ_in_column :
    parse (lit "\"\\q\"") {} = some (.null, ⟨lit "Invalid escape \\q", ⟨1, 4⟩⟩) ∧
      FailFast.deserialize (lit "\"\\q\"") = some (.error ⟨lit "Invalid escape \\q", ⟨1, 3⟩⟩) :=
  ⟨rfl, rfl⟩

/-- C7 fails on the code: the text `"\f"` is accepted by the explicit-result build, with the
one-character string holding a form feed, and rejected by the fail-fast build, whose
`parseString` has no case for `f`. -/
theorem modes_differ_on_form_feed :
    parse (lit "\"\\f\"") {} = some (.string [12], {}) ∧
      FailFast.deserialize (lit "\"\\f\"") = some (.error ⟨lit "Invalid escape \\f", ⟨1, 3⟩⟩) :=
  ⟨rfl, rfl⟩

/-- C5 as stated fails: in `{"k": 1, "k": 2}` the member `k` keeps the value of the first
occurrence, 1, not that of the last, 2 (`std::map::emplace` leaves an existing entry alone). -/
theorem duplicate_key_first_wins_example :
    parse (lit "1") {} = some (JsonValue.ofInt 1, {}) ∧
    parse (lit "2") {} = some (JsonValue.ofInt 2, {}) ∧
    parse (lit "\x7b\"k\": 1, \"k\": 2\x7d") {} =
      some (.object [(lit "k", JsonValue.ofInt 1)], {}) ∧
    JsonValue.object [(lit "k", JsonValue.ofInt 1)] ≠ .object [(lit "k", JsonValue.ofInt 2)] :=
  ⟨rfl, rfl, rfl, fun h => absurd (JsonValue.number.inj
    (Prod.mk.inj (List.cons.inj (JsonValue.object.inj h)).1).2) (by decide)⟩

/-- C1 as stated fails: `JsonValue(1234567)` is written with six significant digits, as
`1.23457e+06`, and that text is read back as the number 1234570. -/
theorem round_trip_loses_digits :
    (JsonValue.ofInt 1234567).numbers.all Dbl.isfinite = true ∧
    serialize (JsonValue.ofInt 1234567) = some (lit "1.23457e+06") ∧
    parse (lit "1.23457e+06") {} = some (JsonValue.ofInt 1234570, {}) ∧
    JsonValue.ofInt 1234570 ≠ JsonValue.ofInt 1234567 :=
  ⟨rfl, rfl, rfl, fun h => absurd (JsonValue.number.inj h) (by decide)⟩

/-! ## A value in a longer text -/

theorem digitRun_le (l : List Byte) : digitRun l ≤ l.length := by
  induction l with
  | nil => simp [digitRun]
  | cons c l ih =>
    rw [digitRun]
    split_ifs
    · simp only [List.length_cons]; omega
    · omega

theorem digitRun_append (l x : List Byte) (hx : isdigit (x.headD 0) = false) :
    digitRun (l ++ x) = digitRun l := by
  induction l with
  | nil =>
    cases x with
    | nil => rfl
    | cons c x =>
      rw [List.headD_cons] at hx
      simp [digitRun, hx]
  | cons c l ih => rw [List.cons_append, digitRun, digitRun, ih]

theorem drop_digitRun_append (l x : List Byte) (hx : isdigit (x.headD 0) = false) :
    (l ++ x).drop (digitRun (l ++ x)) = l.drop (digitRun l) ++ x := by
  rw [digitRun_append l x hx, List.drop_append_of_le_length (digitRun_le l)]

theorem dropHead_append (p : Byte → Prop) [DecidablePred p] (f : List Byte → List Byte)
    (l x : List Byte) (hx : ¬ p (x.headD 0)) (h0 : ¬ p 0)
    (hf : ∀ l, f (l ++ x) = f l ++ x) :
    (if p ((l ++ x).headD 0) then f ((l ++ x).drop 1) else l ++ x) =
      (if p (l.headD 0) then f (l.drop 1) else l) ++ x := by
  cases l with
  | nil => simp only [List.nil_append, List.headD_nil, if_neg hx, if_neg h0]
  | cons c l =>
    simp only [List.cons_append, List.headD_cons, List.drop_succ_cons, List.drop_zero]
    split_ifs
    · exact hf l
    · rfl

theorem numberChar_false {c : Nat} (h : numberChar c = false) :
    isdigit c = false ∧ c ≠ 46 ∧ c ≠ 101 ∧ c ≠ 69 ∧ c ≠ 43 ∧ c ≠ 45 := by
  simp only [numberChar, Bool.or_eq_false_iff, decide_eq_false_iff_not] at h
  tauto

theorem scanRest_append (l x : List Byte) (hx : numberChar (x.headD 0) = false) :
    scanRest (l ++ x) = scanRest l ++ x := by
  obtain ⟨hd, h46, h101, h69, h43, h45⟩ := numberChar_false hx
  have h1 := dropHead_append (fun c => c = 45) id l x h45 (by decide) (fun _ => rfl)
  simp only [id] at h1
  unfold scanRest
  simp only []
  rw [h1]
  generalize (if l.headD 0 = 45 then l.drop 1 else l) = l1
  rw [drop_digitRun_append l1 x hd]
  generalize l1.drop (digitRun l1) = l2
  have h2 := dropHead_append (fun c => c = 46) (fun r => r.drop (digitRun r)) l2 x h46
    (by decide) (fun r => drop_digitRun_append r x hd)
  simp only [] at h2
  rw [h2]
  generalize (if l2.headD 0 = 46 then (l2.drop 1).drop (digitRun (l2.drop 1)) else l2) = l3
  have h4 := dropHead_append (fun c => c = 101 ∨ c = 69)
    (fun r => (if r.headD 0 = 43 ∨ r.headD 0 = 45 then r.drop 1 else r).drop
      (digitRun (if r.headD 0 = 43 ∨ r.headD 0 = 45 then r.drop 1 else r))) l3 x
    (fun h => h.elim h101 h69) (by decide) (fun r => by
      have h3 := dropHead_append (fun c => c = 43 ∨ c = 45) id r x (fun h => h.elim h43 h45) (by decide)
        (fun _ => rfl)
      simp only [id] at h3
      simp only []
      rw [h3, drop_digitRun_append _ x hd])
  simp only [] at h4
  exact h4

theorem scanToken_append (l x : List Byte) (hx : numberChar (x.headD 0) = false) :
    scanToken (l ++ x) = scanToken l := by
  have hle : (scanRest l).length ≤ l.length := by
    refine le_trans (scanRest_length_le l) (le_trans (length_drop_digitRun_le _) ?_)
    split_ifs <;> simp
  unfold scanToken
  rw [scanRest_append l x hx, List.length_append, List.length_append,
    show l.length + x.length - ((scanRest l).length + x.length) =
      l.length - (scanRest l).length by omega,
    List.take_append_of_le_length (by omega)]

theorem NumberAt.extend {r r' : List Byte} {v : Dbl} (h : NumberAt r v r') (x : List Byte)
    (hx : numberChar (x.headD 0) = false) : NumberAt (r ++ x) v (r' ++ x) := by
  obtain ⟨h1, h2, h3, h4⟩ := h
  have hr : r ≠ [] := by
    rintro rfl
    simp [numberStart, isdigit] at h1
  obtain ⟨c, r0, rfl⟩ := List.exists_cons_of_ne_nil hr
  refine ⟨by simpa using h1, ?_, ?_, ?_⟩
  · rw [scanToken_append _ x hx]; exact h2
  · rw [scanToken_append _ x hx]; exact h3
  · rw [scanRest_append _ x hx, h4]

/-- A value, and the rest of an array or object, read the same when text is appended that
does not start with a character of a number. -/
theorem Val.append_all (x : List Byte) (hx : numberChar (x.headD 0) = false) :
    (∀ {r v r'}, Val r v r' → Val (r ++ x) v (r' ++ x)) ∧
    (∀ {r acc a r'}, Elems r acc a r' → Elems (r ++ x) acc a (r' ++ x)) ∧
    (∀ {r acc o r'}, Membs r acc o r' → Membs (r ++ x) acc o (r' ++ x)) := by
  apply Val.induction
  · intro r; exact Val.litNull _
  · intro r; exact Val.litTrue _
  · intro r; exact Val.litFalse _
  · intro t s r hb
    have := Val.string (r ++ x) hb
    simpa using this
  · intro r r' v hn; exact Val.number (hn.extend x hx)
  · intro w r hw
    have := Val.arrayEmpty (r ++ x) hw
    simpa using this
  · intro r r' a _ ih; exact Val.array ih
  · intro w r hw
    have := Val.objectEmpty (r ++ x) hw
    simpa using this
  · intro r r' o _ ih; exact Val.object ih
  · intro w1 r1 w2 r' v acc hw1 _ hw2 ih
    rw [List.append_assoc]
    refine Elems.last acc hw1 ?_ hw2
    simpa using ih
  · intro w1 r1 w2 r2 r' v a acc hw1 _ hw2 _ ih1 ih2
    rw [List.append_assoc]
    refine Elems.more acc hw1 ?_ hw2 ih2
    simpa using ih1
  · intro w1 t k w2 w3 r1 w4 r' v acc hw1 hb hw2 hw3 _ hw4 ih
    have := Membs.last acc hw1 hb hw2 hw3 (show Val (r1 ++ x) v (w4 ++ 125 :: (r' ++ x)) by
      simpa using ih) hw4
    simpa using this
  · intro w1 t k w2 w3 r1 w4 r2 r' v o acc hw1 hb hw2 hw3 _ hw4 _ ih1 ih2
    have := Membs.more acc hw1 hb hw2 hw3 (show Val (r1 ++ x) v (w4 ++ 44 :: (r2 ++ x)) by
      simpa using ih1) hw4 ih2
    simpa using this


/-- A document can stand wherever a value is expected, before text that does not start with a
character of a number. -/
theorem Doc.inContext {t : List Byte} {v : JsonValue} (h : Doc t v) (x : List Byte)
    (hx : numberChar (x.headD 0) = false) :
    ∃ w1 r w2, t ++ x = w1 ++ r ∧ AllSpace w1 ∧ AllSpace w2 ∧ Val r v (w2 ++ x) := by
  obtain ⟨w1, r, w2, rfl, hw1, hv, hw2⟩ := h
  exact ⟨w1, r ++ x, w2, by simp, hw1, hw2, (Val.append_all x hx).1 hv⟩

theorem AllSpace.cons {c : Byte} {w : List Byte} (hc : isspace c = true) (hw : AllSpace w) :
    AllSpace (c :: w) := by
  intro a ha
  rcases List.mem_cons.mp ha with h | h
  · rw [h]; exact hc
  · exact hw a h

theorem strLess_irrefl (k : List Byte) : strLess k k = false := by
  induction k with
  | nil => rfl
  | cons c k ih => simp [strLess, ih]

theorem mapEmplace_same (k : List Byte) (va vb : JsonValue) :
    mapEmplace (mapEmplace [] k va) k vb = [(k, va)] := by
  simp [mapEmplace, strLess_irrefl]

/-- The members `"k": a, "k": b` with one key text twice: the first value is kept. -/
theorem Membs.twice {tk k a b : List Byte} {va vb : JsonValue} (hk : StrBody tk k)
    (ha : Doc a va) (hb : Doc b vb) :
    Doc ([123] ++ ([34] ++ tk ++ [34]) ++ [58, 32] ++ a ++ [44, 32] ++ ([34] ++ tk ++ [34]) ++
      [58, 32] ++ b ++ [125]) (.object [(k, va)]) := by
  obtain ⟨wb1, rb, wb2, hbe, hwb1, hwb2, hvb⟩ := hb.inContext [125] (by decide)
  obtain ⟨wa1, ra, wa2, hae, hwa1, hwa2, hva⟩ :=
    ha.inContext ([44, 32] ++ ([34] ++ tk ++ [34]) ++ [58, 32] ++ b ++ [125]) (by rfl)
  have h2 : Membs (32 :: 34 :: (tk ++ 34 :: ([] ++ 58 :: ((32 :: wb1) ++ rb))))
      (mapEmplace [] k va) (mapEmplace (mapEmplace [] k va) k vb) [] :=
    @Membs.last [32] tk k [] (32 :: wb1) rb wb2 [] vb (mapEmplace [] k va) (AllSpace.nil.cons (by decide)) hk
      AllSpace.nil (hwb1.cons (by decide)) hvb hwb2
  rw [mapEmplace_same] at h2
  have h1 : Membs ([] ++ 34 :: (tk ++ 34 :: ([] ++ 58 :: ((32 :: wa1) ++ ra)))) []
      [(k, va)] [] := by
    refine @Membs.more [] tk k [] (32 :: wa1) ra wa2 _ [] va _ [] AllSpace.nil hk AllSpace.nil
      (hwa1.cons (by decide)) ?_ hwa2 h2
    simp only [List.append_assoc] at hva
    rw [hbe] at hva
    simpa using hva
  refine ⟨[], _, [], ?_, AllSpace.nil, Val.object h1, AllSpace.nil⟩
  simp only [List.cons_append, List.nil_append]
  rw [← hae]
  simp

/-- C5, amended. Duplicate keys, first value wins: for every key `k`, written as the serializer
writes it, and every two value texts `a` and `b` that `parse` accepts, as `va` and `vb`, the
parse of the object text `{"k": a, "k": b}` reports no error and returns the object with the
single member `k` whose value is `va`, the value of the first occurrence. -/
theorem duplicate_key_first_wins (k a b : List Byte) (va vb : JsonValue) (e0 : ParseError)
    (ha : parse a e0 = some (va, {})) (hb : parse b e0 = some (vb, {})) :
    parse ([123] ++ ([34] ++ JsonSerializer.escape k ++ [34]) ++ [58, 32] ++ a ++ [44, 32] ++
      ([34] ++ JsonSerializer.escape k ++ [34]) ++ [58, 32] ++ b ++ [125]) e0 =
      some (.object [(k, va)], {}) := by
  rw [parse_eq_some_iff] at ha hb ⊢
  exact Membs.twice (strBody_escape k) ha hb

theorem duplicate_key_first_wins_witness :
    parse (lit "true") {} = some (.bool true, {}) ∧
    parse (lit "[ ]") {} = some (.array [], {}) ∧
    parse ([123] ++ ([34] ++ JsonSerializer.escape (lit "a\"b") ++ [34]) ++ [58, 32] ++
      lit "true" ++ [44, 32] ++ ([34] ++ JsonSerializer.escape (lit "a\"b") ++ [34]) ++
      [58, 32] ++ lit "[ ]" ++ [125]) {} = some (.object [(lit "a\"b", .bool true)], {}) :=
  ⟨rfl, rfl, duplicate_key_first_wins (lit "a\"b") (lit "true") (lit "[ ]") (.bool true)
    (.array []) {} rfl rfl⟩

/-! ## The contract of the explicit-result build -/

theorem parse_ok_default {t : List Byte} {e0 err : ParseError} {v : JsonValue}
    (h : parse t e0 = some (v, err)) (he : err.what = []) : err = {} := by
  obtain ⟨x, hx⟩ := parseJsonValue_total t
  obtain ⟨v1, d2, e2⟩ := x
  obtain ⟨w1, r1, hr, hw1, hat1, _⟩ := (initial_at t).skipWhitespace_split
  unfold parse JsonDeserializer.deserialize at h
  rw [deserializeInternal_eq, hx, Option.some_bind] at h
  split_ifs at h with h1 h2
  · simp only [Option.map_some', Option.some.injEq, Prod.mk.injEq] at h
    exact absurd (by rw [← h.2] at he; exact he) h1
  · simp only [Option.map_some', Option.some.injEq, Prod.mk.injEq] at h
    rw [← h.2] at he
    simp [lit] at he
  · simp only [Option.map_some', Option.some.injEq, Prod.mk.injEq] at h
    obtain ⟨rfl, rfl⟩ := h
    obtain ⟨r2, _, _, hee, _⟩ := (sound _).1 _ _ _ _ _ _ hx rfl he hat1
    exact hee

/-- C4. Explicit-result contract: for every input text and whatever the prior content of the
error slot, `parse(text, err)` returns, and its value and error do not depend on that prior
content; the error message is non-empty exactly when the text is rejected, that is when it is
not in the language `Doc` of the deserializer; whenever the message is non-empty the returned
value is the default `Null`; and when it is empty the value is the one the text stands for. -/
theorem parse_contract (t : List Byte) (e0 : ParseError) :
    ∃ v err, parse t e0 = some (v, err) ∧ (∀ e1, parse t e1 = some (v, err)) ∧
      (err.what ≠ [] ↔ ¬ ∃ x, Doc t x) ∧ (err.what ≠ [] → v = .null) ∧
      (err.what = [] → err = {} ∧ Doc t v) := by
  obtain ⟨v, err, h⟩ := parse_total t e0
  have hok : err.what = [] → err = {} ∧ Doc t v := by
    intro he
    have hd := parse_ok_default h he
    subst hd
    exact ⟨rfl, (parse_eq_some_iff t e0 v).mp h⟩
  refine ⟨v, err, h, fun e1 => by rw [parse_err_irrelevant t e1 e0]; exact h, ?_,
    parse_error_null h, hok⟩
  constructor
  · rintro he ⟨x, hx⟩
    rw [(parse_eq_some_iff t e0 x).mpr hx] at h
    simp only [Option.some.injEq, Prod.mk.injEq] at h
    exact he (by rw [← h.2])
  · intro hn
    by_contra he
    exact hn ⟨v, (hok he).2⟩

/-! ## The key order of `std::map` -/

theorem strLess_cons (x y : Nat) (a b : List Nat) :
    strLess (x :: a) (y :: b) = if x < y then true else if y < x then false else strLess a b :=
  rfl

theorem strLess_trans {a b c : List Nat} (h1 : strLess a b = true) (h2 : strLess b c = true) :
    strLess a c = true := by
  induction a generalizing b c with
  | nil =>
    cases b with
    | nil => simp [strLess] at h1
    | cons y b =>
      cases c with
      | nil => simp [strLess] at h2
      | cons z c => rfl
  | cons x a ih =>
    cases b with
    | nil => simp [strLess] at h1
    | cons y b =>
      cases c with
      | nil => simp [strLess] at h2
      | cons z c =>
        rw [strLess_cons] at h1 h2 ⊢
        split_ifs at h1 h2 ⊢ <;> first | (exfalso; omega) | exact ih h1 h2 | rfl

theorem strLess_asymm {a b : List Byte} (h : strLess a b = true) : strLess b a = false := by
  rw [Bool.eq_false_iff]
  intro h2
  have := strLess_trans h h2
  rw [strLess_irrefl] at this
  cases this

theorem mapEmplace_append (acc : JsonObject) (k : List Byte) (v : JsonValue)
    (h : ∀ p ∈ acc, strLess p.1 k = true) : mapEmplace acc k v = acc ++ [(k, v)] := by
  induction acc with
  | nil => rfl
  | cons p acc ih =>
    obtain ⟨k1, v1⟩ := p
    have h1 : strLess k1 k = true := h (k1, v1) (List.mem_cons_self _ _)
    rw [mapEmplace, if_neg (by rw [strLess_asymm h1]; simp), if_pos h1,
      ih (fun p hp => h p (List.mem_cons_of_mem _ hp))]
    rfl

theorem keysAscending_pairwise (o : List (List Byte × JsonValue)) (h : keysAscending o = true) :
    o.Pairwise (fun p q => strLess p.1 q.1 = true) := by
  induction o with
  | nil => exact List.Pairwise.nil
  | cons p o ih =>
    cases o with
    | nil => exact List.pairwise_singleton _ _
    | cons q o =>
      obtain ⟨k1, v1⟩ := p
      obtain ⟨k2, v2⟩ := q
      simp only [keysAscending, Bool.and_eq_true] at h
      have ih2 := ih h.2
      refine List.Pairwise.cons ?_ ih2
      intro a ha
      rcases List.mem_cons.mp ha with rfl | ha
      · exact h.1
      · exact strLess_trans h.1 (List.rel_of_pairwise_cons ih2 ha)


/-! ## The compact serialization is read back -/

theorem Elems.lastElemOfDoc {t : List Byte} {v : JsonValue} (h : Doc t v) (acc : JsonArray)
    (r : List Byte) : Elems (t ++ 93 :: r) acc (acc ++ [v]) r := by
  obtain ⟨w1, r1, w2, he, hw1, hw2, hv⟩ := h.inContext (93 :: r) (by rfl)
  rw [he]
  exact Elems.last acc hw1 hv hw2

theorem Elems.moreElemsOfDoc {t ts r : List Byte} {v : JsonValue} {acc a : JsonArray} (h : Doc t v)
    (hs : Elems ts (acc ++ [v]) a r) : Elems (t ++ 44 :: ts) acc a r := by
  obtain ⟨w1, r1, w2, he, hw1, hw2, hv⟩ := h.inContext (44 :: ts) (by rfl)
  rw [he]
  exact Elems.more acc hw1 hv hw2 hs

theorem Membs.lastMembOfDoc {t : List Byte} {v : JsonValue} (k : List Byte) (h : Doc t v)
    (acc : JsonObject) (r : List Byte) :
    Membs (34 :: (JsonSerializer.escape k ++ 34 :: 58 :: (t ++ 125 :: r))) acc
      (mapEmplace acc k v) r := by
  obtain ⟨w1, r1, w2, he, hw1, hw2, hv⟩ := h.inContext (125 :: r) (by rfl)
  rw [he]
  exact @Membs.last [] _ k [] w1 r1 w2 r v acc AllSpace.nil (strBody_escape k) AllSpace.nil hw1
    hv hw2

theorem Membs.moreMembsOfDoc {t ts r : List Byte} {v : JsonValue} {acc o : JsonObject} (k : List Byte)
    (h : Doc t v) (hs : Membs ts (mapEmplace acc k v) o r) :
    Membs (34 :: (JsonSerializer.escape k ++ 34 :: 58 :: (t ++ 44 :: ts))) acc o r := by
  obtain ⟨w1, r1, w2, he, hw1, hw2, hv⟩ := h.inContext (44 :: ts) (by rfl)
  rw [he]
  exact @Membs.more [] _ k [] w1 r1 w2 ts r v o acc AllSpace.nil (strBody_escape k) AllSpace.nil hw1
    hv hw2 hs

theorem serializeElements_cons (v : JsonValue) (rest : List JsonValue) (i l : Int) :
    JsonSerializer.serializeElements (v :: rest) false i l =
      (JsonSerializer.serializeInternal v false i (l + 1)).bind fun t =>
        (JsonSerializer.serializeElements rest false i l).bind fun ts =>
          some (t ++ (if rest.isEmpty = false then [44] else []) ++ ts) := by
  rw [JsonSerializer.serializeElements]
  cases JsonSerializer.serializeInternal v false i (l + 1) with
  | none => rfl
  | some t =>
    cases JsonSerializer.serializeElements rest false i l with
    | none => rfl
    | some ts => rfl

theorem serializeMembers_cons (k : List Byte) (v : JsonValue)
    (rest : List (List Byte × JsonValue)) (i l : Int) :
    JsonSerializer.serializeMembers ((k, v) :: rest) false i l =
      (JsonSerializer.serializeInternal v false i (l + 1)).bind fun t =>
        (JsonSerializer.serializeMembers rest false i l).bind fun ts =>
          some (34 :: (JsonSerializer.escape k ++ 34 :: 58 :: t) ++
            (if rest.isEmpty = false then [44] else []) ++ ts) := by
  rw [JsonSerializer.serializeMembers]
  cases JsonSerializer.serializeInternal v false i (l + 1) with
  | none => rfl
  | some t =>
    cases JsonSerializer.serializeMembers rest false i l with
    | none => rfl
    | some ts => simp [lit]

theorem serializeInternal_array (a : List JsonValue) (i l : Int) :
    JsonSerializer.serializeInternal (.array a) false i l =
      (JsonSerializer.serializeElements a false i l).bind fun body => some (91 :: (body ++ [93])) := by
  rw [JsonSerializer.serializeInternal]
  cases JsonSerializer.serializeElements a false i l with
  | none => rfl
  | some ts => simp

theorem serializeInternal_object (o : List (List Byte × JsonValue)) (i l : Int) :
    JsonSerializer.serializeInternal (.object o) false i l =
      (JsonSerializer.serializeMembers o false i l).bind fun body =>
        some (123 :: (body ++ [125])) := by
  rw [JsonSerializer.serializeInternal]
  cases JsonSerializer.serializeMembers o false i l with
  | none => rfl
  | some ts => simp


theorem Doc.ofVal {t : List Byte} {v : JsonValue} (h : Val t v []) : Doc t v :=
  ⟨[], t, [], rfl, AllSpace.nil, h, AllSpace.nil⟩

mutual
/-- The compact text of a value whose keys are in order is a document of that value, once
that holds for each of its numbers. -/
theorem serializeInternal_doc : (v : JsonValue) → (i l : Int) → v.wellFormed = true →
    (∀ d ∈ v.numbers, Doc (if d.isfinite then ostreamDouble d else lit "null") (.number d)) →
    ∃ t, JsonSerializer.serializeInternal v false i l = some t ∧ Doc t v
  | .null, _, _, _, _ => ⟨_, rfl, Doc.ofVal (Val.litNull [])⟩
  | .bool true, _, _, _, _ => ⟨_, rfl, Doc.ofVal (Val.litTrue [])⟩
  | .bool false, _, _, _, _ => ⟨_, rfl, Doc.ofVal (Val.litFalse [])⟩
  | .number d, _, _, _, hn => ⟨_, rfl, hn d (by simp [JsonValue.numbers])⟩
  | .string s, _, _, _, _ =>
    ⟨_, rfl, Doc.ofVal (by simpa using Val.string [] (strBody_escape s))⟩
  | .array a, i, l, hw, hn => by
    obtain ⟨ts, h1, h2⟩ := serializeElements_doc a i l
      (by simpa [JsonValue.wellFormed] using hw) (by simpa [JsonValue.numbers] using hn)
    rw [serializeInternal_array, h1]
    refine ⟨_, rfl, Doc.ofVal ?_⟩
    cases a with
    | nil =>
      simp only [JsonSerializer.serializeElements, Option.some.injEq] at h1
      subst h1
      exact Val.arrayEmpty (w := []) [] AllSpace.nil
    | cons v rest => exact Val.array (by simpa using h2 (by simp) [] [])
  | .object o, i, l, hw, hn => by
    have hw2 : keysAscending o = true ∧ wellFormedMembers o = true := by
      simpa [JsonValue.wellFormed] using hw
    obtain ⟨ts, h1, h2⟩ := serializeMembers_doc o i l hw2.2
      (by simpa [JsonValue.numbers] using hn)
    rw [serializeInternal_object, h1]
    refine ⟨_, rfl, Doc.ofVal ?_⟩
    cases o with
    | nil =>
      simp only [JsonSerializer.serializeMembers, Option.some.injEq] at h1
      subst h1
      exact Val.objectEmpty (w := []) [] AllSpace.nil
    | cons p rest =>
      exact Val.object (by
        simpa using h2 (by simp) [] [] (by simpa using keysAscending_pairwise _ hw2.1))
/-- The compact text of the elements, followed by the closing bracket. -/
theorem serializeElements_doc : (a : List JsonValue) → (i l : Int) →
    wellFormedElements a = true →
    (∀ d ∈ numbersOfElements a,
      Doc (if d.isfinite then ostreamDouble d else lit "null") (.number d)) →
    ∃ t, JsonSerializer.serializeElements a false i l = some t ∧
      (a ≠ [] → ∀ acc r, Elems (t ++ 93 :: r) acc (acc ++ a) r)
  | [], _, _, _, _ => ⟨_, rfl, fun h => absurd rfl h⟩
  | v :: rest, i, l, hw, hn => by
    have hw2 : v.wellFormed = true ∧ wellFormedElements rest = true := by
      simpa [wellFormedElements] using hw
    have hn2 : ∀ d, (d ∈ v.numbers ∨ d ∈ numbersOfElements rest) →
        Doc (if d.isfinite then ostreamDouble d else lit "null") (.number d) := by
      simpa [numbersOfElements] using hn
    obtain ⟨t, h1, h2⟩ := serializeInternal_doc v i (l + 1) hw2.1 (fun d hd => hn2 d (Or.inl hd))
    obtain ⟨ts, h3, h4⟩ := serializeElements_doc rest i l hw2.2 (fun d hd => hn2 d (Or.inr hd))
    rw [serializeElements_cons, h1, h3]
    refine ⟨_, rfl, fun _ acc r => ?_⟩
    cases rest with
    | nil =>
      simp only [JsonSerializer.serializeElements, Option.some.injEq] at h3
      subst h3
      simpa using Elems.lastElemOfDoc h2 acc r
    | cons v2 rest =>
      have := Elems.moreElemsOfDoc h2 (h4 (by simp) (acc ++ [v]) r)
      simpa using this
/-- The compact text of the members, followed by the closing brace. -/
theorem serializeMembers_doc : (o : List (List Byte × JsonValue)) → (i l : Int) →
    wellFormedMembers o = true →
    (∀ d ∈ numbersOfMembers o,
      Doc (if d.isfinite then ostreamDouble d else lit "null") (.number d)) →
    ∃ t, JsonSerializer.serializeMembers o false i l = some t ∧
      (o ≠ [] → ∀ acc r, (acc ++ o).Pairwise (fun p q => strLess p.1 q.1 = true) →
        Membs (t ++ 125 :: r) acc (acc ++ o) r)
  | [], _, _, _, _ => ⟨_, rfl, fun h => absurd rfl h⟩
  | (k, v) :: rest, i, l, hw, hn => by
    have hw2 : v.wellFormed = true ∧ wellFormedMembers rest = true := by
      simpa [wellFormedMembers] using hw
    have hn2 : ∀ d, (d ∈ v.numbers ∨ d ∈ numbersOfMembers rest) →
        Doc (if d.isfinite then ostreamDouble d else lit "null") (.number d) := by
      simpa [numbersOfMembers] using hn
    obtain ⟨t, h1, h2⟩ := serializeInternal_doc v i (l + 1) hw2.1 (fun d hd => hn2 d (Or.inl hd))
    obtain ⟨ts, h3, h4⟩ := serializeMembers_doc rest i l hw2.2 (fun d hd => hn2 d (Or.inr hd))
    rw [serializeMembers_cons, h1, h3]
    refine ⟨_, rfl, fun _ acc r hp => ?_⟩
    have hk : mapEmplace acc k v = acc ++ [(k, v)] :=
      mapEmplace_append acc k v (fun p hp2 =>
        (List.pairwise_append.mp hp).2.2 p hp2 (k, v) (List.mem_cons_self _ _))
    cases rest with
    | nil =>
      simp only [JsonSerializer.serializeMembers, Option.some.injEq] at h3
      subst h3
      have := Membs.lastMembOfDoc k h2 acc r
      rw [hk] at this
      simpa using this
    | cons p rest =>
      have h5 : Membs (ts ++ 125 :: r) (mapEmplace acc k v) (acc ++ (k, v) :: p :: rest) r := by
        rw [hk]
        simpa using h4 (by simp) (acc ++ [(k, v)]) r (by simpa using hp)
      have := Membs.moreMembsOfDoc k h2 h5
      simpa using this
end


/-- The round trip of a value, given that of its numbers: for every `JsonValue` `v` whose
objects hold their keys in ascending order and whose numbers each round-trip on their own, the
compact serialization of `v` is produced, and parsing it reports no error and returns `v`
itself. -/
theorem round_trip_of_numbers (v : JsonValue) (e0 : ParseError) (hw : v.wellFormed = true)
    (hn : ∀ d ∈ v.numbers,
      ∃ t, serialize (.number d) = some t ∧ parse t {} = some (.number d, {})) :
    ∃ t, serialize v = some t ∧ parse t e0 = some (v, {}) := by
  obtain ⟨t, h1, h2⟩ := serializeInternal_doc v 2 0 hw (fun d hd => by
    obtain ⟨t, ht, hp⟩ := hn d hd
    have : t = if d.isfinite then ostreamDouble d else lit "null" := (Option.some.inj ht).symm
    rw [← this]
    exact (parse_eq_some_iff t {} _).mp hp)
  exact ⟨t, h1, (parse_eq_some_iff t e0 v).mpr h2⟩

/-! ## Every text of RFC 8259 is read -/

/-- What `strtod` consumes, from the lengths of the parts of its subject sequence. -/
theorem strtod_consumed_of (s s1 s3 : List Byte) (signLen nInt fracLen eSignLen nExp : Nat)
    (h1 : (if s.headD 0 = 45 ∨ s.headD 0 = 43 then 1 else 0) = signLen)
    (h2 : s.drop signLen = s1) (h3 : digitRun s1 = nInt) (hpos : nInt ≠ 0)
    (h4 : (if (s1.drop nInt).headD 0 = 46 then 1 + digitRun ((s1.drop nInt).drop 1) else 0) =
      fracLen)
    (h5 : s1.drop (nInt + fracLen) = s3)
    (h6 : (if (s3.drop 1).headD 0 = 45 ∨ (s3.drop 1).headD 0 = 43 then 1 else 0) = eSignLen)
    (h7 : (if s3.headD 0 = 101 ∨ s3.headD 0 = 69 then digitRun ((s3.drop 1).drop eSignLen)
      else 0) = nExp) :
    (strtod s).consumed =
      signLen + (nInt + fracLen) + (if nExp = 0 then 0 else 1 + eSignLen + nExp) := by
  unfold strtod
  simp only []
  rw [h1, h2, h3, if_neg (by omega)]
  simp only [decide_eq_true_eq]
  have h8 : (nInt + if (s1.drop nInt).headD 0 = 46 then
      1 + (if (s1.drop nInt).headD 0 = 46 then digitRun ((s1.drop nInt).drop 1) else 0)
      else 0) = nInt + fracLen := by
    rw [← h4]
    split_ifs <;> rfl
  rw [h8, h5, h6, h7]


theorem digitRun_all {ds : List Byte} (h : ∀ c ∈ ds, isdigit c = true) :
    digitRun ds = ds.length := by
  induction ds with
  | nil => rfl
  | cons c ds ih =>
    rw [digitRun, if_pos (h c (List.mem_cons_self _ _)),
      ih (fun a ha => h a (List.mem_cons_of_mem _ ha))]
    rfl

theorem digitRun_all_append {ds rest : List Byte} (h : ∀ c ∈ ds, isdigit c = true)
    (hr : isdigit (rest.headD 0) = false) : digitRun (ds ++ rest) = ds.length := by
  rw [digitRun_append ds rest hr, digitRun_all h]

theorem isdigit_ne {c : Nat} (h : isdigit c = true) :
    c ≠ 45 ∧ c ≠ 43 ∧ c ≠ 46 ∧ c ≠ 101 ∧ c ≠ 69 := by
  rw [isdigit_iff] at h
  omega

theorem Rfc8259.Digits.headDigit {ds : List Byte} (h : Rfc8259.Digits ds) :
    ∃ c rest, ds = c :: rest ∧ isdigit c = true := by
  obtain ⟨h1, h2⟩ := h
  obtain ⟨c, rest, rfl⟩ := List.exists_cons_of_ne_nil h1
  exact ⟨c, rest, rfl, h2 c (List.mem_cons_self _ _)⟩

theorem Rfc8259.IsInt.digits {i : List Byte} (h : Rfc8259.IsInt i) : Rfc8259.Digits i := by
  rcases h with rfl | ⟨c, ds, rfl, h1, h2, h3⟩
  · exact ⟨by simp, by simp [isdigit]⟩
  · refine ⟨by simp, ?_⟩
    intro a ha
    rcases List.mem_cons.mp ha with rfl | ha
    · exact (isdigit_iff a).mpr ⟨le_trans (by decide) h1, h2⟩
    · exact h3 a ha

/-- The exponent part of a number of the RFC, as the scan of `parseNumber` and as `strtod` go
through it. -/
theorem Rfc8259.IsExp.scanExp {x : List Byte} (hx : x = [] ∨ Rfc8259.IsExp x) :
    isdigit (x.headD 0) = false ∧ x.headD 0 ≠ 46 ∧
    (if x.headD 0 = 101 ∨ x.headD 0 = 69 then
      (if (x.drop 1).headD 0 = 43 ∨ (x.drop 1).headD 0 = 45 then (x.drop 1).drop 1
        else x.drop 1).drop
      (digitRun (if (x.drop 1).headD 0 = 43 ∨ (x.drop 1).headD 0 = 45 then (x.drop 1).drop 1
        else x.drop 1))
      else x) = [] ∧
    ∃ eSignLen nExp,
      (if (x.drop 1).headD 0 = 45 ∨ (x.drop 1).headD 0 = 43 then 1 else 0) = eSignLen ∧
      (if x.headD 0 = 101 ∨ x.headD 0 = 69 then digitRun ((x.drop 1).drop eSignLen) else 0) =
        nExp ∧
      (if nExp = 0 then 0 else 1 + eSignLen + nExp) = x.length := by
  rcases hx with rfl | ⟨e, sg, ds, rfl, he, hsg, hds⟩
  · exact ⟨rfl, by decide, rfl, 0, 0, rfl, rfl, rfl⟩
  · obtain ⟨c, rest, rfl, hc⟩ := hds.headDigit
    have hall := hds.2
    obtain ⟨n45, n43, _, _, _⟩ := isdigit_ne hc
    have hrun : digitRun (c :: rest) = rest.length + 1 := digitRun_all hall
    have hhead : (e :: (sg ++ c :: rest)).headD 0 = 101 ∨ (e :: (sg ++ c :: rest)).headD 0 = 69 :=
      he
    refine ⟨?_, ?_, ?_, ?_⟩
    · rcases he with rfl | rfl <;> rfl
    · rcases he with rfl | rfl <;> simp
    · rw [if_pos hhead]
      rcases hsg with rfl | rfl | rfl
      · simp [n43, n45, hrun]
      · simp [hrun]
      · simp [hrun]
    · refine ⟨_, _, rfl, rfl, ?_⟩
      rw [if_pos hhead]
      rcases hsg with rfl | rfl | rfl
      · simp [n43, n45, hrun]
        omega
      · simp [hrun]
        omega
      · simp [hrun]
        omega


/-- The fraction part of a number of the RFC, before text `x` that starts with neither a digit
nor a point. -/
theorem Rfc8259.IsFrac.scanFrac {f x : List Byte} (hf : f = [] ∨ Rfc8259.IsFrac f)
    (hx : isdigit (x.headD 0) = false) (hx46 : x.headD 0 ≠ 46) :
    isdigit ((f ++ x).headD 0) = false ∧
    (if (f ++ x).headD 0 = 46 then ((f ++ x).drop 1).drop (digitRun ((f ++ x).drop 1))
      else f ++ x) = x ∧
    (if (f ++ x).headD 0 = 46 then 1 + digitRun ((f ++ x).drop 1) else 0) = f.length := by
  rcases hf with rfl | ⟨ds, rfl, hds⟩
  · rw [List.nil_append, if_neg hx46, if_neg hx46]
    exact ⟨hx, rfl, rfl⟩
  · have hrun : digitRun (ds ++ x) = ds.length := digitRun_all_append hds.2 hx
    refine ⟨rfl, ?_, ?_⟩
    · simp [hrun]
    · simp [hrun]
      omega

/-- A number of the RFC is a token that the scan of `parseNumber` takes whole and that `strtod`
converts in full. -/
theorem Rfc8259.IsNumber.numberAt {t : List Byte} (h : Rfc8259.IsNumber t) :
    ∃ v, NumberAt t v [] := by
  obtain ⟨m, i, f, x, rfl, hm, hi, hf, hx⟩ := h
  obtain ⟨hx1, hx2, hx3, eSignLen, nExp, hx4, hx5, hx6⟩ := Rfc8259.IsExp.scanExp hx
  obtain ⟨hf1, hf2, hf3⟩ := Rfc8259.IsFrac.scanFrac hf hx1 hx2
  have hid := hi.digits
  obtain ⟨c, rest, rfl, hc⟩ := hid.headDigit
  obtain ⟨n45, n43, _, _, _⟩ := isdigit_ne hc
  have hrun : digitRun (c :: rest ++ (f ++ x)) = (c :: rest).length :=
    digitRun_all_append hid.2 hf1
  have hscan : scanRest (m ++ (c :: rest ++ (f ++ x))) = [] := by
    have h1 : (if (m ++ (c :: rest ++ (f ++ x))).headD 0 = 45 then
        (m ++ (c :: rest ++ (f ++ x))).drop 1 else m ++ (c :: rest ++ (f ++ x))) =
        c :: rest ++ (f ++ x) := by
      rcases hm with rfl | rfl
      · simp [n45]
      · simp
    unfold scanRest
    simp only []
    rw [h1, hrun, List.drop_left, hf2]
    exact hx3
  have htok : scanToken (m ++ (c :: rest ++ (f ++ x))) = m ++ (c :: rest ++ (f ++ x)) := by
    unfold scanToken
    rw [hscan]
    simp
  have hcons : (strtod (m ++ (c :: rest ++ (f ++ x)))).consumed =
      (m ++ (c :: rest ++ (f ++ x))).length := by
    rw [strtod_consumed_of _ (c :: rest ++ (f ++ x)) x m.length (c :: rest).length f.length
      eSignLen nExp ?_ (List.drop_left _ _) hrun (by simp) (by rw [List.drop_left]; exact hf3)
      (by rw [List.drop_append, List.drop_left]) hx4 hx5, hx6]
    · simp only [List.length_append]
      omega
    · rcases hm with rfl | rfl
      · simp [n45, n43]
      · simp
  refine ⟨_, ?_, ?_, rfl, hscan.symm⟩
  · rcases hm with rfl | rfl
    · simpa [numberStart] using Or.inr hc
    · rfl
  · rw [htok]
    exact hcons


theorem Rfc8259.Ws.allSpace {w : List Byte} (h : Rfc8259.Ws w) : AllSpace w := by
  intro c hc
  rcases h c hc with rfl | rfl | rfl | rfl <;> rfl

theorem hexDigit_eq (c : Nat) :
    hexDigit c = if 48 ≤ c ∧ c ≤ 57 then some (c - 48)
      else if 97 ≤ c ∧ c ≤ 102 then some (10 + c - 97)
      else if 65 ≤ c ∧ c ≤ 70 then some (10 + c - 65)
      else none :=
  rfl

theorem isHexDigit_iff (c : Nat) : Rfc8259.isHexDigit c = true ↔
    (48 ≤ c ∧ c ≤ 57) ∨ (65 ≤ c ∧ c ≤ 70) ∨ (97 ≤ c ∧ c ≤ 102) := by
  simp [Rfc8259.isHexDigit, isdigit, or_assoc]

theorem hexDigit_isSome {c : Nat} (h : Rfc8259.isHexDigit c = true) :
    ∃ n, hexDigit c = some n := by
  rw [isHexDigit_iff] at h
  rw [hexDigit_eq]
  split_ifs
  · exact ⟨_, rfl⟩
  · exact ⟨_, rfl⟩
  · exact ⟨_, rfl⟩
  · exfalso
    omega

theorem hexCode_isSome {a b c d : Nat} (ha : Rfc8259.isHexDigit a = true)
    (hb : Rfc8259.isHexDigit b = true) (hc : Rfc8259.isHexDigit c = true)
    (hd : Rfc8259.isHexDigit d = true) : ∃ code, hexCode [a, b, c, d] 0 = some code := by
  obtain ⟨na, ha⟩ := hexDigit_isSome ha
  obtain ⟨nb, hb⟩ := hexDigit_isSome hb
  obtain ⟨nc, hc⟩ := hexDigit_isSome hc
  obtain ⟨nd, hd⟩ := hexDigit_isSome hd
  simp only [hexCode, ha, hb, hc, hd]
  exact ⟨_, rfl⟩

theorem isEscapeLetter_simple {e : Nat} (h : Rfc8259.isEscapeLetter e = true) :
    ∃ x, simpleEscape e = some x := by
  simp only [Rfc8259.isEscapeLetter, decide_eq_true_eq] at h
  rcases h with rfl | rfl | rfl | rfl | rfl | rfl | rfl | rfl <;> exact ⟨_, rfl⟩

/-- The characters of a string of the RFC decode. -/
theorem Rfc8259.Chars.strBody {t : List Byte} (h : Rfc8259.Chars t) : ∃ s, StrBody t s := by
  induction h with
  | nil => exact ⟨[], StrBody.nil⟩
  | unescaped _ _ h34 h92 _ ih =>
    obtain ⟨s, hs⟩ := ih
    exact ⟨_, StrBody.plain h34 h92 hs⟩
  | escape he _ ih =>
    obtain ⟨s, hs⟩ := ih
    obtain ⟨x, hx⟩ := isEscapeLetter_simple he
    exact ⟨_, StrBody.esc hx hs⟩
  | unicode ha hb hc hd _ ih =>
    obtain ⟨s, hs⟩ := ih
    obtain ⟨code, hcode⟩ := hexCode_isSome ha hb hc hd
    exact ⟨_, StrBody.uni hcode hs⟩


theorem numberChar_eq_false_iff (c : Nat) : numberChar c = false ↔
    ¬ (48 ≤ c ∧ c ≤ 57) ∧ c ≠ 46 ∧ c ≠ 101 ∧ c ≠ 69 ∧ c ≠ 43 ∧ c ≠ 45 := by
  simp [numberChar, isdigit, and_assoc]

theorem isspace_not_numberChar {c : Nat} (h : isspace c = true) : numberChar c = false := by
  rw [isspace_iff] at h
  rw [numberChar_eq_false_iff]
  omega

theorem numberChar_after_space {w r : List Byte} {c : Byte} (hw : AllSpace w)
    (hc : numberChar c = false) : numberChar ((w ++ c :: r).headD 0) = false := by
  cases w with
  | nil => exact hc
  | cons a w => exact isspace_not_numberChar (hw a (List.mem_cons_self _ _))

theorem Elems.lastElemWs {t w1 w2 : List Byte} {v : JsonValue} (hd : Doc t v) (hw1 : AllSpace w1)
    (hw2 : AllSpace w2) (acc : JsonArray) (r : List Byte) :
    Elems (w1 ++ (t ++ (w2 ++ 93 :: r))) acc (acc ++ [v]) r := by
  obtain ⟨wa, r1, wb, he, hwa, hwb, hv⟩ :=
    hd.inContext (w2 ++ 93 :: r) (numberChar_after_space hw2 rfl)
  rw [he, ← List.append_assoc]
  rw [← List.append_assoc] at hv
  exact Elems.last acc (hw1.append hwa) hv (hwb.append hw2)

theorem Elems.moreElemsWs {t w1 w2 ts r : List Byte} {v : JsonValue} {acc a : JsonArray}
    (hd : Doc t v) (hw1 : AllSpace w1) (hw2 : AllSpace w2) (hs : Elems ts (acc ++ [v]) a r) :
    Elems (w1 ++ (t ++ (w2 ++ 44 :: ts))) acc a r := by
  obtain ⟨wa, r1, wb, he, hwa, hwb, hv⟩ :=
    hd.inContext (w2 ++ 44 :: ts) (numberChar_after_space hw2 rfl)
  rw [he, ← List.append_assoc]
  rw [← List.append_assoc] at hv
  exact Elems.more acc (hw1.append hwa) hv (hwb.append hw2) hs

theorem Membs.lastMembWs {tk k t w1 w2 w3 w4 : List Byte} {v : JsonValue} (hk : StrBody tk k)
    (hd : Doc t v) (hw1 : AllSpace w1) (hw2 : AllSpace w2) (hw3 : AllSpace w3)
    (hw4 : AllSpace w4) (acc : JsonObject) (r : List Byte) :
    Membs (w1 ++ 34 :: (tk ++ 34 :: (w2 ++ 58 :: (w3 ++ (t ++ (w4 ++ 125 :: r)))))) acc
      (mapEmplace acc k v) r := by
  obtain ⟨wa, r1, wb, he, hwa, hwb, hv⟩ :=
    hd.inContext (w4 ++ 125 :: r) (numberChar_after_space hw4 rfl)
  rw [he, ← List.append_assoc w3]
  rw [← List.append_assoc] at hv
  exact Membs.last acc hw1 hk hw2 (hw3.append hwa) hv (hwb.append hw4)

theorem Membs.moreMembsWs {tk k t w1 w2 w3 w4 ts r : List Byte} {v : JsonValue}
    {acc o : JsonObject} (hk : StrBody tk k) (hd : Doc t v) (hw1 : AllSpace w1)
    (hw2 : AllSpace w2) (hw3 : AllSpace w3) (hw4 : AllSpace w4)
    (hs : Membs ts (mapEmplace acc k v) o r) :
    Membs (w1 ++ 34 :: (tk ++ 34 :: (w2 ++ 58 :: (w3 ++ (t ++ (w4 ++ 44 :: ts)))))) acc o r := by
  obtain ⟨wa, r1, wb, he, hwa, hwb, hv⟩ :=
    hd.inContext (w4 ++ 44 :: ts) (numberChar_after_space hw4 rfl)
  rw [he, ← List.append_assoc w3]
  rw [← List.append_assoc] at hv
  exact Membs.more acc hw1 hk hw2 (hw3.append hwa) hv (hwb.append hw4) hs

/-- Induction over the three rules of the grammar at once. -/
theorem Rfc8259.grammar_induction {P1 P2 P3 : List Byte → Prop}
    (litFalse : P1 [102, 97, 108, 115, 101]) (litNull : P1 [110, 117, 108, 108])
    (litTrue : P1 [116, 114, 117, 101])
    (number : ∀ {t : List Byte}, Rfc8259.IsNumber t → P1 t)
    (string : ∀ {t : List Byte}, Rfc8259.IsString t → P1 t)
    (arrayEmpty : ∀ {w : List Byte}, Rfc8259.Ws w → P1 (91 :: (w ++ [93])))
    (array : ∀ {t : List Byte}, Rfc8259.Elements t → P2 t → P1 (91 :: (t ++ [93])))
    (objectEmpty : ∀ {w : List Byte}, Rfc8259.Ws w → P1 (123 :: (w ++ [125])))
    (object : ∀ {t : List Byte}, Rfc8259.Members t → P3 t → P1 (123 :: (t ++ [125])))
    (oneElem : ∀ {w1 t w2 : List Byte}, Rfc8259.Ws w1 → Rfc8259.Value t → Rfc8259.Ws w2 →
      P1 t → P2 (w1 ++ (t ++ w2)))
    (consElem : ∀ {w1 t w2 ts : List Byte}, Rfc8259.Ws w1 → Rfc8259.Value t → Rfc8259.Ws w2 →
      Rfc8259.Elements ts → P1 t → P2 ts → P2 (w1 ++ (t ++ (w2 ++ 44 :: ts))))
    (oneMemb : ∀ {w1 k w2 w3 t w4 : List Byte}, Rfc8259.Ws w1 → Rfc8259.IsString k →
      Rfc8259.Ws w2 → Rfc8259.Ws w3 → Rfc8259.Value t → Rfc8259.Ws w4 → P1 t →
      P3 (w1 ++ (k ++ (w2 ++ 58 :: (w3 ++ (t ++ w4))))))
    (consMemb : ∀ {w1 k w2 w3 t w4 ts : List Byte}, Rfc8259.Ws w1 → Rfc8259.IsString k →
      Rfc8259.Ws w2 → Rfc8259.Ws w3 → Rfc8259.Value t → Rfc8259.Ws w4 → Rfc8259.Members ts →
      P1 t → P3 ts → P3 (w1 ++ (k ++ (w2 ++ 58 :: (w3 ++ (t ++ (w4 ++ 44 :: ts))))))) :
    (∀ {t}, Rfc8259.Value t → P1 t) ∧ (∀ {t}, Rfc8259.Elements t → P2 t) ∧
      (∀ {t}, Rfc8259.Members t → P3 t) :=
  ⟨fun h => Rfc8259.Value.rec (motive_1 := fun t _ => P1 t) (motive_2 := fun t _ => P2 t)
      (motive_3 := fun t _ => P3 t) litFalse litNull litTrue number string arrayEmpty array
      objectEmpty object oneElem consElem oneMemb consMemb h,
    fun h => Rfc8259.Elements.rec (motive_1 := fun t _ => P1 t) (motive_2 := fun t _ => P2 t)
      (motive_3 := fun t _ => P3 t) litFalse litNull litTrue number string arrayEmpty array
      objectEmpty object oneElem consElem oneMemb consMemb h,
    fun h => Rfc8259.Members.rec (motive_1 := fun t _ => P1 t) (motive_2 := fun t _ => P2 t)
      (motive_3 := fun t _ => P3 t) litFalse litNull litTrue number string arrayEmpty array
      objectEmpty object oneElem consElem oneMemb consMemb h⟩

/-- Every value of the grammar is a document of the deserializer, and every sequence of
elements or members is read up to the closing bracket or brace. -/
theorem Rfc8259.value_doc :
    (∀ {t}, Rfc8259.Value t → ∃ v, Doc t v) ∧
    (∀ {t}, Rfc8259.Elements t → ∀ (acc : JsonArray) (r : List Byte),
      ∃ a, Elems (t ++ 93 :: r) acc a r) ∧
    (∀ {t}, Rfc8259.Members t → ∀ (acc : JsonObject) (r : List Byte),
      ∃ o, Membs (t ++ 125 :: r) acc o r) := by
  apply Rfc8259.grammar_induction
  · exact ⟨_, Doc.ofVal (Val.litFalse [])⟩
  · exact ⟨_, Doc.ofVal (Val.litNull [])⟩
  · exact ⟨_, Doc.ofVal (Val.litTrue [])⟩
  · intro t h
    obtain ⟨x, hx⟩ := h.numberAt
    exact ⟨_, Doc.ofVal (Val.number hx)⟩
  · rintro t ⟨body, rfl, hb⟩
    obtain ⟨s, hs⟩ := hb.strBody
    exact ⟨_, Doc.ofVal (Val.string [] hs)⟩
  · intro w hw
    exact ⟨_, Doc.ofVal (Val.arrayEmpty [] hw.allSpace)⟩
  · intro t _ ih
    obtain ⟨a, ha⟩ := ih [] []
    exact ⟨_, Doc.ofVal (Val.array ha)⟩
  · intro w hw
    exact ⟨_, Doc.ofVal (Val.objectEmpty [] hw.allSpace)⟩
  · intro t _ ih
    obtain ⟨o, ho⟩ := ih [] []
    exact ⟨_, Doc.ofVal (Val.object ho)⟩
  · intro w1 t w2 hw1 _ hw2 ih acc r
    obtain ⟨v, hv⟩ := ih
    refine ⟨acc ++ [v], ?_⟩
    have := Elems.lastElemWs hv hw1.allSpace hw2.allSpace acc r
    simpa using this
  · intro w1 t w2 ts hw1 _ hw2 _ ih1 ih2 acc r
    obtain ⟨v, hv⟩ := ih1
    obtain ⟨a, ha⟩ := ih2 (acc ++ [v]) r
    refine ⟨a, ?_⟩
    have := Elems.moreElemsWs hv hw1.allSpace hw2.allSpace ha
    simpa using this
  · rintro w1 k w2 w3 t w4 hw1 ⟨body, rfl, hb⟩ hw2 hw3 _ hw4 ih acc r
    obtain ⟨v, hv⟩ := ih
    obtain ⟨s, hs⟩ := hb.strBody
    refine ⟨mapEmplace acc s v, ?_⟩
    have := Membs.lastMembWs hs hv hw1.allSpace hw2.allSpace hw3.allSpace hw4.allSpace acc r
    simpa using this
  · rintro w1 k w2 w3 t w4 ts hw1 ⟨body, rfl, hb⟩ hw2 hw3 _ hw4 _ ih1 ih2 acc r
    obtain ⟨v, hv⟩ := ih1
    obtain ⟨s, hs⟩ := hb.strBody
    obtain ⟨o, ho⟩ := ih2 (mapEmplace acc s v) r
    refine ⟨o, ?_⟩
    have := Membs.moreMembsWs hs hv hw1.allSpace hw2.allSpace hw3.allSpace hw4.allSpace ho
    simpa using this

theorem Rfc8259.JsonText.doc {t : List Byte} (h : Rfc8259.JsonText t) : ∃ v, Doc t v := by
  obtain ⟨w1, tv, w2, rfl, hw1, hv, hw2⟩ := h
  obtain ⟨v, wa, r, wb, rfl, hwa, hval, hwb⟩ := Rfc8259.value_doc.1 hv
  have hx : numberChar (w2.headD 0) = false := by
    cases w2 with
    | nil => rfl
    | cons a w => exact isspace_not_numberChar (hw2.allSpace a (List.mem_cons_self _ _))
  exact ⟨v, w1 ++ wa, r ++ w2, wb ++ w2, by simp, hw1.allSpace.append hwa,
    (Val.append_all w2 hx).1 hval, hwb.append hw2.allSpace⟩

/-- C3. Every valid JSON text is accepted: for every text `t` that is a document of the RFC
8259 grammar (`JSON-text`), and whatever the error slot held, `parse(t)` returns with an empty
error message; the value it returns is the one `t` stands for. -/
theorem rfc8259_accepted (t : List Byte) (e0 : ParseError) (h : Rfc8259.JsonText t) :
    ∃ v err, parse t e0 = some (v, err) ∧ err.what = [] ∧ Doc t v := by
  obtain ⟨v, hv⟩ := h.doc
  exact ⟨v, {}, (parse_eq_some_iff t e0 v).mpr hv, rfl, hv⟩


theorem rfc8259_accepted_witness :
    Rfc8259.JsonText (lit " [-1.5e+2, \"a\\n\"]\n") ∧
    ∃ v err, parse (lit " [-1.5e+2, \"a\\n\"]\n") {} = some (v, err) ∧ err.what = [] ∧
      Doc (lit " [-1.5e+2, \"a\\n\"]\n") v :=
  have hnum : Rfc8259.IsNumber (lit "-1.5e+2") :=
    ⟨[45], [49], [46, 53], [101, 43, 50], rfl, Or.inr rfl,
      Or.inr ⟨49, [], rfl, by decide, by decide, by simp⟩,
      Or.inr ⟨[53], rfl, by simp, by simp [isdigit]⟩,
      Or.inr ⟨101, [43], [50], rfl, Or.inl rfl, Or.inr (Or.inr rfl), by simp,
        by simp [isdigit]⟩⟩
  have hstr : Rfc8259.IsString (lit "\"a\\n\"") :=
    ⟨[97, 92, 110], rfl, Rfc8259.Chars.unescaped (by decide) (by decide) (by decide)
      (by decide) (Rfc8259.Chars.escape rfl Rfc8259.Chars.nil)⟩
  have hnil : Rfc8259.Ws [] := by simp [Rfc8259.Ws]
  have hsp : Rfc8259.Ws [32] := by simp [Rfc8259.Ws]
  have hnl : Rfc8259.Ws [10] := by simp [Rfc8259.Ws]
  have helems := @Rfc8259.Elements.cons [] (lit "-1.5e+2") [] _ hnil (Rfc8259.Value.number hnum)
    hnil (@Rfc8259.Elements.one [32] (lit "\"a\\n\"") [] hsp (Rfc8259.Value.string hstr) hnil)
  have h : Rfc8259.JsonText (lit " [-1.5e+2, \"a\\n\"]\n") :=
    ⟨[32], _, [10], rfl, hsp, Rfc8259.Value.array helems, hnl⟩
  ⟨h, rfc8259_accepted _ {} h⟩

/-! ## Lines and columns -/

theorem positionAfter_snoc (pre : List Byte) (c : Byte) :
    positionAfter (pre ++ [c]) =
      if c = 10 then ⟨(positionAfter pre).line + 1, 1⟩
      else ⟨(positionAfter pre).line, (positionAfter pre).col + 1⟩ := by
  simp [positionAfter, List.foldl_append]

theorem positionAfter_append_plain (pre t : List Byte) (h : ∀ c ∈ t, c ≠ 10) :
    positionAfter (pre ++ t) = ⟨(positionAfter pre).line, (positionAfter pre).col + t.length⟩ := by
  induction t generalizing pre with
  | nil => simp
  | cons c t ih =>
    have h1 : pre ++ c :: t = (pre ++ [c]) ++ t := by simp
    rw [h1, ih _ (fun a ha => h a (List.mem_cons_of_mem _ ha)), positionAfter_snoc,
      if_neg (h c (List.mem_cons_self _ _))]
    simp only [List.length_cons, ErrorPos.mk.injEq, true_and]
    omega

theorem take_succ_getD {l : List Byte} {n : Nat} (h : n < l.length) :
    l.take (n + 1) = l.take n ++ [l.getD n 0] := by
  rw [List.take_succ, List.getD_eq_getElem?_getD, List.getElem?_eq_getElem h]
  rfl

namespace JsonDeserializer

theorem Follows.refl (d : JsonDeserializer) : d.Follows d := ⟨rfl, id⟩

theorem Follows.trans {d1 d2 d3 : JsonDeserializer} (h1 : d1.Follows d2) (h2 : d2.Follows d3) :
    d1.Follows d3 :=
  ⟨h2.1.trans h1.1, fun h => h2.2 (h1.2 h)⟩

/-- One character read, with the line and column counted as `advance` counts them. -/
theorem Follows.oneChar {d d1 : JsonDeserializer} (hlt : d.pos < d.string.length)
    (hs : d1.string = d.string) (hp : d1.pos = d.pos + 1)
    (hi : d1.posinfo = if d.cur = 10 then ⟨d.posinfo.line + 1, 1⟩
      else ⟨d.posinfo.line, d.posinfo.col + 1⟩) : d.Follows d1 := by
  refine ⟨hs, fun ht => ?_⟩
  unfold Tracked at ht ⊢
  rw [hi, hs, hp, take_succ_getD hlt, positionAfter_snoc, ← ht]
  rfl

theorem follows_advance (d : JsonDeserializer) : d.Follows d.advance := by
  unfold JsonDeserializer.advance
  split
  · exact Follows.refl d
  · rename_i h
    refine Follows.oneChar (by omega) ?_ ?_ ?_
    · split <;> rfl
    · split <;> rfl
    · split <;> rfl

theorem follows_next {d : JsonDeserializer} (hlt : d.pos < d.string.length) (hc : d.cur ≠ 10) :
    d.Follows d.next :=
  Follows.oneChar hlt rfl rfl (by rw [if_neg hc]; rfl)

theorem follows_skipWhitespaceLoop (fuel : Nat) (d : JsonDeserializer) :
    d.Follows (skipWhitespaceLoop fuel d) := by
  induction fuel generalizing d with
  | zero => exact Follows.refl d
  | succ n ih =>
    rw [skipWhitespaceLoop]
    split
    · exact (follows_advance d).trans (ih _)
    · exact Follows.refl d

theorem follows_skipWhitespace (d : JsonDeserializer) : d.Follows d.skipWhitespace :=
  follows_skipWhitespaceLoop _ d

theorem follows_skipDigitsLoop (fuel : Nat) (d : JsonDeserializer) :
    d.Follows (skipDigitsLoop fuel d) := by
  induction fuel generalizing d with
  | zero => exact Follows.refl d
  | succ n ih =>
    rw [skipDigitsLoop]
    split
    · exact (follows_advance d).trans (ih _)
    · exact Follows.refl d

theorem follows_skipDigits (d : JsonDeserializer) : d.Follows d.skipDigits :=
  follows_skipDigitsLoop _ d

theorem follows_scanSign (d : JsonDeserializer) : d.Follows d.scanSign := by
  unfold JsonDeserializer.scanSign
  split
  · exact follows_advance d
  · exact Follows.refl d

theorem follows_scanFraction (d : JsonDeserializer) : d.Follows d.scanFraction := by
  unfold JsonDeserializer.scanFraction
  split
  · exact (follows_advance d).trans (follows_skipDigits _)
  · exact Follows.refl d

theorem follows_scanExponent (d : JsonDeserializer) : d.Follows d.scanExponent := by
  unfold JsonDeserializer.scanExponent
  split
  · simp only []
    split
    · exact ((follows_advance d).trans (follows_advance _)).trans (follows_skipDigits _)
    · exact (follows_advance d).trans (follows_skipDigits _)
  · exact Follows.refl d

theorem follows_scanNumber (d : JsonDeserializer) : d.Follows (scanNumber d).1 :=
  (((follows_scanSign d).trans (follows_skipDigits _)).trans (follows_scanFraction _)).trans
    (follows_scanExponent _)

end JsonDeserializer


namespace JsonDeserializer

/-- Characters without a newline passed over at once, the column counted up by their number,
as `parseNull` and `parseBool` do. -/
theorem follows_skip {d : JsonDeserializer} {n : Nat} {t : List Byte}
    (ht : (d.string.drop d.pos).take n = t) (hn : t.length = n) (hp : ∀ c ∈ t, c ≠ 10) :
    d.Follows { d with pos := d.pos + n, posinfo := ⟨d.posinfo.line, d.posinfo.col + n⟩ } := by
  refine ⟨rfl, fun h => ?_⟩
  unfold Tracked at h ⊢
  show (⟨d.posinfo.line, d.posinfo.col + n⟩ : ErrorPos) = positionAfter (d.string.take (d.pos + n))
  rw [List.take_add, ht, positionAfter_append_plain _ _ hp, ← h, hn]

theorem follows_parseNull {d d' : JsonDeserializer} {e e' : ParseError} {v : JsonValue}
    (h : parseNull d e = (v, d', e')) (he : e'.what = []) : d.Follows d' := by
  unfold parseNull at h
  split at h
  · rename_i hc
    simp only [Prod.mk.injEq] at h
    obtain ⟨_, rfl, _⟩ := h
    exact follows_skip hc rfl (by decide)
  · simp only [Prod.mk.injEq] at h
    obtain ⟨_, _, rfl⟩ := h
    exact absurd he (by simp [lit])

theorem follows_parseBool {d d' : JsonDeserializer} {e e' : ParseError} {v : JsonValue}
    (h : parseBool d e = (v, d', e')) (he : e'.what = []) : d.Follows d' := by
  unfold parseBool at h
  split at h
  · rename_i hc
    simp only [Prod.mk.injEq] at h
    obtain ⟨_, rfl, _⟩ := h
    exact follows_skip hc rfl (by decide)
  · split at h
    · rename_i hc
      simp only [Prod.mk.injEq] at h
      obtain ⟨_, rfl, _⟩ := h
      exact follows_skip hc rfl (by decide)
    · simp only [Prod.mk.injEq] at h
      obtain ⟨_, _, rfl⟩ := h
      exact absurd he (by simp [lit])

theorem follows_parseNumber {d d' : JsonDeserializer} {e e' : ParseError} {v : JsonValue}
    (h : parseNumber d e = (v, d', e')) : d.Follows d' := by
  unfold parseNumber at h
  have hf := follows_scanNumber d
  generalize scanNumber d = p at h hf
  obtain ⟨d1, tok⟩ := p
  simp only at h hf
  split at h
  · simp only [Prod.mk.injEq] at h
    obtain ⟨_, rfl, _⟩ := h
    exact hf
  · simp only [Prod.mk.injEq] at h
    obtain ⟨_, rfl, _⟩ := h
    exact hf

theorem hexDigit_newline : hexDigit 10 = none := by decide

theorem follows_hexLoop : ∀ (k : Nat) (d : JsonDeserializer) (code c : Nat)
    (d' : JsonDeserializer), hexLoop k d code = (some c, d') → d.pos + k ≤ d.string.length →
    d.Follows d' := by
  intro k
  induction k with
  | zero =>
    intro d code c d' h _
    rw [hexLoop] at h
    simp only [Prod.mk.injEq] at h
    obtain ⟨_, rfl⟩ := h
    exact Follows.refl d
  | succ n ih =>
    intro d code c d' h hl
    rw [hexLoop] at h
    cases hd : hexDigit d.cur with
    | none =>
      rw [hd] at h
      simp at h
    | some x =>
      rw [hd] at h
      have hc : d.cur ≠ 10 := by
        intro h10
        rw [h10, hexDigit_newline] at hd
        cases hd
      exact (follows_next (by omega) hc).trans
        (ih _ _ _ _ h (by rw [next_string]; show d.pos + 1 + n ≤ _; omega))

theorem simpleEscape_newline : simpleEscape 10 = none := by decide

theorem follows_parseStringLoop : ∀ (fuel : Nat) (d : JsonDeserializer) (out : List Byte)
    (e : ParseError) (v : JsonValue) (d' : JsonDeserializer) (e' : ParseError),
    parseStringLoop fuel d out e = (v, d', e') → e'.what = [] → d.Follows d' := by
  intro fuel
  induction fuel with
  | zero =>
    intro d out e v d' e' h he
    rw [parseStringLoop] at h
    simp only [Prod.mk.injEq] at h
    obtain ⟨_, _, rfl⟩ := h
    exact absurd he (by simp [lit])
  | succ n ih =>
    intro d out e v d' e' h he
    rw [parseStringLoop_succ] at h
    split at h
    · simp only [Prod.mk.injEq] at h
      obtain ⟨_, _, rfl⟩ := h
      exact absurd he (by simp [lit])
    rename_i hlt
    simp only [not_not] at hlt
    split at h
    · -- closing quote
      rename_i hq
      simp only [Prod.mk.injEq] at h
      obtain ⟨_, rfl, _⟩ := h
      exact follows_next hlt (by rw [hq]; decide)
    rename_i hq
    split at h
    · -- an escape
      rename_i hb
      have h1 : d.Follows d.next := follows_next hlt (by rw [hb]; decide)
      split at h
      · simp only [Prod.mk.injEq] at h
        obtain ⟨_, _, rfl⟩ := h
        exact absurd he (by simp [lit])
      rename_i hlt2
      cases hse : simpleEscape d.next.cur with
      | some y =>
        rw [hse, Option.elim_some] at h
        have hc : d.next.cur ≠ 10 := by
          intro h10
          rw [h10, simpleEscape_newline] at hse
          cases hse
        exact (h1.trans (follows_next (by omega) hc)).trans (ih _ _ _ _ _ _ h he)
      | none =>
        rw [hse, Option.elim_none] at h
        split at h
        · rename_i hu
          have h2 : d.next.Follows d.next.next := follows_next (by omega) (by rw [hu]; decide)
          split at h
          · simp only [Prod.mk.injEq] at h
            obtain ⟨_, _, rfl⟩ := h
            exact absurd he (by simp [lit])
          rename_i hlen
          cases hx : hexLoop 4 d.next.next 0 with
          | mk oc d3 =>
            rw [hx] at h
            cases oc with
            | none =>
              simp only [Prod.mk.injEq] at h
              obtain ⟨_, _, rfl⟩ := h
              exact absurd he (by simp [lit])
            | some code =>
              simp only [] at h
              exact ((h1.trans h2).trans (follows_hexLoop 4 _ _ _ _ hx (by omega))).trans
                (ih _ _ _ _ _ _ h he)
        · simp only [Prod.mk.injEq] at h
          obtain ⟨_, _, rfl⟩ := h
          exact absurd he (by simp [lit])
    · -- an ordinary character
      refine Follows.trans ?_ (ih _ _ _ _ _ _ h he)
      refine Follows.oneChar hlt ?_ ?_ ?_
      · split <;> rfl
      · split <;> rfl
      · split <;> rfl

theorem follows_parseString {d d' : JsonDeserializer} {e e' : ParseError} {v : JsonValue}
    (h : parseString d e = (v, d', e')) (he : e'.what = []) : d.Follows d' := by
  rw [parseString_eq] at h
  split at h
  · exact (follows_advance d).trans (follows_parseStringLoop _ _ _ _ _ _ _ h he)
  · simp only [Prod.mk.injEq] at h
    obtain ⟨_, _, rfl⟩ := h
    exact absurd he (by simp [lit])

end JsonDeserializer


namespace JsonDeserializer

/-- A successful run of one of the five mutually recursive functions leaves the source as it
is and the line and column up to date. -/
theorem follows (f : Nat) :
    (∀ d e v d' e', parseJsonValue f d e = some (v, d', e') → e'.what = [] → d.Follows d') ∧
    (∀ d e v d' e', parseObject f d e = some (v, d', e') → e'.what = [] → d.Follows d') ∧
    (∀ d acc e v d' e', parseObjectLoop f d acc e = some (v, d', e') → e'.what = [] →
      d.Follows d') ∧
    (∀ d e v d' e', parseArray f d e = some (v, d', e') → e'.what = [] → d.Follows d') ∧
    (∀ d acc e v d' e', parseArrayLoop f d acc e = some (v, d', e') → e'.what = [] →
      d.Follows d') := by
  induction f with
  | zero =>
    refine ⟨?_, ?_, ?_, ?_, ?_⟩ <;> intros <;> simp_all [parseJsonValue, parseObject,
      parseObjectLoop, parseArray, parseArrayLoop]
  | succ n ih =>
    obtain ⟨ihv, iho, ihol, iha, ihal⟩ := ih
    refine ⟨?_, ?_, ?_, ?_, ?_⟩
    · -- parseJsonValue
      intro d e v d' e' h he'
      rw [parseJsonValue_succ] at h
      split_ifs at h with h0 h1 h2 h3 h4 h5 h6
      · exact (err_absurd h he' (by simp [lit])).elim
      · exact follows_parseNull (Option.some.inj h) he'
      · exact follows_parseBool (Option.some.inj h) he'
      · exact follows_parseString (Option.some.inj h) he'
      · exact iha _ _ _ _ _ h he'
      · exact iho _ _ _ _ _ h he'
      · exact follows_parseNumber (Option.some.inj h)
      · exact (err_absurd h he' (by simp [lit])).elim
    · -- parseObject
      intro d e v d' e' h he'
      rw [parseObject_succ] at h
      split_ifs at h with h0 h1
      · simp only [Option.some.injEq, Prod.mk.injEq] at h
        obtain ⟨_, rfl, _⟩ := h
        exact ((follows_advance d).trans (follows_skipWhitespace _)).trans (follows_advance _)
      · exact ((follows_advance d).trans (follows_skipWhitespace _)).trans
          (ihol _ _ _ _ _ _ h he')
      · exact (err_absurd h he' (by simp [lit])).elim
    · -- parseObjectLoop
      intro d acc e v d' e' h he'
      obtain ⟨kv, d1, e1, hp⟩ : ∃ kv d1 e1, parseString d.skipWhitespace e = (kv, d1, e1) :=
        ⟨_, _, _, rfl⟩
      rw [parseObjectLoop_succ _ _ _ _ hp] at h
      split_ifs at h with h0 h1 h2
      · exact (err_absurd h he' (by simp [lit])).elim
      · exact (err_absurd h he' h1).elim
      · exact (err_absurd h he' (by simp [lit])).elim
      · simp only [not_not] at h0 h1 h2
        have k1 : d.Follows d1 := (follows_skipWhitespace d).trans (follows_parseString hp h1)
        have k2 : d.Follows d1.skipWhitespace.advance.skipWhitespace :=
          ((k1.trans (follows_skipWhitespace _)).trans (follows_advance _)).trans
            (follows_skipWhitespace _)
        rw [Option.bind_eq_some] at h
        obtain ⟨⟨val, d6, e6⟩, hv, h⟩ := h
        simp only [] at h
        split_ifs at h with h6 h7 h8
        · exact (err_absurd h he' h6).elim
        · simp only [not_not] at h6
          have k3 := k2.trans (ihv _ _ _ _ _ hv h6)
          simp only [Option.some.injEq, Prod.mk.injEq] at h
          obtain ⟨_, rfl, _⟩ := h
          exact (k3.trans (follows_skipWhitespace _)).trans (follows_advance _)
        · simp only [not_not] at h6
          have k3 := k2.trans (ihv _ _ _ _ _ hv h6)
          exact (((k3.trans (follows_skipWhitespace _)).trans (follows_advance _)).trans
            (follows_skipWhitespace _)).trans (ihol _ _ _ _ _ _ h he')
        · exact (err_absurd h he' (by simp [lit])).elim
    · -- parseArray
      intro d e v d' e' h he'
      rw [parseArray_succ] at h
      split_ifs at h with h0 h1
      · simp only [Option.some.injEq, Prod.mk.injEq] at h
        obtain ⟨_, rfl, _⟩ := h
        exact ((follows_advance d).trans (follows_skipWhitespace _)).trans (follows_advance _)
      · exact ((follows_advance d).trans (follows_skipWhitespace _)).trans
          (ihal _ _ _ _ _ _ h he')
      · exact (err_absurd h he' (by simp [lit])).elim
    · -- parseArrayLoop
      intro d acc e v d' e' h he'
      rw [parseArrayLoop_succ, Option.bind_eq_some] at h
      obtain ⟨⟨val, d6, e6⟩, hv, h⟩ := h
      simp only [] at h
      split_ifs at h with h6 h7 h8
      · exact (err_absurd h he' h6).elim
      · simp only [not_not] at h6
        have k3 := (follows_skipWhitespace d).trans (ihv _ _ _ _ _ hv h6)
        simp only [Option.some.injEq, Prod.mk.injEq] at h
        obtain ⟨_, rfl, _⟩ := h
        exact (k3.trans (follows_skipWhitespace _)).trans (follows_advance _)
      · simp only [not_not] at h6
        have k3 := (follows_skipWhitespace d).trans (ihv _ _ _ _ _ hv h6)
        exact (((k3.trans (follows_skipWhitespace _)).trans (follows_advance _)).trans
          (follows_skipWhitespace _)).trans (ihal _ _ _ _ _ _ h he')
      · exact (err_absurd h he' (by simp [lit])).elim

end JsonDeserializer


/-! ## The members after a prefix has been read -/

namespace JsonDeserializer

theorem stateAfter_at (pre r : List Byte) : (stateAfter pre r).At r :=
  ⟨by simp [stateAfter], by simp [stateAfter]⟩

theorem stateAfter_tracked (pre r : List Byte) : (stateAfter pre r).Tracked := by
  simp [stateAfter, Tracked]

theorem eq_stateAfter {d : JsonDeserializer} {pre r : List Byte} (hs : d.string = pre ++ r)
    (hat : d.At r) (ht : d.Tracked) : d = stateAfter pre r := by
  have hl := hat.length
  rw [hs, List.length_append] at hl
  have hp : d.pos = pre.length := by omega
  unfold Tracked at ht
  rw [hs, hp, List.take_left] at ht
  obtain ⟨s, p, i⟩ := d
  simp only [stateAfter] at hs hp ht ⊢
  subst hs hp ht
  rfl

/-- Where a run that follows `stateAfter pre (c ++ r)` and stands before `r` has arrived. -/
theorem Follows.arrives {d : JsonDeserializer} {pre c r : List Byte}
    (hf : (stateAfter pre (c ++ r)).Follows d) (hat : d.At r) : d = stateAfter (pre ++ c) r :=
  JsonDeserializer.eq_stateAfter (by rw [hf.1]; simp [stateAfter]) hat
    (hf.2 (stateAfter_tracked _ _))

theorem advance_stateAfter (pre : List Byte) (c : Byte) (r : List Byte) :
    (stateAfter pre (c :: r)).advance = stateAfter (pre ++ [c]) r :=
  Follows.arrives (c := [c]) (follows_advance _) (stateAfter_at pre (c :: r)).advance

theorem skipWhitespace_stateAfter (pre : List Byte) {w r : List Byte} (hw : AllSpace w)
    (hr : isspace (r.headD 0) = false) :
    (stateAfter pre (w ++ r)).skipWhitespace = stateAfter (pre ++ w) r :=
  Follows.arrives (follows_skipWhitespace _)
    ((stateAfter_at pre (w ++ r)).skipWhitespace_append hw hr)

theorem skipWhitespace_stateAfter_self (pre : List Byte) {r : List Byte}
    (hr : isspace (r.headD 0) = false) :
    (stateAfter pre r).skipWhitespace = stateAfter pre r := by
  have := skipWhitespace_stateAfter pre (w := []) AllSpace.nil hr
  simpa using this

theorem parseString_stateAfter (pre : List Byte) {t s : List Byte} (r : List Byte)
    {e : ParseError} (he : e.what = []) (hb : StrBody t s) :
    parseString (stateAfter pre (34 :: (t ++ 34 :: r))) e =
      (.string s, stateAfter (pre ++ 34 :: (t ++ [34])) r, e) := by
  obtain ⟨d', h1, h2⟩ := parseString_complete e hb (stateAfter_at pre (34 :: (t ++ 34 :: r)))
  have h3 : (stateAfter pre ((34 :: (t ++ [34])) ++ r)).Follows d' := by
    have := follows_parseString h1 he
    simpa using this
  rw [h1, h3.arrives h2]

end JsonDeserializer

/-- The run of `parseJsonValue` over a value, with the members it arrives at. -/
theorem Val.runValue {r r' : List Byte} {v : JsonValue} (h : Val r v r') (pre : List Byte)
    {e : ParseError} (he : e.what = []) :
    ∃ f c, r = c ++ r' ∧
      parseJsonValue f (stateAfter pre r) e = some (v, stateAfter (pre ++ c) r', e) := by
  obtain ⟨f, d', h1, h2⟩ := complete.1 h (stateAfter pre r) e (stateAfter_at pre r) he
  obtain ⟨r2, _, h3, _, hlen⟩ := (sound f).1 _ _ _ _ _ _ h1 he he (stateAfter_at pre r)
  have hr : r2 = r' := by rw [← h3.2, ← h2.2]
  subst hr
  have hf := (follows f).1 _ _ _ _ _ h1 he
  have hl := h2.length
  rw [hf.1] at hl
  have hd := h2.2
  rw [hf.1] at hd
  simp only [stateAfter, List.length_append] at hl hd
  have hc : r = r.take (d'.pos - pre.length) ++ r2 := by
    have h4 : d'.pos = pre.length + (d'.pos - pre.length) := by omega
    rw [h4, List.drop_append] at hd
    rw [← hd, List.take_append_drop]
  obtain ⟨c, hc⟩ : ∃ c, r = c ++ r2 := ⟨_, hc⟩
  subst hc
  exact ⟨f, c, rfl, by rw [h1, hf.arrives h2]⟩

/-- The run of `parseJsonValue` over a document that stands before `x`: the value is read and
the white space after it skipped. -/
theorem Doc.runDoc {t : List Byte} {v : JsonValue} (h : Doc t v) (pre x : List Byte)
    {e : ParseError} (he : e.what = []) (hs : isspace (x.headD 0) = false)
    (hx : numberChar (x.headD 0) = false) :
    ∃ f d', parseJsonValue f (stateAfter pre (t ++ x)).skipWhitespace e = some (v, d', e) ∧
      d'.skipWhitespace = stateAfter (pre ++ t) x := by
  obtain ⟨w1, r1, w2, heq, hw1, hw2, hv⟩ := h.inContext x hx
  obtain ⟨f, c, hc, hrun⟩ := hv.runValue (pre ++ w1) he
  subst hc
  have ht : t = w1 ++ (c ++ w2) := by
    have : t ++ x = (w1 ++ (c ++ w2)) ++ x := by rw [heq]; simp
    exact List.append_cancel_right this
  refine ⟨f, stateAfter (pre ++ w1 ++ c) (w2 ++ x), ?_, ?_⟩
  · rw [heq, skipWhitespace_stateAfter pre hw1 hv.head_not_space]
    exact hrun
  · rw [skipWhitespace_stateAfter _ hw2 hs, ht]
    simp

/-- The result of `parse` from a run of `parseJsonValue` on the text after its leading white
space. -/
theorem parse_eq_of_run {w r : List Byte} (hw : AllSpace w) (hr : isspace (r.headD 0) = false)
    {f : Nat} {v : JsonValue} {d' : JsonDeserializer} {err : ParseError}
    (h : parseJsonValue f (stateAfter w r) {} = some (v, d', err)) (e0 : ParseError) :
    parse (w ++ r) e0 =
      if err.what ≠ [] then some (.null, err)
      else if d'.skipWhitespace.pos ≠ d'.skipWhitespace.string.length then
        some (.null, ⟨lit "Trailing data after JSON", d'.skipWhitespace.posinfo⟩)
      else some (v, err) := by
  obtain ⟨x, hx⟩ := parseJsonValue_total (w ++ r)
  have h0 : JsonDeserializer.skipWhitespace { string := w ++ r } = stateAfter w r :=
    skipWhitespace_stateAfter [] hw hr
  rw [h0] at hx
  have hxe := fuel_irrelevant hx h
  subst hxe
  unfold parse JsonDeserializer.deserialize
  rw [deserializeInternal_eq, h0, hx, Option.some_bind]
  split_ifs <;> rfl

/-- C11 as stated fails: the form feed is none of the four white space characters of JSON
(space, tab, newline, carriage return), yet for `t = "1"` and `s` a form feed
`parse(t + " " + s)` reports no error and returns the number 1 instead of Null; the same with
a vertical tab leading a longer `s`. -/
theorem trailing_form_feed_accepted :
    parse (lit "1") {} = some (JsonValue.ofInt 1, {}) ∧
    (12 : Byte) ∉ [32, 9, 10, 13] ∧ (11 : Byte) ∉ [32, 9, 10, 13] ∧
    parse (lit "1" ++ [32] ++ [12]) {} = some (JsonValue.ofInt 1, {}) ∧
    parse (lit "1" ++ [32] ++ 11 :: lit " \n") {} = some (JsonValue.ofInt 1, {}) :=
  ⟨rfl, by decide, by decide, rfl, rfl⟩

/-- C11, amended. Trailing data is an error: for every text `t` that `parse` accepts and every
non-empty text `s` whose first character is none of the six characters that `std::isspace`
accepts (space, `\t`, `\n`, `\v`, `\f`, `\r`), which are what `skipWhitespace` skips,
`parse(t + " " + s)` returns Null with the error "Trailing data after JSON" at the line and
column of the first character of `s`. -/
theorem trailing_data (t s : List Byte) (v : JsonValue) (e0 : ParseError)
    (ht : parse t e0 = some (v, {})) (hne : s ≠ []) (hs : isspace (s.headD 0) = false) :
    parse (t ++ [32] ++ s) e0 =
      some (.null, ⟨lit "Trailing data after JSON", positionAfter (t ++ [32])⟩) := by
  rw [parse_eq_some_iff] at ht
  obtain ⟨w1, r1, w2, rfl, hw1, hv, hw2⟩ := ht
  have hv2 := (Val.append_all (32 :: s) (by rfl)).1 hv
  obtain ⟨f, c, hc, hrun⟩ := hv2.runValue w1 (e := {}) rfl
  have hc2 : r1 = c ++ w2 := by
    have : r1 ++ 32 :: s = (c ++ w2) ++ 32 :: s := by rw [hc]; simp
    exact List.append_cancel_right this
  have htext : w1 ++ r1 ++ [32] ++ s = w1 ++ (r1 ++ 32 :: s) := by simp
  have hskip : (stateAfter (w1 ++ c) (w2 ++ 32 :: s)).skipWhitespace =
      stateAfter (w1 ++ r1 ++ [32]) s := by
    have := skipWhitespace_stateAfter (w1 ++ c) (w := w2 ++ [32]) (r := s)
      (hw2.append (AllSpace.nil.cons (by decide))) hs
    rw [hc2]
    simpa using this
  rw [htext, parse_eq_of_run hw1 hv2.head_not_space hrun, if_neg (by simp), hskip, if_pos]
  · rfl
  · obtain ⟨a, s', rfl⟩ := List.exists_cons_of_ne_nil hne
    simp [stateAfter]

theorem trailing_data_witness :
    parse (lit "[1,\n2]") {} = some (.array [JsonValue.ofInt 1, JsonValue.ofInt 2], {}) ∧
    parse (lit "[1,\n2]" ++ [32] ++ lit "x y") {} =
      some (.null, ⟨lit "Trailing data after JSON", ⟨2, 4⟩⟩) :=
  ⟨rfl, trailing_data (lit "[1,\n2]") (lit "x y") _ {} rfl (by decide) rfl⟩


/-! ## Errors inside arrays and objects -/

theorem peek_stateAfter (pre r : List Byte) : (stateAfter pre r).peek = r.headD 0 :=
  (stateAfter_at pre r).peek

theorem peek_stateAfter_cons (pre : List Byte) (c : Byte) (r : List Byte) :
    (stateAfter pre (c :: r)).peek = c :=
  (stateAfter_at pre (c :: r)).peek

/-- The array loop gets past the complete elements `ts`. -/
theorem ArrayItems.runItems {ts : List Byte} (h : ArrayItems ts) :
    ∀ (pre rest : List Byte) (acc : JsonArray), ∃ acc1 : JsonArray, ∀ f res,
      parseArrayLoop f (stateAfter (pre ++ ts) rest) acc1 {} = some res →
      ∃ f1, parseArrayLoop f1 (stateAfter pre (ts ++ rest)) acc {} = some res := by
  induction h with
  | nil =>
    intro pre rest acc
    exact ⟨acc, fun f res h => ⟨f, by simpa using h⟩⟩
  | @cons t ts v hd _ ih =>
    intro pre rest acc
    obtain ⟨f1, d1, hrun, hsk⟩ := hd.runDoc pre (44 :: (ts ++ rest)) (e := {}) rfl (by rfl) (by rfl)
    obtain ⟨acc1, hacc⟩ := ih (pre ++ t ++ [44]) rest (acc ++ [v])
    refine ⟨acc1, fun f res h => ?_⟩
    have e0 : pre ++ (t ++ 44 :: ts) = pre ++ t ++ [44] ++ ts := by simp
    rw [e0] at h
    obtain ⟨f2, h2⟩ := hacc f res h
    have e1 : (t ++ 44 :: ts) ++ rest = t ++ 44 :: (ts ++ rest) := by simp
    refine ⟨max f1 f2 + 1, ?_⟩
    rw [e1, parseArrayLoop_succ, (fuel_mono (le_max_left f1 f2)).1 _ _ _ hrun, Option.some_bind]
    simp only []
    rw [if_neg (by simp), hsk, peek_stateAfter_cons, if_neg (by decide), if_pos rfl,
      advance_stateAfter, parseArrayLoop_skipWhitespace]
    exact (fuel_mono (le_max_right f1 f2)).2.2.2.2 _ _ _ _ h2

/-- The object loop gets past the complete members `ts`. -/
theorem ObjectItems.runMembers {ts : List Byte} (h : ObjectItems ts) :
    ∀ (pre rest : List Byte) (acc : JsonObject), ∃ acc1 : JsonObject, ∀ f res,
      parseObjectLoop f (stateAfter (pre ++ ts) rest) acc1 {} = some res →
      ∃ f1, parseObjectLoop f1 (stateAfter pre (ts ++ rest)) acc {} = some res := by
  induction h with
  | nil =>
    intro pre rest acc
    exact ⟨acc, fun f res h => ⟨f, by simpa using h⟩⟩
  | @cons w1 tk k w2 t ts v hw1 hk hw2 hd _ ih =>
    intro pre rest acc
    have hp : parseString
        (stateAfter pre
          (w1 ++ 34 :: (tk ++ 34 :: (w2 ++ 58 :: (t ++ 44 :: (ts ++ rest)))))).skipWhitespace {} =
        (.string k, stateAfter (pre ++ w1 ++ 34 :: (tk ++ [34]))
          (w2 ++ 58 :: (t ++ 44 :: (ts ++ rest))), {}) := by
      rw [skipWhitespace_stateAfter pre hw1 (by rfl)]
      exact parseString_stateAfter _ _ rfl hk
    obtain ⟨f1, d1, hrun, hsk⟩ := hd.runDoc (pre ++ w1 ++ 34 :: (tk ++ [34]) ++ w2 ++ [58])
      (44 :: (ts ++ rest)) (e := {}) rfl (by rfl) (by rfl)
    obtain ⟨acc1, hacc⟩ := ih (pre ++ w1 ++ 34 :: (tk ++ [34]) ++ w2 ++ [58] ++ t ++ [44]) rest
      (mapEmplace acc k v)
    refine ⟨acc1, fun f res h => ?_⟩
    have e0 : pre ++ (w1 ++ 34 :: (tk ++ 34 :: (w2 ++ 58 :: (t ++ 44 :: ts)))) =
        pre ++ w1 ++ 34 :: (tk ++ [34]) ++ w2 ++ [58] ++ t ++ [44] ++ ts := by simp
    rw [e0] at h
    obtain ⟨f2, h2⟩ := hacc f res h
    have e1 : (w1 ++ 34 :: (tk ++ 34 :: (w2 ++ 58 :: (t ++ 44 :: ts)))) ++ rest =
        w1 ++ 34 :: (tk ++ 34 :: (w2 ++ 58 :: (t ++ 44 :: (ts ++ rest)))) := by simp
    refine ⟨max f1 f2 + 1, ?_⟩
    rw [e1, parseObjectLoop_succ _ _ _ _ hp, skipWhitespace_stateAfter pre hw1 (by rfl),
      peek_stateAfter_cons, if_neg (by simp), if_neg (by simp),
      skipWhitespace_stateAfter _ hw2 (by rfl), peek_stateAfter_cons, if_neg (by simp),
      advance_stateAfter, (fuel_mono (le_max_left f1 f2)).1 _ _ _ hrun, Option.some_bind]
    simp only []
    rw [if_neg (by simp), hsk, peek_stateAfter_cons, if_neg (by decide), if_pos rfl,
      advance_stateAfter, parseObjectLoop_skipWhitespace]
    exact (fuel_mono (le_max_right f1 f2)).2.2.1 _ _ _ _ h2


theorem ArrayItems.items_ne_bracket {ts : List Byte} (h : ArrayItems ts) (hne : ts ≠ [])
    (y : List Byte) : ((ts ++ y).dropWhile isspace).headD 0 ≠ 93 := by
  cases h with
  | nil => exact absurd rfl hne
  | @cons t ts v hd _ =>
    obtain ⟨w1, r1, w2, heq, hw1, _, hv⟩ := hd.inContext (44 :: (ts ++ y)) (by rfl)
    have e1 : (t ++ 44 :: ts) ++ y = w1 ++ r1 := by rw [← heq]; simp
    rw [e1, dropWhile_space_append hw1 hv.head_not_space]
    exact hv.head_ne_close

theorem ObjectItems.members_ne_brace {ts : List Byte} (h : ObjectItems ts) (hne : ts ≠ [])
    (y : List Byte) : ((ts ++ y).dropWhile isspace).headD 0 ≠ 125 := by
  cases h with
  | nil => exact absurd rfl hne
  | @cons w1 tk k w2 t ts v hw1 _ _ _ _ =>
    have e1 : (w1 ++ 34 :: (tk ++ 34 :: (w2 ++ 58 :: (t ++ 44 :: ts)))) ++ y =
        w1 ++ 34 :: ((tk ++ 34 :: (w2 ++ 58 :: (t ++ 44 :: ts))) ++ y) := by simp
    rw [e1, dropWhile_space_append hw1 (by rfl)]
    simp

/-- An array that opens with the complete elements `ts`: `parseJsonValue` at its bracket
returns what the array loop returns after them. -/
theorem parseArray_open {p ts y : List Byte} {res : ParseResult} (hts : ArrayItems ts)
    (hclose : ts = [] → (y.dropWhile isspace).headD 0 ≠ 93)
    (h : ∀ acc, ∃ f, parseArrayLoop f (stateAfter (p ++ 91 :: ts) y) acc {} = some res) :
    ∃ f, parseJsonValue f (stateAfter p (91 :: (ts ++ y))) {} = some res := by
  obtain ⟨acc1, hacc⟩ := hts.runItems (p ++ [91]) y []
  obtain ⟨f, hf⟩ := h acc1
  have e0 : p ++ 91 :: ts = p ++ [91] ++ ts := by simp
  rw [e0] at hf
  obtain ⟨f1, h1⟩ := hacc f res hf
  have hpk : (stateAfter (p ++ [91]) (ts ++ y)).skipWhitespace.peek ≠ 93 := by
    rw [(stateAfter_at _ _).skipWhitespace.peek]
    by_cases hts0 : ts = []
    · subst hts0
      exact hclose rfl
    · exact hts.items_ne_bracket hts0 y
  refine ⟨f1 + 2, ?_⟩
  rw [parseJsonValue_dispatch (f1 + 1) {} (stateAfter_at _ _), if_neg (by decide),
    if_neg (by decide), if_neg (by decide), if_pos rfl, parseArray_succ,
    if_pos (peek_stateAfter_cons _ _ _), advance_stateAfter, if_neg hpk,
    parseArrayLoop_skipWhitespace]
  exact h1

/-- An object that opens with the complete members `ts`: `parseJsonValue` at its brace
returns what the object loop returns after them. -/
theorem parseObject_open {p ts y : List Byte} {res : ParseResult} (hts : ObjectItems ts)
    (hclose : ts = [] → (y.dropWhile isspace).headD 0 ≠ 125)
    (h : ∀ acc, ∃ f, parseObjectLoop f (stateAfter (p ++ 123 :: ts) y) acc {} = some res) :
    ∃ f, parseJsonValue f (stateAfter p (123 :: (ts ++ y))) {} = some res := by
  obtain ⟨acc1, hacc⟩ := hts.runMembers (p ++ [123]) y []
  obtain ⟨f, hf⟩ := h acc1
  have e0 : p ++ 123 :: ts = p ++ [123] ++ ts := by simp
  rw [e0] at hf
  obtain ⟨f1, h1⟩ := hacc f res hf
  have hpk : (stateAfter (p ++ [123]) (ts ++ y)).skipWhitespace.peek ≠ 125 := by
    rw [(stateAfter_at _ _).skipWhitespace.peek]
    by_cases hts0 : ts = []
    · subst hts0
      exact hclose rfl
    · exact hts.members_ne_brace hts0 y
  refine ⟨f1 + 2, ?_⟩
  rw [parseJsonValue_dispatch (f1 + 1) {} (stateAfter_at _ _), if_neg (by decide),
    if_neg (by decide), if_neg (by decide), if_neg (by decide), if_pos rfl, parseObject_succ,
    if_pos (peek_stateAfter_cons _ _ _), advance_stateAfter, if_neg hpk,
    parseObjectLoop_skipWhitespace]
  exact h1

/-- An error that `parseJsonValue` reports where a value is expected is the result of
`parse`. -/
theorem ValueExpected.errorReported {p : List Byte} {b : Bool} (hp : ValueExpected p b) :
    ∀ (x : List Byte) (f : Nat) (v : JsonValue) (d1 : JsonDeserializer) (err : ParseError)
      (e0 : ParseError), isspace (x.headD 0) = false → (b = true → x.headD 0 ≠ 93) →
      parseJsonValue f (stateAfter p x) {} = some (v, d1, err) → err.what ≠ [] →
      parse (p ++ x) e0 = some (.null, err) := by
  induction hp with
  | top hw =>
    intro x f v d1 err e0 hs _ h herr
    rw [parse_eq_of_run hw hs h, if_pos herr]
  | @element p ts w b _ hts hw ih =>
    intro x f v d1 err e0 hs hb h herr
    have hloop : ∀ acc, ∃ f1, parseArrayLoop f1 (stateAfter (p ++ 91 :: ts) (w ++ x)) acc {} =
        some (.null, d1, err) := by
      intro acc
      refine ⟨f + 1, ?_⟩
      have e1 : p ++ 91 :: ts ++ w = p ++ 91 :: (ts ++ w) := by simp
      rw [parseArrayLoop_succ, skipWhitespace_stateAfter _ hw hs, e1, h, Option.some_bind]
      simp only []
      rw [if_pos herr]
    obtain ⟨f1, h1⟩ := parseArray_open hts (fun h0 => by
      rw [dropWhile_space_append hw hs]
      exact hb (by rw [h0]; rfl)) hloop
    have e2 : p ++ 91 :: (ts ++ w) ++ x = p ++ 91 :: (ts ++ (w ++ x)) := by simp
    rw [e2]
    exact ih _ f1 _ d1 err e0 (by rfl) (fun _ => by simp) h1 herr
  | @member p ts w1 tk k w2 w3 b _ hts hw1 hk hw2 hw3 ih =>
    intro x f v d1 err e0 hs _ h herr
    have hloop : ∀ acc, ∃ f1, parseObjectLoop f1 (stateAfter (p ++ 123 :: ts)
        (w1 ++ 34 :: (tk ++ 34 :: (w2 ++ 58 :: (w3 ++ x))))) acc {} = some (.null, d1, err) := by
      intro acc
      have hps : parseString (stateAfter (p ++ 123 :: ts)
          (w1 ++ 34 :: (tk ++ 34 :: (w2 ++ 58 :: (w3 ++ x))))).skipWhitespace {} =
          (.string k, stateAfter (p ++ 123 :: ts ++ w1 ++ 34 :: (tk ++ [34]))
            (w2 ++ 58 :: (w3 ++ x)), {}) := by
        rw [skipWhitespace_stateAfter _ hw1 (by rfl)]
        exact parseString_stateAfter _ _ rfl hk
      refine ⟨f + 1, ?_⟩
      have e1 : p ++ 123 :: ts ++ w1 ++ 34 :: (tk ++ [34]) ++ w2 ++ [58] ++ w3 =
          p ++ 123 :: (ts ++ (w1 ++ 34 :: (tk ++ 34 :: (w2 ++ 58 :: w3)))) := by simp
      rw [parseObjectLoop_succ _ _ _ _ hps, skipWhitespace_stateAfter _ hw1 (by rfl),
        peek_stateAfter_cons, if_neg (by simp), if_neg (by simp),
        skipWhitespace_stateAfter _ hw2 (by rfl), peek_stateAfter_cons, if_neg (by simp),
        advance_stateAfter, skipWhitespace_stateAfter _ hw3 hs, e1, h, Option.some_bind]
      simp only []
      rw [if_pos herr]
    obtain ⟨f1, h1⟩ := parseObject_open hts (fun _ => by
      rw [dropWhile_space_append hw1 (by rfl)]
      simp) hloop
    have e2 : p ++ 123 :: (ts ++ (w1 ++ 34 :: (tk ++ 34 :: (w2 ++ 58 :: w3)))) ++ x =
        p ++ 123 :: (ts ++ (w1 ++ 34 :: (tk ++ 34 :: (w2 ++ 58 :: (w3 ++ x))))) := by simp
    rw [e2]
    exact ih _ f1 _ d1 err e0 (by rfl) (fun _ => by simp) h1 herr

/-- An error that the object loop reports where a key is expected is the result of `parse`. -/
theorem KeyExpected.keyErrorReported {p : List Byte} {b : Bool} (hp : KeyExpected p b) (x : List Byte)
    (d1 : JsonDeserializer) (err : ParseError) (e0 : ParseError)
    (hs : isspace (x.headD 0) = false) (hb : b = true → x.headD 0 ≠ 125)
    (h : ∀ acc, ∃ f, parseObjectLoop f (stateAfter p x) acc {} = some (.null, d1, err))
    (herr : err.what ≠ []) : parse (p ++ x) e0 = some (.null, err) := by
  cases hp with
  | @mk p ts w b hv hts hw =>
    have hloop : ∀ acc, ∃ f1, parseObjectLoop f1 (stateAfter (p ++ 123 :: ts) (w ++ x)) acc {} =
        some (.null, d1, err) := by
      intro acc
      obtain ⟨f, hf⟩ := h acc
      refine ⟨f, ?_⟩
      have e1 : p ++ 123 :: ts ++ w = p ++ 123 :: (ts ++ w) := by simp
      rw [← parseObjectLoop_skipWhitespace, skipWhitespace_stateAfter _ hw hs, e1]
      exact hf
    obtain ⟨f1, h1⟩ := parseObject_open hts (fun h0 => by
      rw [dropWhile_space_append hw hs]
      exact hb (by rw [h0]; rfl)) hloop
    have e2 : p ++ 123 :: (ts ++ w) ++ x = p ++ 123 :: (ts ++ (w ++ x)) := by simp
    rw [e2]
    exact hv.errorReported _ f1 _ d1 err e0 (by rfl) (fun _ => by simp) h1 herr


/-! ## The errors of malformed arrays, objects and strings -/

/-- The last branch of `parseJsonValue`: a character that starts no value. -/
theorem unexpected_character (p : List Byte) (c : Byte) (r : List Byte)
    (h1 : c ≠ 110) (h2 : ¬ (c = 116 ∨ c = 102)) (h3 : c ≠ 34) (h4 : c ≠ 91) (h5 : c ≠ 123)
    (h6 : numberStart c = false) :
    parseJsonValue 1 (stateAfter p (c :: r)) {} =
      some (.null, stateAfter p (c :: r),
        ⟨lit "Unexpected character '" ++ [c] ++ lit "'", positionAfter p⟩) := by
  rw [parseJsonValue_dispatch 0 {} (stateAfter_at p (c :: r)), if_neg h1, if_neg h2, if_neg h3,
    if_neg h4, if_neg h5, if_neg (by rw [h6]; simp)]
  rfl

/-- C12. Trailing commas are rejected: for every value text `t` that `parse` accepts, `parse`
returns Null with a non-empty error for the array text `[t,]`, namely "Unexpected character
']'" at the closing bracket, and for the object text `{"k":t,}`, namely "Object keys must be
strings" at the closing brace; `parse("[1, 2, 3,]")` and `parse("{"key": "value",}")` report
these errors. -/
theorem trailing_comma_rejected (t : List Byte) (v : JsonValue) (e0 : ParseError)
    (ht : parse t e0 = some (v, {})) :
    parse ([91] ++ t ++ [44, 93]) e0 =
      some (.null, ⟨lit "Unexpected character ']'", positionAfter ([91] ++ t ++ [44])⟩) ∧
    parse (lit "\x7b\"k\":" ++ t ++ [44, 125]) e0 =
      some (.null, ⟨lit "Object keys must be strings",
        positionAfter (lit "\x7b\"k\":" ++ t ++ [44])⟩) ∧
    parse (lit "[1, 2, 3,]") e0 = some (.null, ⟨lit "Unexpected character ']'", ⟨1, 10⟩⟩) ∧
    parse (lit "\x7b\"key\": \"value\",\x7d") e0 =
      some (.null, ⟨lit "Object keys must be strings", ⟨1, 17⟩⟩) := by
  have hd := (parse_eq_some_iff t e0 v).mp ht
  have hb : (t ++ [44]).isEmpty = false := by cases t <;> rfl
  refine ⟨?_, ?_, ?_, ?_⟩
  · have hp := ValueExpected.element (w := []) (ValueExpected.top AllSpace.nil)
      (ArrayItems.cons hd ArrayItems.nil) AllSpace.nil
    rw [hb] at hp
    have h := hp.errorReported [93] 1 _ _ _ e0 (by rfl) (fun h => by cases h)
      (unexpected_character _ 93 [] (by decide) (by decide) (by decide) (by decide) (by decide)
        (by rfl)) (by simp [lit])
    simpa using h
  · have hk : StrBody [107] [107] := StrBody.plain (by decide) (by decide) StrBody.nil
    have hp := KeyExpected.mk (w := []) (ValueExpected.top AllSpace.nil)
      (ObjectItems.cons AllSpace.nil hk AllSpace.nil hd ObjectItems.nil) AllSpace.nil
    have hb2 : ([] ++ 34 :: ([107] ++ 34 :: ([] ++ 58 :: (t ++ [44])))).isEmpty = false := rfl
    rw [hb2] at hp
    have h := hp.keyErrorReported [125] (stateAfter _ [125])
      ⟨lit "Object keys must be strings", positionAfter _⟩ e0 (by rfl) (fun h => by cases h)
      (fun acc => ⟨1, by
        rw [parseObjectLoop_succ _ _ _ _ rfl, skipWhitespace_stateAfter_self _ (by rfl),
          if_pos (by rw [peek_stateAfter_cons]; decide)]
        rfl⟩) (by simp [lit])
    simpa [lit] using h
  · rw [parse_err_irrelevant _ e0 {}]
    rfl
  · rw [parse_err_irrelevant _ e0 {}]
    rfl

theorem trailing_comma_rejected_witness :
    parse (lit "[ ]") {} = some (.array [], {}) ∧
    parse ([91] ++ lit "[ ]" ++ [44, 93]) {} =
      some (.null, ⟨lit "Unexpected character ']'", ⟨1, 6⟩⟩) :=
  ⟨rfl, (trailing_comma_rejected (lit "[ ]") (.array []) {} rfl).1⟩


theorem strBody_plain {k : List Byte} (h : ∀ c ∈ k, c ≠ 34 ∧ c ≠ 92) : StrBody k k := by
  induction k with
  | nil => exact StrBody.nil
  | cons c k ih =>
    exact StrBody.plain (h c (List.mem_cons_self _ _)).1 (h c (List.mem_cons_self _ _)).2
      (ih (fun a ha => h a (List.mem_cons_of_mem _ ha)))

/-- C13. Missing member value: for every key `k` of plain characters (no double quote,
backslash or newline), `parse("{"k": }")` returns Null with the error "Unexpected character"
for the closing brace, positioned at line 1, column `|k| + 6`, where that brace stands. -/
theorem missing_value_position (k : List Byte) (e0 : ParseError)
    (hk : ∀ c ∈ k, c ≠ 34 ∧ c ≠ 92 ∧ c ≠ 10) :
    parse ([123, 34] ++ k ++ [34, 58, 32, 125]) e0 =
      some (.null, ⟨lit "Unexpected character '\x7d'", ⟨1, k.length + 6⟩⟩) := by
  have hb : StrBody k k := strBody_plain (fun c hc => ⟨(hk c hc).1, (hk c hc).2.1⟩)
  have hp := @ValueExpected.member [] [] [] k k [] [32] false (ValueExpected.top AllSpace.nil)
    ObjectItems.nil AllSpace.nil hb AllSpace.nil (AllSpace.nil.cons (by decide))
  have h := hp.errorReported [125] 1 _ _ _ e0 (by rfl) (fun h => by cases h)
    (unexpected_character _ 125 [] (by decide) (by decide) (by decide) (by decide) (by decide)
      (by rfl)) (by simp [lit])
  have hpos : positionAfter ([] ++ 123 :: ([] ++ ([] ++ 34 :: (k ++ 34 :: ([] ++ 58 :: [32]))))) =
      ⟨1, k.length + 6⟩ := by
    have := positionAfter_append_plain [] (123 :: 34 :: (k ++ [34, 58, 32])) (by
      intro c hc
      simp only [List.mem_cons, List.mem_append, List.mem_singleton, List.not_mem_nil,
        or_false] at hc
      rcases hc with rfl | rfl | hc | rfl | rfl | rfl
      · decide
      · decide
      · exact (hk c hc).2.2
      · decide
      · decide
      · decide)
    simp only [List.nil_append, List.length_cons, List.length_append, List.length_nil] at this ⊢
    rw [show 123 :: 34 :: (k ++ 34 :: [58, 32]) = 123 :: 34 :: (k ++ [34, 58, 32]) from rfl,
      this]
    simp [positionAfter]
    omega
  rw [hpos] at h
  simpa using h

theorem missing_value_position_witness :
    parse (lit "\x7b\"key\": \x7d") {} =
      some (.null, ⟨lit "Unexpected character '\x7d'", ⟨1, 9⟩⟩) :=
  missing_value_position (lit "key") {} (by decide)

theorem parseStringLoop_unterminated : ∀ (fuel : Nat) (d : JsonDeserializer) (out : List Byte)
    (e : ParseError) (body : List Byte), d.At body → (∀ c ∈ body, c ≠ 34 ∧ c ≠ 92) →
    ∃ d1, parseStringLoop fuel d out e = (.null, d1, ⟨lit "Unterminated string", d1.posinfo⟩) := by
  intro fuel
  induction fuel with
  | zero =>
    intro d out e body _ _
    exact ⟨d, by rw [parseStringLoop]⟩
  | succ n ih =>
    intro d out e body hat hb
    rw [parseStringLoop_succ]
    cases body with
    | nil =>
      rw [if_pos (by have := hat.pos_eq; omega)]
      exact ⟨d, rfl⟩
    | cons c body =>
      have hc : d.cur = c := by simpa using hat.cur
      have hlt := hat.pos_lt
      rw [if_neg (by simp; exact hlt), hc, if_neg (hb c (List.mem_cons_self _ _)).1,
        if_neg (hb c (List.mem_cons_self _ _)).2]
      refine ih _ _ _ body ?_ (fun a ha => hb a (List.mem_cons_of_mem _ ha))
      split
      · exact hat.step _
      · exact At.next hat

theorem parseString_unterminated (p body : List Byte) (e : ParseError)
    (hb : ∀ c ∈ body, c ≠ 34 ∧ c ≠ 92) :
    ∃ d1 pos, parseString (stateAfter p (34 :: body)) e =
      (.null, d1, ⟨lit "Unterminated string", pos⟩) := by
  rw [parseString_eq, if_pos (peek_stateAfter_cons _ _ _)]
  obtain ⟨d1, h⟩ := parseStringLoop_unterminated (stateAfter p (34 :: body)).advance.string.length
    _ [] e body (stateAfter_at p (34 :: body)).advance hb
  exact ⟨d1, _, h⟩

/-- C14. Unterminated strings: for every text that, where a value or the key of a member is
expected, has a double quote followed up to the end of input only by characters that are
neither a double quote nor a backslash, `parse` returns Null with the error "Unterminated
string". -/
theorem unterminated_string (p body : List Byte) (b : Bool) (e0 : ParseError)
    (hp : ValueExpected p b ∨ KeyExpected p b) (hb : ∀ c ∈ body, c ≠ 34 ∧ c ≠ 92) :
    ∃ pos, parse (p ++ 34 :: body) e0 = some (.null, ⟨lit "Unterminated string", pos⟩) := by
  obtain ⟨d1, pos, hs⟩ := parseString_unterminated p body {} hb
  refine ⟨pos, ?_⟩
  rcases hp with hp | hp
  · refine hp.errorReported (34 :: body) 1 .null d1 _ e0 (by rfl) (fun _ => by simp) ?_ (by simp [lit])
    rw [parseJsonValue_dispatch 0 {} (stateAfter_at p (34 :: body)), if_neg (by decide),
      if_neg (by decide), if_pos rfl, hs]
  · refine hp.keyErrorReported (34 :: body) d1 _ e0 (by rfl) (fun _ => by simp) (fun acc => ⟨1, ?_⟩)
      (by simp [lit])
    have hs2 : parseString (stateAfter p (34 :: body)).skipWhitespace {} =
        (.null, d1, ⟨lit "Unterminated string", pos⟩) := by
      rw [skipWhitespace_stateAfter_self _ (by rfl)]
      exact hs
    rw [parseObjectLoop_succ _ _ _ _ hs2, skipWhitespace_stateAfter_self _ (by rfl),
      if_neg (by rw [peek_stateAfter_cons]; simp), if_pos (by simp [lit])]

theorem unterminated_string_witness :
    ValueExpected (lit "\x7b\"key\": ") false ∧
    ∃ pos, parse (lit "\x7b\"key\": " ++ 34 :: lit "unterminated") {} =
      some (.null, ⟨lit "Unterminated string", pos⟩) :=
  have hp : ValueExpected (lit "\x7b\"key\": ") false :=
    @ValueExpected.member [] [] [] (lit "key") (lit "key") [] [32] false
      (ValueExpected.top AllSpace.nil) ObjectItems.nil AllSpace.nil
      (strBody_plain (by decide)) AllSpace.nil (AllSpace.nil.cons (by decide))
  ⟨hp, unterminated_string _ (lit "unterminated") false {} (Or.inl hp) (by decide)⟩

/-- C15 as stated fails: in the object text that has a form feed between the opening brace and
the key, the next character after the brace that is none of the four white space characters
of JSON is the form feed, which is neither a double quote nor a closing brace, yet `parse`
reports no error and returns the object; the same with a vertical tab after the comma. -/
theorem form_feed_before_key_accepted :
    (12 : Byte) ∉ [32, 9, 10, 13] ∧ (12 : Byte) ≠ 34 ∧ (12 : Byte) ≠ 125 ∧
    parse (lit "\x7b" ++ 12 :: lit "\"k\":1\x7d") {} =
      some (.object [(lit "k", JsonValue.ofInt 1)], {}) ∧
    (11 : Byte) ∉ [32, 9, 10, 13] ∧ (11 : Byte) ≠ 34 ∧
    parse (lit "\x7b\"a\":1," ++ 11 :: lit "\"b\":2\x7d") {} =
      some (.object [(lit "a", JsonValue.ofInt 1), (lit "b", JsonValue.ofInt 2)], {}) :=
  ⟨by decide, by decide, by decide, rfl, by decide, by decide, rfl⟩

/-- C15, amended. Unquoted keys are rejected: for every text with an object in which, after the
opening brace or after the comma that follows a member, the next character that is none of
the six white space characters of `std::isspace` (space, `\t`, `\n`, `\v`, `\f`, `\r`) is
not a double quote (nor, right after the opening brace, the closing brace), `parse` returns
Null with the error "Object keys must be strings" at the line and column of that character. -/
theorem unquoted_key (p x : List Byte) (b : Bool) (e0 : ParseError) (hp : KeyExpected p b)
    (hs : isspace (x.headD 0) = false) (hq : x.headD 0 ≠ 34)
    (hb : b = true → x.headD 0 ≠ 125) :
    parse (p ++ x) e0 =
      some (.null, ⟨lit "Object keys must be strings", positionAfter p⟩) := by
  refine hp.keyErrorReported x (stateAfter p x) _ e0 hs hb (fun acc => ⟨1, ?_⟩) (by simp [lit])
  rw [parseObjectLoop_succ _ _ _ _ rfl, skipWhitespace_stateAfter_self _ hs,
    if_pos (by rw [peek_stateAfter]; exact hq)]
  rfl

theorem unquoted_key_witness :
    KeyExpected (lit "\x7b") true ∧
    parse (lit "\x7b" ++ lit "key: \"value\"\x7d") {} =
      some (.null, ⟨lit "Object keys must be strings", ⟨1, 2⟩⟩) :=
  have hp : KeyExpected (lit "\x7b") true :=
    KeyExpected.mk (w := []) (ValueExpected.top AllSpace.nil) ObjectItems.nil AllSpace.nil
  ⟨hp, unquoted_key _ (lit "key: \"value\"\x7d") true {} hp (by rfl) (by decide) (by decide)⟩

/-! ## The serializer -/

/-- C16. Non-finite numbers serialize as null: for every Number whose `double` is not finite
(NaN or an infinity), in compact and in pretty mode, for every indent and at every nesting
level, the text written is exactly `null`, and parsing that text yields Null without error. -/
theorem nonfinite_serializes_null (d : Dbl) (pretty : Bool) (indent level : Int)
    (e0 : ParseError) (h : d.isfinite = false) :
    JsonSerializer.serializeInternal (.number d) pretty indent level = some (lit "null") ∧
    serialize (.number d) pretty indent = some (lit "null") ∧
    parse (lit "null") e0 = some (.null, {}) := by
  refine ⟨?_, ?_, ?_⟩
  · rw [JsonSerializer.serializeInternal, h]
    rfl
  · unfold serialize JsonSerializer.toString
    rw [JsonSerializer.serializeInternal, h]
    rfl
  · rw [parse_err_irrelevant _ e0 {}]
    rfl

theorem nonfinite_serializes_null_witness :
    JsonSerializer.serializeInternal (.number .nan) true 2 3 = some (lit "null") ∧
    serialize (.number .nan) true 2 = some (lit "null") ∧
    parse (lit "null") {} = some (.null, {}) :=
  nonfinite_serializes_null .nan true 2 3 {} rfl

/-- C17. Empty containers: for every pretty flag, every indent width and every nesting level,
an empty array is written as exactly `[]` and an empty object as exactly `\x7b\x7d`. -/
theorem empty_containers (pretty : Bool) (indent level : Int) :
    JsonSerializer.serializeInternal (.array []) pretty indent level = some [91, 93] ∧
    JsonSerializer.serializeInternal (.object []) pretty indent level = some [123, 125] ∧
    serialize (.array []) pretty indent = some (lit "[]") ∧
    serialize (.object []) pretty indent = some (lit "\x7b\x7d") := by
  have h1 : JsonSerializer.serializeInternal (.array []) pretty indent level = some [91, 93] := by
    rw [JsonSerializer.serializeInternal, JsonSerializer.serializeElements]
    simp
  have h2 : JsonSerializer.serializeInternal (.object []) pretty indent level =
      some [123, 125] := by
    rw [JsonSerializer.serializeInternal, JsonSerializer.serializeMembers]
    simp
  refine ⟨h1, h2, ?_, ?_⟩
  · unfold serialize JsonSerializer.toString
    rw [JsonSerializer.serializeInternal, JsonSerializer.serializeElements]
    simp [lit]
  · unfold serialize JsonSerializer.toString
    rw [JsonSerializer.serializeInternal, JsonSerializer.serializeMembers]
    simp [lit]

/-- C18. Pretty-print example: `serialize(v, true, 2)` for the object with the members
`a = 1` and `b = [2, 3]` is exactly the seven lines of the specification, without a trailing
newline. -/
theorem pretty_example :
    serialize (.object [(lit "a", JsonValue.ofInt 1),
      (lit "b", .array [JsonValue.ofInt 2, JsonValue.ofInt 3])]) true 2 =
      some (lit "\x7b\n  \"a\": 1,\n  \"b\": [\n    2,\n    3\n  ]\n\x7d") :=
  rfl

/-- C20. Escape mapping: for every byte string `s`, `escape(s)` is the concatenation, byte by
byte, of the texts of the escape table `escapeByte`. -/
theorem escape_mapping (s : List Byte) :
    JsonSerializer.escape s = (s.map escapeByte).foldr (fun t acc => t ++ acc) [] := by
  induction s with
  | nil => rfl
  | cons c s ih =>
    rw [JsonSerializer.escape, List.map_cons, List.foldr_cons, ← ih]
    congr 1
    split_ifs with h1 h2 h3 h4 h5 h6 h7
    · subst h1; rfl
    · subst h2; rfl
    · subst h3; rfl
    · subst h4; rfl
    · subst h5; rfl
    · subst h6; rfl
    · subst h7; rfl
    · unfold escapeByte
      split <;> first | rfl | contradiction


/-! ## The compact text holds no white space -/

theorem decimalDigits_ge (fuel width n : Nat) : ∀ c ∈ decimalDigits fuel width n, 43 ≤ c := by
  induction fuel generalizing width n with
  | zero =>
    intro c hc
    rw [decimalDigits] at hc
    cases hc
  | succ k ih =>
    intro c hc
    rw [decimalDigits] at hc
    split at hc
    · rw [List.mem_singleton] at hc
      rw [hc]
      exact Nat.le_add_right_of_le (by decide)
    · rcases List.mem_append.mp hc with h | h
      · exact ih _ _ c h
      · rw [List.mem_singleton] at h
        rw [h]
        exact Nat.le_add_right_of_le (by decide)

theorem stripTrailingZeros_subset (s : List Byte) : ∀ c ∈ stripTrailingZeros s, c ∈ s := by
  intro c hc
  unfold stripTrailingZeros at hc
  rw [List.mem_reverse] at hc
  exact List.mem_reverse.mp ((List.dropWhile_suffix _).subset hc)

theorem mem_radix_ge (fr : List Byte) (h : ∀ c ∈ fr, 43 ≤ c) :
    ∀ c ∈ (if fr = [] then [] else 46 :: fr), 43 ≤ c := by
  intro c hc
  split at hc
  · cases hc
  · rcases List.mem_cons.mp hc with h1 | h1
    · rw [h1]; decide
    · exact h c h1

/-- The digits, radix point and exponent that `out << d` lays out from the six significant
digits `p.1` and the decimal exponent `p.2`. -/
theorem ostreamLayout_ge (sign : List Byte) (hs : ∀ c ∈ sign, 43 ≤ c) (p : Nat × Int) :
    ∀ c ∈ (let ds := decimalDigits 6 6 p.1
      if -4 ≤ p.2 ∧ p.2 < 6 then
        let whole := if p.2 < 0 then [48] else ds.take (p.2.toNat + 1)
        let frac := if p.2 < 0 then List.replicate ((-p.2).toNat - 1) 48 ++ ds
                    else ds.drop (p.2.toNat + 1)
        let frac := stripTrailingZeros frac
        sign ++ whole ++ (if frac = [] then [] else 46 :: frac)
      else
        let frac := stripTrailingZeros (ds.drop 1)
        sign ++ ds.take 1 ++ (if frac = [] then [] else 46 :: frac)
          ++ [101, if p.2 < 0 then 45 else 43] ++ decimalDigits 5 2 p.2.natAbs), 43 ≤ c := by
  intro c hc
  have hd := decimalDigits_ge 6 6 p.1
  have hd2 := decimalDigits_ge 5 2 p.2.natAbs
  have h48 : (43 : Nat) ≤ 48 := by decide
  have hrep : ∀ n, ∀ c ∈ List.replicate n (48 : Byte) ++ decimalDigits 6 6 p.1, 43 ≤ c := by
    intro n c hc
    rcases List.mem_append.mp hc with h | h
    · rw [(List.mem_replicate.mp h).2]
      exact h48
    · exact hd c h
  simp only [] at hc
  split at hc
  · rcases List.mem_append.mp hc with h | h
    · rcases List.mem_append.mp h with h | h
      · exact hs c h
      · split at h
        · rw [List.mem_singleton.mp h]
          exact h48
        · exact hd c (List.mem_of_mem_take h)
    · refine mem_radix_ge _ (fun a ha => ?_) c h
      have h1 := stripTrailingZeros_subset _ a ha
      split at h1
      · exact hrep _ a h1
      · exact hd a (List.mem_of_mem_drop h1)
  · rcases List.mem_append.mp hc with h | h
    · rcases List.mem_append.mp h with h | h
      · rcases List.mem_append.mp h with h | h
        · rcases List.mem_append.mp h with h | h
          · exact hs c h
          · exact hd c (List.mem_of_mem_take h)
        · exact mem_radix_ge _
            (fun a ha => hd a (List.mem_of_mem_drop (stripTrailingZeros_subset _ a ha))) c h
      · rcases List.mem_cons.mp h with h | h
        · rw [h]; decide
        · rw [List.mem_singleton] at h
          rw [h]
          split <;> decide
    · exact hd2 c h

theorem ostreamDouble_ge (d : Dbl) : ∀ c ∈ ostreamDouble d, 43 ≤ c := by
  intro c hc
  cases d with
  | nan =>
    revert c
    decide
  | inf neg =>
    revert c
    cases neg <;> decide
  | finite neg m e =>
    have hs : ∀ c ∈ (if neg = true then [45] else [] : List Byte), 43 ≤ c := by
      cases neg <;> decide
    unfold ostreamDouble at hc
    simp only [] at hc
    by_cases hm : m = 0
    · rw [if_pos hm] at hc
      rcases List.mem_append.mp hc with h | h
      · exact hs c h
      · rw [List.mem_singleton.mp h]
        decide
    · rw [if_neg hm] at hc
      exact ostreamLayout_ge _ hs _ c hc


mutual
theorem serializeInternal_compact : (v : JsonValue) → (i l : Int) →
    JsonSerializer.serializeInternal v false i l = some (compactText quoted v)
  | .null, _, _ => rfl
  | .bool true, _, _ => rfl
  | .bool false, _, _ => rfl
  | .number d, _, _ => by rw [JsonSerializer.serializeInternal, compactText]
  | .string s, _, _ => by rw [JsonSerializer.serializeInternal, compactText, quoted]
  | .array a, i, l => by
    rw [serializeInternal_array, serializeElements_compact a i l, compactText]
    simp
  | .object o, i, l => by
    rw [serializeInternal_object, serializeMembers_compact o i l, compactText]
    simp
theorem serializeElements_compact : (a : List JsonValue) → (i l : Int) →
    JsonSerializer.serializeElements a false i l = some (compactElements quoted a)
  | [], _, _ => rfl
  | v :: rest, i, l => by
    rw [serializeElements_cons, serializeInternal_compact v i (l + 1),
      serializeElements_compact rest i l]
    cases rest with
    | nil => simp [compactElements]
    | cons w rest => simp [compactElements]
theorem serializeMembers_compact : (o : List (List Byte × JsonValue)) → (i l : Int) →
    JsonSerializer.serializeMembers o false i l = some (compactMembers quoted o)
  | [], _, _ => rfl
  | (k, v) :: rest, i, l => by
    rw [serializeMembers_cons, serializeInternal_compact v i (l + 1),
      serializeMembers_compact rest i l]
    cases rest with
    | nil => simp [compactMembers, quoted]
    | cons m rest => simp [compactMembers, quoted]
end

mutual
theorem compactText_ge : (v : JsonValue) → ∀ c ∈ compactText (fun _ => [34, 34]) v, 34 ≤ c
  | .null => by decide
  | .bool true => by decide
  | .bool false => by decide
  | .number d => by
    intro c hc
    rw [compactText] at hc
    split at hc
    · exact le_trans (by decide) (ostreamDouble_ge d c hc)
    · revert c
      decide
  | .string s => by
    intro c hc
    rw [compactText] at hc
    revert c
    decide
  | .array a => by
    intro c hc
    rw [compactText] at hc
    simp only [List.mem_append, List.mem_singleton] at hc
    rcases hc with (rfl | h) | rfl
    · decide
    · exact compactElements_ge a c h
    · decide
  | .object o => by
    intro c hc
    rw [compactText] at hc
    simp only [List.mem_append, List.mem_singleton] at hc
    rcases hc with (rfl | h) | rfl
    · decide
    · exact compactMembers_ge o c h
    · decide
theorem compactElements_ge : (a : List JsonValue) →
    ∀ c ∈ compactElements (fun _ => [34, 34]) a, 34 ≤ c
  | [] => by
    intro c hc
    cases hc
  | [v] => by
    intro c hc
    rw [compactElements] at hc
    exact compactText_ge v c hc
  | v :: w :: rest => by
    intro c hc
    rw [compactElements] at hc
    simp only [List.mem_append, List.mem_singleton] at hc
    rcases hc with (h | rfl) | h
    · exact compactText_ge v c h
    · decide
    · exact compactElements_ge (w :: rest) c h
theorem compactMembers_ge : (o : List (List Byte × JsonValue)) →
    ∀ c ∈ compactMembers (fun _ => [34, 34]) o, 34 ≤ c
  | [] => by
    intro c hc
    cases hc
  | [(k, v)] => by
    intro c hc
    rw [compactMembers] at hc
    simp only [List.mem_append, List.mem_singleton, List.mem_cons, List.not_mem_nil,
      or_false] at hc
    rcases hc with ((rfl | rfl) | rfl) | h
    · decide
    · decide
    · decide
    · exact compactText_ge v c h
  | (k, v) :: m :: rest => by
    intro c hc
    rw [compactMembers] at hc
    simp only [List.mem_append, List.mem_singleton, List.mem_cons, List.not_mem_nil,
      or_false] at hc
    rcases hc with ((((rfl | rfl) | rfl) | h) | rfl) | h
    · decide
    · decide
    · decide
    · exact compactText_ge v c h
    · decide
    · exact compactMembers_ge (m :: rest) c h
end

/-- C19. Compact mode adds no white space: with `pretty = false`, for every indent and
nesting level, the text written for a value is `compactText`: an array is `[`, the texts of
its elements separated by a single `,`, and `]`; an object is `\x7b`, its members separated by
a single `,`, and `\x7d`, each member being the quoted escaped key, a single `:` and the text
of the value. With the contents of the strings and keys left out, no character of that text
is a space, a tab or a newline. -/
theorem compact_no_whitespace (v : JsonValue) (indent level : Int) :
    JsonSerializer.serializeInternal v false indent level = some (compactText quoted v) ∧
    ∀ c ∈ compactText (fun _ => [34, 34]) v, c ≠ 32 ∧ c ≠ 9 ∧ c ≠ 10 := by
  refine ⟨serializeInternal_compact v indent level, fun c hc => ?_⟩
  have h : (34 : Nat) ≤ c := compactText_ge v c hc
  refine ⟨?_, ?_, ?_⟩ <;> (intro h0; rw [h0] at h; exact absurd h (by decide))

/-! ## The variant, number-free trees, and texts outside RFC 8259 -/

/-- C22. Exactly one variant: for every `JsonValue`, exactly one of the six predicates
`isNull`, `isBool`, `isNumber`, `isString`, `isArray`, `isObject` is true (each is a total
function to `bool`). -/
theorem exactly_one_variant (v : JsonValue) :
    List.count true [v.isNull, v.isBool, v.isNumber, v.isString, v.isArray, v.isObject] = 1 := by
  cases v <;> rfl

/-- C27. Round trip of number-free trees: for every value tree `v` without a `Number` node whose
objects are maps (keys in strictly ascending order, hence distinct), `serialize(v)` returns a
text and the explicit-result `parse` of it reports no error and returns exactly `v`. -/
theorem number_free_round_trip (v : JsonValue) (e0 : ParseError) (hw : v.wellFormed = true)
    (hn : v.numbers = []) : ∃ t, serialize v = some t ∧ parse t e0 = some (v, {}) := by
  obtain ⟨t, ht, hd⟩ := serializeInternal_doc v 2 0 hw (by rw [hn]; intro d hd; cases hd)
  exact ⟨t, ht, (parse_eq_some_iff t e0 v).2 hd⟩

theorem number_free_round_trip_witness :
    ∃ t, serialize (.object [(lit "a", .array [.null, .bool true]),
        (lit "b\n", .string [0, 34, 255])]) = some t ∧
      parse t {} = some (.object [(lit "a", .array [.null, .bool true]),
        (lit "b\n", .string [0, 34, 255])], {}) :=
  number_free_round_trip _ {} rfl rfl

theorem not_rfc_number_01 : ¬ Rfc8259.IsNumber [48, 49] := by
  rintro ⟨m, i, f, x, heq, hm, hi, hf, hx⟩
  rcases hm with rfl | rfl
  · rcases hi with rfl | ⟨c, ds, rfl, hc, _, _⟩
    · rcases hf with rfl | ⟨ds, rfl, _⟩
      · rcases hx with rfl | ⟨e, sg, ds, rfl, he, _, _⟩
        · simp at heq
        · simp at heq
          rcases he with rfl | rfl <;> simp at heq
      · simp at heq
    · simp only [List.nil_append, List.cons_append, List.cons.injEq] at heq
      obtain ⟨rfl, _⟩ := heq
      exact absurd hc (by decide)
  · simp at heq

theorem not_rfc_value_01 : ¬ Rfc8259.Value [48, 49] := by
  intro h
  generalize hx : ([48, 49] : List Byte) = x at h
  cases h with
  | litFalse => simp at hx
  | litNull => simp at hx
  | litTrue => simp at hx
  | number hn => subst hx; exact not_rfc_number_01 hn
  | string hs =>
    obtain ⟨body, rfl, _⟩ := hs
    simp at hx
  | arrayEmpty _ => simp at hx
  | array _ => simp at hx
  | objectEmpty _ => simp at hx
  | object _ => simp at hx

theorem not_rfc_text_01 : ¬ Rfc8259.JsonText [48, 49] := by
  rintro ⟨w1, v, w2, heq, hw1, hv, hw2⟩
  have h49 : (49 : Byte) ∉ w2 := fun h => by
    rcases hw2 49 h with h | h | h | h <;> exact absurd h (by decide)
  have h48 : (48 : Byte) ∉ w1 := fun h => by
    rcases hw1 48 h with h | h | h | h <;> exact absurd h (by decide)
  cases w1 with
  | cons c w1 =>
    simp only [List.cons_append, List.cons.injEq] at heq
    exact h48 (by rw [heq.1]; exact List.mem_cons_self _ _)
  | nil =>
    rw [List.nil_append] at heq
    rcases List.eq_nil_or_concat' w2 with rfl | ⟨w, c, rfl⟩
    · rw [List.append_nil] at heq
      subst heq
      exact not_rfc_value_01 hv
    · have hl : ([48, 49] : List Byte).getLast? = some c := by
        rw [heq, ← List.append_assoc, List.getLast?_append]
        simp
      simp at hl
      subst hl
      exact h49 (by simp)

/-- C21 as stated fails: the texts `01`, `1.` and `-.5` and a string holding the raw control
character U+0001 are accepted, as 1, 1, -0.5 and that string, and `01` is no RFC 8259 text. -/
theorem nonstandard_text_accepted :
    parse (lit "01") {} = some (JsonValue.ofInt 1, {}) ∧
    parse (lit "1.") {} = some (JsonValue.ofInt 1, {}) ∧
    parse (lit "-.5") {} = some (.number (.finite true (2 ^ 52) (-53)), {}) ∧
    parse [34, 1, 34] {} = some (.string [1], {}) ∧
    ¬ Rfc8259.JsonText (lit "01") :=
  ⟨rfl, rfl, rfl, rfl, not_rfc_text_01⟩

/-- C21, amended. Every text that `parse` accepts without error is a document of the language
`Doc` of this deserializer (the grammar of RFC 8259 with these relaxations: a number is any
token of sign, digits, point and exponent that `strtod` converts in full, a string may hold any
raw character but the quotation mark and the reverse solidus, and white space is that of
`std::isspace`), and the value returned is the value of that document. -/
theorem accepted_is_doc (t : List Byte) (v : JsonValue) (err e0 : ParseError)
    (h : parse t e0 = some (v, err)) (he : err.what = []) : Doc t v := by
  have hd := parse_ok_default h he
  subst hd
  exact (parse_eq_some_iff t e0 v).1 h

theorem accepted_is_doc_witness :
    parse (lit " [01, \"\t\"]") {} = some (.array [JsonValue.ofInt 1, .string [9]], {}) ∧
      Doc (lit " [01, \"\t\"]") (.array [JsonValue.ofInt 1, .string [9]]) :=
  ⟨rfl, accepted_is_doc _ _ {} {} rfl rfl⟩

/-- C24 fails on the code: in the text of a quotation mark, a reverse solidus and a newline the
error is reported at line 1, column 4, although a newline is among the three characters
consumed, after which the position is line 2, column 1: the escape branch of `parseString`
counts a column for the character after the reverse solidus and never looks for a newline. -/
theorem escape_newline_position :
    parse (lit "\"\\\n") {} = some (.null, ⟨lit "Invalid escape \\\n", ⟨1, 4⟩⟩) ∧
      positionAfter (lit "\"\\\n") = ⟨2, 1⟩ :=
  ⟨rfl, rfl⟩

/-- C29 fails on the code: the explicit-result build decodes each of the eight two-character
escapes, the fail-fast build decodes seven of them and rejects `\f`, for which its
`parseString` has no case. -/
theorem simple_escapes_decoded :
    [34, 92, 47, 98, 102, 110, 114, 116].map (fun e => parse [34, 92, e, 34] {}) =
      [34, 92, 47, 8, 12, 10, 13, 9].map (fun c => some (.string [c], {})) ∧
    [34, 92, 47, 98, 110, 114, 116].map (fun e => FailFast.deserialize [34, 92, e, 34]) =
      [34, 92, 47, 8, 10, 13, 9].map (fun c => some (.ok (.string [c]))) ∧
    FailFast.deserialize (lit "\"a\\fb\"") = some (.error ⟨lit "Invalid escape \\f", ⟨1, 4⟩⟩) ∧
    parse (lit "\"a\\fb\"") {} = some (.string [97, 12, 98], {}) := by
  refine ⟨?_, ?_, rfl, rfl⟩ <;> simp only [List.map_cons, List.map_nil] <;> rfl

/-- C25 as stated fails: for the input `-` the error "Invalid number format" is reported at
line 1, column 2, the position after the token, not column 1 where the token starts; the
fail-fast build reports the same position. -/
theorem minus_reported_after_token :
    parse (lit "-") {} = some (.null, ⟨lit "Invalid number format", ⟨1, 2⟩⟩) ∧
      FailFast.deserialize (lit "-") = some (.error ⟨lit "Invalid number format", ⟨1, 2⟩⟩) :=
  ⟨rfl, rfl⟩

theorem serialize_int_max :
    serialize (JsonValue.ofInt 2147483647) = some (lit "2.14748e+09") :=
  rfl

theorem parse_int_max_text :
    parse (lit "2.14748e+09") {} = some (JsonValue.ofInt 2147480000, {}) :=
  rfl

/-- C26 as stated fails: `JsonValue(2147483647)` is written with six significant digits, as
`2.14748e+09`, and that text is read back as the number 2147480000. -/
theorem int_max_loses_digits :
    serialize (JsonValue.ofInt 2147483647) = some (lit "2.14748e+09") ∧
    parse (lit "2.14748e+09") {} = some (JsonValue.ofInt 2147480000, {}) ∧
    JsonValue.ofInt 2147480000 ≠ JsonValue.ofInt 2147483647 :=
  ⟨serialize_int_max, parse_int_max_text,
    fun h => absurd (JsonValue.number.inj h) (by decide)⟩

/-- C23 as stated fails: with `pretty` set and the indent width -1, the string of
`(level + 1) * indent` spaces for the element of `[null]` has a negative length, whose
conversion to `size_t` makes the `std::string` constructor throw. -/
theorem negative_indent_throws : JsonSerializer.toString (.array [.null]) true (-1) = none :=
  rfl

/-! ## Where a number that does not convert is reported -/

theorem scanToken_append_scanRest (x : List Byte) : scanToken x ++ scanRest x = x := by
  have hat := (stateAfter_at [] x).scanNumber
  have hl := hat.length
  have hs : (scanNumber (stateAfter [] x)).1.string = x := by
    rw [scanNumber_string]
    rfl
  rw [hs] at hl
  have hd := hat.2
  rw [hs] at hd
  have hk : x.length - (scanRest x).length = (scanNumber (stateAfter [] x)).1.pos := by omega
  unfold scanToken
  rw [hk, ← hd]
  exact List.take_append_drop _ _

namespace JsonDeserializer

/-- The scan of `parseNumber` from a tracked state: the members afterwards and the token. -/
theorem scanNumber_stateAfter (p x : List Byte) :
    scanNumber (stateAfter p x) = (stateAfter (p ++ scanToken x) (scanRest x), scanToken x) := by
  have hf : (stateAfter p (scanToken x ++ scanRest x)).Follows (scanNumber (stateAfter p x)).1 := by
    rw [scanToken_append_scanRest]
    exact follows_scanNumber _
  have h1 := hf.arrives (stateAfter_at p x).scanNumber
  have h2 := scanNumber_token (stateAfter_at p x)
  exact Prod.ext h1 h2

theorem parseNumber_stateAfter (p x : List Byte) (e : ParseError) :
    parseNumber (stateAfter p x) e =
      if (strtod (scanToken x)).consumed ≠ (scanToken x).length then
        (.null, stateAfter (p ++ scanToken x) (scanRest x),
          ⟨lit "Invalid number format", positionAfter (p ++ scanToken x)⟩)
      else (.number (strtod (scanToken x)).value, stateAfter (p ++ scanToken x) (scanRest x), e) := by
  unfold parseNumber
  rw [scanNumber_stateAfter]
  rfl

theorem failFast_parseNumber_stateAfter (p x : List Byte) :
    FailFast.parseNumber (stateAfter p x) =
      if (strtod (scanToken x)).consumed = 0 ∨ (strtod (scanToken x)).erange = true then
        .error ⟨lit "Invalid number format", positionAfter (p ++ scanToken x)⟩
      else .ok (.number (strtod (scanToken x)).value,
        stateAfter (p ++ scanToken x) (scanRest x)) := by
  unfold FailFast.parseNumber
  rw [scanNumber_stateAfter]
  rfl

end JsonDeserializer

/-- C25, amended. Number errors are positioned after the number token: from a state that has
read `p` and has `x` left, `parseNumber` of either build, when it reports "Invalid number
format", reports it with the line and column of the character position that follows the last
character of the scanned token; and where a value is expected and `x` starts a number whose
token `strtod` does not convert in full, `parse` returns Null with that error at that
position. -/
theorem number_error_after_token (p x : List Byte) (e e0 : ParseError) (b : Bool) :
    (parseNumber (stateAfter p x) e =
      if (strtod (scanToken x)).consumed ≠ (scanToken x).length then
        (.null, stateAfter (p ++ scanToken x) (scanRest x),
          ⟨lit "Invalid number format", positionAfter (p ++ scanToken x)⟩)
      else (.number (strtod (scanToken x)).value, stateAfter (p ++ scanToken x) (scanRest x), e)) ∧
    (FailFast.parseNumber (stateAfter p x) =
      if (strtod (scanToken x)).consumed = 0 ∨ (strtod (scanToken x)).erange = true then
        .error ⟨lit "Invalid number format", positionAfter (p ++ scanToken x)⟩
      else .ok (.number (strtod (scanToken x)).value,
        stateAfter (p ++ scanToken x) (scanRest x))) ∧
    (ValueExpected p b → numberStart (x.headD 0) = true →
      (strtod (scanToken x)).consumed ≠ (scanToken x).length →
      parse (p ++ x) e0 =
        some (.null, ⟨lit "Invalid number format", positionAfter (p ++ scanToken x)⟩)) := by
  refine ⟨parseNumber_stateAfter p x e, failFast_parseNumber_stateAfter p x, ?_⟩
  intro hp hx hbad
  cases x with
  | nil => simp [numberStart, isdigit] at hx
  | cons c r =>
    have hc : numberStart c = true := hx
    have hn1 : c ≠ 110 := fun h => by subst h; simp [numberStart, isdigit] at hc
    have hn2 : ¬ (c = 116 ∨ c = 102) := fun h => by
      rcases h with h | h <;> subst h <;> simp [numberStart, isdigit] at hc
    have hn3 : c ≠ 34 := fun h => by subst h; simp [numberStart, isdigit] at hc
    have hn4 : c ≠ 91 := fun h => by subst h; simp [numberStart, isdigit] at hc
    have hn5 : c ≠ 123 := fun h => by subst h; simp [numberStart, isdigit] at hc
    have hn6 : c ≠ 93 := fun h => by subst h; simp [numberStart, isdigit] at hc
    refine hp.errorReported (c :: r) 1 .null
      (stateAfter (p ++ scanToken (c :: r)) (scanRest (c :: r)))
      ⟨lit "Invalid number format", positionAfter (p ++ scanToken (c :: r))⟩ e0
      (numberStart_not_space hc) (fun _ => hn6) ?_ (by simp [lit])
    rw [parseJsonValue_dispatch 0 {} (stateAfter_at p (c :: r)), if_neg hn1, if_neg hn2,
      if_neg hn3, if_neg hn4, if_neg hn5, if_pos hc, parseNumber_stateAfter, if_pos hbad]

theorem number_error_after_token_witness :
    ValueExpected (lit "[1, ") false ∧ numberStart ((lit "2e]").headD 0) = true ∧
    (strtod (scanToken (lit "2e]"))).consumed ≠ (scanToken (lit "2e]")).length ∧
    parse (lit "[1, " ++ lit "2e]") {} = some (.null, ⟨lit "Invalid number format", ⟨1, 7⟩⟩) :=
  have hp : ValueExpected (lit "[1, ") false :=
    @ValueExpected.element [] (lit "1,") [32] false (ValueExpected.top AllSpace.nil)
      (@ArrayItems.cons (lit "1") [] (JsonValue.ofInt 1)
        ((parse_eq_some_iff (lit "1") {} _).1 rfl) ArrayItems.nil)
      (AllSpace.nil.cons (by decide))
  ⟨hp, rfl, by decide,
    (number_error_after_token (lit "[1, ") (lit "2e]") {} {} false).2.2 hp rfl (by decide)⟩

/-! ## Escapes that are no escapes -/

theorem simpleEscape_eq_none {e : Nat} (h : Rfc8259.isEscapeLetter e = false) :
    simpleEscape e = none := by
  simp only [Rfc8259.isEscapeLetter, decide_eq_false_iff_not, not_or] at h
  obtain ⟨h1, h2, h3, h4, h5, h6, h7, h8⟩ := h
  unfold simpleEscape
  rw [if_neg h1, if_neg h2, if_neg h3, if_neg h4, if_neg h5, if_neg h6, if_neg h7, if_neg h8]

theorem hexDigit_eq_none {c : Nat} (h : Rfc8259.isHexDigit c = false) :
    JsonDeserializer.hexDigit c = none := by
  cases hd : JsonDeserializer.hexDigit c with
  | none => rfl
  | some x =>
    have : Rfc8259.isHexDigit c = true := by
      rw [isHexDigit_iff]
      unfold JsonDeserializer.hexDigit at hd
      split_ifs at hd with h1 h2 h3
      · exact Or.inl h1
      · exact Or.inr (Or.inr h2)
      · exact Or.inr (Or.inl h3)
    rw [this] at h
    cases h

theorem hexCode_eq_none : ∀ (cs : List Byte) (code : Nat),
    (∃ c ∈ cs, Rfc8259.isHexDigit c = false) → hexCode cs code = none
  | [], _, h => by obtain ⟨c, hc, _⟩ := h; cases hc
  | ch :: cs, code, h => by
    rw [hexCode]
    cases hd : JsonDeserializer.hexDigit ch with
    | none => rfl
    | some x =>
      simp only []
      apply hexCode_eq_none cs
      obtain ⟨c, hc, hx⟩ := h
      rcases List.mem_cons.1 hc with rfl | hc
      · rw [hexDigit_eq_none hx] at hd
        cases hd
      · exact ⟨c, hc, hx⟩

namespace JsonDeserializer

/-- The loop of `parseString(err_out)` over the text of a string body that something
follows. -/
theorem parseStringLoop_prefix {t s : List Byte} (hb : StrBody t s) :
    ∀ (fuel : Nat) (d : JsonDeserializer) (out : List Byte) (e : ParseError) (y : List Byte),
      d.At (t ++ y) → t.length + 1 ≤ fuel →
      ∃ d1 n, parseStringLoop fuel d out e = parseStringLoop (n + 1) d1 (out ++ s) e ∧
        d1.At y := by
  induction hb with
  | nil =>
    intro fuel d out e y h hf
    obtain ⟨n, rfl⟩ : ∃ n, fuel = n + 1 := ⟨fuel - 1, by simp at hf; omega⟩
    exact ⟨d, n, by simp, h⟩
  | @plain c t s h1 h2 _ ih =>
    intro fuel d out e y h hf
    obtain ⟨n, rfl⟩ : ∃ n, fuel = n + 1 := ⟨fuel - 1, by simp at hf; omega⟩
    have hc : d.cur = c := by simpa using h.cur
    rw [parseStringLoop_succ, if_neg (by simp; exact h.pos_lt), hc, if_neg h1, if_neg h2]
    have hn : (if c = 10 then { d.next with posinfo := ⟨d.next.posinfo.line + 1, 1⟩ }
        else d.next).At (t ++ y) := by
      split
      · exact h.step _
      · exact At.next h
    obtain ⟨d1, m, h3, h4⟩ := ih n _ (out ++ [c]) e y hn (by simp at hf; omega)
    exact ⟨d1, m, by rw [h3]; simp, h4⟩
  | @esc x z t s hx _ ih =>
    intro fuel d out e y h hf
    obtain ⟨n, rfl⟩ : ∃ n, fuel = n + 1 := ⟨fuel - 1, by simp at hf; omega⟩
    have hc : d.cur = 92 := by simpa using h.cur
    have h1 : d.next.At (x :: (t ++ y)) := At.next h
    have hc1 : d.next.cur = x := by simpa using h1.cur
    have h2 : d.next.next.At (t ++ y) := At.next h1
    rw [parseStringLoop_succ, if_neg (by simp; exact h.pos_lt), hc, if_neg (by decide),
      if_pos rfl, if_neg (by have := h1.pos_lt; omega), hc1, hx, Option.elim_some]
    obtain ⟨d1, m, h3, h4⟩ := ih n _ (out ++ [z]) e y h2 (by simp at hf; omega)
    exact ⟨d1, m, by rw [h3]; simp, h4⟩
  | @uni a b c x code t s hx _ ih =>
    intro fuel d out e y h hf
    obtain ⟨n, rfl⟩ : ∃ n, fuel = n + 1 := ⟨fuel - 1, by simp at hf; omega⟩
    have hc : d.cur = 92 := by simpa using h.cur
    have h1 : d.next.At (117 :: a :: b :: c :: x :: (t ++ y)) := At.next h
    have hc1 : d.next.cur = 117 := by simpa using h1.cur
    have h2 : d.next.next.At ([a, b, c, x] ++ (t ++ y)) := At.next h1
    have hlen := h2.length
    obtain ⟨k1, k2, k3⟩ := hexLoop_at [a, b, c, x] d.next.next 0 _ h2
    rw [hx] at k1
    have k3 := k3 (by rw [hx]; simp)
    rw [parseStringLoop_succ, if_neg (by simp; exact h.pos_lt), hc, if_neg (by decide),
      if_pos rfl, if_neg (by have := h1.pos_lt; omega), hc1]
    have hse : simpleEscape 117 = none := by decide
    rw [hse, Option.elim_none, if_pos rfl, if_neg (by simp at hlen; omega)]
    obtain ⟨d1, m, h3, h4⟩ := ih n (hexLoop 4 d.next.next 0).2 (out ++ utf8Encode code) e y k3
      (by simp at hf; omega)
    have hpair : hexLoop 4 d.next.next 0 = (some code, (hexLoop 4 d.next.next 0).2) := by
      rw [← k1]
      rfl
    rw [hpair]
    simp only []
    exact ⟨d1, m, by rw [h3]; simp, h4⟩

/-- A reverse solidus before a character that is no escape letter and not `u`. -/
theorem parseStringLoop_unknown_escape (n : Nat) (d : JsonDeserializer) (out : List Byte)
    (e : ParseError) (x : Byte) (rest : List Byte) (hat : d.At (92 :: x :: rest))
    (hx : Rfc8259.isEscapeLetter x = false) (hu : x ≠ 117) :
    parseStringLoop (n + 1) d out e =
      (.null, d.next.next, ⟨lit "Invalid escape \\" ++ [x], d.next.next.posinfo⟩) := by
  have hc : d.cur = 92 := by simpa using hat.cur
  have h1 : d.next.At (x :: rest) := At.next hat
  have hc1 : d.next.cur = x := by simpa using h1.cur
  rw [parseStringLoop_succ, if_neg (by simp; exact hat.pos_lt), hc, if_neg (by decide),
    if_pos rfl, if_neg (by have := h1.pos_lt; omega), hc1, simpleEscape_eq_none hx,
    Option.elim_none, if_neg hu]

/-- A reverse solidus at the end of input. -/
theorem parseStringLoop_escape_at_end (n : Nat) (d : JsonDeserializer) (out : List Byte)
    (e : ParseError) (hat : d.At [92]) :
    parseStringLoop (n + 1) d out e =
      (.null, d.next, ⟨lit "Invalid escape", d.next.posinfo⟩) := by
  have hc : d.cur = 92 := by simpa using hat.cur
  have h1 : d.next.At [] := At.next hat
  rw [parseStringLoop_succ, if_neg (by simp; exact hat.pos_lt), hc, if_neg (by decide),
    if_pos rfl, if_pos (by have := h1.pos_eq; omega)]

/-- The escape `\u` before fewer than four characters. -/
theorem parseStringLoop_short_unicode (n : Nat) (d : JsonDeserializer) (out : List Byte)
    (e : ParseError) (rest : List Byte) (hat : d.At (92 :: 117 :: rest))
    (hr : rest.length < 4) :
    parseStringLoop (n + 1) d out e =
      (.null, d.next.next, ⟨lit "Invalid \\u escape", d.next.next.posinfo⟩) := by
  have hc : d.cur = 92 := by simpa using hat.cur
  have h1 : d.next.At (117 :: rest) := At.next hat
  have hc1 : d.next.cur = 117 := by simpa using h1.cur
  have h2 : d.next.next.At rest := At.next h1
  have hlen := h2.length
  have hse : simpleEscape 117 = none := by decide
  rw [parseStringLoop_succ, if_neg (by simp; exact hat.pos_lt), hc, if_neg (by decide),
    if_pos rfl, if_neg (by have := h1.pos_lt; omega), hc1, hse, Option.elim_none, if_pos rfl,
    if_pos (by omega)]

/-- The escape `\u` before four characters of which one is no hexadecimal digit. -/
theorem parseStringLoop_bad_hex (n : Nat) (d : JsonDeserializer) (out : List Byte)
    (e : ParseError) (hs rest : List Byte) (hat : d.At (92 :: 117 :: (hs ++ rest)))
    (hl : hs.length = 4) (hbad : ∃ c ∈ hs, Rfc8259.isHexDigit c = false) :
    ∃ d1, parseStringLoop (n + 1) d out e =
      (.null, d1, ⟨lit "Invalid hex in \\u escape", d1.posinfo⟩) := by
  have hc : d.cur = 92 := by simpa using hat.cur
  have h1 : d.next.At (117 :: (hs ++ rest)) := At.next hat
  have hc1 : d.next.cur = 117 := by simpa using h1.cur
  have h2 : d.next.next.At (hs ++ rest) := At.next h1
  have hlen := h2.length
  have hse : simpleEscape 117 = none := by decide
  obtain ⟨k1, _, _⟩ := hexLoop_at hs d.next.next 0 _ h2
  rw [hl, hexCode_eq_none hs 0 hbad] at k1
  rw [parseStringLoop_succ, if_neg (by simp; exact hat.pos_lt), hc, if_neg (by decide),
    if_pos rfl, if_neg (by have := h1.pos_lt; omega), hc1, hse, Option.elim_none, if_pos rfl,
    if_neg (by simp at hlen; omega)]
  have hpair : hexLoop 4 d.next.next 0 = (none, (hexLoop 4 d.next.next 0).2) := by
    rw [← k1]
  rw [hpair]
  exact ⟨_, rfl⟩

/-- An error of the loop of `parseString(err_out)` after the text of a string body is the
outcome of `parseString(err_out)`. -/
theorem parseString_error_after_body (p : List Byte) {t s : List Byte} (y : List Byte)
    (e : ParseError) (msg : List Byte) (hb : StrBody t s)
    (h : ∀ (n : Nat) (d : JsonDeserializer) (out : List Byte), d.At y →
      ∃ d1, parseStringLoop (n + 1) d out e = (.null, d1, ⟨msg, d1.posinfo⟩)) :
    ∃ d1 pos, parseString (stateAfter p (34 :: (t ++ y))) e = (.null, d1, ⟨msg, pos⟩) := by
  rw [parseString_eq, if_pos (peek_stateAfter_cons _ _ _), advance_stateAfter]
  obtain ⟨d1, n, h1, h2⟩ := parseStringLoop_prefix hb
    (stateAfter (p ++ [34]) (t ++ y)).string.length _ [] e y (stateAfter_at _ _) (by
      simp [stateAfter]
      omega)
  obtain ⟨d2, h3⟩ := h n d1 ([] ++ s) h2
  exact ⟨d2, _, by rw [h1, h3]⟩

end JsonDeserializer

/-- An error of `parseString(err_out)` where a value or the key of a member is expected is
the outcome of `parse`. -/
theorem string_error_reported (p x : List Byte) (b : Bool) (e0 : ParseError)
    (d1 : JsonDeserializer) (msg : List Byte) (pos : ErrorPos)
    (hp : ValueExpected p b ∨ KeyExpected p b)
    (hs : parseString (stateAfter p (34 :: x)) {} = (.null, d1, ⟨msg, pos⟩)) (hm : msg ≠ []) :
    parse (p ++ 34 :: x) e0 = some (.null, ⟨msg, pos⟩) := by
  rcases hp with hp | hp
  · refine hp.errorReported (34 :: x) 1 .null d1 _ e0 (by rfl) (fun _ => by simp) ?_ hm
    rw [parseJsonValue_dispatch 0 {} (stateAfter_at p (34 :: x)), if_neg (by decide),
      if_neg (by decide), if_pos rfl, hs]
  · refine hp.keyErrorReported (34 :: x) d1 _ e0 (by rfl) (fun _ => by simp) (fun acc => ⟨1, ?_⟩)
      hm
    have hs2 : parseString (stateAfter p (34 :: x)).skipWhitespace {} =
        (.null, d1, ⟨msg, pos⟩) := by
      rw [skipWhitespace_stateAfter_self _ (by rfl)]
      exact hs
    rw [parseObjectLoop_succ _ _ _ _ hs2, skipWhitespace_stateAfter_self _ (by rfl),
      if_neg (by rw [peek_stateAfter_cons]; simp), if_pos hm]

/-- C30. Invalid escapes are errors: where a value or the key of a member is expected, for
every text of a double quote and a string body `t` followed by (1) a backslash and a character
other than `"`, `\`, `/`, `b`, `f`, `n`, `r`, `t`, `u`, (2) a backslash at the end of input,
(3) `\u` and fewer than four characters, or (4) `\u` and four characters of which one is no
hexadecimal digit, `parse` returns Null with the error "Invalid escape \e" for that character
`e`, "Invalid escape", "Invalid \u escape" or "Invalid hex in \u escape" respectively. -/
theorem invalid_escape_rejected (p t s : List Byte) (b : Bool) (e0 : ParseError)
    (hp : ValueExpected p b ∨ KeyExpected p b) (ht : StrBody t s) :
    (∀ (x : Byte) (rest : List Byte), Rfc8259.isEscapeLetter x = false → x ≠ 117 →
      ∃ pos, parse (p ++ 34 :: (t ++ 92 :: x :: rest)) e0 =
        some (.null, ⟨lit "Invalid escape \\" ++ [x], pos⟩)) ∧
    (∃ pos, parse (p ++ 34 :: (t ++ [92])) e0 = some (.null, ⟨lit "Invalid escape", pos⟩)) ∧
    (∀ rest : List Byte, rest.length < 4 →
      ∃ pos, parse (p ++ 34 :: (t ++ 92 :: 117 :: rest)) e0 =
        some (.null, ⟨lit "Invalid \\u escape", pos⟩)) ∧
    (∀ hs rest : List Byte, hs.length = 4 → (∃ c ∈ hs, Rfc8259.isHexDigit c = false) →
      ∃ pos, parse (p ++ 34 :: (t ++ 92 :: 117 :: (hs ++ rest))) e0 =
        some (.null, ⟨lit "Invalid hex in \\u escape", pos⟩)) := by
  refine ⟨fun x rest hx hu => ?_, ?_, fun rest hr => ?_, fun hs rest hl hbad => ?_⟩
  · obtain ⟨d1, pos, h⟩ := parseString_error_after_body p (92 :: x :: rest) {}
      (lit "Invalid escape \\" ++ [x]) ht
      (fun n d out hat => ⟨_, parseStringLoop_unknown_escape n d out {} x rest hat hx hu⟩)
    exact ⟨pos, string_error_reported p _ b e0 d1 _ pos hp h (by simp [lit])⟩
  · obtain ⟨d1, pos, h⟩ := parseString_error_after_body p [92] {} (lit "Invalid escape") ht
      (fun n d out hat => ⟨_, parseStringLoop_escape_at_end n d out {} hat⟩)
    exact ⟨pos, string_error_reported p _ b e0 d1 _ pos hp h (by simp [lit])⟩
  · obtain ⟨d1, pos, h⟩ := parseString_error_after_body p (92 :: 117 :: rest) {}
      (lit "Invalid \\u escape") ht
      (fun n d out hat => ⟨_, parseStringLoop_short_unicode n d out {} rest hat hr⟩)
    exact ⟨pos, string_error_reported p _ b e0 d1 _ pos hp h (by simp [lit])⟩
  · obtain ⟨d1, pos, h⟩ := parseString_error_after_body p (92 :: 117 :: (hs ++ rest)) {}
      (lit "Invalid hex in \\u escape") ht
      (fun n d out hat => parseStringLoop_bad_hex n d out {} hs rest hat hl hbad)
    exact ⟨pos, string_error_reported p _ b e0 d1 _ pos hp h (by simp [lit])⟩

theorem invalid_escape_rejected_witness :
    (ValueExpected (lit "[") true ∨ KeyExpected (lit "[") true) ∧
    StrBody (lit "a\\n") [97, 10] ∧
    parse (lit "[\"a\\n\\q\"]") {} = some (.null, ⟨lit "Invalid escape \\q", ⟨1, 8⟩⟩) ∧
    parse (lit "[\"a\\n\\") {} = some (.null, ⟨lit "Invalid escape", ⟨1, 7⟩⟩) ∧
    parse (lit "[\"a\\n\\u12\"") {} = some (.null, ⟨lit "Invalid \\u escape", ⟨1, 8⟩⟩) ∧
    parse (lit "[\"a\\n\\u12G4\"]") {} =
      some (.null, ⟨lit "Invalid hex in \\u escape", ⟨1, 11⟩⟩) ∧
    ((∀ (x : Byte) (rest : List Byte), Rfc8259.isEscapeLetter x = false → x ≠ 117 →
      ∃ pos, parse (lit "[" ++ 34 :: (lit "a\\n" ++ 92 :: x :: rest)) {} =
        some (.null, ⟨lit "Invalid escape \\" ++ [x], pos⟩)) ∧
    (∃ pos, parse (lit "[" ++ 34 :: (lit "a\\n" ++ [92])) {} =
      some (.null, ⟨lit "Invalid escape", pos⟩)) ∧
    (∀ rest : List Byte, rest.length < 4 →
      ∃ pos, parse (lit "[" ++ 34 :: (lit "a\\n" ++ 92 :: 117 :: rest)) {} =
        some (.null, ⟨lit "Invalid \\u escape", pos⟩)) ∧
    (∀ hs rest : List Byte, hs.length = 4 → (∃ c ∈ hs, Rfc8259.isHexDigit c = false) →
      ∃ pos, parse (lit "[" ++ 34 :: (lit "a\\n" ++ 92 :: 117 :: (hs ++ rest))) {} =
        some (.null, ⟨lit "Invalid hex in \\u escape", pos⟩))) :=
  have hp : ValueExpected (lit "[") true :=
    @ValueExpected.element [] [] [] false (ValueExpected.top AllSpace.nil) ArrayItems.nil
      AllSpace.nil
  have hb : StrBody (lit "a\\n") [97, 10] :=
    StrBody.plain (by decide) (by decide) (StrBody.esc (by rfl) StrBody.nil)
  ⟨Or.inl hp, hb, rfl, rfl, rfl, rfl,
    invalid_escape_rejected (lit "[") (lit "a\\n") [97, 10] true {} (Or.inl hp) hb⟩

/-! ## `\u` escapes -/

theorem hexDigit_eq_hexValue {c : Nat} (h : Rfc8259.isHexDigit c = true) :
    JsonDeserializer.hexDigit c = some (Spec.hexValue c) ∧ Spec.hexValue c < 16 := by
  rw [isHexDigit_iff] at h
  rw [hexDigit_eq]
  unfold Spec.hexValue
  rcases h with h | h | h
  · rw [if_pos h, if_pos h.2]
    exact ⟨rfl, by omega⟩
  · rw [if_neg (by omega), if_neg (by omega), if_pos h, if_neg (by omega), if_pos h.2]
    exact ⟨by congr 1; omega, by omega⟩
  · rw [if_neg (by omega), if_pos h, if_neg (by omega), if_neg (by omega)]
    exact ⟨by congr 1; omega, by omega⟩

theorem hexCode_eq_codePoint {a b c d : Nat} (ha : Rfc8259.isHexDigit a = true)
    (hb : Rfc8259.isHexDigit b = true) (hc : Rfc8259.isHexDigit c = true)
    (hd : Rfc8259.isHexDigit d = true) :
    hexCode [a, b, c, d] 0 = some (Spec.codePoint a b c d) ∧ Spec.codePoint a b c d < 65536 := by
  obtain ⟨ea, la⟩ := hexDigit_eq_hexValue ha
  obtain ⟨eb, lb⟩ := hexDigit_eq_hexValue hb
  obtain ⟨ec, lc⟩ := hexDigit_eq_hexValue hc
  obtain ⟨ed, ld⟩ := hexDigit_eq_hexValue hd
  unfold Spec.codePoint
  refine ⟨?_, by omega⟩
  simp only [hexCode, ea, eb, ec, ed, Nat.shiftLeft_eq]
  congr 1
  omega

theorem utf8Encode_eq_utf8 {code : Nat} (h : code < 65536) :
    JsonDeserializer.utf8Encode code = Spec.utf8 code := by
  have m6 : ∀ x : Nat, x &&& 0x3F = x % 64 := fun x => Nat.and_pow_two_sub_one_eq_mod x 6
  have m5 : ∀ x : Nat, x &&& 0x1F = x % 32 := fun x => Nat.and_pow_two_sub_one_eq_mod x 5
  have m4 : ∀ x : Nat, x &&& 0x0F = x % 16 := fun x => Nat.and_pow_two_sub_one_eq_mod x 4
  have lt8 : ∀ x y : Nat, x < 256 → y < 256 → (x ||| y) % 256 = x ||| y := fun x y hx hy =>
    Nat.mod_eq_of_lt (@Nat.or_lt_two_pow x y 8 hx hy)
  unfold JsonDeserializer.utf8Encode Spec.utf8
  by_cases h1 : code ≤ 0x7F
  · rw [if_pos h1, if_pos h1, Nat.mod_eq_of_lt (by omega)]
  · rw [if_neg h1, if_neg h1]
    by_cases h2 : code ≤ 0x7FF
    · rw [if_pos h2, if_pos h2, m5, m6, Nat.shiftRight_eq_div_pow,
        Nat.mod_eq_of_lt (by omega : code / 2 ^ 6 < 32),
        lt8 _ _ (by omega) (by omega), lt8 _ _ (by omega) (by omega)]
    · rw [if_neg h2, if_neg h2, m4, m6, m6, Nat.shiftRight_eq_div_pow, Nat.shiftRight_eq_div_pow,
        Nat.mod_eq_of_lt (by omega : code / 2 ^ 12 < 16),
        lt8 _ _ (by omega) (by omega), lt8 _ _ (by omega) (by omega),
        lt8 _ _ (by omega) (by omega)]

namespace JsonDeserializer

/-- One iteration of the loop of `parseString(err_out)` at an escape `\uXXXX`. -/
theorem parseStringLoop_unicode (n : Nat) (d : JsonDeserializer) (out : List Byte)
    (e : ParseError) {a b c x : Byte} {code : Nat} (r : List Byte)
    (hat : d.At (92 :: 117 :: a :: b :: c :: x :: r))
    (hx : hexCode [a, b, c, x] 0 = some code) :
    ∃ d6, parseStringLoop (n + 1) d out e = parseStringLoop n d6 (out ++ utf8Encode code) e ∧
      d6.At r ∧ d6.string = d.string := by
  have hc : d.cur = 92 := by simpa using hat.cur
  have h1 : d.next.At (117 :: a :: b :: c :: x :: r) := At.next hat
  have hc1 : d.next.cur = 117 := by simpa using h1.cur
  have h2 : d.next.next.At ([a, b, c, x] ++ r) := At.next h1
  have hlen := h2.length
  obtain ⟨k1, k2, k3⟩ := hexLoop_at [a, b, c, x] d.next.next 0 _ h2
  rw [hx] at k1
  have k3 := k3 (by rw [hx]; simp)
  rw [parseStringLoop_succ, if_neg (by simp; exact hat.pos_lt), hc, if_neg (by decide),
    if_pos rfl, if_neg (by have := h1.pos_lt; omega), hc1]
  have hse : simpleEscape 117 = none := by decide
  rw [hse, Option.elim_none, if_pos rfl, if_neg (by simp at hlen; omega)]
  have hpair : hexLoop 4 d.next.next 0 = (some code, (hexLoop 4 d.next.next 0).2) := by
    rw [← k1]
    rfl
  rw [hpair]
  exact ⟨_, rfl, k3, k2⟩

/-- One iteration of the loop of the fail-fast `parseString()` at an escape `\uXXXX`. -/
theorem failFast_parseStringLoop_unicode (n : Nat) (d : JsonDeserializer) (out : List Byte)
    {a b c x : Byte} {code : Nat} (r : List Byte)
    (hat : d.At (92 :: 117 :: a :: b :: c :: x :: r))
    (hx : hexCode [a, b, c, x] 0 = some code) :
    ∃ d6, FailFast.parseStringLoop (n + 1) d out =
        FailFast.parseStringLoop n d6 (out ++ utf8Encode code) ∧
      d6.At r ∧ d6.string = d.string := by
  have hc : d.cur = 92 := by simpa using hat.cur
  have h1 : JsonDeserializer.At { d with pos := d.pos + 1 } (117 :: a :: b :: c :: x :: r) :=
    hat.step _
  have hc1 : JsonDeserializer.cur { d with pos := d.pos + 1 } = 117 := by simpa using h1.cur
  have h2 : (JsonDeserializer.next { d with pos := d.pos + 1 }).At ([a, b, c, x] ++ r) :=
    At.next h1
  have hlen := h2.length
  obtain ⟨k1, k2, k3⟩ := hexLoop_at [a, b, c, x] _ 0 _ h2
  rw [hx] at k1
  have k3 := k3 (by rw [hx]; simp)
  have hpair : hexLoop 4 (JsonDeserializer.next { d with pos := d.pos + 1 }) 0 =
      (some code, (hexLoop 4 (JsonDeserializer.next { d with pos := d.pos + 1 }) 0).2) := by
    rw [← k1]
    rfl
  have hlt := hat.pos_lt
  have hlt1 := h1.pos_lt
  refine ⟨(hexLoop 4 (JsonDeserializer.next { d with pos := d.pos + 1 }) 0).2, ?_, k3, k2⟩
  rw [FailFast.parseStringLoop]
  simp only [hc, hc1]
  rw [if_neg (not_not.2 hlt), if_neg (by decide), if_pos trivial,
    if_neg (by simp at hlt1 ⊢; omega), if_neg (by decide), if_neg (by decide),
    if_neg (by decide), if_neg (by decide), if_neg (by decide), if_neg (by decide),
    if_neg (by decide), if_pos trivial,
    if_neg (by simp [JsonDeserializer.next] at hlen ⊢; omega), hpair]

end JsonDeserializer

theorem StrBody.joinBodies {t1 s1 t2 s2 : List Byte} (h1 : StrBody t1 s1) (h2 : StrBody t2 s2) :
    StrBody (t1 ++ t2) (s1 ++ s2) := by
  induction h1 with
  | nil => exact h2
  | plain ha hb _ ih => exact StrBody.plain ha hb ih
  | esc hx _ ih => exact StrBody.esc hx ih
  | uni hx _ ih =>
    rw [List.append_assoc]
    exact StrBody.uni hx ih

/-- C28. `\u` escapes decode to UTF-8: at an escape `\uXXXX` with four hexadecimal digits,
upper or lower case, denoting the code point `c`, one iteration of the loop of `parseString`,
in the explicit-result build and in the fail-fast build alike, appends to the decoded string
the UTF-8 encoding of `c` in one, two or three bytes as the specification gives it, and
continues six characters further in the source; and the explicit-result `parse` of a string
text with such an escape between two string bodies returns the string with those bytes
between the decoded bodies. -/
theorem unicode_escape_decoded (a b c x : Byte) (r out : List Byte) (d : JsonDeserializer)
    (n : Nat) (e : ParseError) (ha : Rfc8259.isHexDigit a = true)
    (hb : Rfc8259.isHexDigit b = true) (hc : Rfc8259.isHexDigit c = true)
    (hx : Rfc8259.isHexDigit x = true) (hat : d.At (92 :: 117 :: a :: b :: c :: x :: r)) :
    (∃ d6, parseStringLoop (n + 1) d out e =
        parseStringLoop n d6 (out ++ Spec.utf8 (Spec.codePoint a b c x)) e ∧
      d6.At r ∧ d6.string = d.string ∧ d6.pos = d.pos + 6) ∧
    (∃ d6, FailFast.parseStringLoop (n + 1) d out =
        FailFast.parseStringLoop n d6 (out ++ Spec.utf8 (Spec.codePoint a b c x)) ∧
      d6.At r ∧ d6.string = d.string ∧ d6.pos = d.pos + 6) ∧
    (∀ (t1 s1 t2 s2 : List Byte) (e0 : ParseError), StrBody t1 s1 → StrBody t2 s2 →
      parse (34 :: (t1 ++ 92 :: 117 :: a :: b :: c :: x :: t2) ++ [34]) e0 =
        some (.string (s1 ++ Spec.utf8 (Spec.codePoint a b c x) ++ s2), {})) := by
  obtain ⟨hcode, hlt⟩ := hexCode_eq_codePoint ha hb hc hx
  have hl := hat.length
  refine ⟨?_, ?_, ?_⟩
  · obtain ⟨d6, h1, h2, h3⟩ := parseStringLoop_unicode n d out e r hat hcode
    rw [utf8Encode_eq_utf8 hlt] at h1
    refine ⟨d6, h1, h2, h3, ?_⟩
    have := h2.length
    rw [h3] at this
    simp only [List.length_cons] at hl
    omega
  · obtain ⟨d6, h1, h2, h3⟩ := failFast_parseStringLoop_unicode n d out r hat hcode
    rw [utf8Encode_eq_utf8 hlt] at h1
    refine ⟨d6, h1, h2, h3, ?_⟩
    have := h2.length
    rw [h3] at this
    simp only [List.length_cons] at hl
    omega
  · intro t1 s1 t2 s2 e0 h1 h2
    have hb : StrBody (t1 ++ 92 :: 117 :: a :: b :: c :: x :: t2)
        (s1 ++ (utf8Encode (Spec.codePoint a b c x) ++ s2)) :=
      h1.joinBodies (StrBody.uni hcode h2)
    rw [utf8Encode_eq_utf8 hlt, ← List.append_assoc] at hb
    exact (parse_eq_some_iff _ e0 _).2 (Doc.ofVal (by simpa using Val.string [] hb))

theorem unicode_escape_decoded_witness :
    Spec.utf8 (Spec.codePoint 50 48 65 99) = [226, 130, 172] ∧
    parse (lit "\"a\\u20Acb\"") {} = some (.string [97, 226, 130, 172, 98], {}) ∧
    FailFast.deserialize (lit "\"a\\u20Acb\"") = some (.ok (.string [97, 226, 130, 172, 98])) ∧
    (∃ d6, parseStringLoop (8 + 1) (stateAfter (lit "\"a") (lit "\\u20Acb\"")) [97] {} =
        parseStringLoop 8 d6 ([97] ++ Spec.utf8 (Spec.codePoint 50 48 65 99)) {} ∧
      d6.At (lit "b\"") ∧ d6.string = (stateAfter (lit "\"a") (lit "\\u20Acb\"")).string ∧
      d6.pos = (stateAfter (lit "\"a") (lit "\\u20Acb\"")).pos + 6) :=
  ⟨by decide, rfl, rfl,
    (unicode_escape_decoded 50 48 65 99 (lit "b\"") [97]
      (stateAfter (lit "\"a") (lit "\\u20Acb\"")) 8 {} rfl rfl rfl rfl
      (stateAfter_at _ _)).1⟩

/-! ## Serialization returns a text -/

theorem spaces_isSome {n : Int} (h0 : 0 ≤ n) (h1 : n ≤ 2147483647) :
    ∃ sp, JsonSerializer.spaces n = some sp := by
  unfold JsonSerializer.spaces
  rw [if_neg (by omega)]
  exact ⟨_, rfl⟩

theorem indentation_isSome {pretty : Bool} {indent : Int} {k m : Nat}
    (h : pretty = true → 0 ≤ indent ∧ (m : Int) * indent ≤ 2147483647) (hk : k ≤ m) :
    ∃ sp, (if pretty = true then JsonSerializer.spaces ((k : Int) * indent) else some []) =
      some sp := by
  cases pretty with
  | false => exact ⟨_, rfl⟩
  | true =>
    obtain ⟨h0, h1⟩ := h rfl
    rw [if_pos rfl]
    have hkm : (k : Int) * indent ≤ (m : Int) * indent :=
      Int.mul_le_mul_of_nonneg_right (by exact_mod_cast hk) h0
    exact spaces_isSome (Int.mul_nonneg (by positivity) h0) (le_trans hkm h1)

mutual
/-- From level `l` on, `serializeInternal` returns a text when, with `pretty` set, the indent
width is not negative and the widest indentation fits an `int`. -/
theorem serializeInternal_isSome : (v : JsonValue) → (pretty : Bool) → (indent : Int) →
    (l : Nat) → (pretty = true → 0 ≤ indent ∧ ((l + v.depth : Nat) : Int) * indent ≤ 2147483647) →
    ∃ t, JsonSerializer.serializeInternal v pretty indent l = some t
  | .null, _, _, _, _ => ⟨_, rfl⟩
  | .bool _, _, _, _, _ => ⟨_, rfl⟩
  | .number _, _, _, _, _ => ⟨_, rfl⟩
  | .string _, _, _, _, _ => ⟨_, rfl⟩
  | .array a, pretty, indent, l, h => by
    rw [JsonSerializer.serializeInternal]
    cases a with
    | nil =>
      rw [JsonSerializer.serializeElements]
      simp
    | cons v rest =>
      have hd : (JsonValue.array (v :: rest)).depth = depthOfElements (v :: rest) + 1 := by
        rw [JsonValue.depth]
        rfl
      rw [hd] at h
      obtain ⟨body, hb⟩ := serializeElements_isSome (v :: rest) pretty indent l
        (fun hp => by
          have := h hp
          exact ⟨this.1, by rw [show l + 1 + depthOfElements (v :: rest) =
            l + (depthOfElements (v :: rest) + 1) by omega]; exact this.2⟩)
      obtain ⟨sp, hsp⟩ := indentation_isSome h (show l ≤ l + (depthOfElements (v :: rest) + 1) by
        omega)
      rw [hb]
      simp only []
      split
      · rename_i hc
        rw [if_pos hc.1] at hsp
        rw [hsp]
        exact ⟨_, rfl⟩
      · exact ⟨_, rfl⟩
  | .object o, pretty, indent, l, h => by
    rw [JsonSerializer.serializeInternal]
    cases o with
    | nil =>
      rw [JsonSerializer.serializeMembers]
      simp
    | cons kv rest =>
      have hd : (JsonValue.object (kv :: rest)).depth = depthOfMembers (kv :: rest) + 1 := by
        rw [JsonValue.depth]
        rfl
      rw [hd] at h
      obtain ⟨body, hb⟩ := serializeMembers_isSome (kv :: rest) pretty indent l
        (fun hp => by
          have := h hp
          exact ⟨this.1, by rw [show l + 1 + depthOfMembers (kv :: rest) =
            l + (depthOfMembers (kv :: rest) + 1) by omega]; exact this.2⟩)
      obtain ⟨sp, hsp⟩ := indentation_isSome h (show l ≤ l + (depthOfMembers (kv :: rest) + 1) by
        omega)
      rw [hb]
      simp only []
      split
      · rename_i hc
        rw [if_pos hc.1] at hsp
        rw [hsp]
        exact ⟨_, rfl⟩
      · exact ⟨_, rfl⟩
/-- The loop over the elements returns a text. -/
theorem serializeElements_isSome : (a : List JsonValue) → (pretty : Bool) → (indent : Int) →
    (l : Nat) →
    (pretty = true → 0 ≤ indent ∧ ((l + 1 + depthOfElements a : Nat) : Int) * indent ≤ 2147483647) →
    ∃ t, JsonSerializer.serializeElements a pretty indent l = some t
  | [], _, _, _, _ => ⟨_, rfl⟩
  | v :: rest, pretty, indent, l, h => by
    have hm : depthOfElements (v :: rest) = max v.depth (depthOfElements rest) := by
      rw [depthOfElements]
    obtain ⟨sp, hsp⟩ := indentation_isSome h
      (show l + 1 ≤ l + 1 + depthOfElements (v :: rest) by omega)
    obtain ⟨t, ht⟩ := serializeInternal_isSome v pretty indent (l + 1) (fun hp => by
      obtain ⟨h0, h1⟩ := h hp
      refine ⟨h0, le_trans (Int.mul_le_mul_of_nonneg_right ?_ h0) h1⟩
      have : l + 1 + v.depth ≤ l + 1 + depthOfElements (v :: rest) := by
        rw [hm]
        have := le_max_left v.depth (depthOfElements rest)
        omega
      exact_mod_cast this)
    obtain ⟨ts, hts⟩ := serializeElements_isSome rest pretty indent l (fun hp => by
      obtain ⟨h0, h1⟩ := h hp
      refine ⟨h0, le_trans (Int.mul_le_mul_of_nonneg_right ?_ h0) h1⟩
      have : l + 1 + depthOfElements rest ≤ l + 1 + depthOfElements (v :: rest) := by
        rw [hm]
        have := le_max_right v.depth (depthOfElements rest)
        omega
      exact_mod_cast this)
    rw [JsonSerializer.serializeElements]
    push_cast at hsp ht
    rw [hsp]
    simp only []
    rw [ht]
    simp only []
    rw [hts]
    exact ⟨_, rfl⟩
/-- The loop over the members returns a text. -/
theorem serializeMembers_isSome : (o : List (List Byte × JsonValue)) → (pretty : Bool) →
    (indent : Int) → (l : Nat) →
    (pretty = true → 0 ≤ indent ∧ ((l + 1 + depthOfMembers o : Nat) : Int) * indent ≤ 2147483647) →
    ∃ t, JsonSerializer.serializeMembers o pretty indent l = some t
  | [], _, _, _, _ => ⟨_, rfl⟩
  | (k, v) :: rest, pretty, indent, l, h => by
    have hm : depthOfMembers ((k, v) :: rest) = max v.depth (depthOfMembers rest) := by
      rw [depthOfMembers]
    obtain ⟨sp, hsp⟩ := indentation_isSome h
      (show l + 1 ≤ l + 1 + depthOfMembers ((k, v) :: rest) by omega)
    obtain ⟨t, ht⟩ := serializeInternal_isSome v pretty indent (l + 1) (fun hp => by
      obtain ⟨h0, h1⟩ := h hp
      refine ⟨h0, le_trans (Int.mul_le_mul_of_nonneg_right ?_ h0) h1⟩
      have : l + 1 + v.depth ≤ l + 1 + depthOfMembers ((k, v) :: rest) := by
        rw [hm]
        have := le_max_left v.depth (depthOfMembers rest)
        omega
      exact_mod_cast this)
    obtain ⟨ts, hts⟩ := serializeMembers_isSome rest pretty indent l (fun hp => by
      obtain ⟨h0, h1⟩ := h hp
      refine ⟨h0, le_trans (Int.mul_le_mul_of_nonneg_right ?_ h0) h1⟩
      have : l + 1 + depthOfMembers rest ≤ l + 1 + depthOfMembers ((k, v) :: rest) := by
        rw [hm]
        have := le_max_right v.depth (depthOfMembers rest)
        omega
      exact_mod_cast this)
    rw [JsonSerializer.serializeMembers]
    push_cast at hsp ht
    rw [hsp]
    simp only []
    rw [ht]
    simp only []
    rw [hts]
    exact ⟨_, rfl⟩
end

/-! ## Integers of at most six digits -/

theorem floorLog2_spec : ∀ (fuel n : Nat), 0 < n → n < 2 ^ fuel →
    2 ^ floorLog2 fuel n ≤ n ∧ n < 2 ^ (floorLog2 fuel n + 1)
  | 0, n, h0, h => by simp at h; omega
  | fuel + 1, n, h0, h => by
    rw [floorLog2]
    by_cases h2 : n < 2
    · rw [if_pos h2]
      simp
      omega
    · rw [if_neg h2]
      have hd : n / 2 < 2 ^ fuel := by
        rw [pow_succ] at h
        omega
      obtain ⟨ih1, ih2⟩ := floorLog2_spec fuel (n / 2) (by omega) hd
      rw [pow_succ]
      rw [pow_succ] at ih2
      constructor <;> omega

theorem floorLog2_self {n : Nat} (h0 : 0 < n) :
    2 ^ floorLog2 n n ≤ n ∧ n < 2 ^ (floorLog2 n n + 1) :=
  floorLog2_spec n n h0 (Nat.lt_two_pow n)

theorem decimalDigits_succ (f w n : Nat) :
    decimalDigits (f + 1) w n =
      if n < 10 ∧ w ≤ 1 then [48 + n] else decimalDigits f (w - 1) (n / 10) ++ [48 + n % 10] := by
  rw [decimalDigits]

/-- The length `L` of the digits of `n > 0` without padding: `10^(L-1) ≤ n < 10^L`. -/
theorem decimalDigits_length_spec : ∀ (fuel w n : Nat), w ≤ 1 → 0 < n → n < 2 ^ fuel →
    1 ≤ (decimalDigits fuel w n).length ∧ n < 10 ^ (decimalDigits fuel w n).length ∧
      10 ^ ((decimalDigits fuel w n).length - 1) ≤ n
  | 0, w, n, hw, h0, h => by simp at h; omega
  | fuel + 1, w, n, hw, h0, h => by
    rw [decimalDigits_succ]
    by_cases h10 : n < 10
    · rw [if_pos ⟨h10, hw⟩]
      simp
      omega
    · rw [if_neg (fun hc => h10 hc.1)]
      have hd : n / 10 < 2 ^ fuel := by
        rw [pow_succ] at h
        omega
      obtain ⟨ih1, ih2, ih3⟩ := decimalDigits_length_spec fuel (w - 1) (n / 10) (by omega)
        (by omega) hd
      simp only [List.length_append, List.length_singleton, Nat.add_sub_cancel]
      generalize (decimalDigits fuel (w - 1) (n / 10)).length = L at ih1 ih2 ih3 ⊢
      obtain ⟨k, rfl⟩ : ∃ k, L = k + 1 := ⟨L - 1, by omega⟩
      simp only [Nat.add_sub_cancel] at ih3
      rw [pow_succ]
      refine ⟨by omega, by omega, ?_⟩
      rw [pow_succ]
      omega

theorem decimalLength_spec {n : Nat} (h0 : 0 < n) :
    1 ≤ decimalLength n ∧ n < 10 ^ decimalLength n ∧ 10 ^ (decimalLength n - 1) ≤ n := by
  unfold decimalLength
  rw [if_neg (by omega)]
  exact decimalDigits_length_spec _ 1 n (le_refl _) h0 (floorLog2_self h0).2

theorem digitsValue_snoc (s : List Byte) (c : Nat) :
    digitsValue (s ++ [c]) = 10 * digitsValue s + (c - 48) := by
  simp [digitsValue, List.foldl_append]

/-- The `f` digits of `n < 10^f`, zero padded. -/
theorem decimalDigits_padded : ∀ (f n : Nat), n < 10 ^ f →
    (decimalDigits f f n).length = f ∧ (∀ c ∈ decimalDigits f f n, isdigit c = true) ∧
      digitsValue (decimalDigits f f n) = n
  | 0, n, h => by
    simp at h
    subst h
    exact ⟨rfl, (fun c hc => by cases hc), rfl⟩
  | f + 1, n, h => by
    have hd : n / 10 < 10 ^ f := by
      rw [pow_succ] at h
      omega
    obtain ⟨ih1, ih2, ih3⟩ := decimalDigits_padded f (n / 10) hd
    have key : decimalDigits (f + 1) (f + 1) n = decimalDigits f f (n / 10) ++ [48 + n % 10] := by
      rw [decimalDigits_succ]
      by_cases hc : n < 10 ∧ f + 1 ≤ 1
      · rw [if_pos hc]
        obtain ⟨hc1, hc2⟩ := hc
        have hf : f = 0 := by omega
        subst hf
        rw [Nat.div_eq_of_lt hc1, Nat.mod_eq_of_lt hc1]
        rfl
      · rw [if_neg hc]
        rfl
    rw [key]
    refine ⟨by simp [ih1], ?_, ?_⟩
    · intro c hc
      rcases List.mem_append.1 hc with hc | hc
      · exact ih2 c hc
      · rw [List.mem_singleton] at hc
        subst hc
        rw [isdigit_iff]
        omega
    · rw [digitsValue_snoc, ih3]
      omega

/-- The digits of a multiple of a power of ten end in zeros. -/
theorem decimalDigits_mul_pow : ∀ (k f n : Nat), n < 10 ^ f →
    decimalDigits (f + k) (f + k) (n * 10 ^ k) = decimalDigits f f n ++ List.replicate k 48
  | 0, f, n, _ => by simp
  | k + 1, f, n, h => by
    have ih := decimalDigits_mul_pow k f n h
    have e1 : n * 10 ^ (k + 1) / 10 = n * 10 ^ k := by
      rw [pow_succ, ← Nat.mul_assoc]
      exact Nat.mul_div_cancel _ (by decide)
    have e2 : n * 10 ^ (k + 1) % 10 = 0 := by
      rw [pow_succ, ← Nat.mul_assoc]
      exact Nat.mul_mod_left _ _
    show decimalDigits (f + k + 1) (f + k + 1) (n * 10 ^ (k + 1)) = _
    rw [decimalDigits_succ]
    by_cases hc : n * 10 ^ (k + 1) < 10 ∧ f + k + 1 ≤ 1
    · obtain ⟨hc1, hc2⟩ := hc
      have hf : f = 0 := by omega
      have hk : k = 0 := by omega
      subst hf hk
      simp at h
      subst h
      rfl
    · rw [if_neg hc, e1, e2, Nat.add_sub_cancel, ih, List.append_assoc]
      congr 1
      rw [List.replicate_succ']

theorem stripTrailingZeros_replicate (k : Nat) :
    stripTrailingZeros (List.replicate k 48) = [] := by
  unfold stripTrailingZeros
  rw [List.reverse_replicate]
  have : List.dropWhile (fun c => c == 48) (List.replicate k (48 : Byte)) = [] := by
    induction k with
    | zero => rfl
    | succ k ih =>
      rw [List.replicate_succ, List.dropWhile_cons_of_pos (by rfl), ih]
  rw [this]
  rfl

theorem roundHalfEven_exact (q den : Nat) (hd : 0 < den) :
    roundHalfEven (q * den) den = (q, true) := by
  unfold roundHalfEven
  simp only []
  rw [Nat.mul_mod_left, if_pos rfl, Nat.mul_div_cancel _ hd]

/-- The conversion of an integer below `2^53` is exact. -/
theorem roundToDouble_int (neg : Bool) {n : Nat} (h0 : 0 < n) (h : n < 2 ^ 53) :
    roundToDouble neg n 1 =
      (.finite neg (n * 2 ^ (52 - floorLog2 n n)) ((floorLog2 n n : Int) - 52), true) := by
  obtain ⟨hl1, hl2⟩ := floorLog2_self h0
  generalize hl : floorLog2 n n = l at hl1 hl2
  have hl52 : l ≤ 52 := by
    by_contra hc
    have : 2 ^ 53 ≤ 2 ^ l := Nat.pow_le_pow_right (by decide) (by omega)
    omega
  have f1 : floorLog2 1 1 = 0 := rfl
  unfold roundToDouble
  rw [if_neg (by omega), hl, f1]
  simp only [Nat.cast_zero, sub_zero, Int.toNat_ofNat, one_mul]
  have e1 : (-(l : Int)).toNat = 0 := by omega
  rw [e1, pow_zero, mul_one, if_pos hl1]
  have e2 : max ((l : Int) - 52) (-1074) = (l : Int) - 52 := by omega
  rw [e2]
  have e3 : (-((l : Int) - 52)).toNat = 52 - l := by omega
  have e4 : ((l : Int) - 52).toNat = 0 := by omega
  rw [e3, e4, pow_zero]
  have e5 := roundHalfEven_exact (n * 2 ^ (52 - l)) 1 (by decide)
  rw [mul_one] at e5
  rw [e5]
  simp only []
  have hm : n * 2 ^ (52 - l) < 2 ^ 53 := by
    calc n * 2 ^ (52 - l) < 2 ^ (l + 1) * 2 ^ (52 - l) :=
          Nat.mul_lt_mul_of_pos_right hl2 (by positivity)
      _ = 2 ^ 53 := by rw [← pow_add]; congr 1; omega
  have hne : ¬ n * 2 ^ (52 - l) = 2 ^ 53 := by omega
  rw [if_neg hne]
  simp only []
  rw [if_neg (by omega)]

theorem ostreamDouble_int (neg : Bool) {n l : Nat} (h0 : 0 < n) (h6 : n < 10 ^ 6) (hl : l ≤ 52) :
    ostreamDouble (.finite neg (n * 2 ^ (52 - l)) ((l : Int) - 52)) =
      (if neg then [45] else []) ++ decimalDigits (decimalLength n) (decimalLength n) n := by
  obtain ⟨hL1, hL2, hL3⟩ := decimalLength_spec h0
  have hK : 0 < 2 ^ (52 - l) := by positivity
  have e1 : ((l : Int) - 52).toNat = 0 := by omega
  have e2 : (-((l : Int) - 52)).toNat = 52 - l := by omega
  have hm0 : ¬ n * 2 ^ (52 - l) = 0 := by positivity
  have hle : 2 ^ (52 - l) ≤ n * 2 ^ (52 - l) := Nat.le_mul_of_pos_left _ h0
  have hdiv : n * 2 ^ (52 - l) / 2 ^ (52 - l) = n := Nat.mul_div_cancel _ hK
  unfold ostreamDouble
  simp only [e1, e2, pow_zero, mul_one, if_neg hm0, if_pos hle, hdiv]
  have hL6 : decimalLength n ≤ 6 := by
    by_contra hc
    have : 10 ^ 6 ≤ 10 ^ (decimalLength n - 1) := Nat.pow_le_pow_right (by decide) (by omega)
    omega
  generalize decimalLength n = L at hL1 hL2 hL3 hL6
  have e3 : (5 - ((L : Int) - 1)).toNat = 6 - L := by omega
  have e4 : ((L : Int) - 1 - 5).toNat = 0 := by omega
  have hr : roundHalfEven (n * 2 ^ (52 - l) * 10 ^ (6 - L)) (2 ^ (52 - l)) =
      (n * 10 ^ (6 - L), true) := by
    rw [Nat.mul_right_comm]
    exact roundHalfEven_exact _ _ hK
  have hlt : n * 10 ^ (6 - L) < 10 ^ 6 := by
    calc n * 10 ^ (6 - L) < 10 ^ L * 10 ^ (6 - L) := Nat.mul_lt_mul_of_pos_right hL2 (by positivity)
      _ = 10 ^ 6 := by rw [← pow_add]; congr 1; omega
  have hne : ¬ n * 10 ^ (6 - L) = 10 ^ 6 := by omega
  simp only [e3, e4, pow_zero, mul_one, hr, if_neg hne]
  have hds : decimalDigits 6 6 (n * 10 ^ (6 - L)) =
      decimalDigits L L n ++ List.replicate (6 - L) 48 := by
    have := decimalDigits_mul_pow (6 - L) L n hL2
    rwa [show L + (6 - L) = 6 by omega] at this
  have hlen := (decimalDigits_padded L n hL2).1
  have e5 : ((L : Int) - 1).toNat + 1 = L := by omega
  have c1 : -4 ≤ (L : Int) - 1 ∧ (L : Int) - 1 < 6 := by omega
  have c2 : ¬ (L : Int) - 1 < 0 := by omega
  simp only [if_pos c1, if_neg c2, e5, hds]
  rw [List.take_left' hlen, List.drop_left' hlen, stripTrailingZeros_replicate, if_pos rfl,
    List.append_nil]

theorem strtod_digits (neg : Bool) (D : List Byte) (hne : D ≠ [])
    (hD : ∀ c ∈ D, isdigit c = true) :
    (strtod ((if neg then [45] else []) ++ D)).value = (roundToDouble neg (digitsValue D) 1).1 ∧
    (strtod ((if neg then [45] else []) ++ D)).consumed =
      ((if neg then [45] else []) ++ D).length := by
  obtain ⟨c, D1, rfl⟩ := List.exists_cons_of_ne_nil hne
  have hc := isdigit_ne (hD c (List.mem_cons_self _ _))
  have hrun := digitRun_all hD
  have dv0 : digitsValue [] = 0 := rfl
  cases neg with
  | true =>
    unfold strtod
    simp only [if_true, List.singleton_append, List.headD_cons, true_or, List.drop_one,
      List.tail_cons, hrun, List.drop_length, List.headD_nil, decide_True]
    simp [dv0]
    omega
  | false =>
    unfold strtod
    simp only [Bool.false_eq_true, if_false, List.nil_append, List.headD_cons, hc.1, hc.2.1,
      or_self, List.drop_zero, hrun, List.drop_length, List.headD_nil]
    simp [dv0]

theorem scanRest_digits (neg : Bool) (D : List Byte) (hne : D ≠ [])
    (hD : ∀ c ∈ D, isdigit c = true) : scanRest ((if neg then [45] else []) ++ D) = [] := by
  obtain ⟨c, D1, rfl⟩ := List.exists_cons_of_ne_nil hne
  have hc := isdigit_ne (hD c (List.mem_cons_self _ _))
  have hrun := digitRun_all hD
  cases neg with
  | true =>
    unfold scanRest
    simp only [if_true, List.singleton_append, List.headD_cons, List.drop_one,
      List.tail_cons, hrun, List.drop_length, List.headD_nil]
    simp
  | false =>
    unfold scanRest
    simp only [Bool.false_eq_true, if_false, List.nil_append, List.headD_cons, hc.1,
      hrun, List.drop_length, List.headD_nil]
    simp

/-- A sign and a run of digits is a number token of the value `strtod` gives it. -/
theorem numberAt_digits (neg : Bool) (D : List Byte) (hne : D ≠ [])
    (hD : ∀ c ∈ D, isdigit c = true) :
    NumberAt ((if neg then [45] else []) ++ D) (roundToDouble neg (digitsValue D) 1).1 [] := by
  have hr := scanRest_digits neg D hne hD
  have ht : scanToken ((if neg then [45] else []) ++ D) = (if neg then [45] else []) ++ D := by
    have := scanToken_append_scanRest ((if neg then [45] else []) ++ D)
    rwa [hr, List.append_nil] at this
  obtain ⟨h1, h2⟩ := strtod_digits neg D hne hD
  refine ⟨?_, by rw [ht]; exact h2, by rw [ht]; exact h1.symm, hr.symm⟩
  obtain ⟨c, D1, rfl⟩ := List.exists_cons_of_ne_nil hne
  cases neg with
  | true => rfl
  | false =>
    have := hD c (List.mem_cons_self _ _)
    simp [numberStart, this]

/-- The round trip of an integer of at most six digits. -/
theorem int_round_trip_fixed (i : Int) (e0 : ParseError) (h : i.natAbs < 10 ^ 6) :
    ∃ t, serialize (JsonValue.ofInt i) = some t ∧ parse t e0 = some (JsonValue.ofInt i, {}) := by
  by_cases hz : i.natAbs = 0
  · have : i = 0 := Int.natAbs_eq_zero.1 hz
    subst this
    exact ⟨lit "0", rfl, (parse_err_irrelevant _ e0 {}).trans rfl⟩
  · have h0 : 0 < i.natAbs := Nat.pos_of_ne_zero hz
    have h53 : i.natAbs < 2 ^ 53 := lt_trans h (by decide)
    have hl52 : floorLog2 i.natAbs i.natAbs ≤ 52 := by
      by_contra hc
      have h1 : 2 ^ 53 ≤ 2 ^ floorLog2 i.natAbs i.natAbs :=
        Nat.pow_le_pow_right (by decide) (by omega)
      have h2 := (floorLog2_self h0).1
      omega
    obtain ⟨hL1, hL2, _⟩ := decimalLength_spec h0
    obtain ⟨hp1, hp2, hp3⟩ := decimalDigits_padded (decimalLength i.natAbs) i.natAbs hL2
    have hne : decimalDigits (decimalLength i.natAbs) (decimalLength i.natAbs) i.natAbs ≠ [] := by
      intro hc
      rw [hc] at hp1
      simp at hp1
      omega
    have hof : Dbl.ofInt i = .finite (decide (i < 0))
        (i.natAbs * 2 ^ (52 - floorLog2 i.natAbs i.natAbs))
        ((floorLog2 i.natAbs i.natAbs : Int) - 52) := by
      unfold Dbl.ofInt
      rw [roundToDouble_int _ h0 h53]
    have hnum := numberAt_digits (decide (i < 0)) _ hne hp2
    rw [hp3] at hnum
    refine ⟨(if decide (i < 0) = true then [45] else []) ++
      decimalDigits (decimalLength i.natAbs) (decimalLength i.natAbs) i.natAbs, ?_, ?_⟩
    · show some (if (Dbl.ofInt i).isfinite then ostreamDouble (Dbl.ofInt i) else lit "null") = _
      rw [hof, ← ostreamDouble_int _ h0 h hl52]
      rfl
    · exact (parse_eq_some_iff _ e0 _).2 (Doc.ofVal (Val.number hnum))

theorem floorLog2_mul {n q : Nat} (hn : 0 < n) (hq : 0 < q) :
    floorLog2 (n * q) (n * q) = floorLog2 n n + floorLog2 q q ∨
      floorLog2 (n * q) (n * q) = floorLog2 n n + floorLog2 q q + 1 := by
  obtain ⟨a1, a2⟩ := floorLog2_self (Nat.mul_pos hn hq)
  obtain ⟨b1, b2⟩ := floorLog2_self hq
  obtain ⟨l1, l2⟩ := floorLog2_self hn
  generalize floorLog2 (n * q) (n * q) = a at a1 a2
  generalize floorLog2 q q = b at b1 b2
  generalize floorLog2 n n = l at l1 l2
  have h1 : 2 ^ (l + b) ≤ n * q := by
    rw [pow_add]
    exact Nat.mul_le_mul l1 b1
  have h2 : n * q < 2 ^ (l + b + 2) := by
    rw [show l + b + 2 = (l + 1) + (b + 1) by omega, pow_add]
    exact Nat.mul_lt_mul'' l2 b2
  have h3 : a < l + b + 2 := (Nat.pow_lt_pow_iff_right (by decide)).1 (lt_of_le_of_lt a1 h2)
  have h4 : l + b < a + 1 := (Nat.pow_lt_pow_iff_right (by decide)).1 (lt_of_le_of_lt h1 a2)
  omega

/-- The conversion of an integer below `2^53` given as a fraction `n * q / q` is exact. -/
theorem roundToDouble_scaled (neg : Bool) {n q : Nat} (h0 : 0 < n) (h : n < 2 ^ 53)
    (hq : 0 < q) : roundToDouble neg (n * q) q = roundToDouble neg n 1 := by
  rw [roundToDouble_int neg h0 h]
  obtain ⟨hl1, hl2⟩ := floorLog2_self h0
  have hmul := floorLog2_mul h0 hq
  generalize floorLog2 n n = l at hl1 hl2 hmul
  have hl52 : l ≤ 52 := by
    by_contra hc
    have : 2 ^ 53 ≤ 2 ^ l := Nat.pow_le_pow_right (by decide) (by omega)
    omega
  have hfl : (if q * 2 ^ ((floorLog2 (n * q) (n * q) : Int) - (floorLog2 q q : Int)).toNat ≤
      n * q * 2 ^ (-((floorLog2 (n * q) (n * q) : Int) - (floorLog2 q q : Int))).toNat
      then (floorLog2 (n * q) (n * q) : Int) - (floorLog2 q q : Int)
      else (floorLog2 (n * q) (n * q) : Int) - (floorLog2 q q : Int) - 1) = (l : Int) := by
    rcases hmul with hm | hm
    · rw [hm]
      have e1 : (((l + floorLog2 q q : Nat) : Int) - (floorLog2 q q : Int)).toNat = l := by omega
      have e2 : (-(((l + floorLog2 q q : Nat) : Int) - (floorLog2 q q : Int))).toNat = 0 := by omega
      rw [e1, e2, pow_zero, mul_one, if_pos (by
        rw [Nat.mul_comm n q]
        exact Nat.mul_le_mul_left q hl1)]
      omega
    · rw [hm]
      have e1 : (((l + floorLog2 q q + 1 : Nat) : Int) - (floorLog2 q q : Int)).toNat = l + 1 := by omega
      have e2 : (-(((l + floorLog2 q q + 1 : Nat) : Int) - (floorLog2 q q : Int))).toNat = 0 := by omega
      rw [e1, e2, pow_zero, mul_one, if_neg (by
        rw [Nat.mul_comm n q, not_le]
        exact Nat.mul_lt_mul_of_pos_left hl2 hq)]
      omega
  unfold roundToDouble
  rw [if_neg (by have := Nat.mul_pos h0 hq; omega)]
  simp only []
  rw [hfl]
  have e2 : max ((l : Int) - 52) (-1074) = (l : Int) - 52 := by omega
  rw [e2]
  have e3 : (-((l : Int) - 52)).toNat = 52 - l := by omega
  have e4 : ((l : Int) - 52).toNat = 0 := by omega
  rw [e3, e4, pow_zero, mul_one]
  have e5 := roundHalfEven_exact (n * 2 ^ (52 - l)) q hq
  rw [Nat.mul_right_comm] at e5
  rw [e5]
  simp only []
  have hm : n * 2 ^ (52 - l) < 2 ^ 53 := by
    calc n * 2 ^ (52 - l) < 2 ^ (l + 1) * 2 ^ (52 - l) :=
          Nat.mul_lt_mul_of_pos_right hl2 (by positivity)
      _ = 2 ^ 53 := by rw [← pow_add]; congr 1; omega
  have hne : ¬ n * 2 ^ (52 - l) = 2 ^ 53 := by omega
  rw [if_neg hne]
  simp only []
  rw [if_neg (by omega)]

theorem stripTrailingZeros_split (s : List Byte) :
    ∃ k, s = stripTrailingZeros s ++ List.replicate k 48 := by
  unfold stripTrailingZeros
  refine ⟨(s.reverse.takeWhile (fun c => c == 48)).length, ?_⟩
  have h1 : s.reverse.takeWhile (fun c => c == 48) =
      List.replicate (s.reverse.takeWhile (fun c => c == 48)).length 48 := by
    rw [List.eq_replicate_iff]
    refine ⟨rfl, fun c hc => ?_⟩
    have := List.mem_takeWhile_imp hc
    simpa using this
  have h2 := List.takeWhile_append_dropWhile (fun c => c == 48) s.reverse
  have h3 : s = (s.reverse.dropWhile (fun c => c == 48)).reverse ++
      (s.reverse.takeWhile (fun c => c == 48)).reverse := by
    rw [← List.reverse_append, h2, List.reverse_reverse]
  rw [h1, List.reverse_replicate] at h3
  exact h3

theorem digitsValue_append_zeros (s : List Byte) (k : Nat) :
    digitsValue (s ++ List.replicate k 48) = digitsValue s * 10 ^ k := by
  induction k with
  | zero => simp
  | succ k ih =>
    rw [List.replicate_succ', ← List.append_assoc, digitsValue_snoc, ih, pow_succ,
      Nat.sub_self, Nat.add_zero]
    ring

theorem exponentDigits_eq {x : Nat} (h : x < 100) :
    decimalDigits 5 2 x = [48 + x / 10, 48 + x % 10] := by
  rw [decimalDigits_succ, if_neg (by omega), decimalDigits_succ, if_pos (by omega)]
  rfl

/-- The text of an integer of seven digits or more whose digits after the sixth are zeros. -/
theorem ostreamDouble_sci (neg : Bool) {n l : Nat} (h6 : 10 ^ 6 ≤ n) (hl : l ≤ 52)
    (hdvd : 10 ^ (decimalLength n - 6) ∣ n) :
    ostreamDouble (.finite neg (n * 2 ^ (52 - l)) ((l : Int) - 52)) =
      (if neg then [45] else []) ++
        (decimalDigits 6 6 (n / 10 ^ (decimalLength n - 6))).take 1 ++
        (if stripTrailingZeros ((decimalDigits 6 6 (n / 10 ^ (decimalLength n - 6))).drop 1) = []
          then []
          else 46 :: stripTrailingZeros
            ((decimalDigits 6 6 (n / 10 ^ (decimalLength n - 6))).drop 1)) ++
        [101, 43] ++ decimalDigits 5 2 (decimalLength n - 1) := by
  have h0 : 0 < n := lt_of_lt_of_le (by decide) h6
  obtain ⟨hL1, hL2, hL3⟩ := decimalLength_spec h0
  have hK : 0 < 2 ^ (52 - l) := by positivity
  have e1 : ((l : Int) - 52).toNat = 0 := by omega
  have e2 : (-((l : Int) - 52)).toNat = 52 - l := by omega
  have hm0 : ¬ n * 2 ^ (52 - l) = 0 := by positivity
  have hle : 2 ^ (52 - l) ≤ n * 2 ^ (52 - l) := Nat.le_mul_of_pos_left _ h0
  have hdiv : n * 2 ^ (52 - l) / 2 ^ (52 - l) = n := Nat.mul_div_cancel _ hK
  unfold ostreamDouble
  simp only [e1, e2, pow_zero, mul_one, if_neg hm0, if_pos hle, hdiv]
  have hL7 : 7 ≤ decimalLength n := by
    by_contra hc
    have : 10 ^ decimalLength n ≤ 10 ^ 6 := Nat.pow_le_pow_right (by decide) (by omega)
    omega
  generalize decimalLength n = L at hL1 hL2 hL3 hL7 hdvd
  obtain ⟨s, hs⟩ := hdvd
  have hpos : 0 < 10 ^ (L - 6) := by positivity
  have hsdiv : n / 10 ^ (L - 6) = s := by
    rw [hs]
    exact Nat.mul_div_cancel_left _ hpos
  have e3 : (5 - ((L : Int) - 1)).toNat = 0 := by omega
  have e4 : ((L : Int) - 1 - 5).toNat = L - 6 := by omega
  have hr : roundHalfEven (n * 2 ^ (52 - l)) (2 ^ (52 - l) * 10 ^ (L - 6)) = (s, true) := by
    have : n * 2 ^ (52 - l) = s * (2 ^ (52 - l) * 10 ^ (L - 6)) := by
      rw [hs]
      ring
    rw [this]
    exact roundHalfEven_exact _ _ (Nat.mul_pos hK hpos)
  have hlt : s < 10 ^ 6 := by
    have h1 : 10 ^ (L - 6) * s < 10 ^ (L - 6) * 10 ^ 6 := by
      rw [← hs, ← pow_add, show L - 6 + 6 = L by omega]
      exact hL2
    exact Nat.lt_of_mul_lt_mul_left h1
  have hne : ¬ s = 10 ^ 6 := by omega
  have c1 : ¬ (-4 ≤ (L : Int) - 1 ∧ (L : Int) - 1 < 6) := by omega
  have c2 : ¬ (L : Int) - 1 < 0 := by omega
  have e5 : ((L : Int) - 1).natAbs = L - 1 := by omega
  simp only [e3, e4, pow_zero, mul_one, hr, if_neg hne, if_neg c1, if_neg c2, e5, hsdiv]

theorem digitRun_cons (c : Byte) (cs : List Byte) :
    digitRun (c :: cs) = if isdigit c = true then digitRun cs + 1 else 0 := by
  rw [digitRun]

/-- The value `strtod` gives, from the parts of its subject sequence. -/
theorem strtod_value_of (s s1 s2 s3 s4 s5 : List Byte) (signLen nInt nFrac eSignLen nExp : Nat)
    (h1 : (if s.headD 0 = 45 ∨ s.headD 0 = 43 then 1 else 0) = signLen)
    (h2 : s.drop signLen = s1) (h3 : digitRun s1 = nInt) (hpos : nInt ≠ 0)
    (h4 : s1.drop nInt = s2)
    (h5 : (if s2.headD 0 = 46 then digitRun (s2.drop 1) else 0) = nFrac)
    (h6 : s1.drop (nInt + if s2.headD 0 = 46 then 1 + nFrac else 0) = s3)
    (h7 : s3.drop 1 = s4)
    (h8 : (if s4.headD 0 = 45 ∨ s4.headD 0 = 43 then 1 else 0) = eSignLen)
    (h9 : s4.drop eSignLen = s5)
    (h10 : (if s3.headD 0 = 101 ∨ s3.headD 0 = 69 then digitRun s5 else 0) = nExp) :
    (strtod s).value =
      (roundToDouble (decide (s.headD 0 = 45))
        (digitsValue (s1.take nInt ++ (s2.drop 1).take nFrac) *
          10 ^ (if s4.headD 0 = 45 then 0 else digitsValue (s5.take nExp)))
        (10 ^ ((if s4.headD 0 = 45 then digitsValue (s5.take nExp) else 0) + nFrac))).1 := by
  unfold strtod
  simp only []
  rw [h1, h2, h3, h4]
  simp only [decide_eq_true_eq]
  rw [h5, if_neg (by omega), h6, h7, h8, h9, h10]

/-- The value and the extent of a text in scientific notation as `operator<<` writes it. -/
theorem numberAt_sci (neg : Bool) (d1 : Byte) (frac E : List Byte) (hd1 : isdigit d1 = true)
    (hf : ∀ c ∈ frac, isdigit c = true) (hE : E ≠ []) (hEd : ∀ c ∈ E, isdigit c = true) :
    NumberAt ((if neg then [45] else []) ++ d1 :: ((if frac = [] then [] else 46 :: frac) ++
      101 :: 43 :: E))
      (roundToDouble neg (digitsValue (d1 :: frac) * 10 ^ digitsValue E) (10 ^ frac.length)).1
      [] := by
  obtain ⟨e1, E1, rfl⟩ := List.exists_cons_of_ne_nil hE
  have he1 := hEd e1 (List.mem_cons_self _ _)
  have hc := isdigit_ne hd1
  have hce := isdigit_ne he1
  have hrunE : digitRun (e1 :: E1) = (e1 :: E1).length := digitRun_all hEd
  have i46 : isdigit 46 = false := rfl
  have i101 : isdigit 101 = false := rfl
  -- the parts of the text
  have hF : ∃ F : List Byte, (if frac = [] then [] else 46 :: frac) = F ∧
      isdigit ((F ++ 101 :: 43 :: e1 :: E1).headD 0) = false ∧
      (if (F ++ 101 :: 43 :: e1 :: E1).headD 0 = 46 then
        digitRun ((F ++ 101 :: 43 :: e1 :: E1).drop 1) else 0) = frac.length ∧
      (F ++ 101 :: 43 :: e1 :: E1).drop
        (if (F ++ 101 :: 43 :: e1 :: E1).headD 0 = 46 then 1 + frac.length else 0) =
        101 :: 43 :: e1 :: E1 ∧
      ((F ++ 101 :: 43 :: e1 :: E1).drop 1).take frac.length = frac ∧
      F.length = (if frac = [] then 0 else 1 + frac.length) ∧
      (if (F ++ 101 :: 43 :: e1 :: E1).headD 0 = 46 then
        ((F ++ 101 :: 43 :: e1 :: E1).drop 1).drop (digitRun ((F ++ 101 :: 43 :: e1 :: E1).drop 1))
        else F ++ 101 :: 43 :: e1 :: E1) = 101 :: 43 :: e1 :: E1 := by
    cases frac with
    | nil => exact ⟨[], rfl, rfl, rfl, rfl, rfl, rfl, rfl⟩
    | cons f1 frac1 =>
      have hrunF : digitRun (f1 :: frac1 ++ 101 :: 43 :: e1 :: E1) = (f1 :: frac1).length :=
        digitRun_all_append hf (by rfl)
      refine ⟨46 :: f1 :: frac1, by simp, rfl, ?_, ?_, ?_, by simp; omega, ?_⟩
      · simpa using hrunF
      · simp
        rw [show 1 + (frac1.length + 1) = (frac1.length + 1) + 1 by omega]
        simp
      · simp
      · have hrunF2 : digitRun (f1 :: (frac1 ++ 101 :: 43 :: e1 :: E1)) = frac1.length + 1 := by
          simpa using hrunF
        simp [hrunF2]
  obtain ⟨F, hFe, hF1, hF2, hF3, hF4, hF5, hF6⟩ := hF
  rw [hFe]
  have hrun1 : digitRun (d1 :: (F ++ 101 :: 43 :: e1 :: E1)) = 1 := by
    rw [digitRun_cons, if_pos hd1]
    cases hx : F ++ 101 :: 43 :: e1 :: E1 with
    | nil => rfl
    | cons x xs =>
      rw [hx] at hF1
      rw [digitRun_cons, if_neg (by rw [show isdigit x = false from hF1]; simp)]
  have hsign : ∃ sign : List Byte, (if neg = true then [45] else []) = sign ∧
      (if (sign ++ d1 :: (F ++ 101 :: 43 :: e1 :: E1)).headD 0 = 45 ∨
        (sign ++ d1 :: (F ++ 101 :: 43 :: e1 :: E1)).headD 0 = 43 then 1 else 0) = sign.length ∧
      decide ((sign ++ d1 :: (F ++ 101 :: 43 :: e1 :: E1)).headD 0 = 45) = neg ∧
      (sign ++ d1 :: (F ++ 101 :: 43 :: e1 :: E1)).drop sign.length =
        d1 :: (F ++ 101 :: 43 :: e1 :: E1) ∧
      numberStart ((sign ++ d1 :: (F ++ 101 :: 43 :: e1 :: E1)).headD 0) = true ∧
      (if (sign ++ d1 :: (F ++ 101 :: 43 :: e1 :: E1)).headD 0 = 45 then
        (sign ++ d1 :: (F ++ 101 :: 43 :: e1 :: E1)).drop 1
        else sign ++ d1 :: (F ++ 101 :: 43 :: e1 :: E1)) = d1 :: (F ++ 101 :: 43 :: e1 :: E1) := by
    cases neg with
    | true => exact ⟨[45], rfl, rfl, rfl, rfl, rfl, rfl⟩
    | false =>
      refine ⟨[], rfl, ?_, ?_, rfl, ?_, ?_⟩
      · simp [hc.1, hc.2.1]
      · simp [hc.1]
      · simp [numberStart, hd1]
      · simp [hc.1]
  obtain ⟨sign, hse, hs1, hs2, hs3, hs4, hs5⟩ := hsign
  rw [hse]
  have hval := strtod_value_of (sign ++ d1 :: (F ++ 101 :: 43 :: e1 :: E1))
    (d1 :: (F ++ 101 :: 43 :: e1 :: E1)) (F ++ 101 :: 43 :: e1 :: E1) (101 :: 43 :: e1 :: E1)
    (43 :: e1 :: E1) (e1 :: E1) sign.length 1 frac.length 1 (e1 :: E1).length
    hs1 hs3 hrun1 (by decide) rfl hF2 (by
      rw [show 1 + (if (F ++ 101 :: 43 :: e1 :: E1).headD 0 = 46 then 1 + frac.length else 0) =
        (if (F ++ 101 :: 43 :: e1 :: E1).headD 0 = 46 then 1 + frac.length else 0) + 1 by omega,
        List.drop_succ_cons, hF3]) rfl rfl rfl ((if_pos (Or.inl rfl)).trans hrunE)
  have hcons := strtod_consumed_of (sign ++ d1 :: (F ++ 101 :: 43 :: e1 :: E1))
    (d1 :: (F ++ 101 :: 43 :: e1 :: E1)) (101 :: 43 :: e1 :: E1)
    sign.length 1 F.length 1 (e1 :: E1).length hs1 hs3 hrun1 (by decide) (by
      show (if (F ++ 101 :: 43 :: e1 :: E1).headD 0 = 46 then
        1 + digitRun ((F ++ 101 :: 43 :: e1 :: E1).drop 1) else 0) = F.length
      rw [hF5]
      by_cases h46 : (F ++ 101 :: 43 :: e1 :: E1).headD 0 = 46
      · rw [if_pos h46] at hF2 ⊢
        rw [hF2]
        cases frac with
        | nil =>
          rw [← hFe] at h46
          simp at h46
        | cons f1 frac1 => simp
      · rw [if_neg h46]
        cases frac with
        | nil => rfl
        | cons f1 frac1 =>
          rw [← hFe] at h46
          simp at h46) (by
      rw [show 1 + F.length = F.length + 1 by omega, List.drop_succ_cons]
      exact List.drop_left' rfl) rfl ((if_pos (Or.inl rfl)).trans hrunE)
  have hrest : scanRest (sign ++ d1 :: (F ++ 101 :: 43 :: e1 :: E1)) = [] := by
    unfold scanRest
    simp only []
    rw [hs5, hrun1]
    have hd : List.drop 1 (d1 :: (F ++ 101 :: 43 :: e1 :: E1)) = F ++ 101 :: 43 :: e1 :: E1 := rfl
    rw [hd, hF6]
    have hrunE2 : digitRun (e1 :: E1) = E1.length + 1 := hrunE
    simp [hrunE2]
  have htok : scanToken (sign ++ d1 :: (F ++ 101 :: 43 :: e1 :: E1)) =
      sign ++ d1 :: (F ++ 101 :: 43 :: e1 :: E1) := by
    have := scanToken_append_scanRest (sign ++ d1 :: (F ++ 101 :: 43 :: e1 :: E1))
    rwa [hrest, List.append_nil] at this
  refine ⟨hs4, ?_, ?_, hrest.symm⟩
  · rw [htok, hcons, if_neg (by simp)]
    simp
    omega
  · rw [htok, hval, hs2]
    have t1 : List.take 1 (d1 :: (F ++ 101 :: 43 :: e1 :: E1)) = [d1] := rfl
    have t2 : List.take (e1 :: E1).length (e1 :: E1) = e1 :: E1 := List.take_length _
    have t3 : ¬ (43 :: e1 :: E1).headD 0 = 45 := by simp
    rw [t1, hF4, t2, if_neg t3, if_neg t3, Nat.zero_add]
    rfl

theorem floorLog2_le_52 {n : Nat} (h0 : 0 < n) (h : n < 2 ^ 53) : floorLog2 n n ≤ 52 := by
  by_contra hc
  have h1 : 2 ^ 53 ≤ 2 ^ floorLog2 n n := Nat.pow_le_pow_right (by decide) (by omega)
  have h2 := (floorLog2_self h0).1
  omega

theorem ofInt_eq_finite {i : Int} (h0 : 0 < i.natAbs) (h : i.natAbs < 2 ^ 53) :
    Dbl.ofInt i = .finite (decide (i < 0)) (i.natAbs * 2 ^ (52 - floorLog2 i.natAbs i.natAbs))
      ((floorLog2 i.natAbs i.natAbs : Int) - 52) := by
  unfold Dbl.ofInt
  rw [roundToDouble_int _ h0 h]

/-- The round trip of an integer of seven digits or more, below `2^53`, whose digits after the
sixth are zeros. -/
theorem int_round_trip_sci (i : Int) (e0 : ParseError) (h6 : 10 ^ 6 ≤ i.natAbs)
    (h53 : i.natAbs < 2 ^ 53) (hdvd : 10 ^ (decimalLength i.natAbs - 6) ∣ i.natAbs) :
    ∃ t, serialize (JsonValue.ofInt i) = some t ∧ parse t e0 = some (JsonValue.ofInt i, {}) := by
  have h0 : 0 < i.natAbs := lt_of_lt_of_le (by decide) h6
  have hl52 := floorLog2_le_52 h0 h53
  have hof := ofInt_eq_finite h0 h53
  have htext := ostreamDouble_sci (decide (i < 0)) h6 hl52 hdvd
  obtain ⟨hL1, hL2, hL3⟩ := decimalLength_spec h0
  have hL7 : 7 ≤ decimalLength i.natAbs := by
    by_contra hc
    have : 10 ^ decimalLength i.natAbs ≤ 10 ^ 6 := Nat.pow_le_pow_right (by decide) (by omega)
    omega
  have hL17 : decimalLength i.natAbs ≤ 17 := by
    by_contra hc
    have h1 : 10 ^ 17 ≤ 10 ^ (decimalLength i.natAbs - 1) :=
      Nat.pow_le_pow_right (by decide) (by omega)
    have h2 : (2 : Nat) ^ 53 < 10 ^ 17 := by decide
    omega
  have hofv : Dbl.ofInt i = (roundToDouble (decide (i < 0)) i.natAbs 1).1 := rfl
  generalize decimalLength i.natAbs = L at hL1 hL2 hL3 hL7 hL17 hdvd htext
  generalize i.natAbs = n at h6 h53 hdvd h0 hl52 hof htext hL2 hL3 hofv
  obtain ⟨s, hs⟩ := hdvd
  have hpos : 0 < 10 ^ (L - 6) := by positivity
  have hsdiv : n / 10 ^ (L - 6) = s := by
    rw [hs]
    exact Nat.mul_div_cancel_left _ hpos
  have hlt : s < 10 ^ 6 := by
    have h1 : 10 ^ (L - 6) * s < 10 ^ (L - 6) * 10 ^ 6 := by
      rw [← hs, ← pow_add, show L - 6 + 6 = L by omega]
      exact hL2
    exact Nat.lt_of_mul_lt_mul_left h1
  rw [hsdiv] at htext
  obtain ⟨hp1, hp2, hp3⟩ := decimalDigits_padded 6 s hlt
  generalize decimalDigits 6 6 s = ds at hp1 hp2 hp3 htext
  obtain ⟨d1, tail, rfl⟩ : ∃ d1 tail, ds = d1 :: tail := by
    cases ds with
    | nil => simp at hp1
    | cons d1 tail => exact ⟨d1, tail, rfl⟩
  have ht1 : List.take 1 (d1 :: tail) = [d1] := rfl
  have ht2 : List.drop 1 (d1 :: tail) = tail := rfl
  rw [ht1, ht2] at htext
  obtain ⟨k, hk⟩ := stripTrailingZeros_split tail
  have hfd : ∀ c ∈ stripTrailingZeros tail, isdigit c = true := fun c hc =>
    hp2 c (List.mem_cons_of_mem _ (stripTrailingZeros_subset tail c hc))
  generalize stripTrailingZeros tail = frac at hk hfd htext
  have hlen : frac.length + k = 5 := by
    have : tail.length = 5 := by simpa using hp1
    rw [hk, List.length_append, List.length_replicate] at this
    exact this
  have hdv : s = digitsValue (d1 :: frac) * 10 ^ k := by
    rw [← hp3, hk, ← digitsValue_append_zeros]
    rfl
  have hX : L - 1 < 100 := by omega
  have hE := exponentDigits_eq hX
  have hEd : ∀ c ∈ decimalDigits 5 2 (L - 1), isdigit c = true := by
    intro c hc
    rw [hE] at hc
    simp only [List.mem_cons, List.mem_singleton, List.not_mem_nil, or_false] at hc
    rw [isdigit_iff]
    rcases hc with rfl | rfl <;> omega
  have hEv : digitsValue (decimalDigits 5 2 (L - 1)) = L - 1 := by
    rw [hE]
    show 10 * (10 * 0 + (48 + (L - 1) / 10 - 48)) + (48 + (L - 1) % 10 - 48) = L - 1
    omega
  have hEne : decimalDigits 5 2 (L - 1) ≠ [] := by
    rw [hE]
    simp
  have hnum := numberAt_sci (decide (i < 0)) d1 frac _ (hp2 d1 (List.mem_cons_self _ _)) hfd
    hEne hEd
  have hvalue : digitsValue (d1 :: frac) * 10 ^ digitsValue (decimalDigits 5 2 (L - 1)) =
      n * 10 ^ frac.length := by
    rw [hEv, hs, hdv, show L - 1 = (L - 6) + k + frac.length by omega, pow_add, pow_add]
    ring
  rw [hvalue, roundToDouble_scaled _ h0 h53 (by positivity), ← hofv] at hnum
  refine ⟨_, ?_, (parse_eq_some_iff _ e0 _).2 (Doc.ofVal (Val.number hnum))⟩
  show some (if (Dbl.ofInt i).isfinite then ostreamDouble (Dbl.ofInt i) else lit "null") = _
  rw [hof]
  have hfin : (Dbl.finite (decide (i < 0)) (n * 2 ^ (52 - floorLog2 n n))
      ((floorLog2 n n : Int) - 52)).isfinite = true := rfl
  rw [if_pos hfin, htext]
  simp

/-- C26, amended. Integer round trip: for every 32-bit signed integer `i` with at most six
significant decimal digits, that is `|i| = s * 10^z` with `s < 10^6`,
`serialize(JsonValue(i))` returns a text, and `parse` of that text reports no error and returns
the Number whose value is exactly `i`. -/
theorem six_digit_int_round_trip (i : Int) (e0 : ParseError) (s z : Nat)
    (h32 : -2147483648 ≤ i ∧ i ≤ 2147483647) (hs : s < 10 ^ 6) (hi : i.natAbs = s * 10 ^ z) :
    ∃ t, serialize (JsonValue.ofInt i) = some t ∧ parse t e0 = some (JsonValue.ofInt i, {}) := by
  by_cases h6 : i.natAbs < 10 ^ 6
  · exact int_round_trip_fixed i e0 h6
  · have h53 : i.natAbs < 2 ^ 53 := by omega
    have h0 : 0 < i.natAbs := by omega
    obtain ⟨_, _, hL3⟩ := decimalLength_spec h0
    refine int_round_trip_sci i e0 (by omega) h53 ?_
    have h1 : i.natAbs < 10 ^ (6 + z) := by
      rw [hi, pow_add]
      exact Nat.mul_lt_mul_of_pos_right hs (by positivity)
    have h2 : decimalLength i.natAbs - 1 < 6 + z :=
      (Nat.pow_lt_pow_iff_right (by decide)).1 (lt_of_le_of_lt hL3 h1)
    have hd : 10 ^ (decimalLength i.natAbs - 6) ∣ 10 ^ z := pow_dvd_pow 10 (by omega)
    have hd2 := Dvd.dvd.mul_left hd s
    rwa [← hi] at hd2

theorem six_digit_int_round_trip_witness :
    ((-2147483648 : Int) ≤ -2147480000 ∧ (-2147480000 : Int) ≤ 2147483647) ∧
    214748 < 10 ^ 6 ∧ (-2147480000 : Int).natAbs = 214748 * 10 ^ 4 ∧
    ∃ t, serialize (JsonValue.ofInt (-2147480000)) = some t ∧
      parse t {} = some (JsonValue.ofInt (-2147480000), {}) :=
  ⟨by decide, by decide, by decide,
    six_digit_int_round_trip (-2147480000) {} 214748 4 (by decide) (by decide) (by decide)⟩

/-! ## When serialization returns no text -/

theorem spaces_eq_none {n : Int} (h : n < 0 ∨ 2147483647 < n) :
    JsonSerializer.spaces n = none := by
  unfold JsonSerializer.spaces
  rw [if_pos h]

theorem serializeInternal_flat (v : JsonValue) (h : v.depth = 0) (pretty : Bool)
    (indent l : Int) : ∃ t, JsonSerializer.serializeInternal v pretty indent l = some t := by
  cases v with
  | null => exact ⟨_, rfl⟩
  | bool b => exact ⟨_, rfl⟩
  | number d => exact ⟨_, rfl⟩
  | string s => exact ⟨_, rfl⟩
  | array a =>
    cases a with
    | nil =>
      rw [JsonSerializer.serializeInternal, JsonSerializer.serializeElements]
      simp
    | cons x rest =>
      rw [JsonValue.depth] at h
      simp at h
  | object o =>
    cases o with
    | nil =>
      rw [JsonSerializer.serializeInternal, JsonSerializer.serializeMembers]
      simp
    | cons x rest =>
      rw [JsonValue.depth] at h
      simp at h

theorem indent_too_wide {indent : Int} {a b : Nat} (h0 : 0 ≤ indent) (hab : a ≤ b)
    (h : 2147483647 < (a : Int) * indent) : 2147483647 < (b : Int) * indent :=
  lt_of_lt_of_le h (Int.mul_le_mul_of_nonneg_right (by exact_mod_cast hab) h0)

mutual
/-- From level `l` on, `serializeInternal` with `pretty` set returns no text for a value with a
nonempty container when the indent width is negative or the widest indentation does not fit
an `int`. -/
theorem serializeInternal_eq_none : (v : JsonValue) → (indent : Int) → (l : Nat) →
    1 ≤ v.depth → (indent < 0 ∨ 2147483647 < ((l + v.depth : Nat) : Int) * indent) →
    JsonSerializer.serializeInternal v true indent l = none
  | .null, _, _, hd, _ => by simp [JsonValue.depth] at hd
  | .bool _, _, _, hd, _ => by simp [JsonValue.depth] at hd
  | .number _, _, _, hd, _ => by simp [JsonValue.depth] at hd
  | .string _, _, _, hd, _ => by simp [JsonValue.depth] at hd
  | .array a, indent, l, hd, h => by
    cases a with
    | nil => simp [JsonValue.depth] at hd
    | cons v rest =>
      have hdep : (JsonValue.array (v :: rest)).depth = depthOfElements (v :: rest) + 1 := by
        rw [JsonValue.depth]
        rfl
      rw [hdep] at h
      have := serializeElements_eq_none (v :: rest) indent l (by simp) (by
        rw [show l + 1 + depthOfElements (v :: rest) =
          l + (depthOfElements (v :: rest) + 1) by omega]
        exact h)
      rw [JsonSerializer.serializeInternal, this]
  | .object o, indent, l, hd, h => by
    cases o with
    | nil => simp [JsonValue.depth] at hd
    | cons kv rest =>
      have hdep : (JsonValue.object (kv :: rest)).depth = depthOfMembers (kv :: rest) + 1 := by
        rw [JsonValue.depth]
        rfl
      rw [hdep] at h
      have := serializeMembers_eq_none (kv :: rest) indent l (by simp) (by
        rw [show l + 1 + depthOfMembers (kv :: rest) =
          l + (depthOfMembers (kv :: rest) + 1) by omega]
        exact h)
      rw [JsonSerializer.serializeInternal, this]
/-- The loop over the elements returns no text. -/
theorem serializeElements_eq_none : (a : List JsonValue) → (indent : Int) → (l : Nat) →
    a ≠ [] → (indent < 0 ∨ 2147483647 < ((l + 1 + depthOfElements a : Nat) : Int) * indent) →
    JsonSerializer.serializeElements a true indent l = none
  | [], _, _, hne, _ => absurd rfl hne
  | v :: rest, indent, l, _, h => by
    have hm : depthOfElements (v :: rest) = max v.depth (depthOfElements rest) := by
      rw [depthOfElements]
    rw [JsonSerializer.serializeElements, if_pos rfl]
    by_cases hsp : ((l : Int) + 1) * indent < 0 ∨ 2147483647 < ((l : Int) + 1) * indent
    · rw [spaces_eq_none hsp]
    · have hi0 : 0 ≤ indent := by
        by_contra hc
        exact hsp (Or.inl (Int.mul_neg_of_pos_of_neg (by positivity) (by omega)))
      have hbig : 2147483647 < ((l + 1 + depthOfElements (v :: rest) : Nat) : Int) * indent := by
        rcases h with h | h
        · omega
        · exact h
      obtain ⟨sp, hs⟩ : ∃ sp, JsonSerializer.spaces (((l : Int) + 1) * indent) = some sp := by
        unfold JsonSerializer.spaces
        rw [if_neg hsp]
        exact ⟨_, rfl⟩
      rw [hs]
      simp only []
      by_cases hcase : depthOfElements rest ≤ v.depth
      · have hv : 2147483647 < ((l + 1 + v.depth : Nat) : Int) * indent := by
          rw [hm, max_eq_left hcase] at hbig
          exact hbig
        have hv1 : 1 ≤ v.depth := by
          by_contra hc
          have : v.depth = 0 := by omega
          rw [this] at hv
          push_cast at hv
          exact hsp (Or.inr (by simpa using hv))
        have := serializeInternal_eq_none v indent (l + 1) hv1 (Or.inr hv)
        push_cast at this
        rw [this]
      · have hr : 2147483647 < ((l + 1 + depthOfElements rest : Nat) : Int) * indent := by
          rw [hm, max_eq_right (by omega)] at hbig
          exact hbig
        have hne : rest ≠ [] := by
          intro hc
          subst hc
          simp [depthOfElements] at hcase
        have := serializeElements_eq_none rest indent l hne (Or.inr hr)
        rw [this]
        cases JsonSerializer.serializeInternal v true indent (↑l + 1) <;> rfl
/-- The loop over the members returns no text. -/
theorem serializeMembers_eq_none : (o : List (List Byte × JsonValue)) → (indent : Int) →
    (l : Nat) → o ≠ [] →
    (indent < 0 ∨ 2147483647 < ((l + 1 + depthOfMembers o : Nat) : Int) * indent) →
    JsonSerializer.serializeMembers o true indent l = none
  | [], _, _, hne, _ => absurd rfl hne
  | (k, v) :: rest, indent, l, _, h => by
    have hm : depthOfMembers ((k, v) :: rest) = max v.depth (depthOfMembers rest) := by
      rw [depthOfMembers]
    rw [JsonSerializer.serializeMembers, if_pos rfl]
    by_cases hsp : ((l : Int) + 1) * indent < 0 ∨ 2147483647 < ((l : Int) + 1) * indent
    · rw [spaces_eq_none hsp]
    · have hi0 : 0 ≤ indent := by
        by_contra hc
        exact hsp (Or.inl (Int.mul_neg_of_pos_of_neg (by positivity) (by omega)))
      have hbig : 2147483647 < ((l + 1 + depthOfMembers ((k, v) :: rest) : Nat) : Int) * indent := by
        rcases h with h | h
        · omega
        · exact h
      obtain ⟨sp, hs⟩ : ∃ sp, JsonSerializer.spaces (((l : Int) + 1) * indent) = some sp := by
        unfold JsonSerializer.spaces
        rw [if_neg hsp]
        exact ⟨_, rfl⟩
      rw [hs]
      simp only []
      by_cases hcase : depthOfMembers rest ≤ v.depth
      · have hv : 2147483647 < ((l + 1 + v.depth : Nat) : Int) * indent := by
          rw [hm, max_eq_left hcase] at hbig
          exact hbig
        have hv1 : 1 ≤ v.depth := by
          by_contra hc
          have : v.depth = 0 := by omega
          rw [this] at hv
          push_cast at hv
          exact hsp (Or.inr (by simpa using hv))
        have := serializeInternal_eq_none v indent (l + 1) hv1 (Or.inr hv)
        push_cast at this
        rw [this]
      · have hr : 2147483647 < ((l + 1 + depthOfMembers rest : Nat) : Int) * indent := by
          rw [hm, max_eq_right (by omega)] at hbig
          exact hbig
        have hne : rest ≠ [] := by
          intro hc
          subst hc
          simp [depthOfMembers] at hcase
        have := serializeMembers_eq_none rest indent l hne (Or.inr hr)
        rw [this]
        cases JsonSerializer.serializeInternal v true indent (↑l + 1) <;> rfl
end

/-- C23, amended. Serialization returns a text exactly when `pretty` is not set, or the value
tree `v` holds no nonempty array or object, or the indent width is not negative and its
product with the depth of `v` (its nesting of nonempty containers) is at most `INT_MAX`. -/
theorem toString_total_iff (v : JsonValue) (pretty : Bool) (indent : Int) :
    (∃ t, JsonSerializer.toString v pretty indent = some t) ↔
      (pretty = false ∨ v.depth = 0 ∨
        (0 ≤ indent ∧ (v.depth : Int) * indent ≤ 2147483647)) := by
  unfold JsonSerializer.toString
  constructor
  · rintro ⟨t, ht⟩
    by_contra hc
    simp only [not_or, not_and_or, not_le, Bool.not_eq_false] at hc
    obtain ⟨hp, hd, hbad⟩ := hc
    subst hp
    have := serializeInternal_eq_none v indent 0 (by omega) (by simpa using hbad)
    simp only [Nat.cast_zero] at this
    rw [this] at ht
    cases ht
  · rintro (hp | hd | ⟨h0, h1⟩)
    · have := serializeInternal_isSome v pretty indent 0 (fun hc => by
        rw [hp] at hc
        cases hc)
      simpa using this
    · exact serializeInternal_flat v hd pretty indent 0
    · have := serializeInternal_isSome v pretty indent 0 (fun _ => ⟨h0, by simpa using h1⟩)
      simpa using this

theorem toString_total_iff_witness :
    (∃ t, JsonSerializer.toString (.array [.object [(lit "a", .array [])], .null]) true 4 =
      some t) ∧
    (∃ t, JsonSerializer.toString (.array []) true (-1) = some t) ∧
    ¬ (∃ t, JsonSerializer.toString (.array [.null]) true 2147483648 = some t) :=
  ⟨(toString_total_iff _ true 4).2 (Or.inr (Or.inr (by decide))),
    (toString_total_iff _ true (-1)).2 (Or.inr (Or.inl rfl)),
    fun h => absurd ((toString_total_iff _ true 2147483648).1 h) (by decide)⟩

/-! ## What `parseJsonValue` meets where a document starts -/

/-- C31 as stated fails: the form feed is none of the four white space characters of JSON and
starts no value, so it is the first non-whitespace character of the input that consists of it
alone; yet `parse` reports "Unexpected end of input" at line 1, column 2 and not "Unexpected
character" at line 1, column 1, and a form feed followed by `1` is accepted. -/
theorem form_feed_not_unexpected :
    (12 : Byte) ∉ [32, 9, 10, 13] ∧ (12 : Byte) ∉ [110, 116, 102, 34, 91, 123, 45] ∧
    isdigit 12 = false ∧
    parse [12] {} = some (.null, ⟨lit "Unexpected end of input", ⟨1, 2⟩⟩) ∧
    parse (12 :: lit "1") {} = some (JsonValue.ofInt 1, {}) :=
  ⟨by decide, by decide, rfl, rfl, rfl⟩

/-- C31, amended. Value dispatch errors, white space being the six characters of `std::isspace`
(space, `\t`, `\n`, `\v`, `\f`, `\r`): for every input whose first character after the
leading white space `w` is a character `c` that starts no value (not `n`, `t`, `f`, a double
quote, `[`, `\x7b`, `-` or a decimal digit), `parse` returns Null with the error "Unexpected
character 'c'" at the line and column of that character; for the empty input and for every
input of white space only it returns Null with "Unexpected end of input" at the end of the
input. -/
theorem dispatch_errors (w r : List Byte) (c : Byte) (e0 : ParseError) (hw : AllSpace w) :
    (isspace c = false → c ≠ 110 → c ≠ 116 → c ≠ 102 → c ≠ 34 → c ≠ 91 → c ≠ 123 → c ≠ 45 →
      isdigit c = false →
      parse (w ++ c :: r) e0 =
        some (.null, ⟨lit "Unexpected character '" ++ [c] ++ lit "'", positionAfter w⟩)) ∧
    parse w e0 = some (.null, ⟨lit "Unexpected end of input", positionAfter w⟩) := by
  constructor
  · intro hs h1 h2 h3 h4 h5 h6 h7 h8
    have hn : numberStart c = false := by
      simp [numberStart, h7, h8]
    exact (ValueExpected.top hw).errorReported (c :: r) 1 .null _ _ e0 hs (fun h => by cases h)
      (unexpected_character w c r h1 (by rintro (h | h) <;> contradiction) h4 h5 h6 hn)
      (by simp [lit])
  · have hrun : parseJsonValue 1 (stateAfter w []) {} =
        some (.null, stateAfter w [],
          ⟨lit "Unexpected end of input", positionAfter w⟩) := by
      rw [parseJsonValue_succ, if_pos (by simp [stateAfter])]
      rfl
    have := parse_eq_of_run hw (by rfl) hrun e0
    rw [List.append_nil, if_pos (by simp [lit])] at this
    exact this

theorem dispatch_errors_witness :
    AllSpace (lit " \n\t") ∧
    parse (lit " \n\t" ++ 120 :: lit "yz") {} =
      some (.null, ⟨lit "Unexpected character 'x'", ⟨2, 2⟩⟩) ∧
    parse (lit " \n\t") {} = some (.null, ⟨lit "Unexpected end of input", ⟨2, 2⟩⟩) :=
  have hw : AllSpace (lit " \n\t") := by
    intro c hc
    simp [lit] at hc
    rcases hc with rfl | rfl | rfl <;> rfl
  ⟨hw, (dispatch_errors (lit " \n\t") (lit "yz") 120 {} hw).1 (by rfl) (by decide) (by decide)
      (by decide) (by decide) (by decide) (by decide) (by decide) (by rfl),
    (dispatch_errors (lit " \n\t") [] 0 {} hw).2⟩

/-! ## The map of an object under `operator[]` -/

theorem strLess_total : ∀ {a b : List Nat}, strLess a b = false → strLess b a = false → a = b
  | [], [], _, _ => rfl
  | [], _ :: _, h, _ => by simp [strLess] at h
  | _ :: _, [], _, h => by simp [strLess] at h
  | x :: a, y :: b, h1, h2 => by
    rw [strLess_cons] at h1 h2
    by_cases hxy : x < y
    · rw [if_pos hxy] at h1
      cases h1
    · by_cases hyx : y < x
      · rw [if_pos hyx] at h2
        cases h2
      · rw [if_neg hxy, if_neg hyx] at h1
        rw [if_neg hyx, if_neg hxy] at h2
        have : x = y := by omega
        rw [this, strLess_total h1 h2]

theorem keysAscending_cons {k : List Byte} {v : JsonValue} {o : JsonObject}
    (h : keysAscending ((k, v) :: o) = true) :
    keysAscending o = true ∧ ∀ p ∈ o, strLess k p.1 = true := by
  have hp := keysAscending_pairwise _ h
  rw [List.pairwise_cons] at hp
  refine ⟨?_, fun p hp1 => hp.1 p hp1⟩
  cases o with
  | nil => rfl
  | cons q o =>
    obtain ⟨k2, v2⟩ := q
    simp only [keysAscending, Bool.and_eq_true] at h
    exact h.2

theorem keysAscending_of_head {k : List Byte} {v : JsonValue} {o : JsonObject}
    (h : keysAscending o = true) (hk : ∀ p ∈ o.head?, strLess k p.1 = true) :
    keysAscending ((k, v) :: o) = true := by
  cases o with
  | nil => rfl
  | cons q o =>
    obtain ⟨k2, v2⟩ := q
    simp only [keysAscending, Bool.and_eq_true]
    exact ⟨hk (k2, v2) (by simp), h⟩

theorem mapFind_mem {o : JsonObject} {k : List Byte} {x : JsonValue}
    (h : mapFind o k = some x) : (k, x) ∈ o := by
  induction o with
  | nil => simp [mapFind] at h
  | cons p o ih =>
    obtain ⟨k1, v1⟩ := p
    rw [mapFind] at h
    by_cases hk : k1 = k
    · rw [if_pos hk] at h
      cases h
      rw [hk]
      exact List.mem_cons_self _ _
    · rw [if_neg hk] at h
      exact List.mem_cons_of_mem _ (ih h)

/-- `emplace` on a map: the order of the keys is kept, an entry present stays, and `find`
afterwards gives the old entry, or the new one under the new key. -/
theorem mapEmplace_spec : ∀ (o : JsonObject) (k : List Byte) (v : JsonValue),
    keysAscending o = true →
    keysAscending (mapEmplace o k v) = true ∧
    (∀ p ∈ (mapEmplace o k v).head?, p.1 = k ∨ p ∈ o.head?) ∧
    (∀ k', mapFind (mapEmplace o k v) k' =
      if k' = k then some ((mapFind o k).getD v) else mapFind o k') ∧
    (∀ x, mapFind o k = some x → mapEmplace o k v = o) ∧
    (mapFind o k = none → (mapEmplace o k v).length = o.length + 1)
  | [], k, v, _ => by
    refine ⟨rfl, fun p hp => Or.inl (by simp [mapEmplace] at hp; rw [← hp]), fun k' => ?_,
      fun x hx => by simp [mapFind] at hx, fun _ => rfl⟩
    simp only [mapEmplace, mapFind]
    by_cases h : k' = k
    · rw [if_pos h, if_pos h.symm]
      rfl
    · rw [if_neg h, if_neg (fun hc => h hc.symm)]
  | (k1, v1) :: rest, k, v, ho => by
    obtain ⟨hrest, hlt⟩ := keysAscending_cons ho
    obtain ⟨ih1, ih2, ih3, ih4, ih5⟩ := mapEmplace_spec rest k v hrest
    rw [mapEmplace]
    by_cases hk : strLess k k1 = true
    · rw [if_pos hk]
      have hne : k1 ≠ k := fun hc => by
        rw [hc, strLess_irrefl] at hk
        cases hk
      have hnone : mapFind ((k1, v1) :: rest) k = none := by
        rw [mapFind, if_neg hne]
        cases hf : mapFind rest k with
        | none => rfl
        | some x =>
          have h1 := hlt _ (mapFind_mem hf)
          have h2 := strLess_asymm h1
          rw [hk] at h2
          cases h2
      refine ⟨keysAscending_of_head ho (fun p hp => by simp at hp; rw [← hp]; exact hk),
        fun p hp => Or.inl (by simp at hp; rw [← hp]), fun k' => ?_,
        fun x hx => (by rw [hnone] at hx; cases hx), fun _ => rfl⟩
      rw [hnone]
      show (if k = k' then some v else mapFind ((k1, v1) :: rest) k') = _
      by_cases h : k' = k
      · rw [if_pos h, if_pos h.symm]
        rfl
      · rw [if_neg h, if_neg (fun hc => h hc.symm)]
    · rw [if_neg hk]
      by_cases hk2 : strLess k1 k = true
      · rw [if_pos hk2]
        have hne : k1 ≠ k := fun hc => by
          rw [hc, strLess_irrefl] at hk2
          cases hk2
        have hfind : mapFind ((k1, v1) :: rest) k = mapFind rest k := by
          rw [mapFind, if_neg hne]
        refine ⟨keysAscending_of_head ih1 (fun p hp => ?_), fun p hp => Or.inr (by simpa using hp),
          fun k' => ?_, fun x hx => ?_, fun hn => ?_⟩
        · rcases ih2 p hp with h | h
          · rw [h]
            exact hk2
          · exact hlt p (List.mem_of_mem_head? h)
        · rw [hfind]
          show (if k1 = k' then some v1 else mapFind (mapEmplace rest k v) k') = _
          rw [ih3 k']
          by_cases h1 : k1 = k'
          · rw [if_pos h1, if_neg (fun hc => hne (h1.trans hc)), mapFind, if_pos h1]
          · rw [if_neg h1, mapFind, if_neg h1]
        · rw [hfind] at hx
          rw [ih4 x hx]
        · rw [hfind] at hn
          simp [ih5 hn]
      · rw [if_neg hk2]
        have heq : k = k1 := strLess_total (by simpa using hk) (by simpa using hk2)
        subst heq
        refine ⟨ho, fun p hp => Or.inr hp, fun k' => ?_, fun _ _ => rfl, fun hn => ?_⟩
        · by_cases h : k' = k
          · subst h
            rw [if_pos rfl, mapFind, if_pos rfl]
            rfl
          · rw [if_neg h]
        · rw [mapFind, if_pos rfl] at hn
          cases hn

/-- C36. Key subscript on an existing object touches only that key: for every object whose
members are in key order (a `std::map`) and every key `k`, evaluating `v[k]` leaves an object
in key order in which `find` gives for every other key what it gave before; when `k` was
present the object is unchanged and the slot holds the member at `k`; when `k` was absent one
member is added, `k` mapped to Null; in both cases the returned slot is the member at `k`. -/
theorem subscriptKey_frame (o : JsonObject) (k : List Byte) (ho : keysAscending o = true) :
    ∃ o' slot, (JsonValue.object o).subscriptKey k = (.object o', slot) ∧
      keysAscending o' = true ∧
      (∀ k', k' ≠ k → mapFind o' k' = mapFind o k') ∧
      (∀ x, mapFind o k = some x → o' = o ∧ slot = x) ∧
      (mapFind o k = none → slot = .null ∧ o'.length = o.length + 1) ∧
      mapFind o' k = some slot := by
  obtain ⟨h1, _, h3, h4, h5⟩ := mapEmplace_spec o k .null ho
  refine ⟨mapEmplace o k .null, (mapFind (mapEmplace o k .null) k).getD .null, rfl, h1,
    fun k' hk => by rw [h3 k', if_neg hk], fun x hx => ?_, fun hn => ?_, ?_⟩
  · refine ⟨h4 x hx, ?_⟩
    rw [h3 k, if_pos rfl, hx]
    rfl
  · refine ⟨?_, h5 hn⟩
    rw [h3 k, if_pos rfl, hn]
    rfl
  · rw [h3 k, if_pos rfl]
    rfl

theorem subscriptKey_frame_witness :
    keysAscending [(lit "a", JsonValue.ofInt 1), (lit "c", .bool true)] = true ∧
    (JsonValue.object [(lit "a", JsonValue.ofInt 1), (lit "c", .bool true)]).subscriptKey
      (lit "b") =
      (.object [(lit "a", JsonValue.ofInt 1), (lit "b", .null), (lit "c", .bool true)], .null) ∧
    ∃ o' slot, (JsonValue.object [(lit "a", JsonValue.ofInt 1),
        (lit "c", .bool true)]).subscriptKey (lit "c") = (.object o', slot) ∧
      keysAscending o' = true ∧
      (∀ k', k' ≠ lit "c" →
        mapFind o' k' = mapFind [(lit "a", JsonValue.ofInt 1), (lit "c", .bool true)] k') ∧
      (∀ x, mapFind [(lit "a", JsonValue.ofInt 1), (lit "c", .bool true)] (lit "c") = some x →
        o' = [(lit "a", JsonValue.ofInt 1), (lit "c", .bool true)] ∧ slot = x) ∧
      (mapFind [(lit "a", JsonValue.ofInt 1), (lit "c", .bool true)] (lit "c") = none →
        slot = .null ∧
        o'.length = [(lit "a", JsonValue.ofInt 1), (lit "c", JsonValue.bool true)].length + 1) ∧
      mapFind o' (lit "c") = some slot :=
  ⟨rfl, rfl, subscriptKey_frame _ (lit "c") rfl⟩

/-! ## The offset never decreases and stays within the source -/

namespace JsonDeserializer

theorem Ahead.here {d : JsonDeserializer} (h : d.pos ≤ d.string.length) : d.Ahead d :=
  ⟨rfl, le_refl _, h⟩

theorem Ahead.andThen {d1 d2 d3 : JsonDeserializer} (h1 : d1.Ahead d2) (h2 : d2.Ahead d3) :
    d1.Ahead d3 :=
  ⟨h2.1.trans h1.1, le_trans h1.2.1 h2.2.1, h2.2.2⟩

theorem Ahead.inRange {d d1 : JsonDeserializer} (h : d.Ahead d1) : d1.pos ≤ d1.string.length :=
  h.2.2

theorem Ahead.le_length {d d1 : JsonDeserializer} (h : d.Ahead d1) : d1.pos ≤ d.string.length := by
  rw [← h.1]
  exact h.2.2

theorem advance_pos (d : JsonDeserializer) :
    d.advance.pos = if d.pos < d.string.length then d.pos + 1 else d.pos := by
  unfold advance
  split_ifs <;> first | rfl | omega

theorem ahead_advance {d : JsonDeserializer} (h : d.pos ≤ d.string.length) :
    d.Ahead d.advance := by
  refine ⟨advance_string d, ?_, ?_⟩
  · rw [advance_pos]
    split_ifs <;> omega
  · rw [advance_string, advance_pos]
    split_ifs <;> omega

theorem ahead_next {d : JsonDeserializer} (h : d.pos < d.string.length) : d.Ahead d.next :=
  ⟨rfl, Nat.le_succ _, h⟩

theorem ahead_skipWhitespaceLoop (fuel : Nat) : ∀ {d : JsonDeserializer},
    d.pos ≤ d.string.length → d.Ahead (skipWhitespaceLoop fuel d) := by
  induction fuel with
  | zero => exact fun h => Ahead.here h
  | succ n ih =>
    intro d h
    rw [skipWhitespaceLoop]
    split_ifs
    · exact (ahead_advance h).andThen (ih (ahead_advance h).inRange)
    · exact Ahead.here h

theorem ahead_skipWhitespace {d : JsonDeserializer} (h : d.pos ≤ d.string.length) :
    d.Ahead d.skipWhitespace :=
  ahead_skipWhitespaceLoop _ h

theorem ahead_skipDigitsLoop (fuel : Nat) : ∀ {d : JsonDeserializer},
    d.pos ≤ d.string.length → d.Ahead (skipDigitsLoop fuel d) := by
  induction fuel with
  | zero => exact fun h => Ahead.here h
  | succ n ih =>
    intro d h
    rw [skipDigitsLoop]
    split_ifs
    · exact (ahead_advance h).andThen (ih (ahead_advance h).inRange)
    · exact Ahead.here h

theorem ahead_skipDigits {d : JsonDeserializer} (h : d.pos ≤ d.string.length) :
    d.Ahead d.skipDigits :=
  ahead_skipDigitsLoop _ h

theorem ahead_scanSign {d : JsonDeserializer} (h : d.pos ≤ d.string.length) :
    d.Ahead d.scanSign := by
  unfold JsonDeserializer.scanSign
  split
  · exact ahead_advance h
  · exact Ahead.here h

theorem ahead_scanFraction {d : JsonDeserializer} (h : d.pos ≤ d.string.length) :
    d.Ahead d.scanFraction := by
  unfold JsonDeserializer.scanFraction
  split
  · exact (ahead_advance h).andThen (ahead_skipDigits (ahead_advance h).inRange)
  · exact Ahead.here h

theorem ahead_scanExponent {d : JsonDeserializer} (h : d.pos ≤ d.string.length) :
    d.Ahead d.scanExponent := by
  have k1 := ahead_advance h
  have k2 := k1.andThen (ahead_advance k1.inRange)
  unfold JsonDeserializer.scanExponent
  split
  · simp only []
    split
    · exact k2.andThen (ahead_skipDigits k2.inRange)
    · exact k1.andThen (ahead_skipDigits k1.inRange)
  · exact Ahead.here h

theorem ahead_scanNumber {d : JsonDeserializer} (h : d.pos ≤ d.string.length) :
    d.Ahead (scanNumber d).1 := by
  have h1 := ahead_scanSign h
  have h2 := h1.andThen (ahead_skipDigits h1.inRange)
  have h3 := h2.andThen (ahead_scanFraction h2.inRange)
  exact h3.andThen (ahead_scanExponent h3.inRange)

theorem ahead_parseNumber {d : JsonDeserializer} (h : d.pos ≤ d.string.length)
    (e : ParseError) : d.Ahead (parseNumber d e).2.1 := by
  have := ahead_scanNumber h
  unfold parseNumber
  rcases hs : scanNumber d with ⟨d1, tok⟩
  rw [hs] at this
  dsimp only
  split_ifs <;> exact this

theorem ahead_skip {d : JsonDeserializer} {n : Nat} {w : List Byte} {p : ErrorPos}
    (h : d.pos ≤ d.string.length) (hw : (d.string.drop d.pos).take n = w) (hn : w.length = n) :
    d.Ahead { d with pos := d.pos + n, posinfo := p } := by
  refine ⟨rfl, Nat.le_add_right _ _, ?_⟩
  have := congrArg List.length hw
  rw [List.length_take, List.length_drop, hn] at this
  show d.pos + n ≤ d.string.length
  omega

theorem ahead_parseNull {d : JsonDeserializer} (h : d.pos ≤ d.string.length)
    (e : ParseError) : d.Ahead (parseNull d e).2.1 := by
  unfold parseNull
  split_ifs with h1
  · exact ahead_skip h h1 rfl
  · exact Ahead.here h

theorem ahead_parseBool {d : JsonDeserializer} (h : d.pos ≤ d.string.length)
    (e : ParseError) : d.Ahead (parseBool d e).2.1 := by
  unfold parseBool
  split_ifs with h1 h2
  · exact ahead_skip h h1 rfl
  · exact ahead_skip h h2 rfl
  · exact Ahead.here h

theorem ahead_hexLoop : ∀ (k : Nat) (d : JsonDeserializer) (code : Nat),
    d.pos + k ≤ d.string.length → d.Ahead (hexLoop k d code).2
  | 0, d, code, h => Ahead.here (by omega)
  | k + 1, d, code, h => by
    have h1 : d.Ahead d.next := ahead_next (by omega)
    rw [hexLoop]
    cases hexDigit d.cur with
    | none => exact h1
    | some x =>
      exact h1.andThen (ahead_hexLoop k d.next _ (by
        show d.pos + 1 + k ≤ d.string.length
        omega))

/-- The loop of `parseString`: the offset does not decrease, and an iteration that is entered
reads at least one character. -/
theorem ahead_parseStringLoop (fuel : Nat) : ∀ (d : JsonDeserializer) (out : List Byte)
    (e : ParseError), d.pos ≤ d.string.length →
    d.Ahead (parseStringLoop fuel d out e).2.1 ∧
    (0 < fuel → d.pos < d.string.length → d.pos < (parseStringLoop fuel d out e).2.1.pos) := by
  induction fuel with
  | zero =>
    intro d out e h
    exact ⟨Ahead.here h, fun h0 => absurd h0 (by decide)⟩
  | succ n ih =>
    intro d out e h
    by_cases hlt : d.pos < d.string.length
    swap
    · rw [parseStringLoop_succ, if_pos hlt]
      exact ⟨Ahead.here h, fun _ hc => absurd hc hlt⟩
    have h1 : d.Ahead d.next := ahead_next hlt
    have hp1 : d.pos < d.next.pos := Nat.lt_succ_self _
    have key : ∀ d1 : JsonDeserializer, d.Ahead d1 → d.pos < d1.pos → ∀ out1,
        d.Ahead (parseStringLoop n d1 out1 e).2.1 ∧
          d.pos < (parseStringLoop n d1 out1 e).2.1.pos := by
      intro d1 hd1 hlt1 out1
      have := (ih d1 out1 e hd1.inRange).1
      exact ⟨hd1.andThen this, lt_of_lt_of_le hlt1 this.2.1⟩
    have fin : ∀ x : ParseResult, (d.Ahead x.2.1 ∧ d.pos < x.2.1.pos) →
        d.Ahead x.2.1 ∧ (0 < n + 1 → d.pos < d.string.length → d.pos < x.2.1.pos) :=
      fun x hx => ⟨hx.1, fun _ _ => hx.2⟩
    apply fin
    rw [parseStringLoop_succ, if_neg (not_not.2 hlt)]
    by_cases c1 : d.cur = 34
    · rw [if_pos c1]
      exact ⟨h1, hp1⟩
    rw [if_neg c1]
    by_cases c2 : d.cur = 92
    · rw [if_pos c2]
      by_cases c3 : d.next.pos ≥ d.next.string.length
      · rw [if_pos c3]
        exact ⟨h1, hp1⟩
      rw [if_neg c3]
      have hlt2 : d.next.pos < d.next.string.length := not_le.1 c3
      have h2 : d.Ahead d.next.next := h1.andThen (ahead_next hlt2)
      have hp2 : d.pos < d.next.next.pos := lt_trans hp1 (Nat.lt_succ_self _)
      cases hs : simpleEscape d.next.cur with
      | some x => exact key _ h2 hp2 _
      | none =>
        simp only [Option.elim]
        by_cases c4 : d.next.cur = 117
        · rw [if_pos c4]
          by_cases c5 : d.next.next.pos + 4 > d.next.next.string.length
          · rw [if_pos c5]
            exact ⟨h2, hp2⟩
          rw [if_neg c5]
          have h3 := ahead_hexLoop 4 d.next.next 0 (by omega)
          have h4 : d.Ahead (hexLoop 4 d.next.next 0).2 := h2.andThen h3
          have hp4 : d.pos < (hexLoop 4 d.next.next 0).2.pos := lt_of_lt_of_le hp2 h3.2.1
          rcases hx : hexLoop 4 d.next.next 0 with ⟨_ | code, d'⟩
          · rw [hx] at h4 hp4
            exact ⟨h4, hp4⟩
          · rw [hx] at h4 hp4
            exact key _ h4 hp4 _
        · rw [if_neg c4]
          exact ⟨h2, hp2⟩
    · rw [if_neg c2]
      refine key _ ?_ ?_ _
      · split_ifs
        · exact h1
        · exact h1
      · split_ifs
        · exact hp1
        · exact hp1

theorem ahead_parseString {d : JsonDeserializer} (h : d.pos ≤ d.string.length)
    (e : ParseError) : d.Ahead (parseString d e).2.1 := by
  rw [parseString_eq]
  split_ifs
  · exact (ahead_advance h).andThen (ahead_parseStringLoop _ _ _ _ (ahead_advance h).inRange).1
  · exact Ahead.here h

theorem advance_pos_of_peek {d : JsonDeserializer} {c : Byte} (h : d.peek = c) (hc : c ≠ 0) :
    d.advance.pos = d.pos + 1 := by
  rw [advance_pos, if_pos]
  by_contra hlt
  unfold peek at h
  rw [if_pos (not_lt.1 hlt)] at h
  exact hc h.symm

/-- The offsets of the five mutually recursive functions never decrease and stay within the
source, whatever they return. -/
theorem ahead (f : Nat) :
    (∀ d e v d' e', d.pos ≤ d.string.length → parseJsonValue f d e = some (v, d', e') →
      d.Ahead d') ∧
    (∀ d e v d' e', d.pos ≤ d.string.length → parseObject f d e = some (v, d', e') →
      d.Ahead d') ∧
    (∀ d acc e v d' e', d.pos ≤ d.string.length → parseObjectLoop f d acc e = some (v, d', e') →
      d.Ahead d') ∧
    (∀ d e v d' e', d.pos ≤ d.string.length → parseArray f d e = some (v, d', e') →
      d.Ahead d') ∧
    (∀ d acc e v d' e', d.pos ≤ d.string.length → parseArrayLoop f d acc e = some (v, d', e') →
      d.Ahead d') := by
  induction f with
  | zero =>
    refine ⟨?_, ?_, ?_, ?_, ?_⟩ <;> intros <;> simp_all [parseJsonValue, parseObject,
      parseObjectLoop, parseArray, parseArrayLoop]
  | succ n ih =>
    obtain ⟨ihv, iho, ihol, iha, ihal⟩ := ih
    have fin : ∀ {d : JsonDeserializer} {x : ParseResult} {v d' e'}, d.Ahead x.2.1 →
        some x = some (v, d', e') → d.Ahead d' := by
      intro d x v d' e' hx h
      cases h
      exact hx
    have fin3 : ∀ {d d1 : JsonDeserializer} {v1 : JsonValue} {e1 : ParseError} {v d' e'},
        d.Ahead d1 → some (v1, d1, e1) = some (v, d', e') → d.Ahead d' := by
      intro d d1 v1 e1 v d' e' hx h
      cases h
      exact hx
    refine ⟨?_, ?_, ?_, ?_, ?_⟩
    · intro d e v d' e' hd h
      rw [parseJsonValue_succ] at h
      split_ifs at h
      · exact fin (Ahead.here hd) h
      · exact fin (ahead_parseNull hd e) h
      · exact fin (ahead_parseBool hd e) h
      · exact fin (ahead_parseString hd e) h
      · exact iha _ _ _ _ _ hd h
      · exact iho _ _ _ _ _ hd h
      · exact fin (ahead_parseNumber hd e) h
      · exact fin (Ahead.here hd) h
    · intro d e v d' e' hd h
      have h1 := (ahead_advance hd).andThen (ahead_skipWhitespace (ahead_advance hd).inRange)
      rw [parseObject_succ] at h
      split_ifs at h
      · exact fin3 (h1.andThen (ahead_advance h1.inRange)) h
      · exact h1.andThen (ihol _ _ _ _ _ _ h1.inRange h)
      · exact fin3 (Ahead.here hd) h
    · intro d acc e v d' e' hd h
      have h1 := ahead_skipWhitespace hd
      have h2 := h1.andThen (ahead_parseString h1.inRange e)
      have h3 := h2.andThen (ahead_skipWhitespace h2.inRange)
      have h4 := (h3.andThen (ahead_advance h3.inRange))
      have h5 := h4.andThen (ahead_skipWhitespace h4.inRange)
      rcases hp : parseString d.skipWhitespace e with ⟨kv, d1, e1⟩
      rw [hp] at h2 h3 h4 h5
      rw [parseObjectLoop_succ _ _ _ _ hp] at h
      split_ifs at h
      · exact fin3 h1 h
      · exact fin3 h2 h
      · exact fin3 h3 h
      · cases hr : parseJsonValue n d1.skipWhitespace.advance.skipWhitespace e1 with
        | none =>
          rw [hr] at h
          cases h
        | some r =>
          obtain ⟨v1, d2, e2⟩ := r
          rw [hr, Option.some_bind] at h
          have h6 := h5.andThen (ihv _ _ _ _ _ h5.inRange hr)
          have h7 := h6.andThen (ahead_skipWhitespace h6.inRange)
          have h8 := h7.andThen (ahead_advance h7.inRange)
          have h9 := h8.andThen (ahead_skipWhitespace h8.inRange)
          dsimp only at h
          split_ifs at h
          · exact fin3 h6 h
          · exact fin3 h8 h
          · exact h9.andThen (ihol _ _ _ _ _ _ h9.inRange h)
          · exact fin3 h7 h
    · intro d e v d' e' hd h
      have h1 := (ahead_advance hd).andThen (ahead_skipWhitespace (ahead_advance hd).inRange)
      rw [parseArray_succ] at h
      split_ifs at h
      · exact fin3 (h1.andThen (ahead_advance h1.inRange)) h
      · exact h1.andThen (ihal _ _ _ _ _ _ h1.inRange h)
      · exact fin3 (Ahead.here hd) h
    · intro d acc e v d' e' hd h
      have h5 := ahead_skipWhitespace hd
      rw [parseArrayLoop_succ] at h
      cases hr : parseJsonValue n d.skipWhitespace e with
      | none =>
        rw [hr] at h
        cases h
      | some r =>
        obtain ⟨v1, d1, e1⟩ := r
        rw [hr, Option.some_bind] at h
        have h6 := h5.andThen (ihv _ _ _ _ _ h5.inRange hr)
        have h7 := h6.andThen (ahead_skipWhitespace h6.inRange)
        have h8 := h7.andThen (ahead_advance h7.inRange)
        have h9 := h8.andThen (ahead_skipWhitespace h8.inRange)
        dsimp only at h
        split_ifs at h
        · exact fin3 h6 h
        · exact fin3 h8 h
        · exact h9.andThen (ihal _ _ _ _ _ _ h9.inRange h)
        · exact fin3 h7 h


theorem parseStringLoop_fuel (fuel : Nat) : ∀ (d : JsonDeserializer) (out : List Byte)
    (e : ParseError), d.string.length - d.pos ≤ fuel →
    parseStringLoop (fuel + 1) d out e = parseStringLoop fuel d out e := by
  induction fuel with
  | zero =>
    intro d out e h
    rw [parseStringLoop_succ, if_pos (by omega), parseStringLoop]
  | succ n ih =>
    intro d out e h
    rw [parseStringLoop_succ (n + 1) d out e, parseStringLoop_succ n d out e]
    by_cases hlt : d.pos < d.string.length
    swap
    · rw [if_pos hlt, if_pos hlt]
    rw [if_neg (not_not.2 hlt), if_neg (not_not.2 hlt)]
    have key : ∀ (d1 : JsonDeserializer) (out1 : List Byte), d1.string = d.string →
        d.pos < d1.pos → parseStringLoop (n + 1) d1 out1 e = parseStringLoop n d1 out1 e := by
      intro d1 out1 hs hp
      apply ih
      rw [hs]
      omega
    have hp1 : d.pos < d.next.pos := Nat.lt_succ_self _
    have hp2 : d.pos < d.next.next.pos := lt_trans hp1 (Nat.lt_succ_self _)
    by_cases c1 : d.cur = 34
    · rw [if_pos c1, if_pos c1]
    rw [if_neg c1, if_neg c1]
    by_cases c2 : d.cur = 92
    · rw [if_pos c2, if_pos c2]
      by_cases c3 : d.next.pos ≥ d.next.string.length
      · rw [if_pos c3, if_pos c3]
      rw [if_neg c3, if_neg c3]
      cases hs : simpleEscape d.next.cur with
      | some x => exact key _ _ rfl hp2
      | none =>
        simp only [Option.elim]
        by_cases c4 : d.next.cur = 117
        · rw [if_pos c4, if_pos c4]
          by_cases c5 : d.next.next.pos + 4 > d.next.next.string.length
          · rw [if_pos c5, if_pos c5]
          rw [if_neg c5, if_neg c5]
          have h3 := ahead_hexLoop 4 d.next.next 0 (by omega)
          rcases hx : hexLoop 4 d.next.next 0 with ⟨_ | code, d2⟩
          · rfl
          · rw [hx] at h3
            exact key _ _ h3.1 (lt_of_lt_of_le hp2 h3.2.1)
        · rw [if_neg c4, if_neg c4]
    · rw [if_neg c2, if_neg c2]
      refine key _ _ ?_ ?_
      · split_ifs <;> rfl
      · split_ifs
        · exact hp1
        · exact hp1

theorem parseStringLoop_enough (d : JsonDeserializer) (out : List Byte) (e : ParseError) :
    ∀ g, d.string.length - d.pos ≤ g →
      parseStringLoop g d out e = parseStringLoop (d.string.length - d.pos) d out e := by
  intro g hg
  induction hg with
  | refl => rfl
  | step hle ih => rw [parseStringLoop_fuel _ _ _ _ hle, ih]

theorem skipDigitsLoop_stop (fuel : Nat) : ∀ d : JsonDeserializer,
    d.string.length - d.pos ≤ fuel →
    ¬ ((skipDigitsLoop fuel d).pos < (skipDigitsLoop fuel d).string.length ∧
      isdigit (skipDigitsLoop fuel d).cur = true) := by
  induction fuel with
  | zero =>
    intro d hf
    rw [skipDigitsLoop]
    intro h
    omega
  | succ n ih =>
    intro d hf
    rw [skipDigitsLoop]
    split
    · rename_i hc
      apply ih
      rw [advance_string, advance_pos, if_pos hc.1]
      omega
    · assumption

theorem arrayLoopCalls_chain (f : Nat) : ∀ (d : JsonDeserializer) (e : ParseError) (p0 : Nat),
    d.pos ≤ d.string.length → p0 < d.pos →
    List.Chain (fun a b : Nat => a < b) p0 (arrayLoopCalls f d e) := by
  induction f with
  | zero =>
    intro d e p0 _ _
    rw [arrayLoopCalls]
    exact List.Chain.nil
  | succ n ih =>
    intro d e p0 hd hp
    have h1 := ahead_skipWhitespace hd
    rw [arrayLoopCalls]
    dsimp only
    refine List.Chain.cons (lt_of_lt_of_le hp h1.2.1) ?_
    cases hr : parseJsonValue n d.skipWhitespace e with
    | none => exact List.Chain.nil
    | some r =>
      obtain ⟨v1, d1, e1⟩ := r
      dsimp only
      have h2 := (ahead n).1 _ _ _ _ _ h1.inRange hr
      have h3 := ahead_skipWhitespace h2.inRange
      have h4 := ahead_advance h3.inRange
      have h5 := ahead_skipWhitespace h4.inRange
      split_ifs with c1 c2 c3
      · exact List.Chain.nil
      · exact List.Chain.nil
      · apply ih _ _ _ h5.inRange
        have := advance_pos_of_peek c3 (by decide)
        have a2 := h2.2.1
        have a3 := h3.2.1
        have a5 := h5.2.1
        omega
      · exact List.Chain.nil

theorem parseArrayCalls_chain (f : Nat) (d : JsonDeserializer) (e : ParseError)
    (hd : d.pos ≤ d.string.length) :
    List.Chain (fun a b : Nat => a < b) d.pos (parseArrayCalls f d e) := by
  cases f with
  | zero =>
    rw [parseArrayCalls]
    exact List.Chain.nil
  | succ n =>
    rw [parseArrayCalls, expectChar_eq]
    by_cases c : d.peek = 91
    · rw [if_pos c]
      dsimp only
      split_ifs
      · exact List.Chain.nil
      · have h1 := ahead_advance hd
        have h2 := ahead_skipWhitespace h1.inRange
        apply arrayLoopCalls_chain _ _ _ _ h2.inRange
        have := advance_pos_of_peek c (by decide)
        have a2 := h2.2.1
        omega
    · rw [if_neg c]
      exact List.Chain.nil

theorem objectLoopCalls_chain (f : Nat) : ∀ (d : JsonDeserializer) (e : ParseError) (p0 : Nat),
    d.pos ≤ d.string.length → p0 ≤ d.pos →
    List.Chain (fun a b : Nat => a < b) p0 (objectLoopCalls f d e) := by
  induction f with
  | zero =>
    intro d e p0 _ _
    rw [objectLoopCalls]
    exact List.Chain.nil
  | succ n ih =>
    intro d e p0 hd hp
    have h1 := ahead_skipWhitespace hd
    have h2 := ahead_parseString h1.inRange e
    rw [objectLoopCalls]
    dsimp only
    by_cases c1 : d.skipWhitespace.peek ≠ 34
    · rw [if_pos c1]
      exact List.Chain.nil
    rw [if_neg c1]
    rcases hps : parseString d.skipWhitespace e with ⟨kv, d1, e1⟩
    replace h2 : d.skipWhitespace.Ahead d1 := by
      rw [hps] at h2
      exact h2
    dsimp only
    by_cases c2 : e1.what ≠ []
    · rw [if_pos c2]
      exact List.Chain.nil
    rw [if_neg c2]
    have h3 := ahead_skipWhitespace h2.inRange
    have h4 := ahead_advance h3.inRange
    have h5 := ahead_skipWhitespace h4.inRange
    rw [expectChar_eq]
    by_cases c3 : d1.skipWhitespace.peek = 58
    swap
    · rw [if_neg c3]
      exact List.Chain.nil
    rw [if_pos c3]
    dsimp only
    have hcolon := advance_pos_of_peek c3 (by decide)
    refine List.Chain.cons ?_ ?_
    · have a1 := h1.2.1
      have a2 := h2.2.1
      have a3 := h3.2.1
      have a5 := h5.2.1
      omega
    cases hr : parseJsonValue n d1.skipWhitespace.advance.skipWhitespace e1 with
    | none => exact List.Chain.nil
    | some r =>
      obtain ⟨v2, d2, e2⟩ := r
      dsimp only
      have h6 := (ahead n).1 _ _ _ _ _ h5.inRange hr
      have h7 := ahead_skipWhitespace h6.inRange
      have h8 := ahead_advance h7.inRange
      have h9 := ahead_skipWhitespace h8.inRange
      split_ifs with c4 c5 c6
      · exact List.Chain.nil
      · exact List.Chain.nil
      · apply ih _ _ _ h9.inRange
        have a6 := h6.2.1
        have a7 := h7.2.1
        have a8 := h8.2.1
        have a9 := h9.2.1
        omega
      · exact List.Chain.nil

theorem parseObjectCalls_chain (f : Nat) (d : JsonDeserializer) (e : ParseError)
    (hd : d.pos ≤ d.string.length) :
    List.Chain (fun a b : Nat => a < b) d.pos (parseObjectCalls f d e) := by
  cases f with
  | zero =>
    rw [parseObjectCalls]
    exact List.Chain.nil
  | succ n =>
    rw [parseObjectCalls, expectChar_eq]
    by_cases c : d.peek = 123
    · rw [if_pos c]
      dsimp only
      split_ifs
      · exact List.Chain.nil
      · have h1 := ahead_advance hd
        have h2 := ahead_skipWhitespace h1.inRange
        apply objectLoopCalls_chain _ _ _ _ h2.inRange
        have a1 := h1.2.1
        have a2 := h2.2.1
        omega
    · rw [if_neg c]
      exact List.Chain.nil


theorem advanceReads_lt (d : JsonDeserializer) : ∀ i ∈ advanceReads d, i < d.string.length := by
  intro i hi
  unfold advanceReads at hi
  split_ifs at hi with h
  · cases hi
  · rw [List.mem_singleton] at hi
    omega

theorem skipDigitsLoopReads_lt (fuel : Nat) : ∀ d : JsonDeserializer,
    ∀ i ∈ skipDigitsLoopReads fuel d, i < d.string.length := by
  induction fuel with
  | zero =>
    intro d i hi
    rw [skipDigitsLoopReads] at hi
    cases hi
  | succ n ih =>
    intro d i hi
    rw [skipDigitsLoopReads] at hi
    split_ifs at hi with h1 h2
    · rcases List.mem_cons.1 hi with rfl | hi
      · exact h1
      · rcases List.mem_append.1 hi with hi | hi
        · exact advanceReads_lt d i hi
        · have := ih _ i hi
          rwa [advance_string] at this
    · rw [List.mem_singleton] at hi
      omega
    · cases hi

theorem skipDigitsReads_lt (d : JsonDeserializer) :
    ∀ i ∈ skipDigitsReads d, i < d.string.length :=
  skipDigitsLoopReads_lt _ d

theorem eitherReads_eq (d : JsonDeserializer) (a : Byte) : ∀ i ∈ eitherReads d a, i = d.pos := by
  intro i hi
  unfold eitherReads at hi
  split_ifs at hi <;> simp at hi <;> exact hi

/-- The reads of the scan of `parseNumber`, entered at a character of the source, are at
offsets up to the length of the source. -/
theorem scanNumberReads_le (d : JsonDeserializer) (h : d.pos < d.string.length) :
    ∀ i ∈ scanNumberReads d, i ≤ d.string.length := by
  intro i hi
  unfold scanNumberReads at hi
  rcases List.mem_append.1 hi with hi | hi
  · rcases List.mem_append.1 hi with hi | hi
    · rcases List.mem_append.1 hi with hi | hi
      · unfold scanSignReads at hi
        rcases List.mem_cons.1 hi with rfl | hi
        · exact le_of_lt h
        · split_ifs at hi
          · exact le_of_lt (advanceReads_lt d i hi)
          · cases hi
      · have := skipDigitsReads_lt _ i hi
        rw [scanSign_string] at this
        exact le_of_lt this
    · generalize hg : skipDigits (scanSign d) = g at hi
      have hs : g.string = d.string := by rw [← hg, skipDigits_string, scanSign_string]
      rw [← hs]
      unfold scanFractionReads at hi
      split_ifs at hi with h1 h2
      · rcases List.mem_cons.1 hi with rfl | hi
        · exact le_of_lt h1
        · rcases List.mem_append.1 hi with hi | hi
          · exact le_of_lt (advanceReads_lt g i hi)
          · have := skipDigitsReads_lt _ i hi
            rw [advance_string] at this
            exact le_of_lt this
      · rw [List.mem_singleton] at hi
        omega
      · cases hi
  · generalize hg : scanFraction (skipDigits (scanSign d)) = g at hi
    have hs : g.string = d.string := by
      rw [← hg, scanFraction_string, skipDigits_string, scanSign_string]
    rw [← hs]
    unfold scanExponentReads at hi
    split_ifs at hi with h1 h2
    · rcases List.mem_append.1 hi with hi | hi
      · rw [eitherReads_eq g 101 i hi]
        exact le_of_lt h1
      · rcases List.mem_append.1 hi with hi | hi
        · exact le_of_lt (advanceReads_lt g i hi)
        · dsimp only at hi
          rcases List.mem_append.1 hi with hi | hi
          · rw [eitherReads_eq _ 43 i hi, advance_pos, if_pos h1]
            omega
          · have k1 := advanceReads_lt g.advance i
            have k2 := skipDigitsReads_lt g.advance.advance i
            have k3 := skipDigitsReads_lt g.advance i
            rw [advance_string] at k1 k3
            rw [advance_string, advance_string] at k2
            split_ifs at hi
            · rcases List.mem_append.1 hi with hi | hi
              · exact le_of_lt (k1 hi)
              · exact le_of_lt (k2 hi)
            · exact le_of_lt (k3 hi)
    · rcases List.mem_append.1 hi with hi | hi
      · rw [eitherReads_eq g 101 i hi]
        exact le_of_lt h1
      · cases hi
    · cases hi

end JsonDeserializer

/-! ## Termination -/

/-- Termination of the descent where the call stack is not a limit, as in the embedding, whose
recursion is driven by fuel: `parse` returns for every text; from any
offset within the source `parseJsonValue` returns as soon as the fuel is three times the
number of characters left plus one, whatever the nesting, and with more fuel it returns the
same; the offset never decreases (after `parseJsonValue`, `skipWhitespace`, `advance`,
`parseString`, `parseNumber`); an iteration of the loop of `skipWhitespace` and of the digit
loops of `parseNumber` moves the offset by one and the loops stop where their condition
fails; an iteration of the loop of `parseString` reads at least one character and the loop
needs no more iterations than characters are left; and the offsets at which `parseArray` and
`parseObject`, entered at offset `pos`, call `parseJsonValue` form a strictly increasing
chain that starts above `pos`. -/
theorem parser_terminates (d : JsonDeserializer) (e : ParseError) (f : Nat)
    (hd : d.pos ≤ d.string.length) :
    (∀ t e0, ∃ v err, parse t e0 = some (v, err)) ∧
    (e.what = [] → ∃ x, ∀ g, 3 * (d.string.length - d.pos) + 1 ≤ g →
      parseJsonValue g d e = some x) ∧
    (∀ v d1 e1, parseJsonValue f d e = some (v, d1, e1) → d.Ahead d1) ∧
    d.Ahead d.skipWhitespace ∧ d.Ahead d.advance ∧ d.Ahead (parseString d e).2.1 ∧
    d.Ahead (parseNumber d e).2.1 ∧
    (d.pos < d.string.length → isspace d.cur = true →
      skipWhitespaceLoop (f + 1) d = skipWhitespaceLoop f d.advance ∧
      d.advance.pos = d.pos + 1) ∧
    ¬ (d.skipWhitespace.pos < d.skipWhitespace.string.length ∧
      isspace d.skipWhitespace.cur = true) ∧
    (d.pos < d.string.length → isdigit d.cur = true →
      skipDigitsLoop (f + 1) d = skipDigitsLoop f d.advance ∧ d.advance.pos = d.pos + 1) ∧
    ¬ (d.skipDigits.pos < d.skipDigits.string.length ∧ isdigit d.skipDigits.cur = true) ∧
    (∀ out, d.pos < d.string.length → d.pos < (parseStringLoop (f + 1) d out e).2.1.pos) ∧
    (∀ out g, d.string.length - d.pos ≤ g →
      parseStringLoop g d out e = parseStringLoop (d.string.length - d.pos) d out e) ∧
    List.Chain (fun a b : Nat => a < b) d.pos (parseArrayCalls f d e) ∧
    List.Chain (fun a b : Nat => a < b) d.pos (parseObjectCalls f d e) := by
  refine ⟨parse_total, fun he => ?_, fun v d1 e1 h => (ahead f).1 _ _ _ _ _ hd h,
    ahead_skipWhitespace hd, ahead_advance hd, ahead_parseString hd e, ahead_parseNumber hd e,
    fun h1 h2 => ?_, skipWhitespaceLoop_stop _ d (by omega), fun h1 h2 => ?_,
    skipDigitsLoop_stop _ d (by omega),
    fun out h => ((ahead_parseStringLoop (f + 1) d out e hd).2 (Nat.succ_pos f) h),
    fun out => parseStringLoop_enough d out e, parseArrayCalls_chain f d e hd, parseObjectCalls_chain f d e hd⟩
  · have hat : d.At (d.string.drop d.pos) := ⟨hd, rfl⟩
    obtain ⟨x, hx⟩ := (total (d.string.length - d.pos) _ d e (by rw [List.length_drop]) hat he).1
      _ (le_refl _)
    exact ⟨x, fun g hg => (fuel_mono hg).1 _ _ _ hx⟩
  · refine ⟨?_, by rw [advance_pos, if_pos h1]⟩
    rw [skipWhitespaceLoop, if_pos ⟨h1, h2⟩]
  · refine ⟨?_, by rw [advance_pos, if_pos h1]⟩
    rw [skipDigitsLoop, if_pos ⟨h1, h2⟩]

theorem parser_terminates_witness :
    (0 : Nat) ≤ (lit "[1,[2]]").length ∧
    parseArrayCalls 4 ⟨lit "[1,[2]]", 0, ⟨1, 1⟩⟩ {} = [1, 3] ∧
    List.Chain (fun a b : Nat => a < b) 0 (parseArrayCalls 4 ⟨lit "[1,[2]]", 0, ⟨1, 1⟩⟩ {}) ∧
    ∃ x, ∀ g, 3 * ((lit "[1,[2]]").length - 0) + 1 ≤ g →
      parseJsonValue g ⟨lit "[1,[2]]", 0, ⟨1, 1⟩⟩ {} = some x :=
  ⟨by decide, by rfl,
    (parser_terminates ⟨lit "[1,[2]]", 0, ⟨1, 1⟩⟩ {} 4 (by decide)).2.2.2.2.2.2.2.2.2.2.2.2.2.1,
    (parser_terminates ⟨lit "[1,[2]]", 0, ⟨1, 1⟩⟩ {} 4 (by decide)).2.1 rfl⟩

/-! ## The reads of `parseNumber` -/

/-- C38. No read past the end of the input, at the two-character text `1e`: `parse` hands the
text to `parseNumber` at offset 0, the scan evaluates `string[pos]` at the offsets 0, 0, 0, 1,
1, 1, 1, 2, 2, and the last two reads, the test of the sign after the exponent letter, are at
offset 2, which is the length of the input and not below it; the token `1e` is then
rejected. -/
theorem exponent_sign_read_at_length :
    JsonDeserializer.skipWhitespace { string := lit "1e" } = ⟨lit "1e", 0, ⟨1, 1⟩⟩ ∧
    numberStart (JsonDeserializer.cur ⟨lit "1e", 0, ⟨1, 1⟩⟩) = true ∧
    scanNumberReads ⟨lit "1e", 0, ⟨1, 1⟩⟩ = [0, 0, 0, 1, 1, 1, 1, 2, 2] ∧
    (lit "1e").length = 2 ∧
    parse (lit "1e") {} = some (.null, ⟨lit "Invalid number format", ⟨1, 3⟩⟩) := by
  refine ⟨by rfl, by rfl, by rfl, by rfl, by rfl⟩

/-! ## Objects are written in the order of their keys -/

theorem strLess_iff_lex : ∀ (a b : List Nat),
    strLess a b = true ↔ List.Lex (fun x y : Nat => x < y) a b
  | [], [] => by simp [strLess]
  | [], _ :: _ => by simp [strLess, List.Lex.nil]
  | _ :: _, [] => by simp [strLess]
  | x :: a, y :: b => by
    rw [strLess_cons]
    by_cases hxy : x < y
    · rw [if_pos hxy]
      exact ⟨fun _ => List.Lex.rel hxy, fun _ => rfl⟩
    · rw [if_neg hxy]
      by_cases hyx : y < x
      · rw [if_pos hyx]
        refine ⟨fun h => (by cases h), fun h => ?_⟩
        cases h with
        | cons h => exact absurd hyx (lt_irrefl _)
        | rel h => exact absurd h hxy
      · rw [if_neg hyx]
        have hxy2 : x = y := by omega
        subst hxy2
        rw [strLess_iff_lex a b]
        refine ⟨fun h => List.Lex.cons h, fun h => ?_⟩
        cases h with
        | cons h => exact h
        | rel h => exact absurd h hxy

theorem compactMembers_eq_intercalate (q : List Byte → List Byte) :
    ∀ o : List (List Byte × JsonValue), compactMembers q o =
      List.intercalate [44] (o.map fun p => q p.1 ++ [58] ++ compactText q p.2)
  | [] => by simp [compactMembers, List.intercalate]
  | [(k, v)] => by simp [compactMembers, List.intercalate]
  | (k, v) :: m :: rest => by
    rw [compactMembers, compactMembers_eq_intercalate q (m :: rest)]
    simp [List.intercalate, List.intersperse]

theorem mapFind_none_of_lt {o : JsonObject} {k : List Byte}
    (h : ∀ p ∈ o, strLess k p.1 = true) : mapFind o k = none := by
  cases hf : mapFind o k with
  | none => rfl
  | some x =>
    have := h _ (mapFind_mem hf)
    rw [strLess_irrefl] at this
    cases this

theorem mapFind_of_mem {o : JsonObject} {k : List Byte} {x : JsonValue}
    (ho : keysAscending o = true) (h : (k, x) ∈ o) : mapFind o k = some x := by
  induction o with
  | nil => cases h
  | cons p o ih =>
    obtain ⟨k1, v1⟩ := p
    obtain ⟨hrest, hlt⟩ := keysAscending_cons ho
    rw [mapFind]
    rcases List.mem_cons.1 h with h | h
    · cases h
      rw [if_pos rfl]
    · have hne : k1 ≠ k := fun hc => by
        have := hlt _ h
        rw [hc, strLess_irrefl] at this
        cases this
      rw [if_neg hne]
      exact ih hrest h

/-- Two maps with the same entries under every key are the same map. -/
theorem map_ext : ∀ {o1 o2 : JsonObject}, keysAscending o1 = true → keysAscending o2 = true →
    (∀ k, mapFind o1 k = mapFind o2 k) → o1 = o2
  | [], [], _, _, _ => rfl
  | [], (k, v) :: r, _, _, h => by
    have := h k
    simp [mapFind] at this
  | (k, v) :: r, [], _, _, h => by
    have := h k
    simp [mapFind] at this
  | (k1, v1) :: r1, (k2, v2) :: r2, h1, h2, h => by
    obtain ⟨hr1, hl1⟩ := keysAscending_cons h1
    obtain ⟨hr2, hl2⟩ := keysAscending_cons h2
    have hk : k1 = k2 := by
      apply strLess_total
      · by_contra hc
        have hc2 : strLess k1 k2 = true := by simpa using hc
        have hn : mapFind ((k2, v2) :: r2) k1 = none :=
          mapFind_none_of_lt (fun p hp => by
            rcases List.mem_cons.1 hp with rfl | hp
            · exact hc2
            · exact strLess_trans hc2 (hl2 p hp))
        have := h k1
        rw [hn, mapFind, if_pos rfl] at this
        cases this
      · by_contra hc
        have hc2 : strLess k2 k1 = true := by simpa using hc
        have hn : mapFind ((k1, v1) :: r1) k2 = none :=
          mapFind_none_of_lt (fun p hp => by
            rcases List.mem_cons.1 hp with rfl | hp
            · exact hc2
            · exact strLess_trans hc2 (hl1 p hp))
        have := h k2
        rw [hn, mapFind, if_pos rfl] at this
        cases this
    subst hk
    have hv : v1 = v2 := by
      have := h k1
      rw [mapFind, mapFind, if_pos rfl, if_pos rfl] at this
      exact Option.some.inj this
    subst hv
    have hr : r1 = r2 := by
      apply map_ext hr1 hr2
      intro k
      by_cases hk : k1 = k
      · subst hk
        rw [mapFind_none_of_lt hl1, mapFind_none_of_lt hl2]
      · have := h k
        rwa [mapFind, mapFind, if_neg hk, if_neg hk] at this
    rw [hr]

theorem mapAssign_spec : ∀ (o : JsonObject) (k : List Byte) (x : JsonValue),
    keysAscending o = true →
    keysAscending (mapAssign o k x) = true ∧
    (∀ p ∈ (mapAssign o k x).head?, ∃ p0 ∈ o.head?, p.1 = p0.1) ∧
    ∀ k', mapFind (mapAssign o k x) k' =
      if k' = k then (mapFind o k).map (fun _ => x) else mapFind o k'
  | [], k, x, _ => by
    refine ⟨rfl, fun p hp => by simp [mapAssign] at hp, fun k' => ?_⟩
    simp [mapAssign, mapFind]
  | (k1, v1) :: rest, k, x, ho => by
    obtain ⟨hrest, hlt⟩ := keysAscending_cons ho
    obtain ⟨ih1, ih2, ih3⟩ := mapAssign_spec rest k x hrest
    rw [mapAssign]
    by_cases hk : k1 = k
    · rw [if_pos hk]
      refine ⟨keysAscending_of_head hrest (fun p hp => hlt p (List.mem_of_mem_head? hp)),
        fun p hp => ⟨(k1, v1), by simp, by simp at hp; rw [← hp]⟩, fun k' => ?_⟩
      subst hk
      simp only [mapFind]
      by_cases h : k1 = k'
      · subst h
        simp
      · have h2 : ¬ k' = k1 := fun hc => h hc.symm
        simp [h, h2]
    · rw [if_neg hk]
      refine ⟨keysAscending_of_head ih1 (fun p hp => ?_),
        fun p hp => ⟨(k1, v1), by simp, by simp at hp; rw [← hp]⟩, fun k' => ?_⟩
      · obtain ⟨p0, hp0, he⟩ := ih2 p hp
        rw [he]
        exact hlt p0 (List.mem_of_mem_head? hp0)
      · simp only [mapFind, ih3 k', if_neg hk]
        by_cases h1 : k1 = k'
        · have h2 : ¬ k' = k := fun hc => hk (h1.trans hc)
          simp [h1, h2]
        · simp [h1]

/-- The statement `v[k] = x` on an object in key order: the object stays in key order, holds
`x` under `k`, and under every other key what it held. -/
theorem assignKey_object (o : JsonObject) (k : List Byte) (x : JsonValue)
    (ho : keysAscending o = true) :
    ∃ o', (JsonValue.object o).assignKey k x = .object o' ∧ keysAscending o' = true ∧
      ∀ k', mapFind o' k' = if k' = k then some x else mapFind o k' := by
  obtain ⟨h1, _, h3, _, _⟩ := mapEmplace_spec o k .null ho
  obtain ⟨g1, _, g3⟩ := mapAssign_spec (mapEmplace o k .null) k x h1
  refine ⟨mapAssign (mapEmplace o k .null) k x, rfl, g1, fun k' => ?_⟩
  rw [g3 k']
  by_cases h : k' = k
  · rw [if_pos h, if_pos h, h3 k, if_pos rfl]
    rfl
  · rw [if_neg h, if_neg h, h3 k', if_neg h]

theorem assignKey_null (k : List Byte) (x : JsonValue) :
    JsonValue.null.assignKey k x = (JsonValue.object []).assignKey k x := rfl

/-- Assigning pairs with distinct new keys one after the other to an object in key order. -/
theorem foldl_assignKey : ∀ (ps : List (List Byte × JsonValue)) (o0 : JsonObject),
    keysAscending o0 = true → (ps.map Prod.fst).Nodup → (∀ p ∈ ps, mapFind o0 p.1 = none) →
    ∃ o, ps.foldl (fun v p => JsonValue.assignKey v p.1 p.2) (.object o0) = .object o ∧
      keysAscending o = true ∧
      ∀ k v, mapFind o k = some v ↔ (mapFind o0 k = some v ∨ (k, v) ∈ ps)
  | [], o0, h0, _, _ => ⟨o0, rfl, h0, fun k v => by simp⟩
  | (k1, x1) :: rest, o0, h0, hnd, hnew => by
    obtain ⟨o1, e1, s1, f1⟩ := assignKey_object o0 k1 x1 h0
    rw [List.map_cons, List.nodup_cons] at hnd
    have hnew1 : ∀ p ∈ rest, mapFind o1 p.1 = none := by
      intro p hp
      have hne : p.1 ≠ k1 := fun hc => by
        have := List.mem_map_of_mem Prod.fst hp
        rw [hc] at this
        exact hnd.1 this
      rw [f1, if_neg hne]
      exact hnew p (List.mem_cons_of_mem _ hp)
    obtain ⟨o, e2, s2, f2⟩ := foldl_assignKey rest o1 s1 hnd.2 hnew1
    refine ⟨o, ?_, s2, fun k v => ?_⟩
    · rw [List.foldl_cons]
      show List.foldl _ ((JsonValue.object o0).assignKey k1 x1) rest = _
      rw [e1, e2]
    · rw [f2 k v, f1 k]
      have hk1 : mapFind o0 k1 = none := hnew _ (List.mem_cons_self _ _)
      by_cases h : k = k1
      · subst h
        rw [if_pos rfl, hk1]
        constructor
        · rintro (h | h)
          · cases h
            exact Or.inr (List.mem_cons_self _ _)
          · exact Or.inr (List.mem_cons_of_mem _ h)
        · rintro (h | h)
          · cases h
          · rcases List.mem_cons.1 h with h | h
            · cases h
              exact Or.inl rfl
            · exact Or.inr h
      · rw [if_neg h]
        constructor
        · rintro (h1 | h1)
          · exact Or.inl h1
          · exact Or.inr (List.mem_cons_of_mem _ h1)
        · rintro (h1 | h1)
          · exact Or.inl h1
          · rcases List.mem_cons.1 h1 with h2 | h2
            · cases h2
              exact absurd rfl h
            · exact Or.inr h2

/-- What assigning pairs with distinct keys to a Null value builds. -/
theorem build_spec (ps : List (List Byte × JsonValue)) (hnd : (ps.map Prod.fst).Nodup)
    (hne : ps ≠ []) :
    ∃ o, ps.foldl (fun v p => JsonValue.assignKey v p.1 p.2) .null = .object o ∧
      keysAscending o = true ∧ ∀ k v, mapFind o k = some v ↔ (k, v) ∈ ps := by
  obtain ⟨o, e, s, f⟩ := foldl_assignKey ps [] rfl hnd (fun _ _ => rfl)
  refine ⟨o, ?_, s, fun k v => by rw [f k v]; simp [mapFind]⟩
  cases ps with
  | nil => exact absurd rfl hne
  | cons p rest =>
    rw [List.foldl_cons, assignKey_null]
    exact e

/-! ## The pretty layout -/

theorem spaces_eq {k w m : Nat} (hk : k ≤ m) (h : m * w ≤ 2147483647) :
    JsonSerializer.spaces ((k : Int) * (w : Int)) = some (List.replicate (k * w) 32) := by
  have h1 : k * w ≤ m * w := Nat.mul_le_mul_right w hk
  have h2 : ((k : Int) * (w : Int)) = ((k * w : Nat) : Int) := by push_cast; rfl
  unfold JsonSerializer.spaces
  rw [h2, if_neg (by omega)]
  rfl

theorem cast_level (L : Nat) : ((L : Int) + 1) = ((L + 1 : Nat) : Int) := by
  push_cast
  rfl

mutual
theorem serializeInternal_pretty : (v : JsonValue) → (w L : Nat) →
    (L + v.depth) * w ≤ 2147483647 →
    JsonSerializer.serializeInternal v true w L = some (prettyText w L v)
  | .null, _, _, _ => rfl
  | .bool _, _, _, _ => rfl
  | .number _, _, _, _ => rfl
  | .string _, _, _, _ => rfl
  | .array a, w, L, h => by
    rw [JsonSerializer.serializeInternal, prettyText]
    cases a with
    | nil => rfl
    | cons v rest =>
      have hd : (JsonValue.array (v :: rest)).depth = depthOfElements (v :: rest) + 1 := by
        rw [JsonValue.depth]
        rfl
      rw [hd] at h
      rw [serializeElements_pretty (v :: rest) w L (by
        rw [show L + 1 + depthOfElements (v :: rest) = L + (depthOfElements (v :: rest) + 1) by
          omega]
        exact h)]
      simp only []
      rw [if_pos ⟨trivial, rfl⟩, spaces_eq (show L ≤ L + (depthOfElements (v :: rest) + 1) by omega) h]
      rfl
  | .object o, w, L, h => by
    rw [JsonSerializer.serializeInternal, prettyText]
    cases o with
    | nil => rfl
    | cons kv rest =>
      have hd : (JsonValue.object (kv :: rest)).depth = depthOfMembers (kv :: rest) + 1 := by
        rw [JsonValue.depth]
        rfl
      rw [hd] at h
      rw [serializeMembers_pretty (kv :: rest) w L (by
        rw [show L + 1 + depthOfMembers (kv :: rest) = L + (depthOfMembers (kv :: rest) + 1) by
          omega]
        exact h)]
      simp only []
      rw [if_pos ⟨trivial, rfl⟩, spaces_eq (show L ≤ L + (depthOfMembers (kv :: rest) + 1) by omega) h]
      rfl
theorem serializeElements_pretty : (a : List JsonValue) → (w L : Nat) →
    (L + 1 + depthOfElements a) * w ≤ 2147483647 →
    JsonSerializer.serializeElements a true w L = some (prettyElements w L a)
  | [], _, _, _ => rfl
  | v :: rest, w, L, h => by
    have hm : depthOfElements (v :: rest) = max v.depth (depthOfElements rest) := by
      rw [depthOfElements]
    have h1 : (L + 1 + v.depth) * w ≤ 2147483647 :=
      le_trans (Nat.mul_le_mul_right w (by
        rw [hm]
        have := le_max_left v.depth (depthOfElements rest)
        omega)) h
    have h2 : (L + 1 + depthOfElements rest) * w ≤ 2147483647 :=
      le_trans (Nat.mul_le_mul_right w (by
        rw [hm]
        have := le_max_right v.depth (depthOfElements rest)
        omega)) h
    rw [JsonSerializer.serializeElements, if_pos rfl, cast_level,
      spaces_eq (show L + 1 ≤ L + 1 + depthOfElements (v :: rest) by omega) h,
      serializeInternal_pretty v w (L + 1) h1, serializeElements_pretty rest w L h2]
    cases rest with
    | nil => simp [prettyElements]
    | cons u rest => simp [prettyElements, lit]
theorem serializeMembers_pretty : (o : List (List Byte × JsonValue)) → (w L : Nat) →
    (L + 1 + depthOfMembers o) * w ≤ 2147483647 →
    JsonSerializer.serializeMembers o true w L = some (prettyMembers w L o)
  | [], _, _, _ => rfl
  | (k, v) :: rest, w, L, h => by
    have hm : depthOfMembers ((k, v) :: rest) = max v.depth (depthOfMembers rest) := by
      rw [depthOfMembers]
    have h1 : (L + 1 + v.depth) * w ≤ 2147483647 :=
      le_trans (Nat.mul_le_mul_right w (by
        rw [hm]
        have := le_max_left v.depth (depthOfMembers rest)
        omega)) h
    have h2 : (L + 1 + depthOfMembers rest) * w ≤ 2147483647 :=
      le_trans (Nat.mul_le_mul_right w (by
        rw [hm]
        have := le_max_right v.depth (depthOfMembers rest)
        omega)) h
    rw [JsonSerializer.serializeMembers, if_pos rfl, cast_level,
      spaces_eq (show L + 1 ≤ L + 1 + depthOfMembers ((k, v) :: rest) by omega) h,
      serializeInternal_pretty v w (L + 1) h1, serializeMembers_pretty rest w L h2]
    cases rest with
    | nil => simp [prettyMembers, quoted, lit]
    | cons u rest =>
      obtain ⟨k2, v2⟩ := u
      simp [prettyMembers, quoted, lit]
end

/-- C32 as it stands fails: with `pretty` set and the indent width 1073741824, the array
`[[null]]` is not laid out: the inner array needs `2 * 1073741824` spaces, a product that
does not fit an `int`, and no text is returned. -/
theorem pretty_layout_overflow :
    (0 : Int) ≤ 1073741824 ∧
    JsonSerializer.toString (.array [.array [.null]]) true 1073741824 = none := by
  refine ⟨by decide, ?_⟩
  rfl

/-- C32, amended. Pretty layout: with `pretty` set and an indent width `w ≥ 0`, a value whose
nonempty containers nest `depth` deep is written at nesting level `L`, when `(L + depth) * w`
is at most `INT_MAX`, as the specification words the pretty text: a non-empty array as `[`,
newline, each element preceded by `(L + 1) * w` spaces and written at level `L + 1`,
consecutive elements separated by `,` and newline, then newline, `L * w` spaces and `]`; a
non-empty object the same way with braces, each member being the quoted escaped key, a colon,
one space and the value at level `L + 1`. -/
theorem pretty_layout (v : JsonValue) (w L : Nat) (h : (L + v.depth) * w ≤ 2147483647) :
    JsonSerializer.serializeInternal v true w L = some (prettyText w L v) :=
  serializeInternal_pretty v w L h

theorem pretty_layout_witness :
    (0 + (JsonValue.array [.object [(lit "a", .array [])], .null]).depth) * 2 ≤ 2147483647 ∧
    JsonSerializer.serializeInternal (.array [.object [(lit "a", .array [])], .null]) true
      ((2 : Nat) : Int) ((0 : Nat) : Int) =
      some (lit "[\n  \x7b\n    \"a\": []\n  \x7d,\n  null\n]") :=
  ⟨by decide, pretty_layout (.array [.object [(lit "a", .array [])], .null]) 2 0 (by decide)⟩

/-! ## The text of a number is a number token -/

/-- A sign, digits, a fraction and an exponent make a token that the scan of `parseNumber`
takes whole and that `strtod` converts in full. -/
theorem numberAt_of_parts {m i f x : List Byte} (hm : m = [] ∨ m = [45])
    (hid : Rfc8259.Digits i) (hf : f = [] ∨ Rfc8259.IsFrac f) (hx : x = [] ∨ Rfc8259.IsExp x) :
    ∃ v, NumberAt (m ++ (i ++ (f ++ x))) v [] := by
  obtain ⟨hx1, hx2, hx3, eSignLen, nExp, hx4, hx5, hx6⟩ := Rfc8259.IsExp.scanExp hx
  obtain ⟨hf1, hf2, hf3⟩ := Rfc8259.IsFrac.scanFrac hf hx1 hx2
  obtain ⟨c, rest, rfl, hc⟩ := hid.headDigit
  obtain ⟨n45, n43, _, _, _⟩ := isdigit_ne hc
  have hrun : digitRun (c :: rest ++ (f ++ x)) = (c :: rest).length :=
    digitRun_all_append hid.2 hf1
  have hscan : scanRest (m ++ (c :: rest ++ (f ++ x))) = [] := by
    have h1 : (if (m ++ (c :: rest ++ (f ++ x))).headD 0 = 45 then
        (m ++ (c :: rest ++ (f ++ x))).drop 1 else m ++ (c :: rest ++ (f ++ x))) =
        c :: rest ++ (f ++ x) := by
      rcases hm with rfl | rfl
      · simp [n45]
      · simp
    unfold scanRest
    simp only []
    rw [h1, hrun, List.drop_left, hf2]
    exact hx3
  have htok : scanToken (m ++ (c :: rest ++ (f ++ x))) = m ++ (c :: rest ++ (f ++ x)) := by
    unfold scanToken
    rw [hscan]
    simp
  have hcons : (strtod (m ++ (c :: rest ++ (f ++ x)))).consumed =
      (m ++ (c :: rest ++ (f ++ x))).length := by
    rw [strtod_consumed_of _ (c :: rest ++ (f ++ x)) x m.length (c :: rest).length f.length
      eSignLen nExp ?_ (List.drop_left _ _) hrun (by simp) (by rw [List.drop_left]; exact hf3)
      (by rw [List.drop_append, List.drop_left]) hx4 hx5, hx6]
    · simp only [List.length_append]
      omega
    · rcases hm with rfl | rfl
      · simp [n45, n43]
      · simp
  refine ⟨_, ?_, ?_, rfl, hscan.symm⟩
  · rcases hm with rfl | rfl
    · simpa [numberStart] using Or.inr hc
    · rfl
  · rw [htok]
    exact hcons

theorem decimalDigits_digit : ∀ (f w n : Nat), ∀ c ∈ decimalDigits f w n, isdigit c = true
  | 0, _, _, c, hc => by
    rw [decimalDigits] at hc
    cases hc
  | f + 1, w, n, c, hc => by
    rw [decimalDigits] at hc
    split_ifs at hc with h
    · rw [List.mem_singleton] at hc
      rw [hc, isdigit_iff]
      omega
    · rcases List.mem_append.1 hc with hc | hc
      · exact decimalDigits_digit f _ _ c hc
      · rw [List.mem_singleton] at hc
        rw [hc, isdigit_iff]
        omega

theorem decimalDigits_ne_nil (f w n : Nat) : decimalDigits (f + 1) w n ≠ [] := by
  rw [decimalDigits]
  split_ifs <;> simp

/-- The layout of `out << d` from the six significant digits `p.1` and the decimal exponent
`p.2`: digits, an optional fraction and an optional exponent after the sign. -/
theorem ostreamLayout_parts (sign : List Byte) (p : Nat × Int) :
    ∃ i f x, (let ds := decimalDigits 6 6 p.1
      if -4 ≤ p.2 ∧ p.2 < 6 then
        let whole := if p.2 < 0 then [48] else ds.take (p.2.toNat + 1)
        let frac := if p.2 < 0 then List.replicate ((-p.2).toNat - 1) 48 ++ ds
                    else ds.drop (p.2.toNat + 1)
        let frac := stripTrailingZeros frac
        sign ++ whole ++ (if frac = [] then [] else 46 :: frac)
      else
        let frac := stripTrailingZeros (ds.drop 1)
        sign ++ ds.take 1 ++ (if frac = [] then [] else 46 :: frac)
          ++ [101, if p.2 < 0 then 45 else 43] ++ decimalDigits 5 2 p.2.natAbs) =
        sign ++ (i ++ (f ++ x)) ∧
      Rfc8259.Digits i ∧ (f = [] ∨ Rfc8259.IsFrac f) ∧ (x = [] ∨ Rfc8259.IsExp x) := by
  have hfrac : ∀ s : List Byte, (∀ c ∈ s, isdigit c = true) →
      ((if stripTrailingZeros s = [] then [] else 46 :: stripTrailingZeros s) = [] ∨
        Rfc8259.IsFrac (if stripTrailingZeros s = [] then [] else 46 :: stripTrailingZeros s)) := by
    intro s hs
    by_cases h : stripTrailingZeros s = []
    · rw [if_pos h]
      exact Or.inl rfl
    · rw [if_neg h]
      exact Or.inr ⟨_, rfl, h, fun c hc => hs c (stripTrailingZeros_subset s c hc)⟩
  obtain ⟨digs, x⟩ := p
  simp only []
  have hds := decimalDigits_digit 6 6 digs
  have hne := decimalDigits_ne_nil 5 6 digs
  generalize decimalDigits 6 6 digs = ds at hds hne
  obtain ⟨c, rest, rfl⟩ := List.exists_cons_of_ne_nil hne
  by_cases hx : -4 ≤ x ∧ x < 6
  · rw [if_pos hx]
    refine ⟨if x < 0 then [48] else (c :: rest).take (x.toNat + 1), _, [],
      by simp only [List.append_nil, List.append_assoc], ?_,
      hfrac (if x < 0 then List.replicate ((-x).toNat - 1) 48 ++ c :: rest
        else (c :: rest).drop (x.toNat + 1)) ?_, Or.inl rfl⟩
    · split_ifs
      · exact ⟨by simp, by simp [isdigit]⟩
      · exact ⟨by simp, fun a ha => hds a (List.mem_of_mem_take ha)⟩
    · intro a ha
      split_ifs at ha
      · rcases List.mem_append.1 ha with ha | ha
        · rw [List.eq_of_mem_replicate ha]
          rfl
        · exact hds a ha
      · exact hds a (List.mem_of_mem_drop ha)
  · rw [if_neg hx]
    refine ⟨[c], _, [101, if x < 0 then 45 else 43] ++ decimalDigits 5 2 x.natAbs,
      by simp only [List.append_assoc, List.take_succ_cons, List.take_zero],
      ⟨by simp, fun a ha => ?_⟩,
      hfrac ((c :: rest).drop 1) (fun a ha => hds a (List.mem_of_mem_drop ha)),
      Or.inr ⟨101, [if x < 0 then 45 else 43], decimalDigits 5 2 x.natAbs, rfl, Or.inl rfl, ?_,
        decimalDigits_ne_nil 4 2 _, decimalDigits_digit 5 2 _⟩⟩
    · rw [List.mem_singleton] at ha
      rw [ha]
      exact hds c (List.mem_cons_self _ _)
    · split_ifs
      · exact Or.inr (Or.inl rfl)
      · exact Or.inr (Or.inr rfl)

/-- The text written for a finite number is made of an optional `-`, digits, an optional
fraction and an optional exponent. -/
theorem ostreamDouble_parts (neg : Bool) (m : Nat) (e : Int) :
    ∃ sg i f x, ostreamDouble (.finite neg m e) = sg ++ (i ++ (f ++ x)) ∧
      (sg = [] ∨ sg = [45]) ∧ Rfc8259.Digits i ∧ (f = [] ∨ Rfc8259.IsFrac f) ∧
      (x = [] ∨ Rfc8259.IsExp x) := by
  have hsg : ((if neg = true then [45] else []) : List Byte) = [] ∨
      ((if neg = true then [45] else []) : List Byte) = [45] := by
    cases neg
    · exact Or.inl rfl
    · exact Or.inr rfl
  unfold ostreamDouble
  simp only []
  by_cases hm : m = 0
  · rw [if_pos hm]
    exact ⟨_, [48], [], [], by simp, hsg, ⟨by simp, by simp [isdigit]⟩, Or.inl rfl,
      Or.inl rfl⟩
  · rw [if_neg hm]
    obtain ⟨i, f, x, h⟩ := ostreamLayout_parts (if neg = true then [45] else []) _
    exact ⟨_, i, f, x, h.1, hsg, h.2⟩

/-- The text written for a finite number reads as a number wherever it is followed by a
character that no number holds. -/
theorem ostreamDouble_numberAt (d : Dbl) (hd : d.isfinite = true) (x : List Byte)
    (hx : numberChar (x.headD 0) = false) :
    NumberAt (ostreamDouble d ++ x) (strtod (ostreamDouble d)).value x := by
  cases d with
  | inf _ => cases hd
  | nan => cases hd
  | finite neg m e =>
    obtain ⟨sg, i, f, y, he, h1, h2, h3, h4⟩ := ostreamDouble_parts neg m e
    obtain ⟨v, hv⟩ := numberAt_of_parts h1 h2 h3 h4
    rw [← he] at hv
    have htok : scanToken (ostreamDouble (.finite neg m e)) = ostreamDouble (.finite neg m e) := by
      unfold scanToken
      rw [← hv.2.2.2]
      simp
    have hval : v = (strtod (ostreamDouble (.finite neg m e))).value := by
      rw [hv.2.2.1, htok]
    have := hv.extend x hx
    rw [hval] at this
    simpa using this

/-! ## The pretty and the compact text are read alike -/

theorem spaces_allSpace {n : Int} {sp : List Byte} (h : JsonSerializer.spaces n = some sp) :
    AllSpace sp := by
  unfold JsonSerializer.spaces at h
  split_ifs at h
  cases h
  intro c hc
  rw [List.eq_of_mem_replicate hc]
  rfl

theorem indent_allSpace {p : Bool} {n : Int} {sp : List Byte}
    (h : (if p = true then JsonSerializer.spaces n else some []) = some sp) : AllSpace sp := by
  cases p
  · cases h
    exact AllSpace.nil
  · exact spaces_allSpace h

theorem serializeElements_some {v : JsonValue} {rest : List JsonValue} {p : Bool} {i l : Int}
    {u : List Byte} (h : JsonSerializer.serializeElements (v :: rest) p i l = some u) :
    ∃ sp t ts, (if p = true then JsonSerializer.spaces ((l + 1) * i) else some []) = some sp ∧
      JsonSerializer.serializeInternal v p i (l + 1) = some t ∧
      JsonSerializer.serializeElements rest p i l = some ts ∧
      u = sp ++ t ++ (if rest.isEmpty = false then (if p = true then [44, 10] else [44])
        else []) ++ ts := by
  rw [JsonSerializer.serializeElements] at h
  cases hsp : (if p = true then JsonSerializer.spaces ((l + 1) * i) else some []) with
  | none =>
    rw [hsp] at h
    cases h
  | some sp =>
    cases ht : JsonSerializer.serializeInternal v p i (l + 1) with
    | none =>
      rw [hsp, ht] at h
      cases h
    | some t =>
      cases hts : JsonSerializer.serializeElements rest p i l with
      | none =>
        rw [hsp, ht, hts] at h
        cases h
      | some ts =>
        rw [hsp, ht, hts] at h
        cases h
        exact ⟨sp, t, ts, rfl, rfl, rfl, rfl⟩

theorem serializeMembers_some {k : List Byte} {v : JsonValue}
    {rest : List (List Byte × JsonValue)} {p : Bool} {i l : Int} {u : List Byte}
    (h : JsonSerializer.serializeMembers ((k, v) :: rest) p i l = some u) :
    ∃ sp t ts, (if p = true then JsonSerializer.spaces ((l + 1) * i) else some []) = some sp ∧
      JsonSerializer.serializeInternal v p i (l + 1) = some t ∧
      JsonSerializer.serializeMembers rest p i l = some ts ∧
      u = sp ++ ([34] ++ JsonSerializer.escape k ++ [34] ++ (if p = true then [58, 32] else [58]))
        ++ t ++ (if rest.isEmpty = false then (if p = true then [44, 10] else [44]) else [])
        ++ ts := by
  rw [JsonSerializer.serializeMembers] at h
  cases hsp : (if p = true then JsonSerializer.spaces ((l + 1) * i) else some []) with
  | none =>
    rw [hsp] at h
    cases h
  | some sp =>
    cases ht : JsonSerializer.serializeInternal v p i (l + 1) with
    | none =>
      rw [hsp, ht] at h
      cases h
    | some t =>
      cases hts : JsonSerializer.serializeMembers rest p i l with
      | none =>
        rw [hsp, ht, hts] at h
        cases h
      | some ts =>
        rw [hsp, ht, hts] at h
        cases h
        exact ⟨sp, t, ts, rfl, rfl, rfl, rfl⟩

theorem serializeInternal_array_some {a : List JsonValue} {p : Bool} {i l : Int}
    {u : List Byte} (h : JsonSerializer.serializeInternal (.array a) p i l = some u) :
    ∃ body w1 w2, JsonSerializer.serializeElements a p i l = some body ∧ AllSpace w1 ∧
      AllSpace w2 ∧ u = [91] ++ w1 ++ body ++ w2 ++ [93] := by
  rw [JsonSerializer.serializeInternal] at h
  cases hb : JsonSerializer.serializeElements a p i l with
  | none =>
    rw [hb] at h
    cases h
  | some body =>
    rw [hb] at h
    simp only [] at h
    split_ifs at h with hc
    · cases hsp : JsonSerializer.spaces (l * i) with
      | none =>
        rw [hsp] at h
        cases h
      | some sp =>
        rw [hsp] at h
        cases h
        refine ⟨body, [10], [10] ++ sp, rfl, ?_, ?_, by simp⟩
        · exact AllSpace.cons (by rfl) AllSpace.nil
        · exact AllSpace.cons (by rfl) (spaces_allSpace hsp)
    · cases h
      exact ⟨body, [], [], rfl, AllSpace.nil, AllSpace.nil, by simp⟩

theorem serializeInternal_object_some {o : List (List Byte × JsonValue)} {p : Bool}
    {i l : Int} {u : List Byte}
    (h : JsonSerializer.serializeInternal (.object o) p i l = some u) :
    ∃ body w1 w2, JsonSerializer.serializeMembers o p i l = some body ∧ AllSpace w1 ∧
      AllSpace w2 ∧ u = [123] ++ w1 ++ body ++ w2 ++ [125] := by
  rw [JsonSerializer.serializeInternal] at h
  cases hb : JsonSerializer.serializeMembers o p i l with
  | none =>
    rw [hb] at h
    cases h
  | some body =>
    rw [hb] at h
    simp only [] at h
    split_ifs at h with hc
    · cases hsp : JsonSerializer.spaces (l * i) with
      | none =>
        rw [hsp] at h
        cases h
      | some sp =>
        rw [hsp] at h
        cases h
        refine ⟨body, [10], [10] ++ sp, rfl, ?_, ?_, by simp⟩
        · exact AllSpace.cons (by rfl) AllSpace.nil
        · exact AllSpace.cons (by rfl) (spaces_allSpace hsp)
    · cases h
      exact ⟨body, [], [], rfl, AllSpace.nil, AllSpace.nil, by simp⟩

theorem separator_allSpace (p : Bool) :
    ∃ w, AllSpace w ∧ (if p = true then [44, 10] else [44] : List Byte) = 44 :: w := by
  cases p
  · exact ⟨[], AllSpace.nil, rfl⟩
  · exact ⟨[10], AllSpace.cons (by rfl) AllSpace.nil, rfl⟩

theorem colon_allSpace (p : Bool) :
    ∃ w, AllSpace w ∧ (if p = true then [58, 32] else [58] : List Byte) = 58 :: w := by
  cases p
  · exact ⟨[], AllSpace.nil, rfl⟩
  · exact ⟨[32], AllSpace.cons (by rfl) AllSpace.nil, rfl⟩

mutual
/-- Whatever text the serializer writes for `v`, compact or pretty, reads as `readBack v`
wherever it is followed by a character that no number holds. -/
theorem serializeInternal_reads : (v : JsonValue) → (p : Bool) → (i l : Int) →
    (t : List Byte) → JsonSerializer.serializeInternal v p i l = some t →
    ∀ x, numberChar (x.headD 0) = false → Val (t ++ x) (readBack v) x
  | .null, _, _, _, t, h, x, _ => by
    cases h
    exact Val.litNull x
  | .bool true, _, _, _, t, h, x, _ => by
    cases h
    exact Val.litTrue x
  | .bool false, _, _, _, t, h, x, _ => by
    cases h
    exact Val.litFalse x
  | .number d, _, _, _, t, h, x, hx => by
    rw [JsonSerializer.serializeInternal] at h
    cases h
    rw [readBack]
    by_cases hd : d.isfinite = true
    · rw [if_pos hd, if_pos hd]
      exact Val.number (ostreamDouble_numberAt d hd x hx)
    · rw [if_neg hd, if_neg hd]
      exact Val.litNull x
  | .string s, _, _, _, t, h, x, _ => by
    rw [JsonSerializer.serializeInternal] at h
    cases h
    have := Val.string x (strBody_escape s)
    simpa [readBack] using this
  | .array a, p, i, l, t, h, x, hx => by
    obtain ⟨body, w1, w2, hb, hw1, hw2, rfl⟩ := serializeInternal_array_some h
    rw [readBack]
    cases a with
    | nil =>
      rw [JsonSerializer.serializeElements] at hb
      cases hb
      have := Val.arrayEmpty x (hw1.append hw2)
      simpa [readBackElements] using this
    | cons v rest =>
      have := Elems.prependElems hw1
        (serializeElements_reads (v :: rest) p i l body hb (by simp) [] w2 x hw2)
      have := Val.array this
      simpa using this
  | .object o, p, i, l, t, h, x, hx => by
    obtain ⟨body, w1, w2, hb, hw1, hw2, rfl⟩ := serializeInternal_object_some h
    rw [readBack]
    cases o with
    | nil =>
      rw [JsonSerializer.serializeMembers] at hb
      cases hb
      have := Val.objectEmpty x (hw1.append hw2)
      simpa [readBackMembers] using this
    | cons kv rest =>
      have := Membs.prependMembs hw1
        (serializeMembers_reads (kv :: rest) p i l body hb (by simp) [] w2 x hw2)
      have := Val.object this
      simpa using this
theorem serializeElements_reads : (a : List JsonValue) → (p : Bool) → (i l : Int) →
    (ts : List Byte) → JsonSerializer.serializeElements a p i l = some ts → a ≠ [] →
    ∀ acc w2 x, AllSpace w2 →
      Elems (ts ++ (w2 ++ 93 :: x)) acc (acc ++ readBackElements a) x
  | [], _, _, _, _, _, hne, _, _, _, _ => absurd rfl hne
  | v :: rest, p, i, l, u, h, _, acc, w2, x, hw2 => by
    obtain ⟨sp, t, ts, hsp, ht, hts, rfl⟩ := serializeElements_some h
    have hws := indent_allSpace hsp
    cases rest with
    | nil =>
      rw [JsonSerializer.serializeElements] at hts
      cases hts
      have hv := serializeInternal_reads v p i (l + 1) t ht (w2 ++ 93 :: x)
        (numberChar_after_space hw2 (by rfl))
      have := Elems.last acc hws hv hw2
      simpa [readBackElements] using this
    | cons u rest =>
      obtain ⟨ws, hws2, hsep⟩ := separator_allSpace p
      have hrest := Elems.prependElems hws2 (serializeElements_reads (u :: rest) p i l ts hts
        (by simp) (acc ++ [readBack v]) w2 x hw2)
      have hv := serializeInternal_reads v p i (l + 1) t ht
        (44 :: (ws ++ (ts ++ (w2 ++ 93 :: x)))) (by rfl)
      have := @Elems.more sp _ [] _ x _ _ acc hws hv AllSpace.nil hrest
      rw [readBackElements]
      simp only [List.isEmpty_cons, if_true, hsep]
      simpa using this
theorem serializeMembers_reads : (o : List (List Byte × JsonValue)) → (p : Bool) →
    (i l : Int) → (ts : List Byte) → JsonSerializer.serializeMembers o p i l = some ts →
    o ≠ [] → ∀ acc w2 x, AllSpace w2 →
      Membs (ts ++ (w2 ++ 125 :: x)) acc (readBackMembers o acc) x
  | [], _, _, _, _, _, hne, _, _, _, _ => absurd rfl hne
  | (k, v) :: rest, p, i, l, u, h, _, acc, w2, x, hw2 => by
    obtain ⟨sp, t, ts, hsp, ht, hts, rfl⟩ := serializeMembers_some h
    have hws := indent_allSpace hsp
    obtain ⟨wc, hwc, hcolon⟩ := colon_allSpace p
    cases rest with
    | nil =>
      rw [JsonSerializer.serializeMembers] at hts
      cases hts
      have hv := serializeInternal_reads v p i (l + 1) t ht (w2 ++ 125 :: x)
        (numberChar_after_space hw2 (by rfl))
      have := @Membs.last sp _ k [] wc _ w2 x _ acc hws (strBody_escape k) AllSpace.nil hwc hv
        hw2
      rw [readBackMembers, readBackMembers]
      simp only [hcolon]
      simpa using this
    | cons u rest =>
      obtain ⟨ws, hws2, hsep⟩ := separator_allSpace p
      have hrest := Membs.prependMembs hws2 (serializeMembers_reads (u :: rest) p i l ts hts
        (by simp) (mapEmplace acc k (readBack v)) w2 x hw2)
      have hv := serializeInternal_reads v p i (l + 1) t ht
        (44 :: (ws ++ (ts ++ (w2 ++ 125 :: x)))) (by rfl)
      have := @Membs.more sp _ k [] wc _ [] _ x _ _ acc hws (strBody_escape k) AllSpace.nil hwc
        hv AllSpace.nil hrest
      rw [readBackMembers]
      simp only [List.isEmpty_cons, if_true, hsep, hcolon]
      simpa using this
end

/-- Every text the serializer returns for `v` is parsed without error, to `readBack v`. -/
theorem parse_serialized (v : JsonValue) (p : Bool) (i : Int) (t : List Byte) (e0 : ParseError)
    (h : serialize v p i = some t) : parse t e0 = some (readBack v, {}) := by
  rw [parse_eq_some_iff]
  have := serializeInternal_reads v p i 0 t h [] (by rfl)
  rw [List.append_nil] at this
  exact ⟨[], t, [], rfl, AllSpace.nil, this, AllSpace.nil⟩

/-- C35 as it stands fails: for the object with the member `k` mapped to `[true]` and the
indent width 1073741824 the compact text is written and parsed, but no pretty text is
returned: the element of the inner array needs `2 * 1073741824` spaces, which does not fit an
`int`. -/
theorem pretty_text_not_written :
    (0 : Int) ≤ 1073741824 ∧
    serialize (.object [(lit "k", .array [.bool true])]) true 1073741824 = none ∧
    serialize (.object [(lit "k", .array [.bool true])]) false 2 =
      some (lit "\x7b\"k\":[true]\x7d") ∧
    parse (lit "\x7b\"k\":[true]\x7d") {} =
      some (.object [(lit "k", .array [.bool true])], {}) := by
  refine ⟨by decide, by rfl, by rfl, by rfl⟩

/-- C35, amended. Pretty and compact outputs denote the same document: for every value `v`
and every indent width `w ≥ 0` whose product with the depth of `v` (its nesting of nonempty
containers) is at most `INT_MAX`, both texts are written, and the explicit-result parse of
the pretty text returns without error the same value as the parse of the compact text. -/
theorem pretty_same_document (v : JsonValue) (w : Nat) (i : Int) (e0 : ParseError)
    (h : v.depth * w ≤ 2147483647) :
    ∃ tp tc x, serialize v true w = some tp ∧ serialize v false i = some tc ∧
      parse tp e0 = some (x, {}) ∧ parse tc e0 = some (x, {}) := by
  obtain ⟨tp, hp⟩ := serializeInternal_isSome v true w 0 (fun _ =>
    ⟨by positivity, by
      rw [Nat.zero_add]
      exact_mod_cast h⟩)
  obtain ⟨tc, hc⟩ := serializeInternal_isSome v false i 0 (fun hc => by cases hc)
  simp only [Nat.cast_zero] at hp hc
  exact ⟨tp, tc, readBack v, hp, hc, parse_serialized v true w tp e0 hp,
    parse_serialized v false i tc e0 hc⟩

theorem pretty_same_document_witness :
    (JsonValue.array [.object [(lit "a", .array [])], .null]).depth * 2 ≤ 2147483647 ∧
    ∃ tp tc x, serialize (.array [.object [(lit "a", .array [])], .null]) true ((2 : Nat) : Int)
        = some tp ∧
      serialize (.array [.object [(lit "a", .array [])], .null]) false 2 = some tc ∧
      parse tp {} = some (x, {}) ∧ parse tc {} = some (x, {}) :=
  ⟨by decide, pretty_same_document _ 2 2 {} (by decide)⟩

/-! ## White space between tokens -/

theorem lexFrom_append (s : LexState) (a b : List Byte) :
    lexFrom s (a ++ b) = lexFrom (lexFrom s a) b := by
  unfold lexFrom
  rw [List.foldl_append]

theorem lexFrom_cons (s : LexState) (c : Byte) (a : List Byte) :
    lexFrom s (c :: a) = lexFrom (s.read c) a := rfl

theorem lexFrom_out {a : List Byte} (h : ∀ c ∈ a, c ≠ 34) : lexFrom .out a = .out := by
  induction a with
  | nil => rfl
  | cons c a ih =>
    rw [lexFrom_cons, LexState.read, if_neg (h c (List.mem_cons_self _ _))]
    exact ih (fun x hx => h x (List.mem_cons_of_mem _ hx))

theorem isspace_ne_quote {c : Nat} (h : isspace c = true) : c ≠ 34 := by
  rw [isspace_iff] at h
  omega

theorem lexAfter_space {w : List Byte} (hw : AllSpace w) : lexAfter w = .out :=
  lexFrom_out (fun c hc => isspace_ne_quote (hw c hc))

theorem lexAfter_append {a : List Byte} (b : List Byte) (h : lexAfter a = .out) :
    lexAfter (a ++ b) = lexAfter b := by
  unfold lexAfter at h ⊢
  rw [lexFrom_append, h]

theorem wordChar_space {c : Nat} (h : isspace c = true) : wordChar c = false := by
  simp [wordChar, h]

theorem wordChar_ne_quote {c : Nat} (h : wordChar c = true) : c ≠ 34 := by
  intro hc
  subst hc
  cases h

theorem Between.nil_left (b : List Byte) : Between [] b :=
  ⟨rfl, fun h => absurd h.1 (by decide)⟩

theorem Between.nil_right {a : List Byte} (h : lexAfter a = .out) : Between a [] :=
  ⟨h, fun h => absurd h.2 (by decide)⟩

theorem Between.shrink_right {a b y : List Byte} (h : Between a (b ++ y)) : Between a b := by
  refine ⟨h.1, fun hc => ?_⟩
  cases b with
  | nil => exact absurd hc.2 (by decide)
  | cons c b => exact h.2 hc

theorem Between.shrink_left {x a b : List Byte} (hx : lexAfter x = .out)
    (hl : a = [] → wordChar (x.getLast?.getD 32) = false ∨ True)
    (h : Between (x ++ a) b) : Between a b := by
  refine ⟨by rw [← lexAfter_append a hx]; exact h.1, fun hc => ?_⟩
  cases a with
  | nil => exact absurd hc.1 (by decide)
  | cons c a =>
    apply h.2
    rw [List.getLast?_append_of_ne_nil _ (List.cons_ne_nil c a)]
    exact hc

theorem Insertable.mono {D D' : List Byte → Prop} {s : List Byte} (h : Insertable D s)
    (hd : ∀ u, D u → D' u) : Insertable D' s :=
  ⟨h.1, h.2.1, fun a b c e hb hc => hd _ (h.2.2 a b c e hb hc)⟩

theorem Insertable.space {w : List Byte} (hw : AllSpace w) : Insertable AllSpace w := by
  refine ⟨lexAfter_space hw, fun a c b e _ => Or.inl (hw c (by rw [e]; simp)),
    fun a b c e _ hc => ?_⟩
  intro x hx
  rcases List.mem_append.1 hx with hx | hx
  · exact hw x (by rw [e]; exact List.mem_append_left _ hx)
  · rcases List.mem_cons.1 hx with rfl | hx
    · exact hc
    · exact hw x (by rw [e]; exact List.mem_append_right _ hx)

/-- Two texts one after the other. -/
theorem Insertable.cat {D1 D2 D : List Byte → Prop} {s1 s2 : List Byte}
    (h1 : Insertable D1 s1) (h2 : Insertable D2 s2) (m1 : ∀ u, D1 u → D (u ++ s2))
    (m2 : ∀ u, D2 u → D (s1 ++ u)) : Insertable D (s1 ++ s2) := by
  refine ⟨by rw [lexAfter_append _ h1.1]; exact h2.1, fun a c b e ha => ?_,
    fun a b c e hb hc => ?_⟩
  · rcases List.append_eq_append_iff.1 e.symm with ⟨a', e1, e2⟩ | ⟨c', e1, e2⟩
    · cases a' with
      | nil =>
        rw [List.nil_append] at e2
        rw [List.append_nil] at e1
        refine h2.2.1 [] c b e2.symm rfl
      | cons x a' =>
        rw [List.cons_append] at e2
        cases e2
        exact h1.2.1 a c a' e1 ha
    · refine h2.2.1 c' c b e2 ?_
      rw [e1, lexAfter_append _ h1.1] at ha
      exact ha
  · rcases List.append_eq_append_iff.1 e.symm with ⟨a', e1, e2⟩ | ⟨c', e1, e2⟩
    · have := m1 _ (h1.2.2 a a' c e1 (by rw [e2] at hb; exact hb.shrink_right) hc)
      rw [e2]
      simpa using this
    · have := m2 _ (h2.2.2 c' b c e2 (by
        rw [e1] at hb
        exact hb.shrink_left h1.1 (fun _ => Or.inr trivial)) hc)
      rw [e1]
      simpa using this

/-- Two texts with a structural character between them. -/
theorem Insertable.sep {D1 D2 D : List Byte → Prop} {s1 s2 : List Byte} {x : Byte}
    (h1 : Insertable D1 s1) (h2 : Insertable D2 s2) (hx : structural x = true)
    (m1 : ∀ u, D1 u → D (u ++ x :: s2)) (m2 : ∀ u, D2 u → D (s1 ++ x :: u)) :
    Insertable D (s1 ++ x :: s2) := by
  have hx34 : x ≠ 34 := by
    intro hc
    subst hc
    cases hx
  have hxw : wordChar x = false := by simp [wordChar, hx]
  have hxt : tokenChar x = true := by simp [tokenChar, hx]
  have hlx : lexAfter (s1 ++ [x]) = .out := by
    rw [lexAfter_append _ h1.1]
    show lexFrom (LexState.read .out x) [] = .out
    rw [LexState.read, if_neg hx34]
    rfl
  have hassoc : ∀ l : List Byte, s1 ++ x :: l = (s1 ++ [x]) ++ l := by
    intro l
    simp
  refine ⟨by rw [hassoc, lexAfter_append _ hlx]; exact h2.1, fun a c b e ha => ?_,
    fun a b c e hb hc => ?_⟩
  · rcases List.append_eq_append_iff.1 e.symm with ⟨a', e1, e2⟩ | ⟨c', e1, e2⟩
    · cases a' with
      | nil =>
        rw [List.nil_append] at e2
        cases e2
        exact Or.inr hxt
      | cons y a' =>
        rw [List.cons_append] at e2
        cases e2
        exact h1.2.1 a c a' e1 ha
    · cases c' with
      | nil =>
        rw [List.nil_append] at e2
        cases e2
        exact Or.inr hxt
      | cons y c' =>
        rw [List.cons_append] at e2
        cases e2
        refine h2.2.1 c' c b rfl ?_
        rw [e1, hassoc, lexAfter_append _ hlx] at ha
        exact ha
  · rcases List.append_eq_append_iff.1 e.symm with ⟨a', e1, e2⟩ | ⟨c', e1, e2⟩
    · have := m1 _ (h1.2.2 a a' c e1 (by rw [e2] at hb; exact hb.shrink_right) hc)
      rw [e2]
      simpa using this
    · cases c' with
      | nil =>
        rw [List.append_nil] at e1
        rw [List.nil_append] at e2
        have := m1 _ (h1.2.2 s1 [] c (by simp) (Between.nil_right h1.1) hc)
        rw [e1, ← e2]
        simpa using this
      | cons y c' =>
        rw [List.cons_append] at e2
        cases e2
        have := m2 _ (h2.2.2 c' b c rfl (by
          rw [e1, hassoc] at hb
          exact hb.shrink_left hlx (fun _ => Or.inr trivial)) hc)
        rw [e1]
        simpa using this

theorem numberChar_head_space {w : List Byte} (hw : AllSpace w) :
    numberChar (w.headD 0) = false := by
  cases w with
  | nil => rfl
  | cons a w => exact isspace_not_numberChar (hw a (List.mem_cons_self _ _))

/-- A value with white space around it is a document. -/
theorem Doc.ofValPad {t w1 w2 : List Byte} {v : JsonValue} (h : Val t v []) (hw1 : AllSpace w1)
    (hw2 : AllSpace w2) : Doc (w1 ++ t ++ w2) v := by
  refine ⟨w1, t ++ w2, w2, by simp, hw1, ?_, hw2⟩
  have := (Val.append_all w2 (numberChar_head_space hw2)).1 h
  simpa using this

theorem Doc.pad {u w1 w2 : List Byte} {v : JsonValue} (h : Doc u v) (hw1 : AllSpace w1)
    (hw2 : AllSpace w2) : Doc (w1 ++ u ++ w2) v := by
  obtain ⟨wa, r, wb, rfl, hwa, hv, hwb⟩ := h
  refine ⟨w1 ++ wa, r ++ w2, wb ++ w2, by simp, hw1.append hwa, ?_, hwb.append hw2⟩
  exact (Val.append_all w2 (numberChar_head_space hw2)).1 hv

/-- A text made of characters of a number or a literal only. -/
theorem Insertable.word {D : List Byte → Prop} {t : List Byte}
    (hc : ∀ c ∈ t, wordChar c = true ∧ tokenChar c = true)
    (hd : ∀ w1 w2, AllSpace w1 → AllSpace w2 → D (w1 ++ t ++ w2)) : Insertable D t := by
  refine ⟨lexFrom_out (fun c h => wordChar_ne_quote (hc c h).1),
    fun a c b e _ => Or.inr (hc c (by rw [e]; simp)).2, fun a b c e hb hs => ?_⟩
  cases a with
  | nil =>
    rw [List.nil_append] at e
    have := hd [c] [] (AllSpace.cons hs AllSpace.nil) AllSpace.nil
    rw [← e]
    simpa using this
  | cons x a =>
    rcases List.eq_nil_or_concat' b with rfl | ⟨b', y, rfl⟩
    · have := hd [] [c] AllSpace.nil (AllSpace.cons hs AllSpace.nil)
      rw [List.append_nil] at e
      rw [← e]
      simpa using this
    · exfalso
      apply hb.2
      constructor
      · have hm : (x :: a).getLast (List.cons_ne_nil _ _) ∈ t := by
          rw [e]
          exact List.mem_append_left _ (List.getLast_mem _)
        rw [List.getLast?_eq_getLast _ (List.cons_ne_nil _ _)]
        exact (hc _ hm).1
      · cases hb' : b' ++ [y] with
        | nil => simp at hb'
        | cons z rest =>
          have hm : z ∈ t := by
            rw [e, hb']
            simp
          exact (hc _ hm).1

theorem hexDigit_ne {c : Nat} {x : Nat} (h : hexDigit c = some x) : c ≠ 34 ∧ c ≠ 92 := by
  rw [hexDigit_eq] at h
  split_ifs at h <;> omega

/-- Inside the body of a string the reader is never outside a string, and at its end it is
inside the string. -/
theorem StrBody.lex {t s : List Byte} (h : StrBody t s) :
    lexFrom .str t = .str ∧ ∀ a b, t = a ++ b → lexFrom .str a ≠ .out := by
  induction h with
  | nil =>
    refine ⟨rfl, fun a b e => ?_⟩
    have := List.append_eq_nil.1 e.symm
    rw [this.1]
    decide
  | @plain c t s h1 h2 _ ih =>
    have hstep : LexState.read .str c = .str := by
      rw [LexState.read, if_neg h1, if_neg h2]
    refine ⟨by rw [lexFrom_cons, hstep]; exact ih.1, fun a b e => ?_⟩
    cases a with
    | nil => decide
    | cons x a =>
      rw [List.cons_append] at e
      cases e
      rw [lexFrom_cons, hstep]
      exact ih.2 a b rfl
  | @esc e x t s _ _ ih =>
    refine ⟨by rw [lexFrom_cons, lexFrom_cons]; exact ih.1, fun a b h => ?_⟩
    cases a with
    | nil => decide
    | cons y a =>
      cases a with
      | nil =>
        simp only [List.cons_append, List.nil_append, List.cons.injEq] at h
        obtain ⟨rfl, _⟩ := h
        decide
      | cons z a =>
        simp only [List.cons_append, List.cons.injEq] at h
        obtain ⟨rfl, rfl, h⟩ := h
        rw [lexFrom_cons, lexFrom_cons]
        exact ih.2 a b h
  | @uni a b c d code t s hcode _ ih =>
    have hd : ∀ y ∈ [a, b, c, d], LexState.read .str y = .str := by
      have hh : ∀ y ∈ [a, b, c, d], ∃ v, hexDigit y = some v := by
        intro y hy
        simp only [hexCode] at hcode
        cases ha : hexDigit a with
        | none => rw [ha] at hcode; cases hcode
        | some va =>
          rw [ha] at hcode
          cases hb : hexDigit b with
          | none => rw [hb] at hcode; cases hcode
          | some vb =>
            rw [hb] at hcode
            cases hc : hexDigit c with
            | none => rw [hc] at hcode; cases hcode
            | some vc =>
              rw [hc] at hcode
              cases hd : hexDigit d with
              | none => rw [hd] at hcode; cases hcode
              | some vd =>
                simp only [List.mem_cons, List.mem_singleton, List.not_mem_nil, or_false] at hy
                rcases hy with rfl | rfl | rfl | rfl
                · exact ⟨_, ha⟩
                · exact ⟨_, hb⟩
                · exact ⟨_, hc⟩
                · exact ⟨_, hd⟩
      intro y hy
      obtain ⟨v, hv⟩ := hh y hy
      rw [LexState.read, if_neg (hexDigit_ne hv).1, if_neg (hexDigit_ne hv).2]
    have ha := hd a (by simp)
    have hb := hd b (by simp)
    have hc := hd c (by simp)
    have hdd := hd d (by simp)
    have h6 : ∀ r : List Byte, lexFrom .str (92 :: 117 :: a :: b :: c :: d :: r) =
        lexFrom .str r := by
      intro r
      rw [lexFrom_cons, lexFrom_cons, lexFrom_cons, lexFrom_cons, lexFrom_cons, lexFrom_cons]
      show lexFrom (LexState.read (LexState.read (LexState.read (LexState.read .str a) b) c) d)
        r = _
      rw [ha, hb, hc, hdd]
    refine ⟨by rw [h6]; exact ih.1, fun p q e => ?_⟩
    rcases List.append_eq_append_iff.1
      (show p ++ q = [92, 117, a, b, c, d] ++ t from e.symm) with ⟨a', e1, e2⟩ | ⟨c', e1, e2⟩
    · have hp : p <+: [92, 117, a, b, c, d] := ⟨a', e1.symm⟩
      have hstay : ∀ (l : List Byte) (st : LexState), st ≠ .out →
          (∀ y ∈ l, LexState.read .str y = .str) → ∀ p', p' <+: l →
          (st = .str ∨ p' = []) → lexFrom st p' ≠ .out := by
        intro l
        induction l with
        | nil =>
          intro st hst _ p' hp' _
          rw [List.prefix_nil.1 hp']
          exact hst
        | cons y l ihl =>
          intro st hst hl p' hp' hor
          cases p' with
          | nil => exact hst
          | cons z p' =>
            rcases hor with rfl | hc
            · obtain ⟨rfl, hp2⟩ := List.cons_prefix_cons.1 hp'
              rw [lexFrom_cons, hl z (List.mem_cons_self _ _)]
              exact ihl .str (by decide) (fun y hy => hl y (List.mem_cons_of_mem _ hy)) p' hp2
                (Or.inl rfl)
            · cases hc
      cases p with
      | nil => decide
      | cons y p =>
        obtain ⟨rfl, hp2⟩ := List.cons_prefix_cons.1 hp
        cases p with
        | nil => decide
        | cons z p =>
          obtain ⟨rfl, hp3⟩ := List.cons_prefix_cons.1 hp2
          rw [lexFrom_cons, lexFrom_cons]
          exact hstay [a, b, c, d] .str (by decide) hd p hp3 (Or.inl rfl)
    · rw [e1]
      show lexFrom .str (92 :: 117 :: a :: b :: c :: d :: c') ≠ .out
      rw [h6]
      exact ih.2 c' q e2

/-- The text of a string, between its quotes. -/
theorem Insertable.string {D : List Byte → Prop} {t k : List Byte} (hb : StrBody t k)
    (hd : ∀ w1 w2, AllSpace w1 → AllSpace w2 → D (w1 ++ 34 :: (t ++ [34]) ++ w2)) :
    Insertable D (34 :: (t ++ [34])) := by
  obtain ⟨hl1, hl2⟩ := hb.lex
  have hin : ∀ a b, t ++ [34] = a ++ b → b ≠ [] → lexAfter (34 :: a) ≠ .out := by
    intro a b e hne
    rcases List.eq_nil_or_concat' b with rfl | ⟨b', y, rfl⟩
    · exact absurd rfl hne
    · rw [← List.append_assoc] at e
      have := List.append_inj' e rfl
      exact hl2 a b' this.1
  refine ⟨?_, fun a c b e ha => ?_, fun a b c e hbt hs => ?_⟩
  · show lexFrom (LexState.read .out 34) (t ++ [34]) = .out
    rw [lexFrom_append]
    show lexFrom (lexFrom .str t) [34] = .out
    rw [hl1]
    rfl
  · cases a with
    | nil =>
      rw [List.nil_append] at e
      obtain ⟨rfl, _⟩ := List.cons.inj e
      exact Or.inr (by decide)
    | cons x a =>
      simp only [List.cons_append, List.cons.injEq] at e
      obtain ⟨rfl, e⟩ := e
      exact absurd ha (hin a (c :: b) e (List.cons_ne_nil _ _))
  · cases a with
    | nil =>
      rw [List.nil_append] at e
      have := hd [c] [] (AllSpace.cons hs AllSpace.nil) AllSpace.nil
      rw [← e]
      simpa using this
    | cons x a =>
      simp only [List.cons_append, List.cons.injEq] at e
      obtain ⟨rfl, e⟩ := e
      by_cases hne : b = []
      · subst hne
        have := hd [] [c] AllSpace.nil (AllSpace.cons hs AllSpace.nil)
        rw [List.append_nil] at e
        rw [← e]
        simpa using this
      · exact absurd hbt.1 (hin a b e hne)

theorem take_digitRun (r : List Byte) : ∀ c ∈ r.take (digitRun r), isdigit c = true := by
  induction r with
  | nil =>
    intro c hc
    cases hc
  | cons x r ih =>
    intro c hc
    rw [digitRun] at hc
    split_ifs at hc with hx
    · rw [List.take_succ_cons] at hc
      rcases List.mem_cons.1 hc with rfl | hc
      · exact hx
      · exact ih c hc
    · cases hc

theorem numberChar_of_digit {c : Nat} (h : isdigit c = true) : numberChar c = true := by
  simp [numberChar, h]

/-- The characters the scan of `parseNumber` takes off the head of `r` are characters of
numbers. -/
theorem scanRest_prefix (r : List Byte) :
    ∃ p, r = p ++ scanRest r ∧ ∀ c ∈ p, numberChar c = true := by
  have hdig : ∀ l : List Byte, ∃ p, l = p ++ l.drop (digitRun l) ∧
      ∀ c ∈ p, numberChar c = true :=
    fun l => ⟨l.take (digitRun l), (List.take_append_drop _ _).symm,
      fun c hc => numberChar_of_digit (take_digitRun l c hc)⟩
  have hone : ∀ (l : List Byte) (k : Byte), l.headD 0 = k → k ≠ 0 → l = k :: l.drop 1 := by
    intro l k hk h0
    cases l with
    | nil => exact absurd hk.symm h0
    | cons x l =>
      cases hk
      rfl
  have htrans : ∀ {a b c : List Byte}, (∃ p, a = p ++ b ∧ ∀ x ∈ p, numberChar x = true) →
      (∃ p, b = p ++ c ∧ ∀ x ∈ p, numberChar x = true) →
      ∃ p, a = p ++ c ∧ ∀ x ∈ p, numberChar x = true := by
    rintro a b c ⟨p, rfl, hp⟩ ⟨q, rfl, hq⟩
    refine ⟨p ++ q, by simp, fun x hx => ?_⟩
    rcases List.mem_append.1 hx with h | h
    · exact hp x h
    · exact hq x h
  have hrefl : ∀ a : List Byte, ∃ p, a = p ++ a ∧ ∀ x ∈ p, numberChar x = true :=
    fun a => ⟨[], rfl, fun x hx => by cases hx⟩
  have hdrop : ∀ (l : List Byte) (k : Byte), l.headD 0 = k → k ≠ 0 → numberChar k = true →
      ∃ p, l = p ++ l.drop 1 ∧ ∀ x ∈ p, numberChar x = true := by
    intro l k hk h0 hn
    refine ⟨[k], hone l k hk h0, fun x hx => ?_⟩
    rw [List.mem_singleton] at hx
    rw [hx]
    exact hn
  unfold scanRest
  simp only []
  generalize h1 : (if r.headD 0 = 45 then r.drop 1 else r) = r1
  have q1 : ∃ p, r = p ++ r1 ∧ ∀ x ∈ p, numberChar x = true := by
    rw [← h1]
    split_ifs with h
    · exact hdrop r 45 h (by decide) (by decide)
    · exact hrefl r
  generalize h2 : r1.drop (digitRun r1) = r2
  have q2 : ∃ p, r = p ++ r2 ∧ ∀ x ∈ p, numberChar x = true :=
    htrans q1 (by rw [← h2]; exact hdig r1)
  generalize h3 : (if r2.headD 0 = 46 then (r2.drop 1).drop (digitRun (r2.drop 1)) else r2) = r3
  have q3 : ∃ p, r = p ++ r3 ∧ ∀ x ∈ p, numberChar x = true := by
    refine htrans q2 ?_
    rw [← h3]
    split_ifs with h
    · exact htrans (hdrop r2 46 h (by decide) (by decide)) (hdig _)
    · exact hrefl r2
  by_cases h4 : r3.headD 0 = 101 ∨ r3.headD 0 = 69
  · rw [if_pos h4]
    refine htrans q3 ?_
    have he : ∃ p, r3 = p ++ r3.drop 1 ∧ ∀ x ∈ p, numberChar x = true := by
      rcases h4 with h | h
      · exact hdrop r3 101 h (by decide) (by decide)
      · exact hdrop r3 69 h (by decide) (by decide)
    refine htrans he ?_
    generalize r3.drop 1 = r4
    refine htrans ?_ (hdig _)
    by_cases h5 : r4.headD 0 = 43 ∨ r4.headD 0 = 45
    · rw [if_pos h5]
      rcases h5 with h | h
      · exact hdrop r4 43 h (by decide) (by decide)
      · exact hdrop r4 45 h (by decide) (by decide)
    · rw [if_neg h5]
      exact hrefl r4
  · rw [if_neg h4]
    exact q3

theorem structural_iff (c : Nat) : structural c = true ↔
    c = 91 ∨ c = 93 ∨ c = 123 ∨ c = 125 ∨ c = 58 ∨ c = 44 := by
  simp [structural, or_assoc]

theorem numberChar_word {c : Nat} (h : numberChar c = true) :
    wordChar c = true ∧ tokenChar c = true := by
  refine ⟨?_, by simp [tokenChar, h]⟩
  have hn : ¬ (¬ (48 ≤ c ∧ c ≤ 57) ∧ c ≠ 46 ∧ c ≠ 101 ∧ c ≠ 69 ∧ c ≠ 43 ∧ c ≠ 45) := by
    rw [← numberChar_eq_false_iff, h]
    simp
  have h1 : isspace c = false := by
    cases hs : isspace c with
    | false => rfl
    | true =>
      rw [isspace_iff] at hs
      omega
  have h2 : structural c = false := by
    cases hs : structural c with
    | false => rfl
    | true =>
      rw [structural_iff] at hs
      omega
  have h3 : c ≠ 34 := by omega
  simp [wordChar, h1, h2, h3]

/-- A number token that is followed by a character of no number, taken by itself. -/
theorem NumberAt.closed {r r' : List Byte} {x : Dbl} (h : NumberAt r x r')
    (hr : numberChar (r'.headD 0) = false) :
    ∃ t, r = t ++ r' ∧ NumberAt t x [] ∧ ∀ c ∈ t, numberChar c = true := by
  obtain ⟨h1, h2, h3, h4⟩ := h
  obtain ⟨p, hp, hpc⟩ := scanRest_prefix r
  rw [← h4] at hp
  have htok : scanToken r = p := by
    unfold scanToken
    rw [← h4]
    nth_rewrite 2 [hp]
    nth_rewrite 1 [hp]
    simp
  have hrest : scanRest p = [] := by
    have := scanRest_append p r' hr
    rw [← hp, ← h4] at this
    exact List.append_left_eq_self.1 this.symm
  have htokp : scanToken p = p := by
    unfold scanToken
    rw [hrest]
    simp
  have hne : p ≠ [] := by
    intro hc
    rw [hc, List.nil_append] at hp
    have := scanRest_length_lt h1
    rw [← h4, ← hp] at this
    exact absurd this (lt_irrefl _)
  refine ⟨p, hp, ⟨?_, ?_, ?_, hrest.symm⟩, hpc⟩
  · obtain ⟨c, p', rfl⟩ := List.exists_cons_of_ne_nil hne
    rw [hp] at h1
    exact h1
  · rw [htokp, ← htok]
    exact h2
  · rw [htokp, ← htok]
    exact h3

theorem Membs.lastOfDocs {uk uv k : List Byte} {v : JsonValue} (hk : Doc uk (.string k))
    (hv : Doc uv v) (acc : JsonObject) (r : List Byte) :
    Membs (uk ++ 58 :: (uv ++ 125 :: r)) acc (mapEmplace acc k v) r := by
  obtain ⟨w1, rk, w2, rfl, hw1, hvk, hw2⟩ := hk
  obtain ⟨w3, r1, w4, he, hw3, hw4, hval⟩ := hv.inContext (125 :: r) (by rfl)
  cases hvk with
  | string _ hb =>
    have := Membs.last acc hw1 hb hw2 hw3 hval hw4
    rw [he]
    simpa using this

theorem Membs.moreOfDocs {uk uv k ts r : List Byte} {v : JsonValue} {acc o : JsonObject}
    (hk : Doc uk (.string k)) (hv : Doc uv v) (hs : Membs ts (mapEmplace acc k v) o r) :
    Membs (uk ++ 58 :: (uv ++ 44 :: ts)) acc o r := by
  obtain ⟨w1, rk, w2, rfl, hw1, hvk, hw2⟩ := hk
  obtain ⟨w3, r1, w4, he, hw3, hw4, hval⟩ := hv.inContext (44 :: ts) (by rfl)
  cases hvk with
  | string _ hb =>
    have := Membs.more acc hw1 hb hw2 hw3 hval hw4 hs
    rw [he]
    simpa using this

/-- A value with white space around it. -/
theorem Insertable.padded {t w1 w2 : List Byte} {v : JsonValue} (hv : Val t v [])
    (h : Insertable (fun u => Doc u v) t) (hw1 : AllSpace w1) (hw2 : AllSpace w2) :
    Insertable (fun u => Doc u v) (w1 ++ t ++ w2) := by
  have hd : Doc t v := Doc.ofVal hv
  have h1 : Insertable (fun u => Doc u v) (w1 ++ t) :=
    (Insertable.space hw1).cat h
      (fun u hu => by simpa using hd.pad hu AllSpace.nil)
      (fun u hu => by simpa using hu.pad hw1 AllSpace.nil)
  exact h1.cat (Insertable.space hw2)
    (fun u hu => by simpa using hu.pad AllSpace.nil hw2)
    (fun u hu => by simpa using hd.pad hw1 hu)

/-- A bracketed text: an opening character, a text and a closing character. -/
theorem Insertable.bracket {D0 D : List Byte → Prop} {s : List Byte} {x y : Byte}
    (h : Insertable D0 s) (hx : structural x = true) (hy : structural y = true)
    (hs : D0 s)
    (m : ∀ u w1 w2, D0 u → AllSpace w1 → AllSpace w2 → D (w1 ++ x :: (u ++ y :: w2))) :
    Insertable D (x :: (s ++ [y])) := by
  have h2 : Insertable (fun u => ∃ u1 w2, D0 u1 ∧ AllSpace w2 ∧ u = u1 ++ y :: w2)
      (s ++ y :: []) :=
    h.sep (Insertable.space AllSpace.nil) hy
      (fun u hu => ⟨u, [], hu, AllSpace.nil, rfl⟩)
      (fun u hu => ⟨s, u, hs, hu, rfl⟩)
  have h3 := (Insertable.space AllSpace.nil).sep h2 hx
    (D := D)
    (fun u hu => by simpa using m s u [] hs hu AllSpace.nil)
    (fun u hu => by
      obtain ⟨u1, w2, h1, hw, rfl⟩ := hu
      simpa using m u1 [] w2 h1 AllSpace.nil hw)
  simpa using h3

/-- Every value of the language, taken by itself, takes white space at every place between
its tokens and holds outside its strings only white space and characters of tokens; so do
the elements of an array and the members of an object. -/
theorem insertable_all :
    (∀ {r v r'}, Val r v r' → numberChar (r'.headD 0) = false →
      ∃ t, r = t ++ r' ∧ Val t v [] ∧ Insertable (fun u => Doc u v) t) ∧
    (∀ {r acc a r'}, Elems r acc a r' →
      ∃ s, r = s ++ 93 :: r' ∧ Elems (s ++ [93]) acc a [] ∧
        Insertable (fun u => Elems (u ++ [93]) acc a []) s) ∧
    (∀ {r acc o r'}, Membs r acc o r' →
      ∃ s, r = s ++ 125 :: r' ∧ Membs (s ++ [125]) acc o [] ∧
        Insertable (fun u => Membs (u ++ [125]) acc o []) s) := by
  have hword : ∀ {t : List Byte} {v : JsonValue}, Val t v [] →
      (∀ c ∈ t, wordChar c = true ∧ tokenChar c = true) → Insertable (fun u => Doc u v) t :=
    fun hv hc => Insertable.word hc (fun w1 w2 hw1 hw2 => Doc.ofValPad hv hw1 hw2)
  apply Val.induction
  · intro r _
    exact ⟨lit "null", rfl, Val.litNull [], hword (Val.litNull []) (by decide)⟩
  · intro r _
    exact ⟨lit "true", rfl, Val.litTrue [], hword (Val.litTrue []) (by decide)⟩
  · intro r _
    exact ⟨lit "false", rfl, Val.litFalse [], hword (Val.litFalse []) (by decide)⟩
  · intro t s r hb _
    have hv : Val (34 :: (t ++ [34])) (.string s) [] := Val.string [] hb
    exact ⟨34 :: (t ++ [34]), by simp, hv,
      Insertable.string hb (fun w1 w2 hw1 hw2 => Doc.ofValPad hv hw1 hw2)⟩
  · intro r r' x hn hr
    obtain ⟨t, e, hc, hch⟩ := hn.closed hr
    exact ⟨t, e, Val.number hc, hword (Val.number hc) (fun c h => numberChar_word (hch c h))⟩
  · intro w r hw _
    have hv : ∀ w' : List Byte, AllSpace w' → Val (91 :: (w' ++ [93])) (.array []) [] :=
      fun w' hw' => Val.arrayEmpty [] hw'
    refine ⟨91 :: (w ++ [93]), by simp, hv w hw, ?_⟩
    exact (Insertable.space hw).bracket (by decide) (by decide) hw
      (fun u w1 w2 hu hw1 hw2 => by simpa using Doc.ofValPad (hv u hu) hw1 hw2)
  · intro r r' a _ ih _
    obtain ⟨s, e, he, hi⟩ := ih
    have hv : ∀ u : List Byte, Elems (u ++ [93]) [] a [] → Val (91 :: (u ++ [93])) (.array a) [] :=
      fun u hu => Val.array hu
    refine ⟨91 :: (s ++ [93]), by rw [e]; simp, hv s he, ?_⟩
    exact hi.bracket (by decide) (by decide) he
      (fun u w1 w2 hu hw1 hw2 => by simpa using Doc.ofValPad (hv u hu) hw1 hw2)
  · intro w r hw _
    have hv : ∀ w' : List Byte, AllSpace w' → Val (123 :: (w' ++ [125])) (.object []) [] :=
      fun w' hw' => Val.objectEmpty [] hw'
    refine ⟨123 :: (w ++ [125]), by simp, hv w hw, ?_⟩
    exact (Insertable.space hw).bracket (by decide) (by decide) hw
      (fun u w1 w2 hu hw1 hw2 => by simpa using Doc.ofValPad (hv u hu) hw1 hw2)
  · intro r r' o _ ih _
    obtain ⟨s, e, he, hi⟩ := ih
    have hv : ∀ u : List Byte, Membs (u ++ [125]) [] o [] →
        Val (123 :: (u ++ [125])) (.object o) [] :=
      fun u hu => Val.object hu
    refine ⟨123 :: (s ++ [125]), by rw [e]; simp, hv s he, ?_⟩
    exact hi.bracket (by decide) (by decide) he
      (fun u w1 w2 hu hw1 hw2 => by simpa using Doc.ofValPad (hv u hu) hw1 hw2)
  · intro w1 r1 w2 r' v acc hw1 _ hw2 ih
    obtain ⟨t, e, hv, hi⟩ := ih (numberChar_after_space hw2 (by rfl))
    have hp := Insertable.padded hv hi hw1 hw2
    have hd : Doc (w1 ++ t ++ w2) v := Doc.ofValPad hv hw1 hw2
    exact ⟨w1 ++ t ++ w2, by rw [e]; simp, Elems.lastElemOfDoc hd acc [],
      hp.mono (fun u hu => Elems.lastElemOfDoc hu acc [])⟩
  · intro w1 r1 w2 r2 r' v a acc hw1 _ hw2 _ ih1 ih2
    obtain ⟨t, e, hv, hi⟩ := ih1 (numberChar_after_space hw2 (by rfl))
    obtain ⟨s2, e2, he2, hi2⟩ := ih2
    have hp := Insertable.padded hv hi hw1 hw2
    have hd : Doc (w1 ++ t ++ w2) v := Doc.ofValPad hv hw1 hw2
    refine ⟨(w1 ++ t ++ w2) ++ 44 :: s2, by rw [e, e2]; simp, ?_, ?_⟩
    · have := @Elems.moreElemsOfDoc _ _ _ _ acc _ hd he2
      simpa using this
    · exact hp.sep hi2 (by decide)
        (fun u hu => by simpa using @Elems.moreElemsOfDoc _ _ _ _ acc _ hu he2)
        (fun u hu => by simpa using @Elems.moreElemsOfDoc _ _ _ _ acc _ hd hu)
  · intro w1 t k w2 w3 r1 w4 r' v acc hw1 hb hw2 hw3 _ hw4 ih
    obtain ⟨tv, e, hv, hi⟩ := ih (numberChar_after_space hw4 (by rfl))
    have hkv : Val (34 :: (t ++ [34])) (.string k) [] := Val.string [] hb
    have hki : Insertable (fun u => Doc u (.string k)) (34 :: (t ++ [34])) :=
      Insertable.string hb (fun w1 w2 hw1 hw2 => Doc.ofValPad hkv hw1 hw2)
    have hkp := Insertable.padded hkv hki hw1 hw2
    have hkd : Doc (w1 ++ 34 :: (t ++ [34]) ++ w2) (.string k) := Doc.ofValPad hkv hw1 hw2
    have hp := Insertable.padded hv hi hw3 hw4
    have hd : Doc (w3 ++ tv ++ w4) v := Doc.ofValPad hv hw3 hw4
    refine ⟨(w1 ++ 34 :: (t ++ [34]) ++ w2) ++ 58 :: (w3 ++ tv ++ w4), by rw [e]; simp, ?_, ?_⟩
    · have := Membs.lastOfDocs hkd hd acc []
      simpa using this
    · exact hkp.sep hp (by decide)
        (fun u hu => by simpa using Membs.lastOfDocs hu hd acc [])
        (fun u hu => by simpa using Membs.lastOfDocs hkd hu acc [])
  · intro w1 t k w2 w3 r1 w4 r2 r' v o acc hw1 hb hw2 hw3 _ hw4 _ ih1 ih2
    obtain ⟨tv, e, hv, hi⟩ := ih1 (numberChar_after_space hw4 (by rfl))
    obtain ⟨s2, e2, he2, hi2⟩ := ih2
    have hkv : Val (34 :: (t ++ [34])) (.string k) [] := Val.string [] hb
    have hki : Insertable (fun u => Doc u (.string k)) (34 :: (t ++ [34])) :=
      Insertable.string hb (fun w1 w2 hw1 hw2 => Doc.ofValPad hkv hw1 hw2)
    have hkp := Insertable.padded hkv hki hw1 hw2
    have hkd : Doc (w1 ++ 34 :: (t ++ [34]) ++ w2) (.string k) := Doc.ofValPad hkv hw1 hw2
    have hp := Insertable.padded hv hi hw3 hw4
    have hd : Doc (w3 ++ tv ++ w4) v := Doc.ofValPad hv hw3 hw4
    have hmid : Insertable (fun u => ∃ uk uv, Doc uk (.string k) ∧ Doc uv v ∧ u = uk ++ 58 :: uv)
        ((w1 ++ 34 :: (t ++ [34]) ++ w2) ++ 58 :: (w3 ++ tv ++ w4)) :=
      hkp.sep hp (by decide) (fun u hu => ⟨u, _, hu, hd, rfl⟩) (fun u hu => ⟨_, u, hkd, hu, rfl⟩)
    refine ⟨((w1 ++ 34 :: (t ++ [34]) ++ w2) ++ 58 :: (w3 ++ tv ++ w4)) ++ 44 :: s2,
      by rw [e, e2]; simp, ?_, ?_⟩
    · have := @Membs.moreOfDocs _ _ _ _ _ _ acc _ hkd hd he2
      simpa using this
    · exact hmid.sep hi2 (by decide)
        (fun u hu => by
          obtain ⟨uk, uv, h1, h2, rfl⟩ := hu
          simpa using @Membs.moreOfDocs _ _ _ _ _ _ acc _ h1 h2 he2)
        (fun u hu => by simpa using @Membs.moreOfDocs _ _ _ _ _ _ acc _ hkd hd hu)

/-- A document takes white space at every place between its tokens, before it and after it,
and holds outside its strings only white space and characters of tokens. -/
theorem Doc.insertable {t : List Byte} {v : JsonValue} (h : Doc t v) :
    Insertable (fun u => Doc u v) t := by
  obtain ⟨w1, r, w2, rfl, hw1, hv, hw2⟩ := h
  obtain ⟨t1, e, hv1, hi⟩ := insertable_all.1 hv (numberChar_head_space hw2)
  have := Insertable.padded hv1 hi hw1 hw2
  rw [e]
  simpa using this

theorem isspace_six (c : Nat) :
    isspace c = true ↔ c = 32 ∨ c = 9 ∨ c = 10 ∨ c = 11 ∨ c = 12 ∨ c = 13 := by
  rw [isspace_iff]
  omega

/-- C33 as it stands fails: a form feed before the document and a vertical tab between two
tokens are skipped like white space, the texts are accepted; and a character other than the
four, the digit `2`, inserted between the tokens `[` and `1` of the accepted text `[1]`,
gives `[21]`, which is accepted too. -/
theorem form_feed_skipped :
    parse (12 :: lit "1") {} = some (JsonValue.ofInt 1, {}) ∧
    parse (lit "[1," ++ 11 :: lit "2]") {} =
      some (.array [JsonValue.ofInt 1, JsonValue.ofInt 2], {}) ∧
    parse (lit "[" ++ lit "1]") {} = some (.array [JsonValue.ofInt 1], {}) ∧
    parse (lit "[" ++ 50 :: lit "1]") {} = some (.array [JsonValue.ofInt 21], {}) := by
  refine ⟨by rfl, by rfl, by rfl, by rfl⟩

/-- C33, amended. White space set: the characters the deserializer skips between tokens are
exactly the six of `std::isspace`: space, tab, newline, vertical tab, form feed and carriage
return, and `skipWhitespace` skips a run of them up to the next other character; a text that
`parse` accepts is still accepted, with the same value, after inserting any of the six at a
place between two tokens, before the document or after it; and a character that is none of
the six and stands in no token (no bracket, brace, colon, comma or double quote, no character
of a number, no letter of `true`, `false`, `null`), put anywhere outside a string, makes
`parse` report an error. -/
theorem whitespace_between_tokens (a b : List Byte) (c : Byte) (v : JsonValue)
    (e0 err : ParseError) :
    (isspace c = true ↔ c = 32 ∨ c = 9 ∨ c = 10 ∨ c = 11 ∨ c = 12 ∨ c = 13) ∧
    (∀ pre w r, AllSpace w → isspace (r.headD 0) = false →
      (stateAfter pre (w ++ r)).skipWhitespace = stateAfter (pre ++ w) r) ∧
    (parse (a ++ b) e0 = some (v, err) → err.what = [] → Between a b → isspace c = true →
      parse (a ++ c :: b) e0 = some (v, err)) ∧
    (parse b e0 = some (v, err) → err.what = [] → isspace c = true →
      parse (c :: b) e0 = some (v, err) ∧ parse (b ++ [c]) e0 = some (v, err)) ∧
    (lexAfter a = .out → isspace c = false → tokenChar c = false →
      ∃ x er, parse (a ++ c :: b) e0 = some (x, er) ∧ er.what ≠ []) := by
  have hins : ∀ (a b : List Byte), parse (a ++ b) e0 = some (v, err) → err.what = [] →
      Between a b → isspace c = true → parse (a ++ c :: b) e0 = some (v, err) := by
    intro a b h he hb hc
    have hd := parse_ok_default h he
    subst hd
    rw [parse_eq_some_iff] at h ⊢
    exact h.insertable.2.2 a b c rfl hb hc
  refine ⟨?_, fun pre w r hw hr => skipWhitespace_stateAfter pre hw hr, hins a b,
    fun h he hc => ⟨hins [] b h he (Between.nil_left b) hc, ?_⟩, fun ha hs ht => ?_⟩
  · exact isspace_six c
  · have h2 : parse (b ++ []) e0 = some (v, err) := by rw [List.append_nil]; exact h
    have hd := parse_ok_default h he
    subst hd
    have hl : lexAfter b = .out := ((parse_eq_some_iff b e0 v).1 h).insertable.1
    exact hins b [] h2 he (Between.nil_right hl) hc
  · obtain ⟨x, er, h⟩ := parse_total (a ++ c :: b) e0
    refine ⟨x, er, h, fun he => ?_⟩
    have hd := parse_ok_default h he
    subst hd
    have := ((parse_eq_some_iff _ e0 x).1 h).insertable.2.1 a c b rfl ha
    rcases this with h1 | h1
    · rw [hs] at h1
      cases h1
    · rw [ht] at h1
      cases h1

theorem whitespace_between_tokens_witness :
    Between (lit "[1,") (lit "2]") ∧
    parse (lit "[1," ++ 12 :: lit "2]") {} =
      some (.array [JsonValue.ofInt 1, JsonValue.ofInt 2], {}) ∧
    (∃ x er, parse (lit "[1," ++ 35 :: lit "2]") {} = some (x, er) ∧ er.what ≠ []) :=
  ⟨⟨by rfl, fun h => absurd h.1 (by decide)⟩,
    (whitespace_between_tokens (lit "[1,") (lit "2]") 12 _ {} {}).2.2.1 (by rfl) rfl
      ⟨by rfl, fun h => absurd h.1 (by decide)⟩ (by rfl),
    (whitespace_between_tokens (lit "[1,") (lit "2]") 35 .null {} {}).2.2.2.2 (by rfl) (by rfl)
      (by rfl)⟩

/-! ## Objects are written in key order, in both modes -/

theorem prettyMembers_eq_intercalate (w L : Nat) :
    ∀ o : List (List Byte × JsonValue), prettyMembers w L o =
      List.intercalate [44, 10] (o.map fun p =>
        List.replicate ((L + 1) * w) 32 ++ quoted p.1 ++ [58, 32] ++ prettyText w (L + 1) p.2)
  | [] => by simp [prettyMembers, List.intercalate]
  | [(k, v)] => by simp [prettyMembers, List.intercalate]
  | (k, v) :: m :: rest => by
    rw [prettyMembers, prettyMembers_eq_intercalate w L (m :: rest)]
    simp [List.intercalate, List.intersperse]

/-- C34. Object members are emitted in key order: for every object whose members are held in
key order (a `std::map`), `serialize` writes the members one after the other in that order,
separated by commas in the compact text, and by commas and newlines, each one indented, in
the pretty text, and the order is the strictly ascending byte-wise lexicographic order of the
keys; and two values built from Null by assigning the pairs of `ps` and of a rearrangement
`qs` of `ps` through `operator[]`, the keys being distinct, are the same value, so they
serialize to identical text in every mode; the object built holds exactly the pairs of `ps`,
in key order. -/
theorem members_in_key_order (ps qs : List (List Byte × JsonValue)) (o : JsonObject)
    (hperm : ps.Perm qs) (hnd : (ps.map Prod.fst).Nodup) (ho : keysAscending o = true) :
    (serialize (.object o) false 2 =
        some ([123] ++ List.intercalate [44]
          (o.map fun p => quoted p.1 ++ [58] ++ compactText quoted p.2) ++ [125]) ∧
      (∀ w : Nat, o ≠ [] → (JsonValue.object o).depth * w ≤ 2147483647 →
        serialize (.object o) true w =
          some ([123, 10] ++ List.intercalate [44, 10] (o.map fun p =>
            List.replicate w 32 ++ quoted p.1 ++ [58, 32] ++ prettyText w 1 p.2)
            ++ [10, 125])) ∧
      o.Pairwise (fun a b => List.Lex (fun x y : Nat => x < y) a.1 b.1)) ∧
    ps.foldl (fun v p => JsonValue.assignKey v p.1 p.2) .null =
      qs.foldl (fun v p => JsonValue.assignKey v p.1 p.2) .null ∧
    (∀ pretty indent,
      serialize (ps.foldl (fun v p => JsonValue.assignKey v p.1 p.2) .null) pretty indent =
      serialize (qs.foldl (fun v p => JsonValue.assignKey v p.1 p.2) .null) pretty indent) ∧
    (∀ m, ps.foldl (fun v p => JsonValue.assignKey v p.1 p.2) .null = .object m →
      keysAscending m = true ∧ ∀ k v, (k, v) ∈ m ↔ (k, v) ∈ ps) := by
  have heq : ps.foldl (fun v p => JsonValue.assignKey v p.1 p.2) .null =
      qs.foldl (fun v p => JsonValue.assignKey v p.1 p.2) .null := by
    by_cases hne : ps = []
    · subst hne
      rw [List.nil_perm.1 hperm]
    · have hne2 : qs ≠ [] := fun hc => hne (by
        subst hc
        exact List.perm_nil.1 hperm)
      have hnd2 : (qs.map Prod.fst).Nodup := (hperm.map Prod.fst).nodup_iff.1 hnd
      obtain ⟨o1, e1, s1, f1⟩ := build_spec ps hnd hne
      obtain ⟨o2, e2, s2, f2⟩ := build_spec qs hnd2 hne2
      rw [e1, e2, map_ext s1 s2 (fun k => Option.ext fun v => by
        show mapFind o1 k = some v ↔ mapFind o2 k = some v
        rw [f1, f2]
        exact hperm.mem_iff)]
  refine ⟨⟨?_, fun w hne hw => ?_, ?_⟩, heq, fun pretty indent => by rw [heq], fun m hm => ?_⟩
  · show JsonSerializer.serializeInternal (.object o) false 2 0 = _
    rw [serializeInternal_compact, compactText, compactMembers_eq_intercalate]
  · show JsonSerializer.serializeInternal (.object o) true w ((0 : Nat) : Int) = _
    rw [serializeInternal_pretty (.object o) w 0 (by rw [Nat.zero_add]; exact hw), prettyText,
      prettyMembers_eq_intercalate]
    obtain ⟨p, rest, rfl⟩ := List.exists_cons_of_ne_nil hne
    simp
  · exact (keysAscending_pairwise o ho).imp (fun h => (strLess_iff_lex _ _).1 h)
  · by_cases hne : ps = []
    · subst hne
      cases hm
    · obtain ⟨o1, e1, s1, f1⟩ := build_spec ps hnd hne
      rw [e1] at hm
      cases hm
      refine ⟨s1, fun k v => ?_⟩
      rw [← f1]
      exact ⟨mapFind_of_mem s1, mapFind_mem⟩

theorem members_in_key_order_witness :
    [(lit "b", JsonValue.ofInt 2), (lit "a", JsonValue.ofInt 1)].Perm
      [(lit "a", JsonValue.ofInt 1), (lit "b", JsonValue.ofInt 2)] ∧
    ([(lit "b", JsonValue.ofInt 2), (lit "a", JsonValue.ofInt 1)].foldl
      (fun v p => JsonValue.assignKey v p.1 p.2) .null =
     [(lit "a", JsonValue.ofInt 1), (lit "b", JsonValue.ofInt 2)].foldl
      (fun v p => JsonValue.assignKey v p.1 p.2) .null) ∧
    serialize ([(lit "b", JsonValue.ofInt 2), (lit "a", JsonValue.ofInt 1)].foldl
      (fun v p => JsonValue.assignKey v p.1 p.2) .null) false 2 = some (lit "\x7b\"a\":1,\"b\":2\x7d") :=
  ⟨List.Perm.swap _ _ _,
    (members_in_key_order [(lit "b", JsonValue.ofInt 2), (lit "a", JsonValue.ofInt 1)]
      [(lit "a", JsonValue.ofInt 1), (lit "b", JsonValue.ofInt 2)] [] (List.Perm.swap _ _ _)
      (by decide) rfl).2.1, by rfl⟩

/-! ## Nesting: the recursion is as deep as the input is nested -/

theorem replicate_bracket_head (k : Nat) :
    isspace ((List.replicate k (91 : Byte)).headD 0) = false ∧
    (List.replicate k (91 : Byte)).headD 0 ≠ 93 := by
  cases k with
  | zero => exact ⟨rfl, by simp⟩
  | succ k => exact ⟨rfl, by simp [List.replicate_succ]⟩

/-- On a run of `k` opening brackets `parseJsonValue` nests `k + 1` deep and ends where the
input ends. -/
theorem depth_of_brackets : ∀ (k : Nat) (pre : List Byte) (f : Nat) (e : ParseError),
    3 * k + 1 ≤ f →
    parseJsonValueDepth f (stateAfter pre (List.replicate k 91)) e = k + 1 ∧
    parseJsonValue f (stateAfter pre (List.replicate k 91)) e =
      some (.null, stateAfter (pre ++ List.replicate k 91) [],
        ⟨lit "Unexpected end of input", positionAfter (pre ++ List.replicate k 91)⟩) := by
  intro k
  induction k with
  | zero =>
    intro pre f e hf
    obtain ⟨f, rfl⟩ : ∃ g, f = g + 1 := ⟨f - 1, by omega⟩
    have hend : (stateAfter pre []).pos ≥ (stateAfter pre []).string.length := by
      simp [stateAfter]
    rw [List.replicate_zero]
    refine ⟨?_, ?_⟩
    · rw [parseJsonValueDepth, if_pos hend]
    · rw [parseJsonValue_succ, if_pos hend]
      simp [stateAfter]
  | succ k ih =>
    intro pre f e hf
    obtain ⟨f, rfl⟩ : ∃ g, f = g + 3 := ⟨f - 3, by omega⟩
    have hat := stateAfter_at pre (91 :: List.replicate k 91)
    have hlt : ¬ (stateAfter pre (91 :: List.replicate k 91)).pos ≥
        (stateAfter pre (91 :: List.replicate k 91)).string.length := by
      simp [stateAfter]
    have hcur : (stateAfter pre (91 :: List.replicate k 91)).cur = 91 := by
      have := hat.cur
      simpa using this
    obtain ⟨hsp, h93⟩ := replicate_bracket_head k
    have hskip : (stateAfter (pre ++ [91]) (List.replicate k 91)).skipWhitespace =
        stateAfter (pre ++ [91]) (List.replicate k 91) :=
      skipWhitespace_stateAfter_self _ hsp
    obtain ⟨ih1, ih2⟩ := ih (pre ++ [91]) f e (by omega)
    have happ : pre ++ [91] ++ List.replicate k 91 = pre ++ List.replicate (k + 1) 91 := by
      simp [List.replicate_succ]
    rw [List.replicate_succ]
    refine ⟨?_, ?_⟩
    · rw [parseJsonValueDepth, if_neg hlt]
      simp only [hcur]
      rw [if_neg (by decide), if_neg (by decide), if_neg (by decide), if_pos trivial,
        parseArrayDepth, expectChar_eq, if_pos (peek_stateAfter_cons _ _ _)]
      simp only [advance_stateAfter, hskip]
      rw [if_neg (by rw [peek_stateAfter]; exact h93), parseArrayLoopDepth]
      simp only [hskip, ih1, ih2]
      rw [if_pos (by simp [lit])]
      omega
    · rw [parseJsonValue_succ, if_neg hlt, hcur, if_neg (by decide), if_neg (by decide),
        if_neg (by decide), if_pos rfl, parseArray_succ, if_pos (peek_stateAfter_cons _ _ _),
        advance_stateAfter, hskip, if_neg (by rw [peek_stateAfter]; exact h93),
        parseArrayLoop_succ, hskip, ih2, Option.some_bind]
      simp only []
      rw [if_pos (by simp [lit]), ← List.replicate_succ, happ]

theorem positionAfter_brackets (n : Nat) :
    positionAfter (List.replicate n 91) = ⟨1, n + 1⟩ := by
  induction n with
  | zero => rfl
  | succ n ih =>
    rw [List.replicate_succ', positionAfter_snoc, ih, if_neg (by decide)]

/-- With a call stack that holds every nested call, as in the embedding, the parse of `n`
opening brackets ends where the input ends: no error of the deserializer reports a nesting
that is too deep. -/
theorem brackets_end_of_input (n : Nat) (e0 : ParseError) :
    parse (List.replicate n 91) e0 =
      some (.null, ⟨lit "Unexpected end of input", ⟨1, n + 1⟩⟩) := by
  obtain ⟨hsp, _⟩ := replicate_bracket_head n
  obtain ⟨_, h2⟩ := depth_of_brackets n [] (fuelFor (List.replicate n 91).length) {}
    (by rw [List.length_replicate]; exact le_refl _)
  have := parse_eq_of_run AllSpace.nil hsp h2 e0
  simp only [List.nil_append] at this
  rw [if_pos (by simp [lit]), positionAfter_brackets] at this
  exact this

/-- C37 fails on the code: the recursion of `parseJsonValue` through `parseArray` is as deep as
the nesting of the input, with no counter and no limit. For the text of `n` opening brackets,
whatever `n`, the call made by `deserialize` holds `n + 1` nested activations of
`parseJsonValue` at one time, so the result that the claim promises is returned only where the
call stack holds them all. -/
theorem recursion_depth_unbounded (n : Nat) :
    recursionDepth (List.replicate n 91) = n + 1 := by
  obtain ⟨hsp, _⟩ := replicate_bracket_head n
  have h0 : JsonDeserializer.skipWhitespace { string := List.replicate n 91 } =
      stateAfter [] (List.replicate n 91) :=
    skipWhitespace_stateAfter_self [] hsp
  obtain ⟨h1, _⟩ := depth_of_brackets n [] (fuelFor (List.replicate n 91).length) {}
    (by rw [List.length_replicate]; exact le_refl _)
  unfold recursionDepth
  rw [h0, h1]

/-! ## Underflow in `strtod` -/

set_option maxRecDepth 100000 in
set_option exponentiation.threshold 4000 in
/-- A value just below `DBL_MIN` that rounds up to it: `strtod` returns `DBL_MIN` and reports
`ERANGE`, so `std::stod` throws and the fail-fast build rejects the text, with the position
after the token, while the explicit-result build, which does not look at `errno`, returns the
number. A text a little nearer to `DBL_MIN` is not tiny after rounding and is accepted. -/
theorem underflow_rejected_by_failFast :
    strtod (lit "2.2250738585072012e-308") = ⟨.finite false (2 ^ 52) (-1074), 23, true⟩ ∧
    strtod (lit "2.2250738585072013e-308") = ⟨.finite false (2 ^ 52) (-1074), 23, false⟩ ∧
    FailFast.deserialize (lit "2.2250738585072012e-308") =
      some (.error ⟨lit "Invalid number format", ⟨1, 24⟩⟩) ∧
    parse (lit "2.2250738585072012e-308") {} =
      some (.number (.finite false (2 ^ 52) (-1074)), {}) :=
  ⟨rfl, rfl, rfl, rfl⟩

/-! ## The round trip of a number of six significant digits -/

/-! ## Rounding to the nearest: what `roundHalfEven` and `roundToDouble` return -/

theorem roundHalfEven_near (num den : Nat) (hd : 0 < den) :
    2 * ((roundHalfEven num den).1 * den) ≤ 2 * num + den ∧
    2 * num ≤ 2 * ((roundHalfEven num den).1 * den) + den := by
  have h1 := Nat.div_add_mod num den
  have h2 := Nat.mod_lt num hd
  have h3 : (num / den + 1) * den = den * (num / den) + den := by ring
  have h4 : num / den * den = den * (num / den) := by ring
  unfold roundHalfEven
  simp only []
  split_ifs <;> simp only [h3, h4] <;> omega

theorem roundHalfEven_unique (num den n : Nat) (hd : 0 < den)
    (h1 : 2 * (n * den) < 2 * num + den) (h2 : 2 * num < 2 * (n * den) + den) :
    (roundHalfEven num den).1 = n := by
  obtain ⟨k1, k2⟩ := roundHalfEven_near num den hd
  generalize (roundHalfEven num den).1 = q at k1 k2
  rcases Nat.lt_trichotomy q n with h | h | h
  · exfalso
    have : (q + 1) * den ≤ n * den := Nat.mul_le_mul_right den h
    have e : (q + 1) * den = q * den + den := by ring
    omega
  · exact h
  · exfalso
    have : (n + 1) * den ≤ q * den := Nat.mul_le_mul_right den h
    have e : (n + 1) * den = n * den + den := by ring
    omega

theorem roundHalfEven_scale (c num den : Nat) (hc : 0 < c) :
    roundHalfEven (c * num) (c * den) = roundHalfEven num den := by
  unfold roundHalfEven
  simp only []
  rw [Nat.mul_div_mul_left _ _ hc, Nat.mul_mod_mul_left]
  have e0 : c * (num % den) = 0 ↔ num % den = 0 := by
    constructor
    · intro h
      rcases Nat.mul_eq_zero.1 h with h | h
      · omega
      · exact h
    · intro h
      rw [h]
      rfl
  have e1 : 2 * (c * (num % den)) < c * den ↔ 2 * (num % den) < den := by
    rw [show 2 * (c * (num % den)) = c * (2 * (num % den)) by ring]
    exact Nat.mul_lt_mul_left hc
  have e2 : c * den < 2 * (c * (num % den)) ↔ den < 2 * (num % den) := by
    rw [show 2 * (c * (num % den)) = c * (2 * (num % den)) by ring]
    exact Nat.mul_lt_mul_left hc
  simp only [e0, e1, e2]

theorem roundHalfEven_ratio {n d n' d' : Nat} (hd : 0 < d) (hd' : 0 < d')
    (h : n * d' = n' * d) : roundHalfEven n d = roundHalfEven n' d' := by
  rw [← roundHalfEven_scale d' n d hd', ← roundHalfEven_scale d n' d' hd]
  rw [show d' * n = d * n' by rw [Nat.mul_comm, h, Nat.mul_comm], Nat.mul_comm d' d]

theorem zpow_toNat_split (b : ℚ) (l : Int) :
    b ^ l = b ^ l.toNat / b ^ (-l).toNat := by
  rcases le_total 0 l with h | h
  · obtain ⟨n, rfl⟩ := Int.eq_ofNat_of_zero_le h
    simp
  · obtain ⟨n, hn⟩ := Int.eq_ofNat_of_zero_le (neg_nonneg.2 h)
    have hl : l = -(n : Int) := by omega
    subst hl
    simp

/-- The quotient of the two arguments of a rounding, a power of the base on either side. -/
theorem cast_scaled_div (b : ℚ) (hb : 0 < b) (p q : ℚ) (e : Int) :
    (p * b ^ (-e).toNat) / (q * b ^ e.toNat) = p / q / b ^ e := by
  have h1 : (0 : ℚ) < b ^ e.toNat := pow_pos hb _
  have h2 : (0 : ℚ) < b ^ (-e).toNat := pow_pos hb _
  rw [zpow_toNat_split b e]
  by_cases hq : q = 0
  · subst hq
    simp
  · field_simp

theorem floorLog2_ratio (p q : Nat) (hp : 0 < p) (hq : 0 < q) (fl : Int)
    (hfl : (let l : Int := (floorLog2 p p : Int) - (floorLog2 q q : Int)
      if q * 2 ^ l.toNat ≤ p * 2 ^ (-l).toNat then l else l - 1) = fl) :
    (2 : ℚ) ^ fl ≤ (p : ℚ) / q ∧ (p : ℚ) / q < 2 ^ (fl + 1) := by
  obtain ⟨a1, a2⟩ := floorLog2_self hp
  obtain ⟨b1, b2⟩ := floorLog2_self hq
  generalize floorLog2 p p = a at a1 a2 hfl
  generalize floorLog2 q q = b at b1 b2 hfl
  have hqQ : (0 : ℚ) < q := by exact_mod_cast hq
  have a1' : (2 : ℚ) ^ (a : Int) ≤ p := by
    rw [zpow_natCast]; exact_mod_cast a1
  have a2' : (p : ℚ) < 2 ^ ((a : Int) + 1) := by
    rw [show ((a : Int) + 1) = ((a + 1 : Nat) : Int) by push_cast; ring, zpow_natCast]
    exact_mod_cast a2
  have b1' : (2 : ℚ) ^ (b : Int) ≤ q := by
    rw [zpow_natCast]; exact_mod_cast b1
  have b2' : (q : ℚ) < 2 ^ ((b : Int) + 1) := by
    rw [show ((b : Int) + 1) = ((b + 1 : Nat) : Int) by push_cast; ring, zpow_natCast]
    exact_mod_cast b2
  have two : (0 : ℚ) < 2 := by norm_num
  have hcond : ∀ l : Int, (q * 2 ^ l.toNat ≤ p * 2 ^ (-l).toNat) ↔ (2 : ℚ) ^ l ≤ (p : ℚ) / q := by
    intro l
    have h1 : (0 : ℚ) < 2 ^ l.toNat := pow_pos two _
    have h2 : (0 : ℚ) < 2 ^ (-l).toNat := pow_pos two _
    rw [zpow_toNat_split 2 l, div_le_div_iff₀ h2 hqQ]
    constructor
    · intro h
      have : ((q * 2 ^ l.toNat : Nat) : ℚ) ≤ ((p * 2 ^ (-l).toNat : Nat) : ℚ) := by
        exact_mod_cast h
      push_cast at this
      linarith
    · intro h
      have : ((q * 2 ^ l.toNat : Nat) : ℚ) ≤ ((p * 2 ^ (-l).toNat : Nat) : ℚ) := by
        push_cast
        linarith
      exact_mod_cast this
  simp only [] at hfl
  have e1 : (2 : ℚ) ^ ((a : Int) - b + 1) = 2 ^ ((a : Int) + 1) / 2 ^ (b : Int) := by
    rw [show (a : Int) - b + 1 = (a : Int) + 1 - b by ring, zpow_sub₀ (by norm_num)]
  have e2 : (2 : ℚ) ^ ((a : Int) - b - 1) = 2 ^ (a : Int) / 2 ^ ((b : Int) + 1) := by
    rw [show (a : Int) - b - 1 = (a : Int) - (b + 1) by ring, zpow_sub₀ (by norm_num)]
  have hb0 : (0 : ℚ) < 2 ^ (b : Int) := zpow_pos two _
  have hb1 : (0 : ℚ) < 2 ^ ((b : Int) + 1) := zpow_pos two _
  by_cases hc : q * 2 ^ ((a : Int) - b).toNat ≤ p * 2 ^ (-((a : Int) - b)).toNat
  · rw [if_pos hc] at hfl
    subst hfl
    refine ⟨(hcond _).1 hc, ?_⟩
    rw [e1, div_lt_div_iff₀ hqQ hb0]
    calc (p : ℚ) * 2 ^ (b : Int) < 2 ^ ((a : Int) + 1) * 2 ^ (b : Int) :=
          mul_lt_mul_of_pos_right a2' hb0
      _ ≤ 2 ^ ((a : Int) + 1) * q := mul_le_mul_of_nonneg_left b1' (le_of_lt (zpow_pos two _))
  · rw [if_neg hc] at hfl
    subst hfl
    have hlt : (p : ℚ) / q < 2 ^ ((a : Int) - b) := by
      by_contra hge
      exact hc ((hcond _).2 (not_lt.1 hge))
    refine ⟨?_, by rw [sub_add_cancel]; exact hlt⟩
    rw [e2, div_le_div_iff₀ hb1 hqQ]
    calc (2 : ℚ) ^ (a : Int) * q ≤ p * q := mul_le_mul_of_nonneg_right a1' (le_of_lt hqQ)
      _ ≤ p * 2 ^ ((b : Int) + 1) :=
          mul_le_mul_of_nonneg_left (le_of_lt b2') (by exact_mod_cast (Nat.zero_le p))

theorem zpow_floor_unique {x : ℚ} {a b : Int} (ha1 : (2 : ℚ) ^ a ≤ x) (ha2 : x < 2 ^ (a + 1))
    (hb1 : (2 : ℚ) ^ b ≤ x) (hb2 : x < 2 ^ (b + 1)) : a = b := by
  have h1 : (2 : ℚ) ^ a < 2 ^ (b + 1) := lt_of_le_of_lt ha1 hb2
  have h2 : (2 : ℚ) ^ b < 2 ^ (a + 1) := lt_of_le_of_lt hb1 ha2
  rw [zpow_lt_zpow_iff_right₀ (by norm_num)] at h1 h2
  omega

/-- The steps of `roundToDouble` after the binary exponent `fl` of the quotient is found. -/
theorem roundToDouble_of (neg : Bool) (p q : Nat) (hp : p ≠ 0) (fl : Int)
    (hfl : (let l : Int := (floorLog2 p p : Int) - (floorLog2 q q : Int)
      if q * 2 ^ l.toNat ≤ p * 2 ^ (-l).toNat then l else l - 1) = fl) :
    roundToDouble neg p q =
      if (roundHalfEven (p * 2 ^ (-(max (fl - 52) (-1074))).toNat)
          (q * 2 ^ (max (fl - 52) (-1074)).toNat)).1 = 2 ^ 53 then
        if 971 < max (fl - 52) (-1074) + 1 then (.inf neg, false)
        else (.finite neg (2 ^ 52) (max (fl - 52) (-1074) + 1),
          (roundHalfEven (p * 2 ^ (-(max (fl - 52) (-1074))).toNat)
            (q * 2 ^ (max (fl - 52) (-1074)).toNat)).2)
      else if 971 < max (fl - 52) (-1074) then (.inf neg, false)
        else (.finite neg (roundHalfEven (p * 2 ^ (-(max (fl - 52) (-1074))).toNat)
            (q * 2 ^ (max (fl - 52) (-1074)).toNat)).1 (max (fl - 52) (-1074)),
          (roundHalfEven (p * 2 ^ (-(max (fl - 52) (-1074))).toNat)
            (q * 2 ^ (max (fl - 52) (-1074)).toNat)).2) := by
  subst hfl
  unfold roundToDouble
  rw [if_neg hp]
  simp only []
  split_ifs <;> rfl

/-- The result of `roundToDouble` depends on the quotient only. -/
theorem roundToDouble_ratio (neg : Bool) {p q p' q' : Nat} (hq : 0 < q) (hq' : 0 < q')
    (h : p * q' = p' * q) : roundToDouble neg p q = roundToDouble neg p' q' := by
  by_cases hp : p = 0
  · have hp' : p' = 0 := by
      subst hp
      rw [Nat.zero_mul] at h
      rcases Nat.mul_eq_zero.1 h.symm with h | h
      · exact h
      · omega
    subst hp hp'
    unfold roundToDouble
    rw [if_pos rfl, if_pos rfl]
  · have hp' : p' ≠ 0 := by
      intro h0
      subst h0
      rw [Nat.zero_mul] at h
      rcases Nat.mul_eq_zero.1 h with h | h
      · exact hp h
      · omega
    have hr : (p : ℚ) / q = (p' : ℚ) / q' := by
      rw [div_eq_div_iff (by exact_mod_cast hq.ne') (by exact_mod_cast hq'.ne')]
      exact_mod_cast h
    obtain ⟨f1, f2⟩ := floorLog2_ratio p q (Nat.pos_of_ne_zero hp) hq _ rfl
    obtain ⟨g1, g2⟩ := floorLog2_ratio p' q' (Nat.pos_of_ne_zero hp') hq' _ rfl
    rw [hr] at f1 f2
    have hfl := zpow_floor_unique f1 f2 g1 g2
    rw [roundToDouble_of neg p q hp _ rfl, roundToDouble_of neg p' q' hp' _ rfl, ← hfl]
    have hrhe : ∀ e : Int, roundHalfEven (p * 2 ^ (-e).toNat) (q * 2 ^ e.toNat) =
        roundHalfEven (p' * 2 ^ (-e).toNat) (q' * 2 ^ e.toNat) := by
      intro e
      refine roundHalfEven_ratio (Nat.mul_pos hq (by positivity)) (Nat.mul_pos hq' (by positivity))
        ?_
      calc p * 2 ^ (-e).toNat * (q' * 2 ^ e.toNat)
          = (p * q') * (2 ^ (-e).toNat * 2 ^ e.toNat) := by ring
        _ = (p' * q) * (2 ^ (-e).toNat * 2 ^ e.toNat) := by rw [h]
        _ = p' * 2 ^ (-e).toNat * (q * 2 ^ e.toNat) := by ring
    rw [hrhe]

/-- What `roundToDouble` returns for a quotient that is not zero, when it is finite: the
significand is below `2^53`, the exponent is within the range of the format, and the value is
within half a unit of the last place of the quotient. -/
theorem roundToDouble_near (neg : Bool) {p q : Nat} (hp : 0 < p) (hq : 0 < q) {n : Bool}
    {M : Nat} {E : Int} (h : (roundToDouble neg p q).1 = .finite n M E) :
    n = neg ∧ M < 2 ^ 53 ∧ -1074 ≤ E ∧ E ≤ 971 ∧
    |(M : ℚ) * 2 ^ E - (p : ℚ) / q| ≤ 2 ^ E / 2 := by
  obtain ⟨f1, f2⟩ := floorLog2_ratio p q hp hq _ rfl
  rw [roundToDouble_of neg p q hp.ne' _ rfl] at h
  generalize (let l : Int := (floorLog2 p p : Int) - (floorLog2 q q : Int)
      if q * 2 ^ l.toNat ≤ p * 2 ^ (-l).toNat then l else l - 1) = fl at f1 f2 h
  have two : (0 : ℚ) < 2 := by norm_num
  have hqQ : (0 : ℚ) < q := by exact_mod_cast hq
  set e : Int := max (fl - 52) (-1074) with he
  have hden : 0 < q * 2 ^ e.toNat := Nat.mul_pos hq (by positivity)
  obtain ⟨k1, k2⟩ := roundHalfEven_near (p * 2 ^ (-e).toNat) (q * 2 ^ e.toNat) hden
  generalize (roundHalfEven (p * 2 ^ (-e).toNat) (q * 2 ^ e.toNat)) = r at h k1 k2
  -- the quotient that is rounded
  have hratio : ((p * 2 ^ (-e).toNat : Nat) : ℚ) / ((q * 2 ^ e.toNat : Nat) : ℚ) =
      (p : ℚ) / q / 2 ^ e := by
    push_cast
    exact cast_scaled_div 2 two p q e
  have hdenQ : (0 : ℚ) < ((q * 2 ^ e.toNat : Nat) : ℚ) := by exact_mod_cast hden
  have hnear : |(r.1 : ℚ) - (p : ℚ) / q / 2 ^ e| ≤ 1 / 2 := by
    rw [← hratio, abs_le]
    have c1 : (2 : ℚ) * (r.1 * ((q * 2 ^ e.toNat : Nat) : ℚ)) ≤
        2 * ((p * 2 ^ (-e).toNat : Nat) : ℚ) + ((q * 2 ^ e.toNat : Nat) : ℚ) := by
      exact_mod_cast k1
    have c2 : (2 : ℚ) * ((p * 2 ^ (-e).toNat : Nat) : ℚ) ≤
        2 * (r.1 * ((q * 2 ^ e.toNat : Nat) : ℚ)) + ((q * 2 ^ e.toNat : Nat) : ℚ) := by
      exact_mod_cast k2
    generalize ((p * 2 ^ (-e).toNat : Nat) : ℚ) = N at c1 c2
    generalize ((q * 2 ^ e.toNat : Nat) : ℚ) = D at c1 c2 hdenQ
    have hND : N / D * D = N := div_mul_cancel₀ N hdenQ.ne'
    generalize N / D = t at hND
    subst hND
    constructor
    · by_contra hc
      push_neg at hc
      have := mul_lt_mul_of_pos_right hc hdenQ
      linarith
    · by_contra hc
      push_neg at hc
      have := mul_lt_mul_of_pos_right hc hdenQ
      linarith
  have he0 : (0 : ℚ) < 2 ^ e := zpow_pos two _
  -- in units of the quotient itself
  have hnear2 : |(r.1 : ℚ) * 2 ^ e - (p : ℚ) / q| ≤ 2 ^ e / 2 := by
    have : (r.1 : ℚ) * 2 ^ e - (p : ℚ) / q = ((r.1 : ℚ) - (p : ℚ) / q / 2 ^ e) * 2 ^ e := by
      field_simp
      ring
    rw [this, abs_mul, abs_of_pos he0]
    calc |(r.1 : ℚ) - (p : ℚ) / q / 2 ^ e| * 2 ^ e ≤ 1 / 2 * 2 ^ e :=
          mul_le_mul_of_nonneg_right hnear (le_of_lt he0)
      _ = 2 ^ e / 2 := by ring
  -- the significand is at most `2^53`
  have hle53 : r.1 ≤ 2 ^ 53 := by
    have hx : (p : ℚ) / q / 2 ^ e < 2 ^ 53 := by
      rw [div_lt_iff₀ he0]
      calc (p : ℚ) / q < 2 ^ (fl + 1) := f2
        _ ≤ 2 ^ (e + 53) := by
            apply zpow_le_zpow_right₀ (by norm_num)
            have : fl - 52 ≤ e := le_max_left _ _
            omega
        _ = 2 ^ 53 * 2 ^ e := by
            rw [zpow_add₀ (by norm_num), mul_comm]
            norm_num
    have hlt : (r.1 : ℚ) < 2 ^ 53 + 1 := by
      have := (abs_le.1 hnear).2
      linarith
    have : r.1 < 2 ^ 53 + 1 := by exact_mod_cast hlt
    omega
  have hee : -1074 ≤ e := le_max_right _ _
  by_cases h53 : r.1 = 2 ^ 53
  · rw [if_pos h53] at h
    by_cases hbig : 971 < e + 1
    · rw [if_pos hbig] at h
      cases h
    · rw [if_neg hbig] at h
      simp only [Dbl.finite.injEq] at h
      obtain ⟨rfl, rfl, rfl⟩ := h
      refine ⟨rfl, by norm_num, by omega, by omega, ?_⟩
      have e1 : ((2 ^ 52 : Nat) : ℚ) * 2 ^ (e + 1) = (r.1 : ℚ) * 2 ^ e := by
        rw [h53, zpow_add₀ (by norm_num)]
        push_cast
        ring
      rw [e1]
      refine le_trans hnear2 ?_
      rw [zpow_add₀ (by norm_num)]
      have : (0 : ℚ) < 2 ^ e := he0
      linarith [this]
  · rw [if_neg h53] at h
    by_cases hbig : 971 < e
    · rw [if_pos hbig] at h
      cases h
    · rw [if_neg hbig] at h
      simp only [Dbl.finite.injEq] at h
      obtain ⟨rfl, rfl, rfl⟩ := h
      exact ⟨rfl, by omega, hee, by omega, hnear2⟩

theorem roundHalfEven_unique_rat (num den n : Nat) (hd : 0 < den)
    (h : |(num : ℚ) / den - n| < 1 / 2) : (roundHalfEven num den).1 = n := by
  have hdQ : (0 : ℚ) < den := by exact_mod_cast hd
  obtain ⟨h1, h2⟩ := abs_lt.1 h
  have hND : (num : ℚ) / den * den = num := div_mul_cancel₀ _ hdQ.ne'
  have a1 := mul_lt_mul_of_pos_right h1 hdQ
  have a2 := mul_lt_mul_of_pos_right h2 hdQ
  rw [sub_mul, hND] at a1 a2
  refine roundHalfEven_unique num den n hd ?_ ?_
  · have : (2 : ℚ) * (n * den) < 2 * num + den := by linarith
    exact_mod_cast this
  · have : (2 : ℚ) * num < 2 * (n * den) + den := by linarith
    exact_mod_cast this

theorem decimalExponent_spec {num den : Nat} (hn : 0 < num) (hd : 0 < den) :
    (10 : ℚ) ^ decimalExponent num den ≤ (num : ℚ) / den ∧
    (num : ℚ) / den < 10 ^ (decimalExponent num den + 1) := by
  have hnQ : (0 : ℚ) < num := by exact_mod_cast hn
  have hdQ : (0 : ℚ) < den := by exact_mod_cast hd
  have ten : (0 : ℚ) < 10 := by norm_num
  unfold decimalExponent
  by_cases h : den ≤ num
  · rw [if_pos h]
    have hg : 0 < num / den := Nat.div_pos h hd
    obtain ⟨l1, l2, l3⟩ := decimalLength_spec hg
    generalize decimalLength (num / den) = L at l1 l2 l3
    obtain ⟨k, rfl⟩ : ∃ k, L = k + 1 := ⟨L - 1, by omega⟩
    simp only [Nat.add_sub_cancel] at l3
    have e1 : (((k + 1 : Nat) : Int) - 1) = (k : Int) := by push_cast; ring
    rw [e1, zpow_natCast, show ((k : Int) + 1) = ((k + 1 : Nat) : Int) by push_cast; ring,
      zpow_natCast]
    have b1 : (num / den) * den ≤ num := Nat.div_mul_le_self num den
    have b2 : num < (num / den + 1) * den := by
      have := Nat.div_add_mod num den
      have := Nat.mod_lt num hd
      have e : (num / den + 1) * den = den * (num / den) + den := by ring
      omega
    generalize num / den = g at l2 l3 b1 b2
    have l2' : (g : ℚ) + 1 ≤ 10 ^ (k + 1) := by exact_mod_cast l2
    have l3' : (10 : ℚ) ^ k ≤ g := by exact_mod_cast l3
    have b1' : (g : ℚ) * den ≤ num := by exact_mod_cast b1
    have b2' : (num : ℚ) < (g + 1) * den := by exact_mod_cast b2
    constructor
    · rw [le_div_iff₀ hdQ]
      calc (10 : ℚ) ^ k * den ≤ g * den := mul_le_mul_of_nonneg_right l3' (le_of_lt hdQ)
        _ ≤ num := b1'
    · rw [div_lt_iff₀ hdQ]
      calc (num : ℚ) < (g + 1) * den := b2'
        _ ≤ 10 ^ (k + 1) * den := mul_le_mul_of_nonneg_right l2' (le_of_lt hdQ)
  · rw [if_neg h]
    simp only []
    have hlt : num < den := not_le.1 h
    have hg : 0 < den / num := Nat.div_pos (le_of_lt hlt) hn
    obtain ⟨l1, l2, l3⟩ := decimalLength_spec hg
    generalize decimalLength (den / num) = L at l1 l2 l3
    obtain ⟨k, rfl⟩ : ∃ k, L = k + 1 := ⟨L - 1, by omega⟩
    simp only [Nat.add_sub_cancel] at l3 ⊢
    have b1 : (den / num) * num ≤ den := Nat.div_mul_le_self den num
    have b2 : den < (den / num + 1) * num := by
      have := Nat.div_add_mod den num
      have := Nat.mod_lt den hn
      have e : (den / num + 1) * num = num * (den / num) + num := by ring
      omega
    generalize den / num = g at l2 l3 b1 b2
    have l2' : (g : ℚ) + 1 ≤ 10 ^ (k + 1) := by exact_mod_cast l2
    have l3' : (10 : ℚ) ^ k ≤ g := by exact_mod_cast l3
    have b1' : (g : ℚ) * num ≤ den := by exact_mod_cast b1
    have b2' : (den : ℚ) < (g + 1) * num := by exact_mod_cast b2
    have hk0 : (0 : ℚ) < 10 ^ k := pow_pos ten k
    have hk1 : (0 : ℚ) < 10 ^ (k + 1) := pow_pos ten _
    have e1 : (((k + 1 : Nat) : Int) - 1) = (k : Int) := by push_cast; ring
    by_cases hc : den ≤ num * 10 ^ k
    · rw [if_pos hc, e1, zpow_neg, zpow_natCast]
      have hc' : (den : ℚ) ≤ num * 10 ^ k := by exact_mod_cast hc
      have hle : (num : ℚ) / den ≤ (10 ^ k)⁻¹ := by
        rw [div_le_iff₀ hdQ, inv_mul_eq_div, le_div_iff₀ hk0]
        calc (num : ℚ) * 10 ^ k ≤ num * g := mul_le_mul_of_nonneg_left l3' (le_of_lt hnQ)
          _ = g * num := mul_comm _ _
          _ ≤ den := b1'
      constructor
      · rw [le_div_iff₀ hdQ, inv_mul_eq_div, div_le_iff₀ hk0]
        exact hc'
      · refine lt_of_le_of_lt hle ?_
        rw [← zpow_natCast, ← zpow_neg]
        exact zpow_lt_zpow_right₀ (by norm_num) (by omega)
    · rw [if_neg hc]
      have hc' : (num : ℚ) * 10 ^ k < den := by exact_mod_cast (not_le.1 hc)
      constructor
      · rw [zpow_neg, zpow_natCast, le_div_iff₀ hdQ, inv_mul_eq_div, div_le_iff₀ hk1]
        calc (den : ℚ) ≤ (g + 1) * num := le_of_lt b2'
          _ ≤ 10 ^ (k + 1) * num := mul_le_mul_of_nonneg_right l2' (le_of_lt hnQ)
          _ = num * 10 ^ (k + 1) := mul_comm _ _
      · rw [show (-((k + 1 : Nat) : Int) + 1) = -(k : Int) by push_cast; ring, zpow_neg,
          zpow_natCast, div_lt_iff₀ hdQ, inv_mul_eq_div, lt_div_iff₀ hk0]
        exact hc'

/-- The six digits and the decimal exponent that `ostreamDouble` finds for a normal double
`M * 2^E` that lies within half a unit of its last place of the decimal `s * 10^z`,
`10^5 ≤ s < 10^6`: they are `s` and `z + 5`. -/
theorem printed_digits (M : Nat) (E z : Int) (s : Nat) (hM : 2 ^ 52 ≤ M) (hs1 : 10 ^ 5 ≤ s)
    (hs2 : s < 10 ^ 6) (hnear : |(M : ℚ) * 2 ^ E - s * 10 ^ z| ≤ 2 ^ E / 2) :
    (if (roundHalfEven
          (M * 2 ^ E.toNat * 10 ^ (5 - decimalExponent (M * 2 ^ E.toNat) (2 ^ (-E).toNat)).toNat)
          (2 ^ (-E).toNat *
            10 ^ (decimalExponent (M * 2 ^ E.toNat) (2 ^ (-E).toNat) - 5).toNat)).1 = 10 ^ 6
      then ((10 ^ 5, decimalExponent (M * 2 ^ E.toNat) (2 ^ (-E).toNat) + 1) : Nat × Int)
      else ((roundHalfEven
          (M * 2 ^ E.toNat * 10 ^ (5 - decimalExponent (M * 2 ^ E.toNat) (2 ^ (-E).toNat)).toNat)
          (2 ^ (-E).toNat *
            10 ^ (decimalExponent (M * 2 ^ E.toNat) (2 ^ (-E).toNat) - 5).toNat)).1,
        decimalExponent (M * 2 ^ E.toNat) (2 ^ (-E).toNat))) = (s, z + 5) := by
  have two : (0 : ℚ) < 2 := by norm_num
  have ten : (0 : ℚ) < 10 := by norm_num
  have hM0 : 0 < M := lt_of_lt_of_le (by norm_num) hM
  have hnum : 0 < M * 2 ^ E.toNat := Nat.mul_pos hM0 (by positivity)
  have hden : 0 < 2 ^ (-E).toNat := by positivity
  have hv : ((M * 2 ^ E.toNat : Nat) : ℚ) / ((2 ^ (-E).toNat : Nat) : ℚ) = (M : ℚ) * 2 ^ E := by
    push_cast
    rw [zpow_toNat_split 2 E]
    ring
  obtain ⟨x1, x2⟩ := decimalExponent_spec hnum hden
  rw [hv] at x1 x2
  have hratio : ∀ x0 : Int,
      ((M * 2 ^ E.toNat * 10 ^ (5 - x0).toNat : Nat) : ℚ) /
        ((2 ^ (-E).toNat * 10 ^ (x0 - 5).toNat : Nat) : ℚ) = (M : ℚ) * 2 ^ E / 10 ^ (x0 - 5) := by
    intro x0
    have := cast_scaled_div 10 ten ((M * 2 ^ E.toNat : Nat) : ℚ) ((2 ^ (-E).toNat : Nat) : ℚ)
      (x0 - 5)
    rw [hv, show -(x0 - 5) = 5 - x0 by ring] at this
    rw [← this]
    push_cast
    rfl
  generalize decimalExponent (M * 2 ^ E.toNat) (2 ^ (-E).toNat) = x0 at x1 x2 ⊢
  have hr := hratio x0
  have hd2 : 0 < 2 ^ (-E).toNat * 10 ^ (x0 - 5).toNat := Nat.mul_pos hden (by positivity)
  generalize M * 2 ^ E.toNat * 10 ^ (5 - x0).toNat = A at hr ⊢
  generalize 2 ^ (-E).toNat * 10 ^ (x0 - 5).toNat = B at hr hd2 ⊢
  -- the value in units of `10^z`
  have hT : (0 : ℚ) < 10 ^ z := zpow_pos ten z
  have hE : (0 : ℚ) < 2 ^ E := zpow_pos two E
  have hMQ : (2 : ℚ) ^ 52 ≤ M := by exact_mod_cast hM
  obtain ⟨y, hy⟩ : ∃ y : ℚ, (M : ℚ) * 2 ^ E = y * 10 ^ z :=
    ⟨(M : ℚ) * 2 ^ E / 10 ^ z, by field_simp⟩
  have hulp : (2 : ℚ) ^ E / 2 ≤ y * 10 ^ z / 2 ^ 53 := by
    rw [← hy]
    have : (2 : ℚ) ^ 52 * 2 ^ E ≤ M * 2 ^ E := mul_le_mul_of_nonneg_right hMQ (le_of_lt hE)
    rw [le_div_iff₀ (by norm_num)]
    linarith
  rw [hy] at hnear x1 x2 hr
  have hny : |y - s| ≤ y / 2 ^ 53 := by
    have h1 : |y * 10 ^ z - s * 10 ^ z| ≤ y * 10 ^ z / 2 ^ 53 := le_trans hnear hulp
    have h2 : y * 10 ^ z - s * 10 ^ z = (y - s) * 10 ^ z := by ring
    rw [h2, abs_mul, abs_of_pos hT] at h1
    have h3 : y * 10 ^ z / 2 ^ 53 = y / 2 ^ 53 * 10 ^ z := by ring
    rw [h3] at h1
    exact le_of_mul_le_mul_right h1 hT
  have e53 : (2 : ℚ) ^ 53 = 9007199254740992 := by norm_num
  rw [e53] at hny
  obtain ⟨n1, n2⟩ := abs_le.1 hny
  have hs1' : (100000 : ℚ) ≤ s := by exact_mod_cast hs1
  have hs2' : (s : ℚ) ≤ 999999 := by
    have : s ≤ 999999 := by omega
    exact_mod_cast this
  have hy6 : y < 1000000 := by
    by_contra hc
    push_neg at hc
    linarith
  have hy4 : (10000 : ℚ) < y := by
    by_contra hc
    push_neg at hc
    linarith
  have hx0a : x0 < z + 6 := by
    have : (10 : ℚ) ^ x0 < 10 ^ (z + 6) := by
      refine lt_of_le_of_lt x1 ?_
      rw [zpow_add₀ (by norm_num), mul_comm]
      refine mul_lt_mul_of_pos_left ?_ hT
      norm_num
      exact hy6
    exact (zpow_lt_zpow_iff_right₀ (by norm_num)).1 this
  have hx0b : z + 4 < x0 + 1 := by
    have : (10 : ℚ) ^ (z + 4) < 10 ^ (x0 + 1) := by
      refine lt_trans ?_ x2
      rw [zpow_add₀ (by norm_num), mul_comm]
      refine mul_lt_mul_of_pos_right ?_ hT
      norm_num
      exact hy4
    exact (zpow_lt_zpow_iff_right₀ (by norm_num)).1 this
  rcases (by omega : x0 = z + 5 ∨ x0 = z + 4) with hx | hx
  · subst hx
    rw [show z + 5 - 5 = z by ring, mul_div_assoc, div_self hT.ne', mul_one] at hr
    have hrs : (roundHalfEven A B).1 = s := by
      refine roundHalfEven_unique_rat A B s hd2 ?_
      rw [hr]
      refine lt_of_le_of_lt hny ?_
      linarith
    rw [hrs, if_neg (by omega)]
  · subst hx
    have hy5 : y < 100000 := by
      have : y * 10 ^ z < 100000 * 10 ^ z := by
        rw [show z + 4 + 1 = z + 5 by ring, zpow_add₀ (by norm_num)] at x2
        have e5 : (10 : ℚ) ^ (5 : Int) = 100000 := by norm_num
        rw [e5] at x2
        linarith
      exact lt_of_mul_lt_mul_right this (le_of_lt hT)
    have hr2 : (A : ℚ) / B = 10 * y := by
      rw [hr, show z + 4 - 5 = z - 1 by ring, zpow_sub₀ (by norm_num), zpow_one]
      field_simp
      ring
    have hrs : (roundHalfEven A B).1 = 10 ^ 6 := by
      refine roundHalfEven_unique_rat A B (10 ^ 6) hd2 ?_
      rw [hr2, abs_lt]
      push_cast
      constructor <;> linarith
    have hs : s = 10 ^ 5 := by
      have : (s : ℚ) < 100001 := by linarith
      have : s < 100001 := by exact_mod_cast this
      omega
    rw [hrs, if_pos rfl, hs]
    congr 1
    ring

theorem headD_append_of_ne_nil {α : Type} (a b : List α) (d : α) (h : a ≠ []) :
    (a ++ b).headD d = a.headD d := by
  cases a with
  | nil => exact absurd rfl h
  | cons x xs => rfl

/-- The value that `strtod` gives to a text made of a sign, digits, a fraction and an exponent
part as `ostreamDouble` writes them: the digits `i` before the point, the digits `fd` after it
(no point when there are none), and either no exponent or `e`, a sign and the digits `X`. -/
theorem strtod_value_parts (neg : Bool) (i fd xp : List Byte) (up down : Nat)
    (hi : Rfc8259.Digits i) (hfd : ∀ c ∈ fd, isdigit c = true)
    (hxp : (xp = [] ∧ up = 0 ∧ down = 0) ∨
      ∃ sg X, xp = 101 :: sg :: X ∧ Rfc8259.Digits X ∧
        ((sg = 43 ∧ up = digitsValue X ∧ down = 0) ∨
         (sg = 45 ∧ up = 0 ∧ down = digitsValue X))) :
    (strtod ((if neg then [45] else []) ++
      (i ++ ((if fd = [] then [] else 46 :: fd) ++ xp)))).value =
      (roundToDouble neg (digitsValue (i ++ fd) * 10 ^ up) (10 ^ (down + fd.length))).1 := by
  obtain ⟨c, rest, rfl, hc⟩ := hi.headDigit
  obtain ⟨n45, n43, n46, n101, n69⟩ := isdigit_ne hc
  -- the exponent part
  have hx : isdigit (xp.headD 0) = false ∧ xp.headD 0 ≠ 46 ∧
      (if (xp.drop 1).headD 0 = 45 then 0
        else digitsValue (((xp.drop 1).drop
          (if (xp.drop 1).headD 0 = 45 ∨ (xp.drop 1).headD 0 = 43 then 1 else 0)).take
          (if xp.headD 0 = 101 ∨ xp.headD 0 = 69 then
            digitRun ((xp.drop 1).drop
              (if (xp.drop 1).headD 0 = 45 ∨ (xp.drop 1).headD 0 = 43 then 1 else 0))
            else 0))) = up ∧
      (if (xp.drop 1).headD 0 = 45 then
        digitsValue (((xp.drop 1).drop
          (if (xp.drop 1).headD 0 = 45 ∨ (xp.drop 1).headD 0 = 43 then 1 else 0)).take
          (if xp.headD 0 = 101 ∨ xp.headD 0 = 69 then
            digitRun ((xp.drop 1).drop
              (if (xp.drop 1).headD 0 = 45 ∨ (xp.drop 1).headD 0 = 43 then 1 else 0))
            else 0)) else 0) = down := by
    rcases hxp with ⟨rfl, rfl, rfl⟩ | ⟨sg, X, rfl, hX, h⟩
    · exact ⟨rfl, by decide, rfl, rfl⟩
    · have hrun : digitRun X = X.length := digitRun_all hX.2
      rcases h with ⟨rfl, rfl, rfl⟩ | ⟨rfl, rfl, rfl⟩
      · refine ⟨rfl, by simp, ?_, ?_⟩
        · simp [hrun]
        · simp
      · refine ⟨rfl, by simp, ?_, ?_⟩
        · simp
        · simp [hrun]
  obtain ⟨hx1, hx2, hx3, hx4⟩ := hx
  -- the fraction
  have hF : isdigit (((if fd = [] then [] else 46 :: fd) ++ xp).headD 0) = false ∧
      (if ((if fd = [] then [] else 46 :: fd) ++ xp).headD 0 = 46 then
        digitRun (((if fd = [] then [] else 46 :: fd) ++ xp).drop 1) else 0) = fd.length ∧
      (((if fd = [] then [] else 46 :: fd) ++ xp).drop 1).take fd.length = fd ∧
      ((if fd = [] then [] else 46 :: fd) ++ xp).drop
        (if ((if fd = [] then [] else 46 :: fd) ++ xp).headD 0 = 46 then 1 + fd.length
          else 0) = xp := by
    by_cases hfe : fd = []
    · subst hfe
      simp only [if_true, List.nil_append, if_neg hx2, List.length_nil, List.take_zero,
        List.drop_zero]
      exact ⟨hx1, trivial, trivial, trivial⟩
    · rw [if_neg hfe]
      have hrun : digitRun (fd ++ xp) = fd.length := digitRun_all_append hfd hx1
      refine ⟨rfl, ?_, ?_, ?_⟩
      · simpa using hrun
      · simp
      · simp
        rw [show 1 + fd.length = fd.length + 1 by omega]
        simp
  obtain ⟨hF1, hF2, hF3, hF4⟩ := hF
  generalize hFdef : (if fd = [] then [] else 46 :: fd) = F at hF1 hF2 hF3 hF4 ⊢
  have hrun1 : digitRun (c :: rest ++ (F ++ xp)) = (c :: rest).length :=
    digitRun_all_append hi.2 hF1
  have hsign : (if ((if neg = true then [45] else []) ++ (c :: rest ++ (F ++ xp))).headD 0 = 45 ∨
        ((if neg = true then [45] else []) ++ (c :: rest ++ (F ++ xp))).headD 0 = 43 then 1
        else 0) = (if neg = true then [45] else ([] : List Byte)).length ∧
      decide (((if neg = true then [45] else []) ++ (c :: rest ++ (F ++ xp))).headD 0 = 45) =
        neg := by
    cases neg with
    | true => exact ⟨rfl, rfl⟩
    | false =>
      refine ⟨?_, ?_⟩
      · simp [n45, n43]
      · simp [n45]
  have hval := strtod_value_of ((if neg = true then [45] else []) ++ (c :: rest ++ (F ++ xp)))
    (c :: rest ++ (F ++ xp)) (F ++ xp) xp (xp.drop 1)
    ((xp.drop 1).drop (if (xp.drop 1).headD 0 = 45 ∨ (xp.drop 1).headD 0 = 43 then 1 else 0))
    (if neg = true then [45] else ([] : List Byte)).length (c :: rest).length fd.length
    (if (xp.drop 1).headD 0 = 45 ∨ (xp.drop 1).headD 0 = 43 then 1 else 0)
    (if xp.headD 0 = 101 ∨ xp.headD 0 = 69 then
      digitRun ((xp.drop 1).drop
        (if (xp.drop 1).headD 0 = 45 ∨ (xp.drop 1).headD 0 = 43 then 1 else 0)) else 0)
    hsign.1 (List.drop_left _ _) hrun1 (by simp) (List.drop_left _ _) hF2
    (by rw [← List.drop_drop, List.drop_left, hF4]) rfl rfl rfl rfl
  rw [hval, hsign.2, List.take_left, hF3, hx3, hx4]

/-- The text of a finite number that is not zero, by the steps of `ostreamDouble`. -/
theorem ostreamDouble_finite (neg : Bool) (m : Nat) (e : Int) (hm : m ≠ 0) :
    ostreamDouble (.finite neg m e) =
      ostreamLayout (if neg then [45] else [])
        (if (roundHalfEven
            (m * 2 ^ e.toNat * 10 ^ (5 - decimalExponent (m * 2 ^ e.toNat) (2 ^ (-e).toNat)).toNat)
            (2 ^ (-e).toNat *
              10 ^ (decimalExponent (m * 2 ^ e.toNat) (2 ^ (-e).toNat) - 5).toNat)).1 = 10 ^ 6
          then ((10 ^ 5, decimalExponent (m * 2 ^ e.toNat) (2 ^ (-e).toNat) + 1) : Nat × Int)
          else ((roundHalfEven
            (m * 2 ^ e.toNat * 10 ^ (5 - decimalExponent (m * 2 ^ e.toNat) (2 ^ (-e).toNat)).toNat)
            (2 ^ (-e).toNat *
              10 ^ (decimalExponent (m * 2 ^ e.toNat) (2 ^ (-e).toNat) - 5).toNat)).1,
            decimalExponent (m * 2 ^ e.toNat) (2 ^ (-e).toNat))).1
        (if (roundHalfEven
            (m * 2 ^ e.toNat * 10 ^ (5 - decimalExponent (m * 2 ^ e.toNat) (2 ^ (-e).toNat)).toNat)
            (2 ^ (-e).toNat *
              10 ^ (decimalExponent (m * 2 ^ e.toNat) (2 ^ (-e).toNat) - 5).toNat)).1 = 10 ^ 6
          then ((10 ^ 5, decimalExponent (m * 2 ^ e.toNat) (2 ^ (-e).toNat) + 1) : Nat × Int)
          else ((roundHalfEven
            (m * 2 ^ e.toNat * 10 ^ (5 - decimalExponent (m * 2 ^ e.toNat) (2 ^ (-e).toNat)).toNat)
            (2 ^ (-e).toNat *
              10 ^ (decimalExponent (m * 2 ^ e.toNat) (2 ^ (-e).toNat) - 5).toNat)).1,
            decimalExponent (m * 2 ^ e.toNat) (2 ^ (-e).toNat))).2 := by
  unfold ostreamDouble
  simp only []
  rw [if_neg hm]
  rfl

theorem decimalDigits_value : ∀ (f w n : Nat), n < 10 ^ f →
    digitsValue (decimalDigits f w n) = n
  | 0, w, n, h => by
    simp at h
    subst h
    rfl
  | f + 1, w, n, h => by
    rw [decimalDigits_succ]
    by_cases hc : n < 10 ∧ w ≤ 1
    · rw [if_pos hc]
      show 10 * 0 + (48 + n - 48) = n
      omega
    · rw [if_neg hc, digitsValue_snoc,
        decimalDigits_value f (w - 1) (n / 10) (by rw [pow_succ] at h; omega)]
      omega

theorem digitsValue_zeros_append (k : Nat) (s : List Byte) :
    digitsValue (List.replicate k 48 ++ s) = digitsValue s := by
  induction k with
  | zero => rfl
  | succ k ih =>
    rw [List.replicate_succ, List.cons_append]
    exact ih

theorem digitsValue_zero_cons (s : List Byte) : digitsValue (48 :: s) = digitsValue s :=
  digitsValue_zeros_append 1 s

/-- What `strtod` reads from the text laid out for six digits `digs` and a decimal exponent
`x`: a quotient `D * 10^up / 10^(down + nf)` that equals `digs * 10^(x - 5)`. -/
theorem strtod_ostreamLayout (neg : Bool) (digs : Nat) (x : Int) (h2 : digs < 10 ^ 6)
    (hx : x.natAbs < 10 ^ 5) :
    ∃ D up down nf k : Nat,
      (strtod (ostreamLayout (if neg then [45] else []) digs x)).value =
        (roundToDouble neg (D * 10 ^ up) (10 ^ (down + nf))).1 ∧
      D * 10 ^ k = digs ∧ ((nf : Int) + k + down - up = 5 - x) := by
  obtain ⟨hl, hdig, hval⟩ := decimalDigits_padded 6 digs h2
  unfold ostreamLayout
  simp only []
  generalize decimalDigits 6 6 digs = ds at hl hdig hval
  by_cases hfix : -4 ≤ x ∧ x < 6
  · rw [if_pos hfix]
    by_cases hneg : x < 0
    · simp only [if_pos hneg]
      obtain ⟨k, hk⟩ := stripTrailingZeros_split (List.replicate ((-x).toNat - 1) 48 ++ ds)
      have hfd : ∀ c ∈ stripTrailingZeros (List.replicate ((-x).toNat - 1) 48 ++ ds),
          isdigit c = true := by
        intro c hc
        rcases List.mem_append.1 (stripTrailingZeros_subset _ c hc) with h | h
        · rw [List.eq_of_mem_replicate h]
          rfl
        · exact hdig c h
      have hlen := congrArg List.length hk
      generalize stripTrailingZeros (List.replicate ((-x).toNat - 1) 48 ++ ds) = fd
        at hk hfd hlen ⊢
      have hv := strtod_value_parts neg [48] fd [] 0 0 ⟨by simp, by simp [isdigit]⟩ hfd
        (Or.inl ⟨rfl, rfl, rfl⟩)
      refine ⟨digitsValue ([48] ++ fd), 0, 0, fd.length, k, ?_, ?_, ?_⟩
      · rw [← hv]
        simp only [List.append_nil, List.append_assoc]
      · rw [← digitsValue_append_zeros, List.append_assoc, ← hk, List.singleton_append,
          digitsValue_zero_cons, digitsValue_zeros_append, hval]
      · simp only [List.length_append, List.length_replicate] at hlen
        omega
    · simp only [if_neg hneg]
      obtain ⟨k, hk⟩ := stripTrailingZeros_split (ds.drop (x.toNat + 1))
      have hfd : ∀ c ∈ stripTrailingZeros (ds.drop (x.toNat + 1)), isdigit c = true :=
        fun c hc => hdig c (List.mem_of_mem_drop (stripTrailingZeros_subset _ c hc))
      have hlen := congrArg List.length hk
      generalize stripTrailingZeros (ds.drop (x.toNat + 1)) = fd at hk hfd hlen ⊢
      have hi : Rfc8259.Digits (ds.take (x.toNat + 1)) := by
        refine ⟨?_, fun c hc => hdig c (List.mem_of_mem_take hc)⟩
        intro h0
        have := congrArg List.length h0
        rw [List.length_take, hl] at this
        simp at this
      have hv := strtod_value_parts neg (ds.take (x.toNat + 1)) fd [] 0 0 hi hfd
        (Or.inl ⟨rfl, rfl, rfl⟩)
      refine ⟨digitsValue (ds.take (x.toNat + 1) ++ fd), 0, 0, fd.length, k, ?_, ?_, ?_⟩
      · rw [← hv]
        simp only [List.append_nil, List.append_assoc]
      · rw [← digitsValue_append_zeros, List.append_assoc, ← hk, List.take_append_drop, hval]
      · simp only [List.length_append, List.length_replicate, List.length_drop, hl] at hlen
        omega
  · rw [if_neg hfix]
    obtain ⟨k, hk⟩ := stripTrailingZeros_split (ds.drop 1)
    have hfd : ∀ c ∈ stripTrailingZeros (ds.drop 1), isdigit c = true :=
      fun c hc => hdig c (List.mem_of_mem_drop (stripTrailingZeros_subset _ c hc))
    have hlen := congrArg List.length hk
    generalize stripTrailingZeros (ds.drop 1) = fd at hk hfd hlen ⊢
    have hi : Rfc8259.Digits (ds.take 1) := by
      refine ⟨?_, fun c hc => hdig c (List.mem_of_mem_take hc)⟩
      intro h0
      have := congrArg List.length h0
      rw [List.length_take, hl] at this
      simp at this
    have hX : Rfc8259.Digits (decimalDigits 5 2 x.natAbs) :=
      ⟨decimalDigits_ne_nil 4 2 _, decimalDigits_digit 5 2 _⟩
    have hXv : digitsValue (decimalDigits 5 2 x.natAbs) = x.natAbs :=
      decimalDigits_value 5 2 _ hx
    have hD : digitsValue (ds.take 1 ++ fd) * 10 ^ k = digs := by
      rw [← digitsValue_append_zeros, List.append_assoc, ← hk, List.take_append_drop, hval]
    simp only [List.length_append, List.length_replicate, List.length_drop, hl] at hlen
    by_cases hneg : x < 0
    · simp only [if_pos hneg]
      have hv := strtod_value_parts neg (ds.take 1) fd (101 :: 45 :: decimalDigits 5 2 x.natAbs)
        0 x.natAbs hi hfd (Or.inr ⟨45, _, rfl, hX, Or.inr ⟨rfl, rfl, hXv.symm⟩⟩)
      refine ⟨digitsValue (ds.take 1 ++ fd), 0, x.natAbs, fd.length, k, ?_, hD, ?_⟩
      · rw [← hv]
        simp only [List.append_assoc, List.cons_append, List.nil_append]
      · omega
    · simp only [if_neg hneg]
      have hv := strtod_value_parts neg (ds.take 1) fd (101 :: 43 :: decimalDigits 5 2 x.natAbs)
        x.natAbs 0 hi hfd (Or.inr ⟨43, _, rfl, hX, Or.inl ⟨rfl, hXv.symm, rfl⟩⟩)
      refine ⟨digitsValue (ds.take 1 ++ fd), x.natAbs, 0, fd.length, k, ?_, hD, ?_⟩
      · rw [← hv]
        simp only [List.append_assoc, List.cons_append, List.nil_append]
      · omega

/-- The quotient that `strtod` reads from a laid out text, as a rational. -/
theorem layout_ratio {D up down nf k digs : Nat} {x : Int} (hD : D * 10 ^ k = digs)
    (hx : (nf : Int) + k + down - up = 5 - x) :
    ((D * 10 ^ up : Nat) : ℚ) / ((10 ^ (down + nf) : Nat) : ℚ) = (digs : ℚ) * 10 ^ (x - 5) := by
  have ten : (10 : ℚ) ≠ 0 := by norm_num
  have hx5 : x - 5 = (up : Int) - ((down + nf + k : Nat) : Int) := by
    push_cast
    omega
  rw [← hD, hx5, zpow_sub₀ ten, zpow_natCast, zpow_natCast]
  push_cast
  have h1 : (10 : ℚ) ^ down ≠ 0 := pow_ne_zero _ ten
  have h2 : (10 : ℚ) ^ nf ≠ 0 := pow_ne_zero _ ten
  have h3 : (10 : ℚ) ^ k ≠ 0 := pow_ne_zero _ ten
  rw [pow_add, pow_add, pow_add]
  field_simp
  ring

theorem decimalExponent_range {M : Nat} {E : Int} (hM0 : 0 < M) (hM : M < 2 ^ 53)
    (hE1 : -1074 ≤ E) (hE2 : E ≤ 971) :
    -324 ≤ decimalExponent (M * 2 ^ E.toNat) (2 ^ (-E).toNat) ∧
    decimalExponent (M * 2 ^ E.toNat) (2 ^ (-E).toNat) ≤ 308 := by
  have two : (0 : ℚ) < 2 := by norm_num
  have hnum : 0 < M * 2 ^ E.toNat := Nat.mul_pos hM0 (by positivity)
  have hden : 0 < 2 ^ (-E).toNat := by positivity
  have hv : ((M * 2 ^ E.toNat : Nat) : ℚ) / ((2 ^ (-E).toNat : Nat) : ℚ) = (M : ℚ) * 2 ^ E := by
    push_cast
    rw [zpow_toNat_split 2 E]
    ring
  obtain ⟨x1, x2⟩ := decimalExponent_spec hnum hden
  rw [hv] at x1 x2
  generalize decimalExponent (M * 2 ^ E.toNat) (2 ^ (-E).toNat) = x0 at x1 x2 ⊢
  have hE : (0 : ℚ) < 2 ^ E := zpow_pos two E
  have hMQ : (M : ℚ) < 2 ^ 53 := by exact_mod_cast hM
  have hM1 : (1 : ℚ) ≤ M := by exact_mod_cast hM0
  have up1 : (2 : ℚ) ^ E ≤ 2 ^ (971 : Int) := zpow_le_zpow_right₀ (by norm_num) hE2
  have lo1 : (2 : ℚ) ^ (-1074 : Int) ≤ 2 ^ E := zpow_le_zpow_right₀ (by norm_num) hE1
  have up2 : (M : ℚ) * 2 ^ E < 10 ^ (309 : Int) := by
    calc (M : ℚ) * 2 ^ E < 2 ^ 53 * 2 ^ E := mul_lt_mul_of_pos_right hMQ hE
      _ ≤ 2 ^ 53 * 2 ^ (971 : Int) := mul_le_mul_of_nonneg_left up1 (by norm_num)
      _ ≤ 10 ^ (309 : Int) := by
          rw [show (971 : Int) = ((971 : Nat) : Int) by rfl,
            show (309 : Int) = ((309 : Nat) : Int) by rfl, zpow_natCast, zpow_natCast]
          norm_num
  have lo2 : (10 : ℚ) ^ (-324 : Int) < (M : ℚ) * 2 ^ E := by
    calc (10 : ℚ) ^ (-324 : Int) < 2 ^ (-1074 : Int) := by
          rw [show (-324 : Int) = -((324 : Nat) : Int) by rfl,
            show (-1074 : Int) = -((1074 : Nat) : Int) by rfl, zpow_neg, zpow_neg,
            zpow_natCast, zpow_natCast]
          rw [inv_lt_inv₀ (by positivity) (by positivity)]
          norm_num
      _ ≤ 2 ^ E := lo1
      _ = 1 * 2 ^ E := (one_mul _).symm
      _ ≤ (M : ℚ) * 2 ^ E := mul_le_mul_of_nonneg_right hM1 (le_of_lt hE)
  have h1 : (10 : ℚ) ^ x0 < 10 ^ (309 : Int) := lt_of_le_of_lt x1 up2
  have h2 : (10 : ℚ) ^ (-324 : Int) < 10 ^ (x0 + 1) := lt_trans lo2 x2
  rw [zpow_lt_zpow_iff_right₀ (by norm_num)] at h1 h2
  omega

/-- A number of at most six digits, scaled to six digits. -/
theorem six_digits_scaled {s : Nat} (h0 : 0 < s) (h6 : s < 10 ^ 6) :
    ∃ j, 10 ^ 5 ≤ s * 10 ^ j ∧ s * 10 ^ j < 10 ^ 6 := by
  obtain ⟨l1, l2, l3⟩ := decimalLength_spec h0
  generalize decimalLength s = L at l1 l2 l3
  have hL : L ≤ 6 := by
    by_contra hc
    have : 10 ^ 6 ≤ 10 ^ (L - 1) := Nat.pow_le_pow_right (by decide) (by omega)
    omega
  refine ⟨6 - L, ?_, ?_⟩
  · calc 10 ^ 5 = 10 ^ (L - 1) * 10 ^ (6 - L) := by
          rw [← pow_add]
          congr 1
          omega
      _ ≤ s * 10 ^ (6 - L) := Nat.mul_le_mul_right _ l3
  · calc s * 10 ^ (6 - L) < 10 ^ L * 10 ^ (6 - L) :=
          Nat.mul_lt_mul_of_pos_right l2 (by positivity)
      _ = 10 ^ 6 := by
          rw [← pow_add]
          congr 1
          omega

/-- Reading back what was written, for a normal double: when it is the nearest one to a
decimal of at most six digits, the six digits and the exponent that `operator<<` finds are
those of the decimal, and `strtod` rounds the decimal to the double again. -/
theorem strtod_ostreamDouble_normal (n : Bool) (M : Nat) (E : Int) (s a b : Nat)
    (hM : 2 ^ 52 ≤ M) (hs0 : 0 < s) (hs : s < 10 ^ 6)
    (hd : (roundToDouble n (s * 10 ^ a) (10 ^ b)).1 = .finite n M E) :
    (strtod (ostreamDouble (.finite n M E))).value = .finite n M E := by
  have hp : 0 < s * 10 ^ a := Nat.mul_pos hs0 (by positivity)
  have hq : 0 < 10 ^ b := by positivity
  obtain ⟨_, hM53, hE1, hE2, hnear⟩ := roundToDouble_near n hp hq hd
  obtain ⟨j, hj1, hj2⟩ := six_digits_scaled hs0 hs
  have ten : (10 : ℚ) ≠ 0 := by norm_num
  -- the decimal, with six digits
  have hw : ((s * 10 ^ a : Nat) : ℚ) / ((10 ^ b : Nat) : ℚ) =
      ((s * 10 ^ j : Nat) : ℚ) * 10 ^ ((a : Int) - b - j) := by
    push_cast
    rw [zpow_sub₀ ten, zpow_sub₀ ten, zpow_natCast, zpow_natCast, zpow_natCast]
    have h1 : (10 : ℚ) ^ b ≠ 0 := pow_ne_zero _ ten
    have h2 : (10 : ℚ) ^ j ≠ 0 := pow_ne_zero _ ten
    field_simp
    ring
  rw [hw] at hnear
  have hM0 : 0 < M := lt_of_lt_of_le (by norm_num) hM
  have hpd := printed_digits M E ((a : Int) - b - j) (s * 10 ^ j) hM hj1 hj2 hnear
  obtain ⟨r1, r2⟩ := decimalExponent_range hM0 hM53 hE1 hE2
  have hx : ((a : Int) - b - j + 5).natAbs < 10 ^ 5 := by
    have := congrArg Prod.snd hpd
    simp only [] at this
    split_ifs at this <;> simp only [] at this <;> omega
  rw [ostreamDouble_finite n M E (by omega), hpd]
  obtain ⟨D, up, down, nf, k, hv, hD, hx5⟩ :=
    strtod_ostreamLayout n (s * 10 ^ j) ((a : Int) - b - j + 5) hj2 hx
  have hr := layout_ratio hD hx5
  rw [show (a : Int) - b - j + 5 - 5 = (a : Int) - b - j by ring, ← hw] at hr
  have hcross : D * 10 ^ up * 10 ^ b = s * 10 ^ a * 10 ^ (down + nf) := by
    have hq1 : ((10 ^ (down + nf) : Nat) : ℚ) ≠ 0 := by positivity
    have hq2 : ((10 ^ b : Nat) : ℚ) ≠ 0 := by positivity
    rw [div_eq_div_iff hq1 hq2] at hr
    exact_mod_cast hr
  simp only []
  rw [hv, roundToDouble_ratio n (by positivity) hq hcross, hd]

/-! ## Subnormal doubles: the nearest of six digits is read back too -/

theorem roundHalfEven_near_rat (num den : Nat) (hd : 0 < den) :
    |((roundHalfEven num den).1 : ℚ) - (num : ℚ) / den| ≤ 1 / 2 := by
  obtain ⟨k1, k2⟩ := roundHalfEven_near num den hd
  have hdQ : (0 : ℚ) < den := by exact_mod_cast hd
  generalize (roundHalfEven num den).1 = r at k1 k2
  have c1 : (2 : ℚ) * (r * den) ≤ 2 * num + den := by exact_mod_cast k1
  have c2 : (2 : ℚ) * num ≤ 2 * (r * den) + den := by exact_mod_cast k2
  have hND : (num : ℚ) / den * den = num := div_mul_cancel₀ _ hdQ.ne'
  generalize (num : ℚ) / den = t at hND
  rw [← hND] at c1 c2
  rw [abs_le]
  constructor
  · by_contra hc
    push_neg at hc
    have := mul_lt_mul_of_pos_right hc hdQ
    linarith
  · by_contra hc
    push_neg at hc
    have := mul_lt_mul_of_pos_right hc hdQ
    linarith

/-- No natural number is nearer to the quotient than the one `roundHalfEven` returns. -/
theorem roundHalfEven_nearest (num den n : Nat) (hd : 0 < den) :
    |((roundHalfEven num den).1 : ℚ) - (num : ℚ) / den| ≤ |(n : ℚ) - (num : ℚ) / den| := by
  have h := roundHalfEven_near_rat num den hd
  generalize (roundHalfEven num den).1 = r at h ⊢
  generalize (num : ℚ) / den = t at h ⊢
  by_cases hrn : r = n
  · rw [hrn]
  · have h1 : (1 : ℚ) ≤ |(n : ℚ) - r| := by
      rcases Nat.lt_or_gt_of_ne hrn with hlt | hgt
      · have : (r : ℚ) + 1 ≤ n := by exact_mod_cast hlt
        rw [abs_of_nonneg (by linarith)]
        linarith
      · have : (n : ℚ) + 1 ≤ r := by exact_mod_cast hgt
        rw [abs_of_nonpos (by linarith)]
        linarith
    have h2 : |(n : ℚ) - r| ≤ |(n : ℚ) - t| + |(r : ℚ) - t| := by
      have := abs_sub_le (n : ℚ) t r
      rwa [abs_sub_comm t r] at this
    linarith

/-- At the middle between `n` and `n + 1` the even one of the two is returned. -/
theorem roundHalfEven_tie (num den n : Nat) (hd : 0 < den) (h : 2 * num = (2 * n + 1) * den) :
    (roundHalfEven num den).1 = if n % 2 = 0 then n else n + 1 := by
  have e1 : (2 * n + 1) * den = 2 * (den * n) + den := by ring
  rw [e1] at h
  have hdm : num / den = n ∧ num % den = num - den * n :=
    (Nat.div_mod_unique hd).2 ⟨by omega, by omega⟩
  unfold roundHalfEven
  simp only []
  rw [hdm.1, hdm.2, if_neg (by omega), if_neg (by omega), if_neg (by omega)]
  split_ifs <;> rfl

/-- Rounding is symmetric about a natural number: a quotient at most as far from the rounded
value of another is rounded to the same. -/
theorem roundHalfEven_closer (num den num' den' : Nat) (hd : 0 < den) (hd' : 0 < den')
    (h : |(num' : ℚ) / den' - ((roundHalfEven num den).1 : ℚ)| ≤
      |(num : ℚ) / den - ((roundHalfEven num den).1 : ℚ)|) :
    (roundHalfEven num' den').1 = (roundHalfEven num den).1 := by
  have hn := roundHalfEven_near_rat num den hd
  rw [abs_sub_comm] at hn
  have hdQ : (0 : ℚ) < den := by exact_mod_cast hd
  have hdQ' : (0 : ℚ) < den' := by exact_mod_cast hd'
  by_cases hlt : |(num' : ℚ) / den' - ((roundHalfEven num den).1 : ℚ)| < 1 / 2
  · exact roundHalfEven_unique_rat num' den' _ hd' hlt
  · have heq' : |(num' : ℚ) / den' - ((roundHalfEven num den).1 : ℚ)| = 1 / 2 :=
      le_antisymm (le_trans h hn) (not_lt.1 hlt)
    have heq : |(num : ℚ) / den - ((roundHalfEven num den).1 : ℚ)| = 1 / 2 :=
      le_antisymm hn (by rw [← heq']; exact h)
    -- a quotient half a unit from `n` is a middle
    have mid : ∀ (a b n : Nat), 0 < b → |(a : ℚ) / b - n| = 1 / 2 →
        2 * a = (2 * n + 1) * b ∨ (1 ≤ n ∧ 2 * a = (2 * (n - 1) + 1) * b) := by
      intro a b n hb hab
      have hbQ : (0 : ℚ) < b := by exact_mod_cast hb
      have hAB : (a : ℚ) / b * b = a := div_mul_cancel₀ _ hbQ.ne'
      rcases abs_eq (by norm_num : (0 : ℚ) ≤ 1 / 2) |>.1 hab with h1 | h1
      · left
        have : (2 : ℚ) * a = (2 * n + 1) * b := by
          rw [← hAB]
          have : (a : ℚ) / b = n + 1 / 2 := by linarith
          rw [this]
          ring
        exact_mod_cast this
      · right
        have h2 : (a : ℚ) / b = n - 1 / 2 := by linarith
        have h3 : (2 : ℚ) * a = (2 * n - 1) * b := by
          rw [← hAB, h2]
          ring
        have hn1 : 1 ≤ n := by
          by_contra hc
          have hn0 : n = 0 := by omega
          subst hn0
          have ha0 : (0 : ℚ) ≤ a := by exact_mod_cast Nat.zero_le a
          push_cast at h3
          nlinarith
        refine ⟨hn1, ?_⟩
        obtain ⟨m, rfl⟩ : ∃ m, n = m + 1 := ⟨n - 1, by omega⟩
        have : (2 : ℚ) * a = (2 * m + 1) * b := by
          rw [h3]
          push_cast
          ring
        simp only [Nat.add_sub_cancel]
        exact_mod_cast this
    have tie := roundHalfEven_tie
    generalize hr : (roundHalfEven num den).1 = n at heq heq'
    -- `n` is even
    have heven : n % 2 = 0 := by
      rcases mid num den n hd heq with h1 | ⟨h0, h1⟩
      · have := tie num den n hd h1
        rw [hr] at this
        split_ifs at this with hc
        · exact hc
        · omega
      · have := tie num den (n - 1) hd h1
        rw [hr] at this
        split_ifs at this with hc <;> omega
    rcases mid num' den' n hd' heq' with h1 | ⟨h0, h1⟩
    · rw [tie num' den' n hd' h1, if_pos heven]
    · rw [tie num' den' (n - 1) hd' h1, if_neg (by omega)]
      omega

theorem cast_mul_pow_div (p q k : Nat) :
    ((p * 2 ^ k : Nat) : ℚ) / q = (p : ℚ) / q * 2 ^ (k : Int) := by
  rw [zpow_natCast]
  push_cast
  ring

/-- The quotient rounded below `DBL_MIN`, in units of `2^-1074`. -/
theorem cast_units (p q : Nat) :
    ((p * 2 ^ 1074 : Nat) : ℚ) / q = (p : ℚ) / q * 2 ^ (1074 : Int) :=
  cast_mul_pow_div p q 1074

/-- Below `DBL_MIN` the conversion rounds to a multiple of `2^-1074`. -/
theorem roundToDouble_subnormal (neg : Bool) {p q : Nat} (hp : 0 < p) (hq : 0 < q)
    (hlt : (p : ℚ) / q < 2 ^ (-1022 : Int)) :
    roundToDouble neg p q =
      (.finite neg (roundHalfEven (p * 2 ^ 1074) q).1 (-1074),
        (roundHalfEven (p * 2 ^ 1074) q).2) := by
  obtain ⟨f1, f2⟩ := floorLog2_ratio p q hp hq _ rfl
  rw [roundToDouble_of neg p q hp.ne' _ rfl]
  generalize (let l : Int := (floorLog2 p p : Int) - (floorLog2 q q : Int)
      if q * 2 ^ l.toNat ≤ p * 2 ^ (-l).toNat then l else l - 1) = fl at f1 f2
  have hfl : fl < -1022 :=
    (zpow_lt_zpow_iff_right₀ (by norm_num : (1 : ℚ) < 2)).1 (lt_of_le_of_lt f1 hlt)
  have he : max (fl - 52) (-1074) = -1074 := max_eq_right (by omega)
  rw [he]
  have t1 : (-(-1074 : Int)).toNat = 1074 := rfl
  have t2 : (-1074 : Int).toNat = 0 := rfl
  rw [t1, t2, pow_zero, Nat.mul_one]
  have two : (0 : ℚ) < 2 := by norm_num
  have hm : (roundHalfEven (p * 2 ^ 1074) q).1 ≠ 2 ^ 53 := by
    have hn := roundHalfEven_near_rat (p * 2 ^ 1074) q hq
    intro h53
    rw [h53, cast_units] at hn
    have h1 : (p : ℚ) / q * 2 ^ (1074 : Int) < 2 ^ (52 : Int) := by
      calc (p : ℚ) / q * 2 ^ (1074 : Int) < 2 ^ (-1022 : Int) * 2 ^ (1074 : Int) :=
            mul_lt_mul_of_pos_right hlt (zpow_pos two _)
        _ = 2 ^ (52 : Int) := by
            rw [← zpow_add₀ (by norm_num)]
            norm_num
    have e52 : (2 : ℚ) ^ (52 : Int) = 4503599627370496 := by norm_num
    have e53 : ((2 ^ 53 : Nat) : ℚ) = 9007199254740992 := by norm_num
    rw [e52] at h1
    rw [e53] at hn
    have h2 := (abs_le.1 hn).2
    linarith
  rw [if_neg hm, if_neg (by norm_num)]

/-- The result of `roundToDouble` is canonical: the significand is at least `2^52` unless the
exponent is the least one. -/
theorem roundToDouble_canonical (neg : Bool) {p q : Nat} (hp : 0 < p) (hq : 0 < q) {n : Bool}
    {M : Nat} {E : Int} (h : (roundToDouble neg p q).1 = .finite n M E) :
    2 ^ 52 ≤ M ∨ E = -1074 := by
  obtain ⟨f1, f2⟩ := floorLog2_ratio p q hp hq _ rfl
  rw [roundToDouble_of neg p q hp.ne' _ rfl] at h
  generalize (let l : Int := (floorLog2 p p : Int) - (floorLog2 q q : Int)
      if q * 2 ^ l.toNat ≤ p * 2 ^ (-l).toNat then l else l - 1) = fl at f1 f2 h
  have two : (0 : ℚ) < 2 := by norm_num
  have hqQ : (0 : ℚ) < q := by exact_mod_cast hq
  have key : max (fl - 52) (-1074) = -1074 ∨
      2 ^ 52 ≤ (roundHalfEven (p * 2 ^ (-(max (fl - 52) (-1074))).toNat)
        (q * 2 ^ (max (fl - 52) (-1074)).toNat)).1 := by
    by_cases hfl : fl - 52 ≤ -1074
    · exact Or.inl (max_eq_right hfl)
    · right
      have he : max (fl - 52) (-1074) = fl - 52 := max_eq_left (by omega)
      rw [he]
      have hden : 0 < q * 2 ^ (fl - 52).toNat := Nat.mul_pos hq (by positivity)
      have hn := roundHalfEven_near_rat (p * 2 ^ (-(fl - 52)).toNat) (q * 2 ^ (fl - 52).toNat)
        hden
      have hratio : ((p * 2 ^ (-(fl - 52)).toNat : Nat) : ℚ) /
          ((q * 2 ^ (fl - 52).toNat : Nat) : ℚ) = (p : ℚ) / q / 2 ^ (fl - 52) := by
        push_cast
        exact cast_scaled_div 2 two p q (fl - 52)
      rw [hratio] at hn
      have hbig : (2 : ℚ) ^ (52 : Int) ≤ (p : ℚ) / q / 2 ^ (fl - 52) := by
        rw [le_div_iff₀ (zpow_pos two _), ← zpow_add₀ (by norm_num)]
        rw [show (52 : Int) + (fl - 52) = fl by ring]
        exact f1
      have e52 : (2 : ℚ) ^ (52 : Int) = 4503599627370496 := by norm_num
      rw [e52] at hbig
      generalize (roundHalfEven (p * 2 ^ (-(fl - 52)).toNat) (q * 2 ^ (fl - 52).toNat)).1 = r
        at hn ⊢
      have h1 := (abs_le.1 hn).1
      have h3 : ((4503599627370495 : Nat) : ℚ) < r := by
        push_cast
        linarith
      have h4 : 4503599627370495 < r := by exact_mod_cast h3
      have e : (2 : Nat) ^ 52 = 4503599627370496 := by norm_num
      omega
  generalize max (fl - 52) (-1074) = e at h key
  generalize (roundHalfEven (p * 2 ^ (-e).toNat) (q * 2 ^ e.toNat)) = r at h key
  by_cases h53 : r.1 = 2 ^ 53
  · rw [if_pos h53] at h
    by_cases hbig : 971 < e + 1
    · rw [if_pos hbig] at h
      cases h
    · rw [if_neg hbig] at h
      simp only [Dbl.finite.injEq] at h
      exact Or.inl (by rw [← h.2.1])
  · rw [if_neg h53] at h
    by_cases hbig : 971 < e
    · rw [if_pos hbig] at h
      cases h
    · rw [if_neg hbig] at h
      simp only [Dbl.finite.injEq] at h
      rcases key with k | k
      · exact Or.inr (by rw [← h.2.2, k])
      · exact Or.inl (by rw [← h.2.1]; exact k)

/-- The six digits written for a value are at least as near to it as any decimal of six
digits: `r` is the nearest natural number to `v / 10^(x0 - 5)`, where `10^x0 ≤ v`, and
`s * 10^z` with `s < 10^6` is either a multiple of `10^(x0 - 5)` or below `10^x0`. -/
theorem printed_closer {v t : ℚ} {x0 z : Int} {r s : Nat} (hs : s < 10 ^ 6)
    (ht : t = v / 10 ^ (x0 - 5)) (hx : (10 : ℚ) ^ x0 ≤ v)
    (hr : ∀ n : Nat, |(r : ℚ) - t| ≤ |(n : ℚ) - t|) :
    |(r : ℚ) * 10 ^ (x0 - 5) - v| ≤ |(s : ℚ) * 10 ^ z - v| := by
  have ten : (0 : ℚ) < 10 := by norm_num
  have hG : (0 : ℚ) < 10 ^ (x0 - 5) := zpow_pos ten _
  have hv : v = t * 10 ^ (x0 - 5) := by
    rw [ht]
    field_simp
  have e1 : (r : ℚ) * 10 ^ (x0 - 5) - v = ((r : ℚ) - t) * 10 ^ (x0 - 5) := by
    rw [hv]
    ring
  rw [e1, abs_mul, abs_of_pos hG]
  by_cases hz : x0 - 5 ≤ z
  · -- the decimal is a multiple of the unit of the sixth digit
    obtain ⟨j, hj⟩ := Int.eq_ofNat_of_zero_le (by omega : 0 ≤ z - (x0 - 5))
    have hzj : z = (x0 - 5) + (j : Int) := by omega
    have e2 : (s : ℚ) * 10 ^ z - v = (((s * 10 ^ j : Nat) : ℚ) - t) * 10 ^ (x0 - 5) := by
      rw [hv, hzj, zpow_add₀ ten.ne', zpow_natCast]
      push_cast
      ring
    rw [e2, abs_mul, abs_of_pos hG]
    exact mul_le_mul_of_nonneg_right (hr _) (le_of_lt hG)
  · -- the decimal is below `10^x0`
    have hz6 : z + 6 ≤ x0 := by omega
    have hsQ : (s : ℚ) ≤ 10 ^ 6 := by exact_mod_cast (le_of_lt hs)
    have hw : (s : ℚ) * 10 ^ z ≤ 10 ^ x0 := by
      calc (s : ℚ) * 10 ^ z ≤ 10 ^ 6 * 10 ^ z :=
            mul_le_mul_of_nonneg_right hsQ (le_of_lt (zpow_pos ten _))
        _ = 10 ^ (z + 6) := by
            rw [zpow_add₀ ten.ne', mul_comm]
            norm_num
        _ ≤ 10 ^ x0 := zpow_le_zpow_right₀ (by norm_num) hz6
    have e5 : (10 : ℚ) ^ x0 = ((10 ^ 5 : Nat) : ℚ) * 10 ^ (x0 - 5) := by
      rw [show x0 = (5 : Int) + (x0 - 5) by ring, zpow_add₀ ten.ne']
      norm_num
    have h5 := hr (10 ^ 5)
    have ht5 : ((10 ^ 5 : Nat) : ℚ) ≤ t := by
      rw [hv, e5] at hx
      exact le_of_mul_le_mul_right hx hG
    rw [abs_of_nonpos (by linarith : ((10 ^ 5 : Nat) : ℚ) - t ≤ 0)] at h5
    rw [abs_of_nonpos (by linarith : (s : ℚ) * 10 ^ z - v ≤ 0)]
    calc |(r : ℚ) - t| * 10 ^ (x0 - 5) ≤ -(((10 ^ 5 : Nat) : ℚ) - t) * 10 ^ (x0 - 5) :=
          mul_le_mul_of_nonneg_right h5 (le_of_lt hG)
      _ = v - 10 ^ x0 := by
          rw [hv, e5]
          ring
      _ ≤ -((s : ℚ) * 10 ^ z - v) := by linarith

theorem cast_significand (M : Nat) (E : Int) :
    ((M * 2 ^ E.toNat : Nat) : ℚ) / ((2 ^ (-E).toNat : Nat) : ℚ) = (M : ℚ) * 2 ^ E := by
  push_cast
  rw [zpow_toNat_split 2 E]
  ring

theorem cast_scaled_significand (M : Nat) (E x0 : Int) :
    ((M * 2 ^ E.toNat * 10 ^ (5 - x0).toNat : Nat) : ℚ) /
      ((2 ^ (-E).toNat * 10 ^ (x0 - 5).toNat : Nat) : ℚ) = (M : ℚ) * 2 ^ E / 10 ^ (x0 - 5) := by
  have := cast_scaled_div 10 (by norm_num) ((M * 2 ^ E.toNat : Nat) : ℚ)
    ((2 ^ (-E).toNat : Nat) : ℚ) (x0 - 5)
  rw [cast_significand, show -(x0 - 5) = 5 - x0 by ring] at this
  rw [← this]
  push_cast
  rfl

/-- Reading back what was written, below `DBL_MIN`: for a subnormal double that is the
nearest one to a decimal of at most six digits, the six digits that `operator<<` writes are
at least as near to it as that decimal, and rounding to a multiple of `2^-1074` is symmetric,
so `strtod` returns the double again. -/
theorem strtod_ostreamDouble_subnormal (neg : Bool) (M s a b : Nat) (hM0 : 0 < M)
    (hM : M < 2 ^ 52) (hs : s < 10 ^ 6) (hp : 0 < s * 10 ^ a)
    (hd : (roundToDouble neg (s * 10 ^ a) (10 ^ b)).1 = .finite neg M (-1074)) :
    (strtod (ostreamDouble (.finite neg M (-1074)))).value = .finite neg M (-1074) := by
  have two : (0 : ℚ) < 2 := by norm_num
  have ten : (0 : ℚ) < 10 := by norm_num
  have hq : 0 < 10 ^ b := by positivity
  obtain ⟨_, _, _, _, hnear⟩ := roundToDouble_near neg hp hq hd
  -- the unit of the last place and the value
  have hU : (0 : ℚ) < 2 ^ (-1074 : Int) := zpow_pos two _
  have hMQ : (M : ℚ) + 1 ≤ 2 ^ (52 : Int) := by
    have : ((M + 1 : Nat) : ℚ) ≤ ((2 ^ 52 : Nat) : ℚ) := by exact_mod_cast hM
    push_cast at this
    rw [show (52 : Int) = ((52 : Nat) : Int) by rfl, zpow_natCast]
    exact this
  have e1022 : (2 : ℚ) ^ (-1022 : Int) = 2 ^ (52 : Int) * 2 ^ (-1074 : Int) := by
    rw [← zpow_add₀ two.ne']
    norm_num
  have eunit : (2 : ℚ) ^ (-1074 : Int) * 2 ^ (1074 : Int) = 1 := by
    rw [← zpow_add₀ two.ne']
    norm_num
  -- every quotient within half a unit of the value is below `DBL_MIN`
  have hbelow : ∀ y : ℚ, |y - (M : ℚ) * 2 ^ (-1074 : Int)| ≤ 2 ^ (-1074 : Int) / 2 →
      y < 2 ^ (-1022 : Int) := by
    intro y hy
    have h1 := (abs_le.1 hy).2
    rw [e1022]
    have : (M : ℚ) * 2 ^ (-1074 : Int) + 2 ^ (-1074 : Int) ≤
        2 ^ (52 : Int) * 2 ^ (-1074 : Int) := by
      have := mul_le_mul_of_nonneg_right hMQ (le_of_lt hU)
      linarith
    linarith
  rw [abs_sub_comm] at hnear
  have hwlt := hbelow _ hnear
  have hsub := roundToDouble_subnormal neg hp hq hwlt
  rw [hsub] at hd
  have hMeq : (roundHalfEven (s * 10 ^ a * 2 ^ 1074) (10 ^ b)).1 = M := by
    simp only [Dbl.finite.injEq] at hd
    exact hd.2.1
  -- the text
  have hnum : 0 < M * 2 ^ (-1074 : Int).toNat := Nat.mul_pos hM0 (by positivity)
  have hden : 0 < 2 ^ (-(-1074 : Int)).toNat := by positivity
  have hv : ((M * 2 ^ (-1074 : Int).toNat : Nat) : ℚ) / ((2 ^ (-(-1074 : Int)).toNat : Nat) : ℚ) =
      (M : ℚ) * 2 ^ (-1074 : Int) := cast_significand M (-1074)
  obtain ⟨x1, x2⟩ := decimalExponent_spec hnum hden
  obtain ⟨r1, r2⟩ := decimalExponent_range hM0 (lt_trans hM (by norm_num)) (le_refl _)
    (by norm_num : (-1074 : Int) ≤ 971)
  rw [hv] at x1 x2
  rw [ostreamDouble_finite neg M (-1074) hM0.ne']
  generalize decimalExponent (M * 2 ^ (-1074 : Int).toNat) (2 ^ (-(-1074 : Int)).toNat) = x0
    at x1 x2 r1 r2 ⊢
  have hd2 : 0 < 2 ^ (-(-1074 : Int)).toNat * 10 ^ (x0 - 5).toNat := Nat.mul_pos hden (by positivity)
  have hratio : ((M * 2 ^ (-1074 : Int).toNat * 10 ^ (5 - x0).toNat : Nat) : ℚ) /
      ((2 ^ (-(-1074 : Int)).toNat * 10 ^ (x0 - 5).toNat : Nat) : ℚ) =
      (M : ℚ) * 2 ^ (-1074 : Int) / 10 ^ (x0 - 5) := cast_scaled_significand M (-1074) x0
  have hnearR := roundHalfEven_near_rat (M * 2 ^ (-1074 : Int).toNat * 10 ^ (5 - x0).toNat)
    (2 ^ (-(-1074 : Int)).toNat * 10 ^ (x0 - 5).toNat) hd2
  have hnearest := fun n => roundHalfEven_nearest
    (M * 2 ^ (-1074 : Int).toNat * 10 ^ (5 - x0).toNat)
    (2 ^ (-(-1074 : Int)).toNat * 10 ^ (x0 - 5).toNat) n hd2
  rw [hratio] at hnearR
  simp only [hratio] at hnearest
  generalize (roundHalfEven (M * 2 ^ (-1074 : Int).toNat * 10 ^ (5 - x0).toNat)
    (2 ^ (-(-1074 : Int)).toNat * 10 ^ (x0 - 5).toNat)).1 = r at hnearR hnearest ⊢
  -- the decimal that was rounded
  have hw : ((s * 10 ^ a : Nat) : ℚ) / ((10 ^ b : Nat) : ℚ) = (s : ℚ) * 10 ^ ((a : Int) - b) := by
    push_cast
    rw [zpow_sub₀ ten.ne', zpow_natCast, zpow_natCast]
    ring
  have hG : (0 : ℚ) < 10 ^ (x0 - 5) := zpow_pos ten _
  have hcl := printed_closer (z := (a : Int) - b) hs rfl x1 hnearest
  rw [← hw] at hcl
  -- the six digits are between `10^5` and `10^6`
  have e5 : (10 : ℚ) ^ x0 = 100000 * 10 ^ (x0 - 5) := by
    rw [show x0 = (5 : Int) + (x0 - 5) by ring, zpow_add₀ ten.ne']
    norm_num
  have e6 : (10 : ℚ) ^ (x0 + 1) = 1000000 * 10 ^ (x0 - 5) := by
    rw [show x0 + 1 = (6 : Int) + (x0 - 5) by ring, zpow_add₀ ten.ne']
    norm_num
  have ht5 : (100000 : ℚ) ≤ (M : ℚ) * 2 ^ (-1074 : Int) / 10 ^ (x0 - 5) := by
    rw [le_div_iff₀ hG, ← e5]
    exact x1
  have ht6 : (M : ℚ) * 2 ^ (-1074 : Int) / 10 ^ (x0 - 5) < 1000000 := by
    rw [div_lt_iff₀ hG, ← e6]
    exact x2
  have hr5 : 10 ^ 5 ≤ r := by
    have h1 := (abs_le.1 hnearR).1
    have h2 : ((99999 : Nat) : ℚ) < r := by
      push_cast
      linarith
    have : 99999 < r := by exact_mod_cast h2
    omega
  have hr6 : r ≤ 10 ^ 6 := by
    have h1 := (abs_le.1 hnearR).2
    have h2 : (r : ℚ) < ((1000001 : Nat) : ℚ) := by
      push_cast
      linarith
    have : r < 1000001 := by exact_mod_cast h2
    omega
  -- the digits and the exponent that are laid out
  obtain ⟨digs, x, hpair, hdigs, hxr, hu⟩ : ∃ (digs : Nat) (x : Int),
      (if r = 10 ^ 6 then ((10 ^ 5, x0 + 1) : Nat × Int) else (r, x0)) = (digs, x) ∧
      digs < 10 ^ 6 ∧ x.natAbs < 10 ^ 5 ∧
      (digs : ℚ) * 10 ^ (x - 5) = (r : ℚ) * 10 ^ (x0 - 5) := by
    by_cases h6 : r = 10 ^ 6
    · refine ⟨10 ^ 5, x0 + 1, by rw [if_pos h6], by norm_num, by omega, ?_⟩
      rw [h6, show x0 + 1 - 5 = (1 : Int) + (x0 - 5) by ring, zpow_add₀ ten.ne']
      push_cast
      norm_num
      ring
    · exact ⟨r, x0, by rw [if_neg h6], by omega, by omega, rfl⟩
  rw [hpair]
  simp only []
  obtain ⟨D, up, down, nf, k, hval, hD, hx5⟩ := strtod_ostreamLayout neg digs x hdigs hxr
  have hr := layout_ratio hD hx5
  rw [hu] at hr
  rw [← hr] at hcl
  -- the quotient that is read is not zero and is below `DBL_MIN`
  have hq' : 0 < 10 ^ (down + nf) := by positivity
  have hp' : 0 < D * 10 ^ up := by
    rcases Nat.eq_zero_or_pos (D * 10 ^ up) with h0 | h0
    · exfalso
      rw [h0] at hr
      have hr5' : (0 : ℚ) < r := by exact_mod_cast (lt_of_lt_of_le (by norm_num) hr5)
      have := mul_pos hr5' hG
      rw [Nat.cast_zero, zero_div] at hr
      linarith
    · exact h0
  have hult := hbelow _ (le_trans hcl hnear)
  rw [hval, roundToDouble_subnormal neg hp' hq' hult]
  -- in units of `2^-1074` the quotient read is as near to `M` as the one that was rounded
  have hclose : (roundHalfEven (D * 10 ^ up * 2 ^ 1074) (10 ^ (down + nf))).1 =
      (roundHalfEven (s * 10 ^ a * 2 ^ 1074) (10 ^ b)).1 := by
    refine roundHalfEven_closer _ _ _ _ hq hq' ?_
    rw [hMeq, cast_units, cast_units]
    have hK : (0 : ℚ) < 2 ^ (1074 : Int) := zpow_pos two _
    have f1 : ∀ y : ℚ, y * 2 ^ (1074 : Int) - (M : ℚ) =
        (y - (M : ℚ) * 2 ^ (-1074 : Int)) * 2 ^ (1074 : Int) := by
      intro y
      rw [sub_mul, mul_assoc, eunit, mul_one]
    rw [f1, f1, abs_mul, abs_mul, abs_of_pos hK]
    exact mul_le_mul_of_nonneg_right hcl (le_of_lt hK)
  rw [hclose, hMeq]

/-- The text of a zero is read back as the zero of the same sign. -/
theorem strtod_ostreamDouble_zero (neg : Bool) :
    (strtod (ostreamDouble (.finite neg 0 (-1074)))).value = .finite neg 0 (-1074) := by
  have := (strtod_digits neg [48] (by simp) (by simp [isdigit])).1
  have e1 : ostreamDouble (.finite neg 0 (-1074)) = (if neg then [45] else []) ++ [48] := by
    unfold ostreamDouble
    simp
  rw [e1, this]
  rfl

/-- Reading back what was written: for a double that six significant digits determine,
`strtod` of the text of `out << d` is `d` again. -/
theorem strtod_ostreamDouble (d : Dbl) (h : SixDigits d) :
    (strtod (ostreamDouble d)).value = d := by
  obtain ⟨neg, s, a, b, hs, hd, hfin⟩ := h
  by_cases h0 : s = 0
  · subst h0
    have hz : d = .finite neg 0 (-1074) := by
      rw [hd]
      unfold roundToDouble
      rw [if_pos (by simp)]
    rw [hz]
    exact strtod_ostreamDouble_zero neg
  · have hs0 : 0 < s := Nat.pos_of_ne_zero h0
    cases d with
    | nan => cases hfin
    | inf n => cases hfin
    | finite n M E =>
      have hp : 0 < s * 10 ^ a := Nat.mul_pos hs0 (by positivity)
      have hq : 0 < 10 ^ b := by positivity
      obtain ⟨rfl, _, _, _, _⟩ := roundToDouble_near neg hp hq hd.symm
      by_cases hM : 2 ^ 52 ≤ M
      · exact strtod_ostreamDouble_normal n M E s a b hM hs0 hs hd.symm
      · have hE : E = -1074 := by
          rcases roundToDouble_canonical n hp hq hd.symm with h | h
          · exact absurd h hM
          · exact h
        subst hE
        by_cases hM0 : M = 0
        · subst hM0
          exact strtod_ostreamDouble_zero n
        · exact strtod_ostreamDouble_subnormal n M s a b (Nat.pos_of_ne_zero hM0) (by omega) hs
            hp hd.symm

/-- The text of a number that six digits determine is a document of that number. -/
theorem SixDigits.numberDoc {d : Dbl} (h : SixDigits d) :
    Doc (if d.isfinite then ostreamDouble d else lit "null") (.number d) := by
  have hfin : d.isfinite = true := by
    obtain ⟨_, _, _, _, _, _, hf⟩ := h
    exact hf
  rw [if_pos hfin]
  have hnum := ostreamDouble_numberAt d hfin [] rfl
  rw [strtod_ostreamDouble d h, List.append_nil] at hnum
  exact Doc.ofVal (Val.number hnum)

/-- C1, amended. Round trip: for every `JsonValue` `v` whose objects hold their keys in
ascending order, as every value built through the public constructors and subscript operators
does, and whose numbers are each finite and determined by six significant decimal digits, that
is the double nearest to a decimal of at most six significant digits (such as 0.5, -25,
3.14159, 1e-7, 123456000, 0 or the subnormal 1e-310), the compact serialization of `v` is
produced, and parsing it reports no error and returns `v` itself. -/
theorem round_trip (v : JsonValue) (e0 : ParseError) (hw : v.wellFormed = true)
    (hn : ∀ d ∈ v.numbers, SixDigits d) :
    ∃ t, serialize v = some t ∧ parse t e0 = some (v, {}) := by
  obtain ⟨t, h1, h2⟩ := serializeInternal_doc v 2 0 hw (fun d hd => (hn d hd).numberDoc)
  exact ⟨t, h1, (parse_eq_some_iff t e0 v).mpr h2⟩

set_option maxRecDepth 100000 in
set_option exponentiation.threshold 4000 in
/-- C1 applied to an object that holds the numbers 0.5, -25, 3.14159, 1e-7, 123456000, 0 and
the subnormal 1e-310, each given as the double nearest to the decimal. -/
theorem round_trip_witness :
    (JsonValue.object [(lit "a", .array [.number (roundToDouble false (5 * 10 ^ 0) (10 ^ 1)).1,
        .string (lit "x\n"), .null, .number (roundToDouble false (314159 * 10 ^ 0) (10 ^ 5)).1]),
      (lit "b", .number (roundToDouble true (25 * 10 ^ 0) (10 ^ 0)).1),
      (lit "c", .object [(lit "d", .number (roundToDouble false (1 * 10 ^ 0) (10 ^ 7)).1),
        (lit "e", .number (roundToDouble false (123456 * 10 ^ 3) (10 ^ 0)).1),
        (lit "f", .number (roundToDouble false (0 * 10 ^ 0) (10 ^ 0)).1),
        (lit "g", .number (roundToDouble false (1 * 10 ^ 0) (10 ^ 310)).1)])]).wellFormed =
      true ∧
    (∀ d ∈ (JsonValue.object [(lit "a", .array [
        .number (roundToDouble false (5 * 10 ^ 0) (10 ^ 1)).1,
        .string (lit "x\n"), .null, .number (roundToDouble false (314159 * 10 ^ 0) (10 ^ 5)).1]),
      (lit "b", .number (roundToDouble true (25 * 10 ^ 0) (10 ^ 0)).1),
      (lit "c", .object [(lit "d", .number (roundToDouble false (1 * 10 ^ 0) (10 ^ 7)).1),
        (lit "e", .number (roundToDouble false (123456 * 10 ^ 3) (10 ^ 0)).1),
        (lit "f", .number (roundToDouble false (0 * 10 ^ 0) (10 ^ 0)).1),
        (lit "g", .number (roundToDouble false (1 * 10 ^ 0) (10 ^ 310)).1)])]).numbers,
      SixDigits d) ∧
    ∃ t, serialize (.object [(lit "a", .array [
        .number (roundToDouble false (5 * 10 ^ 0) (10 ^ 1)).1,
        .string (lit "x\n"), .null, .number (roundToDouble false (314159 * 10 ^ 0) (10 ^ 5)).1]),
      (lit "b", .number (roundToDouble true (25 * 10 ^ 0) (10 ^ 0)).1),
      (lit "c", .object [(lit "d", .number (roundToDouble false (1 * 10 ^ 0) (10 ^ 7)).1),
        (lit "e", .number (roundToDouble false (123456 * 10 ^ 3) (10 ^ 0)).1),
        (lit "f", .number (roundToDouble false (0 * 10 ^ 0) (10 ^ 0)).1),
        (lit "g", .number (roundToDouble false (1 * 10 ^ 0) (10 ^ 310)).1)])]) = some t ∧
      parse t {} = some (.object [(lit "a", .array [
        .number (roundToDouble false (5 * 10 ^ 0) (10 ^ 1)).1,
        .string (lit "x\n"), .null, .number (roundToDouble false (314159 * 10 ^ 0) (10 ^ 5)).1]),
      (lit "b", .number (roundToDouble true (25 * 10 ^ 0) (10 ^ 0)).1),
      (lit "c", .object [(lit "d", .number (roundToDouble false (1 * 10 ^ 0) (10 ^ 7)).1),
        (lit "e", .number (roundToDouble false (123456 * 10 ^ 3) (10 ^ 0)).1),
        (lit "f", .number (roundToDouble false (0 * 10 ^ 0) (10 ^ 0)).1),
        (lit "g", .number (roundToDouble false (1 * 10 ^ 0) (10 ^ 310)).1)])], {}) :=
  have hn : ∀ d ∈ (JsonValue.object [(lit "a", .array [
        .number (roundToDouble false (5 * 10 ^ 0) (10 ^ 1)).1,
        .string (lit "x\n"), .null, .number (roundToDouble false (314159 * 10 ^ 0) (10 ^ 5)).1]),
      (lit "b", .number (roundToDouble true (25 * 10 ^ 0) (10 ^ 0)).1),
      (lit "c", .object [(lit "d", .number (roundToDouble false (1 * 10 ^ 0) (10 ^ 7)).1),
        (lit "e", .number (roundToDouble false (123456 * 10 ^ 3) (10 ^ 0)).1),
        (lit "f", .number (roundToDouble false (0 * 10 ^ 0) (10 ^ 0)).1),
        (lit "g", .number (roundToDouble false (1 * 10 ^ 0) (10 ^ 310)).1)])]).numbers,
      SixDigits d := by
    intro d hd
    have hd2 : d ∈ [(roundToDouble false (5 * 10 ^ 0) (10 ^ 1)).1,
        (roundToDouble false (314159 * 10 ^ 0) (10 ^ 5)).1,
        (roundToDouble true (25 * 10 ^ 0) (10 ^ 0)).1,
        (roundToDouble false (1 * 10 ^ 0) (10 ^ 7)).1,
        (roundToDouble false (123456 * 10 ^ 3) (10 ^ 0)).1,
        (roundToDouble false (0 * 10 ^ 0) (10 ^ 0)).1,
        (roundToDouble false (1 * 10 ^ 0) (10 ^ 310)).1] := hd
    simp only [List.mem_cons, List.mem_singleton, List.not_mem_nil, or_false] at hd2
    rcases hd2 with rfl | rfl | rfl | rfl | rfl | rfl | rfl
    · exact ⟨false, 5, 0, 1, by decide, rfl, rfl⟩
    · exact ⟨false, 314159, 0, 5, by decide, rfl, rfl⟩
    · exact ⟨true, 25, 0, 0, by decide, rfl, rfl⟩
    · exact ⟨false, 1, 0, 7, by decide, rfl, rfl⟩
    · exact ⟨false, 123456, 3, 0, by decide, rfl, rfl⟩
    · exact ⟨false, 0, 0, 0, by decide, rfl, rfl⟩
    · exact ⟨false, 1, 0, 310, by decide, rfl, rfl⟩
  ⟨rfl, hn, round_trip _ {} rfl hn⟩

end HMS
